import Mathlib

/-!
# ZipCodeTree (vg, `src/zip_code_tree.cpp`)

A shallow embedding of the zip code tree of vg: the flat store of typed items,
the one-pass constructor, the forward iterator and the distance-bounded
backward iterator, followed by theorems about them.

Conventions of the embedding.

* `size_t` is `Nat`; wrap-around arithmetic is explicit (`% 2 ^ 64`).
* A `std::vector` is a `List`; `push_back` appends at the end.
* A `std::stack` is a `List` whose head is the top of the stack.
* A thrown exception, a failed `crash_unless`, a failed `assert` and undefined
  behaviour (reading `top()` of an empty stack, indexing past the end of a
  vector, moving an iterator out of its range) are the four values of `Err`;
  every fallible operation returns `Except Err _`.
* A `std::reverse_iterator` is the index of its base iterator: it reads the item
  at index `it - 1`, `++` decrements the index, and `rend()` is index `0`.
-/

namespace ZipCodeTree

/-! ## Machine integers -/

/-- The value `std::numeric_limits<size_t>::max()`. -/
def SIZE_MAX : Nat := 2 ^ 64 - 1

/-- Addition of two `size_t` values (wraps). -/
def size_add (a b : Nat) : Nat := (a + b) % 2 ^ 64

/-- Subtraction of two `size_t` values (wraps). -/
def size_sub (a b : Nat) : Nat := (a % 2 ^ 64 + 2 ^ 64 - b % 2 ^ 64) % 2 ^ 64

/-- The ways a run of the code can fail. -/
inductive Err where
  | domain_error
  | crash
  | undefined_behaviour
  | assertion
deriving DecidableEq, Repr

deriving instance DecidableEq for Except

/-! ## The flat store -/

/-- The item kinds of the flat store (`tree_item_type_t`). -/
inductive tree_item_type_t where
  | SEED
  | SNARL_START
  | SNARL_END
  | CHAIN_START
  | CHAIN_END
  | EDGE
  | NODE_COUNT
deriving DecidableEq, Repr

/-- One item of the flat store (`tree_item_t`). -/
structure tree_item_t where
  type : tree_item_type_t
  value : Nat
deriving DecidableEq, Repr

open tree_item_type_t

/-! ## The hierarchical address oracle -/

/-- The kinds of a level of a hierarchical address (`code_type_t`). -/
inductive code_type_t where
  | NODE
  | CHAIN
  | REGULAR_SNARL
  | IRREGULAR_SNARL
  | ROOT_SNARL
  | ROOT_CHAIN
  | ROOT_NODE
deriving DecidableEq, Repr

open code_type_t

/-- A graph position (`pos_t`): node id, strand and offset. -/
structure pos_t where
  id : Nat
  is_rev : Bool
  offset : Nat
deriving DecidableEq, Repr

/-- The query surface of a decoded hierarchical address (`ZipCodeDecoder`), as
the constructor uses it. Every query but `max_depth` takes a depth. -/
structure ZipCodeDecoder where
  max_depth : Nat
  get_code_type : Nat → code_type_t
  get_is_reversed_in_parent : Nat → Bool
  get_length : Nat → Nat
  get_offset_in_chain : Nat → Nat
  get_distance_to_snarl_start : Nat → Nat
  get_distance_to_snarl_end : Nat → Nat
  get_rank_in_snarl : Nat → Nat
  get_distance_index_address : Nat → Nat
  get_net_handle : Nat → Nat

/-- A seed: a position and its decoded address. -/
structure Seed where
  pos : pos_t
  zipcode_decoder : ZipCodeDecoder

/-- The external functions the constructor calls: the static
`ZipCodeDecoder::is_equal`, and `distance_in_snarl`, `sum` and `minus` of the
distance index. -/
structure SnarlDistanceIndex where
  is_equal : ZipCodeDecoder → ZipCodeDecoder → Nat → Bool
  distance_in_snarl : Nat → Nat → Bool → Nat → Bool → Nat
  sum : Nat → Nat → Nat
  minus : Nat → Nat → Nat

/-! ## Positions (`src/position.cpp`) -/

namespace position

/-- The accessor `id(pos)` (lines 53-55). -/
def id (pos : pos_t) : Nat := pos.id

/-- The accessor `is_rev(pos)` (lines 57-59). -/
def is_rev (pos : pos_t) : Bool := pos.is_rev

/-- The accessor `offset(pos)` (lines 61-63). -/
def offset (pos : pos_t) : Nat := pos.offset

/-- The function `reverse(pos, node_length)` (lines 77-84): the offset is
replaced by `node_length - offset(pos)`, a `size_t` subtraction, and the strand
is inverted. -/
def reverse (pos : pos_t) (node_length : Nat) : pos_t :=
  ⟨pos.id, !pos.is_rev, size_sub node_length pos.offset⟩

end position

/-! ## Vectors -/

/-- The read `v[i]`; past the end it is undefined. -/
def vec_get {α : Type} (v : List α) (i : Nat) : Except Err α :=
  match v.get? i with
  | some x => .ok x
  | none => .error .undefined_behaviour

/-- The read `v.back()`; on an empty vector it is undefined. -/
def vec_back {α : Type} (v : List α) : Except Err α :=
  match v.getLast? with
  | some x => .ok x
  | none => .error .undefined_behaviour

/-- The call `v.pop_back()`; on an empty vector it is undefined. -/
def vec_pop_back {α : Type} (v : List α) : Except Err (List α) :=
  match v with
  | [] => .error .undefined_behaviour
  | _ :: _ => .ok v.dropLast

/-- The write `v[i] = f(v[i])`; past the end it is undefined. -/
def vec_modify {α : Type} (v : List α) (i : Nat) (f : α → Except Err α) :
    Except Err (List α) :=
  match v.get? i with
  | none => .error .undefined_behaviour
  | some x =>
    match f x with
    | .error e => .error e
    | .ok y => .ok (v.set i y)

/-- The value `d - 1` of a `size_t` depth `d`. -/
def size_pred (d : Nat) : Nat := if d = 0 then SIZE_MAX else d - 1

/-! ## Constructor -/

/-- An entry of the per-depth scratch lists (`child_info_t`). -/
structure child_info_t where
  type : tree_item_type_t
  value : Nat
deriving DecidableEq, Repr

/-- The mutable state of the constructor: the flat store under construction
and `sibling_indices_at_depth`. -/
structure build_state where
  zip_code_tree : List tree_item_t
  sibling_indices_at_depth : List (List child_info_t)
deriving DecidableEq, Repr

/-- The flip `flag = cond ? !flag : flag`. -/
def flip_if (cond flag : Bool) : Bool := if cond then !flag else flag

/-- The outcome of the search for the first differing ancestor (lines 210-245). -/
structure ancestor_info where
  first_different_ancestor_depth : Nat
  same_node : Bool
  current_is_reversed : Bool
  previous_is_reversed : Bool
deriving DecidableEq, Repr

/-- The loop `for (depth = 0; depth <= max_depth; depth++)` of lines 220-235,
entered at `depth` with `k = max_depth - depth` further iterations to go.
`first` says that there is no previous seed (`i == 0`). -/
def find_first_different (D : SnarlDistanceIndex) (first : Bool)
    (current previous : ZipCodeDecoder) : Nat → Nat → Bool → Bool → ancestor_info
  | k, depth, current_is_reversed, previous_is_reversed =>
    let c := flip_if (current.get_is_reversed_in_parent depth) current_is_reversed
    let p := if first then previous_is_reversed
      else flip_if (previous.get_is_reversed_in_parent depth) previous_is_reversed
    if D.is_equal current previous depth = false then ⟨depth, false, c, p⟩
    else match k with
      | 0 => ⟨depth, true, c, p⟩
      | k + 1 => find_first_different D first current previous k (depth + 1) c p

/-- Lines 204-245: the first differing ancestor depth of the current and the
previous seed, the same-node flag and the two orientation flags. -/
def first_different_ancestor (D : SnarlDistanceIndex) (first : Bool)
    (current previous : ZipCodeDecoder) : ancestor_info :=
  let current_max_depth := current.max_depth
  let previous_max_depth := if first then 0 else previous.max_depth
  let max_depth := min current_max_depth previous_max_depth
  let a := find_first_different D first current previous max_depth 0 false false
  let p := if previous_max_depth > current_max_depth then
      (List.range' max_depth (previous_max_depth + 1 - max_depth)).foldl
        (fun flag depth => flip_if (previous.get_is_reversed_in_parent depth) flag)
        a.previous_is_reversed
    else a.previous_is_reversed
  ⟨a.first_different_ancestor_depth, if first then false else a.same_node,
    a.current_is_reversed, p⟩

/-- The distance items written when a snarl is closed, one per recorded
sibling, in the order of the scratch list (lines 287-305 and 561-578). -/
def close_snarl_edges (seeds : List Seed) (dec : ZipCodeDecoder) (is_reversed : Bool)
    (depth : Nat) : List child_info_t → Except Err (List tree_item_t)
  | [] => .ok []
  | sibling :: rest => do
    let e ← if sibling.type = SNARL_START then
        pure (⟨EDGE, dec.get_length depth⟩ : tree_item_t)
      else do
        let s ← vec_get seeds sibling.value
        pure (⟨EDGE, if is_reversed
          then s.zipcode_decoder.get_distance_to_snarl_start depth
          else s.zipcode_decoder.get_distance_to_snarl_end depth⟩ : tree_item_t)
    let es ← close_snarl_edges seeds dec is_reversed depth rest
    pure (e :: es)

/-- The items appended when the scope at `depth` of the address `dec` is closed
(lines 254-309 and 531-582). The vector is grown by one slot per sibling and
slot `size - 1 - sibling_i` receives the entry of sibling `sibling_i`: the
entries are appended in reverse order of the scratch list. -/
def close_scope (D : SnarlDistanceIndex) (seeds : List Seed) (dec : ZipCodeDecoder)
    (is_reversed : Bool) (depth : Nat) (st : build_state) : Except Err (List tree_item_t) :=
  let type := dec.get_code_type depth
  if type = CHAIN ∨ type = ROOT_CHAIN ∨ type = ROOT_NODE then
    if type = CHAIN then do
      let siblings ← vec_get st.sibling_indices_at_depth depth
      let last ← vec_back siblings
      pure (st.zip_code_tree ++ [⟨EDGE, D.minus (dec.get_length depth) last.value⟩,
        ⟨CHAIN_END, SIZE_MAX⟩])
    else pure (st.zip_code_tree ++ [⟨CHAIN_END, SIZE_MAX⟩])
  else if type = REGULAR_SNARL ∨ type = IRREGULAR_SNARL then do
    let siblings ← vec_get st.sibling_indices_at_depth depth
    let edges ← close_snarl_edges seeds dec is_reversed depth siblings
    pure (st.zip_code_tree ++ edges.reverse ++
      [⟨NODE_COUNT, size_sub siblings.length 1⟩, ⟨SNARL_END, SIZE_MAX⟩])
  else pure st.zip_code_tree

/-- One iteration of the close loop (lines 253-316) at `depth`. -/
def close_depth (D : SnarlDistanceIndex) (seeds : List Seed) (previous : ZipCodeDecoder)
    (depth : Nat) (s : build_state × Bool) : Except Err (build_state × Bool) := do
  let tree ← close_scope D seeds previous s.2 depth s.1
  let previous_is_reversed :=
    flip_if (decide (depth > 0) && previous.get_is_reversed_in_parent (depth - 1)) s.2
  let sib ← vec_modify s.1.sibling_indices_at_depth depth (fun _ => .ok [])
  pure (⟨tree, sib⟩, previous_is_reversed)

/-- The close loop (lines 253-316): `k` iterations, at depths
`low + k - 1` down to `low`. -/
def close_loop (D : SnarlDistanceIndex) (seeds : List Seed) (previous : ZipCodeDecoder)
    (low : Nat) : Nat → build_state × Bool → Except Err (build_state × Bool)
  | 0, s => .ok s
  | k + 1, s => do
    let s1 ← close_depth D seeds previous (low + k) s
    close_loop D seeds previous low k s1

/-- The distance items written before the `CHAIN_START` of a new child chain
of a snarl, one per sibling recorded so far, in the order of the scratch list
(lines 442-471). -/
def open_chain_edges (D : SnarlDistanceIndex) (seeds : List Seed) (dec : ZipCodeDecoder)
    (current_is_reversed : Bool) (depth : Nat) :
    List child_info_t → Except Err (List tree_item_t)
  | [] => .ok []
  | sibling :: rest => do
    let e ← if sibling.type = SNARL_START then
        pure (⟨EDGE, if current_is_reversed
          then dec.get_distance_to_snarl_end depth
          else dec.get_distance_to_snarl_start depth⟩ : tree_item_t)
      else if dec.get_code_type (size_pred depth) = REGULAR_SNARL then
        pure (⟨EDGE, SIZE_MAX⟩ : tree_item_t)
      else do
        let s ← vec_get seeds sibling.value
        pure (⟨EDGE, D.distance_in_snarl (dec.get_net_handle (size_pred depth))
          (s.zipcode_decoder.get_rank_in_snarl depth) false
          (dec.get_rank_in_snarl depth) false⟩ : tree_item_t)
    let es ← open_chain_edges D seeds dec current_is_reversed depth rest
    pure (e :: es)

/-- The check `assert(cond)`, compiled in when `asserts` holds. -/
def check_assert (asserts cond : Bool) : Except Err Unit :=
  if asserts && !cond then .error .assertion else .ok ()

/-- Lines 341-368: the offset of the child at `depth` in its parent chain (0 on
a root node), to which the offset of the position in its node is added at the
last level. -/
def child_offset (D : SnarlDistanceIndex) (current_seed : Seed) (depth : Nat)
    (current_is_reversed : Bool) : Nat :=
  let dec := current_seed.zipcode_decoder
  let current_type := dec.get_code_type depth
  let current_parent_is_reversed :=
    flip_if (dec.get_is_reversed_in_parent depth) current_is_reversed
  let offset_in_parent :=
    if current_type = ROOT_NODE then 0
    else if current_parent_is_reversed then
      D.minus (dec.get_length (size_pred depth))
        (D.sum (dec.get_offset_in_chain depth) (dec.get_length depth))
    else dec.get_offset_in_chain depth
  if depth = dec.max_depth then
    D.sum offset_in_parent
      (if current_is_reversed != current_seed.pos.is_rev
        then size_sub (dec.get_length depth) current_seed.pos.offset
        else size_add current_seed.pos.offset 1)
  else offset_in_parent

/-- The branch of the open loop for a node, a snarl or a root node
(lines 330-423). -/
def open_node_or_snarl (D : SnarlDistanceIndex) (asserts : Bool) (current_seed : Seed)
    (seed_index depth : Nat) (current_is_reversed : Bool) (st : build_state) :
    Except Err build_state := do
  let dec := current_seed.zipcode_decoder
  let current_type := dec.get_code_type depth
  let st1 ← if current_type = ROOT_NODE then do
      let siblings ← vec_get st.sibling_indices_at_depth depth
      if siblings.isEmpty then do
        let sib ← vec_modify st.sibling_indices_at_depth depth
          (fun l => .ok (l ++ [⟨CHAIN_START, 0⟩]))
        pure (⟨st.zip_code_tree ++ [⟨CHAIN_START, SIZE_MAX⟩], sib⟩ : build_state)
      else pure st
    else pure st
  let current_offset := child_offset D current_seed depth current_is_reversed
  let parent_depth := if depth = 0 then depth else depth - 1
  let parent_siblings ← vec_get st1.sibling_indices_at_depth parent_depth
  let front ← vec_get parent_siblings 0
  let previous_offset := front.value
  check_assert asserts (decide (depth > 0 → parent_siblings.length = 1))
  check_assert asserts (decide (current_offset ≥ previous_offset))
  let tree2 :=
    if ¬ (depth = 0 ∧ front.type = CHAIN_START) ∧
       ¬ (depth = 1 ∧ dec.get_code_type (depth - 1) = ROOT_CHAIN ∧ front.type = CHAIN_START)
    then st1.zip_code_tree ++ [⟨EDGE, size_sub current_offset previous_offset⟩]
    else st1.zip_code_tree
  let (tree3, sib3, recorded_offset) ←
    if current_type = NODE ∨ current_type = ROOT_NODE then
      pure (tree2 ++ [(⟨SEED, seed_index⟩ : tree_item_t)], st1.sibling_indices_at_depth,
        current_offset)
    else do
      let sib ← vec_modify st1.sibling_indices_at_depth depth
        (fun l => .ok (l ++ [⟨SNARL_START, SIZE_MAX⟩]))
      pure (tree2 ++ [(⟨SNARL_START, SIZE_MAX⟩ : tree_item_t)], sib,
        D.sum current_offset (dec.get_length depth))
  let sib4 ← vec_modify sib3 parent_depth (fun l => do
    let l1 ← vec_pop_back l
    pure (l1 ++ [⟨SEED, recorded_offset⟩]))
  pure ⟨tree3, sib4⟩

/-- Lines 490-492: the offset of a seed on a node that is a trivial chain. -/
def trivial_chain_offset (current_seed : Seed) (depth : Nat) (current_is_reversed : Bool) :
    Nat :=
  if current_is_reversed
  then size_sub (current_seed.zipcode_decoder.get_length depth) current_seed.pos.offset
  else size_add current_seed.pos.offset 1

/-- The branch of the open loop for a chain or a root chain (lines 424-502). -/
def open_chain (D : SnarlDistanceIndex) (asserts : Bool) (seeds : List Seed)
    (current_seed : Seed) (seed_index depth : Nat) (current_is_reversed : Bool)
    (st : build_state) : Except Err build_state := do
  let dec := current_seed.zipcode_decoder
  let current_type := dec.get_code_type depth
  check_assert asserts (decide (current_type = CHAIN ∨ current_type = ROOT_CHAIN))
  let siblings ← vec_get st.sibling_indices_at_depth depth
  let st1 ← if siblings.length = 0 then do
      let tree1 ← if current_type = CHAIN then do
          let parent_siblings ← vec_get st.sibling_indices_at_depth (size_pred depth)
          let edges ← open_chain_edges D seeds dec current_is_reversed depth parent_siblings
          pure (st.zip_code_tree ++ edges.reverse)
        else pure st.zip_code_tree
      let sib1 ← vec_modify st.sibling_indices_at_depth depth
        (fun l => .ok (l ++ [⟨CHAIN_START, 0⟩]))
      let sib2 ← if depth ≠ 0 then
          vec_modify sib1 (depth - 1) (fun l => .ok (l ++ [⟨CHAIN_START, seed_index⟩]))
        else pure sib1
      pure (⟨tree1 ++ [⟨CHAIN_START, SIZE_MAX⟩], sib2⟩ : build_state)
    else pure st
  if current_type = CHAIN ∧ depth = dec.max_depth then do
    let current_offset := trivial_chain_offset current_seed depth current_is_reversed
    let own ← vec_get st1.sibling_indices_at_depth depth
    let last ← vec_back own
    let sib ← vec_modify st1.sibling_indices_at_depth depth (fun l => do
      let l1 ← vec_pop_back l
      pure (l1 ++ [⟨SEED, current_offset⟩]))
    pure ⟨st1.zip_code_tree ++
      [⟨EDGE, size_sub current_offset last.value⟩, ⟨SEED, seed_index⟩], sib⟩
  else pure st1

/-- One iteration of the open loop (lines 326-507) at `depth`. -/
def open_depth (D : SnarlDistanceIndex) (asserts : Bool) (seeds : List Seed)
    (current_seed : Seed) (seed_index depth : Nat) (s : build_state × Bool) :
    Except Err (build_state × Bool) := do
  let dec := current_seed.zipcode_decoder
  let current_type := dec.get_code_type depth
  let st1 ← if current_type = NODE ∨ current_type = REGULAR_SNARL ∨
      current_type = IRREGULAR_SNARL ∨ current_type = ROOT_NODE then
      open_node_or_snarl D asserts current_seed seed_index depth s.2 s.1
    else open_chain D asserts seeds current_seed seed_index depth s.2 s.1
  let current_is_reversed :=
    flip_if (decide (depth < dec.max_depth) && dec.get_is_reversed_in_parent (depth + 1)) s.2
  pure (st1, current_is_reversed)

/-- The open loop (lines 326-507): `k` iterations, at depths `depth`,
`depth + 1`, ... -/
def open_loop (D : SnarlDistanceIndex) (asserts : Bool) (seeds : List Seed)
    (current_seed : Seed) (seed_index : Nat) :
    Nat → Nat → build_state × Bool → Except Err (build_state × Bool)
  | 0, _, s => .ok s
  | k + 1, depth, s => do
    let s1 ← open_depth D asserts seeds current_seed seed_index depth s
    open_loop D asserts seeds current_seed seed_index k (depth + 1) s1

/-- The body of the main loop (lines 181-510) for the seed with index
`seed_index`, the seed before it in sorted order being `previous_index`
(`none` for the first seed, `i == 0`). -/
def add_seed (D : SnarlDistanceIndex) (asserts : Bool) (seeds : List Seed)
    (previous_index : Option Nat) (seed_index : Nat) (st : build_state) :
    Except Err build_state := do
  let current_seed ← vec_get seeds seed_index
  let current_max_depth := current_seed.zipcode_decoder.max_depth
  let sib := st.sibling_indices_at_depth ++
    List.replicate (current_max_depth + 1 - st.sibling_indices_at_depth.length) []
  let previous_seed ← match previous_index with
    | none => pure current_seed
    | some j => vec_get seeds j
  let first := previous_index.isNone
  let previous_max_depth := if first then 0 else previous_seed.zipcode_decoder.max_depth
  let a := first_different_ancestor D first current_seed.zipcode_decoder
    previous_seed.zipcode_decoder
  let low := a.first_different_ancestor_depth
  let s1 ← if !a.same_node && !first then
      close_loop D seeds previous_seed.zipcode_decoder low (previous_max_depth + 1 - low)
        (⟨st.zip_code_tree, sib⟩, a.previous_is_reversed)
    else pure (⟨st.zip_code_tree, sib⟩, a.previous_is_reversed)
  let s2 ← open_loop D asserts seeds current_seed seed_index (current_max_depth + 1 - low) low
    (s1.1, a.current_is_reversed)
  pure s2.1

/-- The main loop (lines 181-510) over the sorted seed indices. -/
def add_seeds (D : SnarlDistanceIndex) (asserts : Bool) (seeds : List Seed) :
    Option Nat → List Nat → build_state → Except Err build_state
  | _, [], st => .ok st
  | previous_index, seed_index :: rest, st => do
    let st1 ← add_seed D asserts seeds previous_index seed_index st
    add_seeds D asserts seeds (some seed_index) rest st1

/-- One iteration of the final loop (lines 527-587) at `depth`. -/
def flush_depth (D : SnarlDistanceIndex) (seeds : List Seed) (last : ZipCodeDecoder)
    (depth : Nat) (s : build_state × Bool) : Except Err (build_state × Bool) := do
  let siblings ← vec_get s.1.sibling_indices_at_depth depth
  let tree ← if siblings.length > 0 then close_scope D seeds last s.2 depth s.1
    else pure s.1.zip_code_tree
  let last_is_reversed :=
    flip_if (decide (depth > 0) && last.get_is_reversed_in_parent (depth - 1)) s.2
  pure (⟨tree, s.1.sibling_indices_at_depth⟩, last_is_reversed)

/-- The final loop (lines 527-587): `k` iterations, at depths `k - 1` down
to `0`. -/
def flush_loop (D : SnarlDistanceIndex) (seeds : List Seed) (last : ZipCodeDecoder) :
    Nat → build_state × Bool → Except Err (build_state × Bool)
  | 0, s => .ok s
  | k + 1, s => do
    let s1 ← flush_depth D seeds last k s
    flush_loop D seeds last k s1

/-- Lines 515-587: close whatever the last seed left open. -/
def final_flush (D : SnarlDistanceIndex) (seeds : List Seed) (seed_indices : List Nat)
    (st : build_state) : Except Err build_state := do
  let last_index ← vec_back seed_indices
  let last_seed ← vec_get seeds last_index
  let last := last_seed.zipcode_decoder
  let last_is_reversed := (List.range (last.max_depth + 1)).foldl
    (fun flag depth => flip_if (last.get_is_reversed_in_parent depth) flag) false
  let s ← flush_loop D seeds last (last.max_depth + 1) (st, last_is_reversed)
  pure s.1

/-- The tree-building part of the constructor `ZipCodeTree::ZipCodeTree`
(lines 156-588), run on the seeds and the sorted index vector `seed_indices`
that `std::sort` has left; the result is the flat store `zip_code_tree`. -/
def build (D : SnarlDistanceIndex) (asserts : Bool) (seeds : List Seed)
    (seed_indices : List Nat) : Except Err (List tree_item_t) := do
  let st ← add_seeds D asserts seeds none seed_indices ⟨[], []⟩
  let st1 ← final_flush D seeds seed_indices st
  pure st1.zip_code_tree

/-! ### Sorting the seeds (lines 22-144) -/

/-- The loop `while (depth < max_depth(a) && depth < max_depth(b) && is_equal)`
of the comparator (lines 44-54), entered at `depth` with the two orientation
flags and at most `k` iterations to go: the depth it stops at and the flags. -/
def comparator_depth (D : SnarlDistanceIndex) (a b : ZipCodeDecoder) :
    Nat → Nat → Bool → Bool → Nat × Bool × Bool
  | 0, depth, a_is_reversed, b_is_reversed => (depth, a_is_reversed, b_is_reversed)
  | k + 1, depth, a_is_reversed, b_is_reversed =>
    if depth < a.max_depth ∧ depth < b.max_depth ∧ D.is_equal a b depth = true then
      comparator_depth D a b k (depth + 1)
        (flip_if (a.get_is_reversed_in_parent depth) a_is_reversed)
        (flip_if (b.get_is_reversed_in_parent depth) b_is_reversed)
    else (depth, a_is_reversed, b_is_reversed)

/-- The offset of a position read on the forward strand of its node
(`is_rev(pos) ? get_length(depth) - offset(pos) - 1 : offset(pos)`). -/
def forward_offset (s : Seed) (depth : Nat) : Nat :=
  if s.pos.is_rev
  then size_sub (size_sub (s.zipcode_decoder.get_length depth) s.pos.offset) 1
  else s.pos.offset

/-- The comparator of the sort (lines 32-144): whether the seed `A` goes before
the seed `B`. -/
def comparator (D : SnarlDistanceIndex) (A B : Seed) : Bool :=
  let a := A.zipcode_decoder
  let b := B.zipcode_decoder
  let r := comparator_depth D a b (min a.max_depth b.max_depth) 0 false false
  let depth := r.1
  let a_is_reversed := flip_if (a.get_is_reversed_in_parent depth) r.2.1
  if D.is_equal a b depth = true then
    if !a_is_reversed then decide (forward_offset A depth < forward_offset B depth)
    else decide (forward_offset B depth < forward_offset A depth)
  else if depth = 0 then
    decide (a.get_distance_index_address 0 < b.get_distance_index_address 0)
  else if a.get_code_type (depth - 1) = CHAIN ∨ a.get_code_type (depth - 1) = ROOT_CHAIN then
    if a.get_offset_in_chain depth = b.get_offset_in_chain depth then
      decide (a.get_code_type depth ≠ NODE) && decide (b.get_code_type depth = NODE)
    else decide (a.get_offset_in_chain depth < b.get_offset_in_chain depth)
  else if a.get_code_type (depth - 1) = REGULAR_SNARL then
    if a_is_reversed then decide (forward_offset A depth < forward_offset B depth)
    else decide (forward_offset B depth < forward_offset A depth)
  else
    if a.get_distance_to_snarl_start depth = b.get_distance_to_snarl_start depth then
      decide (a.get_distance_to_snarl_end depth > b.get_distance_to_snarl_end depth)
    else decide (a.get_distance_to_snarl_start depth < b.get_distance_to_snarl_start depth)

/-- The comparator on seed indices, as `std::sort` calls it; the sort only
passes indices of seeds. -/
def comp (D : SnarlDistanceIndex) (seeds : List Seed) (a b : Nat) : Bool :=
  match seeds.get? a, seeds.get? b with
  | some A, some B => comparator D A B
  | _, _ => false

/-- Insertion of `a` into a sorted list: after the elements that go before it. -/
def ordered_insert {α : Type} (lt : α → α → Bool) (a : α) : List α → List α
  | [] => [a]
  | b :: l => if lt b a then b :: ordered_insert lt a l else a :: b :: l

/-- A stand-in for `std::sort`, whose algorithm the standard library leaves
open: insertion sort, which returns a permutation of its input, sorted whenever
the comparator is a strict weak order. -/
def std_sort {α : Type} (lt : α → α → Bool) : List α → List α
  | [] => []
  | a :: l => ordered_insert lt a (std_sort lt l)

/-- Lines 24-144: the vector `seed_indices`, the indices `0 .. size - 1` sorted
with the comparator. -/
def sorted_seed_indices (D : SnarlDistanceIndex) (seeds : List Seed) : List Nat :=
  std_sort (comp D seeds) (List.range seeds.length)

/-- The constructor `ZipCodeTree::ZipCodeTree`: sort the seed indices, then
build the flat store. -/
def construct (D : SnarlDistanceIndex) (asserts : Bool) (seeds : List Seed) :
    Except Err (List tree_item_t) :=
  build D asserts seeds (sorted_seed_indices D seeds)

/-! ## Forward iterator -/

/-- The forward iterator: the index `it` into the flat store and the index
`end_` of its end. -/
structure iterator where
  it : Nat
  end_ : Nat
deriving DecidableEq, Repr

namespace iterator

/-- The loop `while (it != end && it->type != SEED) ++it` of `operator++`. -/
def skip_to_seed (zip_code_tree : List tree_item_t) : Nat → iterator → Except Err iterator
  | 0, i => .ok i
  | fuel + 1, i =>
    if i.it = i.end_ then .ok i
    else match zip_code_tree.get? i.it with
      | none => .error .undefined_behaviour
      | some item =>
        if item.type = SEED then .ok i
        else skip_to_seed zip_code_tree fuel ⟨i.it + 1, i.end_⟩

/-- The prefix increment `iterator::operator++`: one step, then on to the next
seed or to the end. Stepping an iterator that is already at its end is
undefined. -/
def operator_inc (zip_code_tree : List tree_item_t) (i : iterator) : Except Err iterator :=
  if i.end_ ≤ i.it then .error .undefined_behaviour
  else skip_to_seed zip_code_tree (i.end_ - (i.it + 1)) ⟨i.it + 1, i.end_⟩

/-- The comparison `iterator::operator==`: the ends do not matter. -/
def operator_eq (i j : iterator) : Bool := i.it == j.it

/-- The dereference `iterator::operator*`: the value of the item pointed at. -/
def operator_deref (zip_code_tree : List tree_item_t) (i : iterator) : Except Err Nat :=
  match zip_code_tree.get? i.it with
  | none => .error .undefined_behaviour
  | some item => .ok item.value

/-- The count `iterator::remaining_tree`: `end - it`. -/
def remaining_tree (i : iterator) : Nat := i.end_ - i.it

end iterator

/-- The start `ZipCodeTree::begin`. -/
def begin_ (zip_code_tree : List tree_item_t) : iterator := ⟨0, zip_code_tree.length⟩

/-- The end `ZipCodeTree::end`. -/
def end_ (zip_code_tree : List tree_item_t) : iterator :=
  ⟨zip_code_tree.length, zip_code_tree.length⟩

/-- The loop `for (it = from; it != end(); ++it) out.push_back(*it)` of a
consumer of the forward iterator: the values produced, and the error that
stopped the loop if one did. -/
def forward_from (zip_code_tree : List tree_item_t) :
    Nat → iterator → List Nat × Option Err
  | 0, _ => ([], none)
  | fuel + 1, i =>
    if iterator.operator_eq i (end_ zip_code_tree) then ([], none)
    else match iterator.operator_deref zip_code_tree i with
      | .error e => ([], some e)
      | .ok v =>
        match iterator.operator_inc zip_code_tree i with
        | .error e => ([v], some e)
        | .ok j =>
          let r := forward_from zip_code_tree fuel j
          (v :: r.1, r.2)

/-- The whole forward traversal, from `begin()` to `end()`. -/
def forward_traversal (zip_code_tree : List tree_item_t) : List Nat × Option Err :=
  forward_from zip_code_tree (zip_code_tree.length + 1) (begin_ zip_code_tree)

/-! ## Backward, distance-bounded iterator -/

/-- The states of the backward automaton (`reverse_iterator::State`). -/
inductive State where
  | S_START
  | S_SCAN_CHAIN
  | S_STACK_SNARL
  | S_SCAN_SNARL
  | S_SKIP_CHAIN
deriving DecidableEq, Repr

open State

/-- The backward iterator. `it` is the base index of the underlying
`std::reverse_iterator`: the item read is the one at index `it - 1` and
`rend` is `0`. The head of `stack` is the top of the stack. -/
structure reverse_iterator where
  it : Nat
  distance_limit : Nat
  stack : List Nat
  current_state : State
deriving DecidableEq, Repr

namespace reverse_iterator

/-- The operation `push`. -/
def push (value : Nat) (r : reverse_iterator) : reverse_iterator :=
  ⟨r.it, r.distance_limit, value :: r.stack, r.current_state⟩

/-- The operation `pop`: the old top and the iterator without it. -/
def pop (r : reverse_iterator) : Except Err (Nat × reverse_iterator) :=
  match r.stack with
  | [] => .error .undefined_behaviour
  | v :: rest => .ok (v, ⟨r.it, r.distance_limit, rest, r.current_state⟩)

/-- The operation `top`, read. -/
def top (r : reverse_iterator) : Except Err Nat :=
  match r.stack with
  | [] => .error .undefined_behaviour
  | v :: _ => .ok v

/-- The operation `top`, written through the reference it returns. -/
def set_top (f : Nat → Nat) (r : reverse_iterator) : Except Err reverse_iterator :=
  match r.stack with
  | [] => .error .undefined_behaviour
  | v :: rest => .ok ⟨r.it, r.distance_limit, f v :: rest, r.current_state⟩

/-- The operation `dup`. -/
def dup (r : reverse_iterator) : Except Err reverse_iterator :=
  match r.stack with
  | [] => .error .undefined_behaviour
  | v :: rest => .ok ⟨r.it, r.distance_limit, v :: v :: rest, r.current_state⟩

/-- The operation `depth`. -/
def depth (r : reverse_iterator) : Nat := r.stack.length

/-- The operation `reverse(depth)`: the top `depth` entries are moved to a
queue and pushed back, which reverses their order. -/
def reverse (depth : Nat) (r : reverse_iterator) : Except Err reverse_iterator :=
  if depth ≤ r.stack.length then
    .ok ⟨r.it, r.distance_limit, (r.stack.take depth).reverse ++ r.stack.drop depth,
      r.current_state⟩
  else .error .undefined_behaviour

/-- The operation `state(new_state)`. -/
def state (new_state : State) (r : reverse_iterator) : reverse_iterator :=
  ⟨r.it, r.distance_limit, r.stack, new_state⟩

/-- The operation `halt`: `it = rend`. -/
def halt (r : reverse_iterator) : reverse_iterator :=
  ⟨0, r.distance_limit, r.stack, r.current_state⟩

/-- The push-or-scan decision taken on a `CHAIN_END` once the running distance
into the chain is on top of the stack. -/
def enter_chain (r : reverse_iterator) : Except Err reverse_iterator := do
  let t ← top r
  if t > r.distance_limit then
    return state S_SKIP_CHAIN (push 0 r)
  else
    return state S_SCAN_CHAIN r

/-- One step `reverse_iterator::tick` of the automaton on the item at `it`:
whether a seed is to be yielded, and the iterator after the step. -/
def tick (zip_code_tree : List tree_item_t) (r : reverse_iterator) :
    Except Err (Bool × reverse_iterator) :=
  if r.it = 0 then .error .undefined_behaviour
  else match zip_code_tree.get? (r.it - 1) with
  | none => .error .undefined_behaviour
  | some item =>
    match r.current_state with
    | S_START =>
      match item.type with
      | SEED => .ok (false, state S_SCAN_CHAIN (push 0 r))
      | _ => .error .domain_error
    | S_SCAN_CHAIN =>
      match item.type with
      | SEED => .ok (true, r)
      | SNARL_END => .ok (false, state S_STACK_SNARL (push 0 r))
      | CHAIN_START =>
        if depth r = 1 then .ok (false, state S_STACK_SNARL (push 0 r))
        else do
          let (_, r1) ← pop r
          return (false, state S_SCAN_SNARL r1)
      | EDGE => do
        let r1 ← set_top (fun t => size_add t item.value) r
        let t ← top r1
        if t > r1.distance_limit then
          if depth r1 = 1 then return (false, halt r1)
          else return (false, state S_SKIP_CHAIN (push 0 r1))
        else return (false, r1)
      | _ => .error .domain_error
    | S_STACK_SNARL =>
      match item.type with
      | EDGE => do
        let r1 ← reverse 2 r
        let r2 ← dup r1
        let r3 ← set_top (fun t => size_add t item.value) r2
        let r4 ← reverse 3 r3
        let r5 ← set_top (fun t => size_add t 1) r4
        return (false, r5)
      | CHAIN_END => do
        let r1 ← reverse 2 r
        let (_, r2) ← pop r1
        let (n, r3) ← pop r2
        let r4 ← reverse n r3
        let r5 ← enter_chain r4
        return (false, r5)
      | _ => .error .domain_error
    | S_SCAN_SNARL =>
      match item.type with
      | SNARL_START => .ok (false, state S_SCAN_CHAIN r)
      | CHAIN_END => do
        let r1 ← enter_chain r
        return (false, r1)
      | EDGE => .ok (false, r)
      | _ => .error .domain_error
    | S_SKIP_CHAIN =>
      match item.type with
      | SEED => .ok (false, r)
      | SNARL_START => do
        let r1 ← set_top (fun t => size_sub t 1) r
        return (false, r1)
      | SNARL_END => do
        let r1 ← set_top (fun t => size_add t 1) r
        return (false, r1)
      | CHAIN_START => do
        let t ← top r
        if t = 0 then
          let (_, r1) ← pop r
          if depth r1 > 1 then
            let (_, r2) ← pop r1
            return (false, state S_SCAN_SNARL r2)
          else .error .crash
        else return (false, r)
      | CHAIN_END => .ok (false, r)
      | EDGE => .ok (false, r)
      | _ => .error .domain_error

/-- The loop `while (it != rend && !tick()) ++it` shared by the constructor and
`operator++`. Moving the iterator on when a tick has left it at `rend` (after
`halt`) steps outside the store and is undefined. -/
def scan (zip_code_tree : List tree_item_t) : Nat → reverse_iterator → Except Err reverse_iterator
  | 0, r => .ok r
  | fuel + 1, r =>
    if r.it = 0 then .ok r
    else match tick zip_code_tree r with
      | .error e => .error e
      | .ok (true, r1) => .ok r1
      | .ok (false, r1) =>
        if r1.it = 0 then .error .undefined_behaviour
        else scan zip_code_tree fuel ⟨r1.it - 1, r1.distance_limit, r1.stack, r1.current_state⟩

/-- The constructor `reverse_iterator::reverse_iterator(it, rend, distance_limit)`. -/
def mk_at (zip_code_tree : List tree_item_t) (it distance_limit : Nat) :
    Except Err reverse_iterator :=
  scan zip_code_tree it ⟨it, distance_limit, [], S_START⟩

/-- The prefix increment `reverse_iterator::operator++`. -/
def operator_inc (zip_code_tree : List tree_item_t) (r : reverse_iterator) :
    Except Err reverse_iterator :=
  if r.it = 0 then scan zip_code_tree 0 r
  else scan zip_code_tree (r.it - 1) ⟨r.it - 1, r.distance_limit, r.stack, r.current_state⟩

/-- The comparison `reverse_iterator::operator==`: only the positions count. -/
def operator_eq (r s : reverse_iterator) : Bool := r.it == s.it

/-- The dereference `reverse_iterator::operator*`: the seed pointed at and the
running distance on top of the stack. -/
def operator_deref (zip_code_tree : List tree_item_t) (r : reverse_iterator) :
    Except Err (Nat × Nat) :=
  if r.it = 0 then .error .crash
  else match zip_code_tree.get? (r.it - 1) with
  | none => .error .undefined_behaviour
  | some item =>
    if item.type ≠ SEED then .error .crash
    else match r.stack with
      | [] => .error .crash
      | t :: _ => .ok (item.value, t)

end reverse_iterator

/-- The end `ZipCodeTree::rend`. -/
def rend (zip_code_tree : List tree_item_t) : Except Err reverse_iterator :=
  reverse_iterator.mk_at zip_code_tree 0 0

/-- The entry point `ZipCodeTree::look_back(from, distance_limit)`: the reverse
iterator built at `rbegin() + from.remaining_tree()`. -/
def look_back (zip_code_tree : List tree_item_t) (src : iterator) (distance_limit : Nat) :
    Except Err reverse_iterator :=
  if zip_code_tree.length < src.remaining_tree then .error .undefined_behaviour
  else reverse_iterator.mk_at zip_code_tree (zip_code_tree.length - src.remaining_tree)
    distance_limit

/-- The loop `for (; rit != rend(); ++rit) out.push_back(*rit)` of a consumer of
the backward iterator: the pairs produced, and the error that stopped the loop
if one did. -/
def backward_from (zip_code_tree : List tree_item_t) :
    Nat → reverse_iterator → List (Nat × Nat) × Option Err
  | 0, _ => ([], none)
  | fuel + 1, r =>
    if r.it = 0 then ([], none)
    else match reverse_iterator.operator_deref zip_code_tree r with
      | .error e => ([], some e)
      | .ok p =>
        match reverse_iterator.operator_inc zip_code_tree r with
        | .error e => ([p], some e)
        | .ok r1 =>
          let rest := backward_from zip_code_tree fuel r1
          (p :: rest.1, rest.2)

/-- The whole backward traversal started with `look_back(from, distance_limit)`. -/
def backward_traversal (zip_code_tree : List tree_item_t) (src : iterator)
    (distance_limit : Nat) : List (Nat × Nat) × Option Err :=
  match look_back zip_code_tree src distance_limit with
  | .error e => ([], some e)
  | .ok r => backward_from zip_code_tree (zip_code_tree.length + 1) r

/-- The backward traversal started with the reverse iterator placed on the item
at index `p` itself (base index `p + 1`). -/
def backward_traversal_at (zip_code_tree : List tree_item_t) (p : Nat)
    (distance_limit : Nat) : List (Nat × Nat) × Option Err :=
  match reverse_iterator.mk_at zip_code_tree (p + 1) distance_limit with
  | .error e => ([], some e)
  | .ok r => backward_from zip_code_tree (zip_code_tree.length + 1) r

/-! ## Properties of flat stores and of addresses -/

/-- The two kinds of scope brackets. -/
inductive bracket where
  | chain
  | snarl
deriving DecidableEq, Repr

/-- The streaming bracket check: the items are read left to right on top of
the stack `open_scopes` of open scopes (innermost first); a START pushes its
kind, an END must find its own kind on top and pops it; the result is the stack
left at the end, or `none` when an END does not match. -/
def match_brackets : List bracket → List tree_item_t → Option (List bracket)
  | open_scopes, [] => some open_scopes
  | open_scopes, item :: rest =>
    match item.type with
    | CHAIN_START => match_brackets (bracket.chain :: open_scopes) rest
    | SNARL_START => match_brackets (bracket.snarl :: open_scopes) rest
    | CHAIN_END =>
      match open_scopes with
      | bracket.chain :: outer => match_brackets outer rest
      | _ => none
    | SNARL_END =>
      match open_scopes with
      | bracket.snarl :: outer => match_brackets outer rest
      | _ => none
    | _ => match_brackets open_scopes rest

/-- A flat store is well bracketed when the streaming check succeeds and
leaves no scope open. -/
def well_bracketed (zip_code_tree : List tree_item_t) : Prop :=
  match_brackets [] zip_code_tree = some []

/-- The number of items of a kind in a flat store. -/
def count_type (type : tree_item_type_t) (zip_code_tree : List tree_item_t) : Nat :=
  (zip_code_tree.filter (fun item => decide (item.type = type))).length

/-- The values of the SEED items of a flat store, left to right. -/
def seed_values (zip_code_tree : List tree_item_t) : List Nat :=
  (zip_code_tree.filter (fun item => decide (item.type = SEED))).map (fun item => item.value)

/-- A store is guarded when every SEED and every SNARL_START item is
immediately preceded by an EDGE or a CHAIN_START item. -/
def guarded (zip_code_tree : List tree_item_t) : Prop :=
  ∀ (j : Nat) (item : tree_item_t), zip_code_tree.get? j = some item →
    (item.type = SEED ∨ item.type = SNARL_START) →
    0 < j ∧ ∃ before, zip_code_tree.get? (j - 1) = some before ∧
      (before.type = EDGE ∨ before.type = CHAIN_START)

/-- The kinds that are closed with a CHAIN_END. -/
def is_chain_like : code_type_t → Bool
  | CHAIN => true
  | ROOT_CHAIN => true
  | ROOT_NODE => true
  | _ => false

/-- The kinds that are closed with a SNARL_END. -/
def is_snarl : code_type_t → Bool
  | REGULAR_SNARL => true
  | IRREGULAR_SNARL => true
  | _ => false

/-- The bracket a level of kind `type` opens, if any. -/
def bracket_of (type : code_type_t) : List bracket :=
  if is_chain_like type then [bracket.chain]
  else if is_snarl type then [bracket.snarl]
  else []

/-- The scopes of the levels `0 .. d - 1` of an address, innermost first. -/
def open_brackets (dec : ZipCodeDecoder) : Nat → List bracket
  | 0 => []
  | d + 1 => bracket_of (dec.get_code_type d) ++ open_brackets dec d

/-- An address is well formed when it is a root node alone, or a root chain
followed by levels that alternate as the snarl decomposition does: below a chain
a leaf node (the last level) or a snarl (not the last level), below a snarl a
chain (which is the last level when the chain is a single node). -/
def address_ok (dec : ZipCodeDecoder) : Prop :=
  ((dec.get_code_type 0 = ROOT_NODE ∧ dec.max_depth = 0) ∨
   (dec.get_code_type 0 = ROOT_CHAIN ∧ 0 < dec.max_depth)) ∧
  ∀ d, d < dec.max_depth →
    ((dec.get_code_type d = ROOT_CHAIN ∨ dec.get_code_type d = CHAIN) ∧
      ((dec.get_code_type (d + 1) = NODE ∧ d + 1 = dec.max_depth) ∨
       ((dec.get_code_type (d + 1) = REGULAR_SNARL ∨
          dec.get_code_type (d + 1) = IRREGULAR_SNARL) ∧ d + 1 < dec.max_depth))) ∨
    ((dec.get_code_type d = REGULAR_SNARL ∨ dec.get_code_type d = IRREGULAR_SNARL) ∧
      dec.get_code_type (d + 1) = CHAIN)

/-- The addresses of a seed collection are consistent with the equality test
of the oracle when each is well formed and, whenever two of them are equal at
every depth up to `d`, they have the same kind at depth `d` and `d` is the last
level of both or of neither. -/
def consistent (D : SnarlDistanceIndex) (seeds : List Seed) : Prop :=
  (∀ s ∈ seeds, address_ok s.zipcode_decoder) ∧
  ∀ a ∈ seeds, ∀ b ∈ seeds, ∀ d, d ≤ a.zipcode_decoder.max_depth →
    d ≤ b.zipcode_decoder.max_depth →
    (∀ e, e ≤ d → D.is_equal a.zipcode_decoder b.zipcode_decoder e = true) →
    a.zipcode_decoder.get_code_type d = b.zipcode_decoder.get_code_type d ∧
    (d = a.zipcode_decoder.max_depth ↔ d = b.zipcode_decoder.max_depth)

/-- The invariant of the constructor while the levels `0 .. d - 1` of the
address `dec` are open, `n` being the number of seeds: the scratch list of an
open chain holds one entry (a CHAIN_START entry only right after the chain was
opened, when the store ends with its CHAIN_START), the scratch list of an open
snarl is not empty and holds the snarl start and seed indices, the scratch
lists from depth `d` on and at a leaf node are empty, the open scopes of the
store are those of the levels `0 .. d - 1`, and the store is guarded. -/
structure scopes (dec : ZipCodeDecoder) (n d : Nat) (st : build_state) : Prop where
  len : dec.max_depth < st.sibling_indices_at_depth.length
  chains : ∀ e, e < d → is_chain_like (dec.get_code_type e) = true →
    ∃ x, st.sibling_indices_at_depth[e]? = some [x] ∧
      (x.type = CHAIN_START → e + 1 = d ∧ d ≤ dec.max_depth ∧
        ∃ v, st.zip_code_tree.getLast? = some ⟨CHAIN_START, v⟩)
  snarls : ∀ e, e < d → is_snarl (dec.get_code_type e) = true →
    ∃ l, st.sibling_indices_at_depth[e]? = some l ∧ l ≠ [] ∧
      ∀ x ∈ l, x.type = SNARL_START ∨ x.value < n
  empty : ∀ e l, (d ≤ e ∨ dec.get_code_type e = NODE) →
    st.sibling_indices_at_depth[e]? = some l → l = []
  brackets : match_brackets [] st.zip_code_tree = some (open_brackets dec d)
  guard : guarded st.zip_code_tree

/-- The state of the constructor after the seed with index `last` has been added
(`none`: before the first seed): every level of that seed's address is open. -/
def built (seeds : List Seed) (last : Option Nat) (st : build_state) : Prop :=
  match last with
  | none => st = ⟨[], []⟩
  | some j => ∃ p, seeds[j]? = some p ∧
      scopes p.zipcode_decoder seeds.length (p.zipcode_decoder.max_depth + 1) st

/-- The outcome of a step of the constructor: it fails an assertion (only
when assertions are compiled in), or it returns a value with the property `Q`. -/
def step_ok {α : Type} (asserts : Bool) (r : Except Err α) (Q : α → Prop) : Prop :=
  (asserts = true ∧ r = .error .assertion) ∨ ∃ a, r = .ok a ∧ Q a

open reverse_iterator in
/-- The start condition of the scan loop under which every seed it stops at is
within the bound. -/
def scan_ready (t : List tree_item_t) (r : reverse_iterator) : Prop :=
  r.current_state = S_SCAN_CHAIN → ∀ (top : Nat) (rest : List Nat), r.stack = top :: rest →
    top ≤ r.distance_limit ∨ ∃ item, t.get? r.it = some item ∧ item.type = SNARL_START

open reverse_iterator in
/-- The condition under which a reverse iterator may be dereferenced with a
distance within the bound. -/
def deref_ready (r : reverse_iterator) : Prop :=
  r.it ≠ 0 → r.current_state = S_SCAN_CHAIN ∧
    ∀ (x : Nat) (rest : List Nat), r.stack = x :: rest → x ≤ r.distance_limit

/-- Whether the seeds with indices `a` and `b` share their ancestor at depth
`d`: their addresses are equal at the depths `0 .. d`. -/
def shares_ancestor (D : SnarlDistanceIndex) (seeds : List Seed) (a b d : Nat) : Bool :=
  match seeds.get? a, seeds.get? b with
  | some A, some B =>
    (List.range (d + 1)).all (fun e => D.is_equal A.zipcode_decoder B.zipcode_decoder e)
  | _, _ => false

/-- An order of seed indices keeps the seeds below every ancestor at depth `d`
together when whatever is placed between two seeds that share their ancestor
at depth `d` shares it too. -/
def contiguous_at (D : SnarlDistanceIndex) (seeds : List Seed) (order : List Nat)
    (d : Nat) : Prop :=
  ∀ i j k a b c, i < j → j < k → order.get? i = some a → order.get? j = some b →
    order.get? k = some c → shares_ancestor D seeds a c d = true →
    shares_ancestor D seeds a b d = true

/-- Every SNARL_END of the store is immediately preceded by a NODE_COUNT item,
that by a non-empty run of EDGE items whose number less one is the value of the
NODE_COUNT item, and that run by a CHAIN_END. -/
def snarl_ends_ok (zip_code_tree : List tree_item_t) : Prop :=
  ∀ a x b, zip_code_tree = a ++ x :: b → x.type = SNARL_END →
    ∃ pre y edges, a = pre ++ [y] ++ edges ++ [⟨NODE_COUNT, size_sub edges.length 1⟩] ∧
      y.type = CHAIN_END ∧ edges ≠ [] ∧ ∀ e ∈ edges, e.type = EDGE

/-- Every CHAIN_END of the store either closes a root-level chain (the only
scope open before it) and is immediately preceded by an item that is not an
EDGE, or closes a chain within a snarl and is immediately preceded by one EDGE
item that follows an item that is not an EDGE. -/
def chain_ends_ok (zip_code_tree : List tree_item_t) : Prop :=
  ∀ a x b, zip_code_tree = a ++ x :: b → x.type = CHAIN_END →
    ∃ pre y, y.type ≠ EDGE ∧
      ((match_brackets [] a = some [bracket.chain] ∧ a = pre ++ [y]) ∨
       ((∃ o outer, match_brackets [] a = some (bracket.chain :: o :: outer)) ∧
         ∃ v, a = pre ++ [y, ⟨EDGE, v⟩]))

/-- The kind of the last item of the store once the levels from `d` on of the
address `dec` have been closed: the END of the scope at depth `d`, or the SEED
when that level is a leaf node or lies past the last level. -/
def last_after_close (dec : ZipCodeDecoder) (d : Nat) : tree_item_type_t :=
  if d ≤ dec.max_depth then
    if is_snarl (dec.get_code_type d) then SNARL_END
    else if is_chain_like (dec.get_code_type d) then CHAIN_END
    else SEED
  else SEED

/-- The store-level invariant of the close loops: both kinds of END items are
preceded as they should be, and the store ends with an item of the kind
`last_after_close dec d`. -/
def closed_to (dec : ZipCodeDecoder) (d : Nat) (zip_code_tree : List tree_item_t) : Prop :=
  snarl_ends_ok zip_code_tree ∧ chain_ends_ok zip_code_tree ∧
  ∃ pre y, zip_code_tree = pre ++ [y] ∧ y.type = last_after_close dec d

/-- The store `t1` is the store `t` followed by items that are no END items. -/
def extends_plain (t t1 : List tree_item_t) : Prop :=
  ∃ chunk, t1 = t ++ chunk ∧ ∀ x ∈ chunk, x.type ≠ CHAIN_END ∧ x.type ≠ SNARL_END

/-- The orientation flag accumulated over the levels `0 .. d - 1` of an
address: the parity of the `is_reversed_in_parent` flags of those levels. -/
def reversal_parity (dec : ZipCodeDecoder) (d : Nat) : Bool :=
  (List.range d).foldl (fun flag e => flip_if (dec.get_is_reversed_in_parent e) flag) false

/-- The item kinds each state of the backward automaton handles, as the
specification lists them. -/
def handled : State → tree_item_type_t → Bool
  | S_START, SEED => true
  | S_SCAN_CHAIN, SEED => true
  | S_SCAN_CHAIN, SNARL_END => true
  | S_SCAN_CHAIN, CHAIN_START => true
  | S_SCAN_CHAIN, EDGE => true
  | S_STACK_SNARL, EDGE => true
  | S_STACK_SNARL, CHAIN_END => true
  | S_SCAN_SNARL, SNARL_START => true
  | S_SCAN_SNARL, CHAIN_END => true
  | S_SCAN_SNARL, EDGE => true
  | S_SKIP_CHAIN, SEED => true
  | S_SKIP_CHAIN, SNARL_START => true
  | S_SKIP_CHAIN, SNARL_END => true
  | S_SKIP_CHAIN, CHAIN_START => true
  | S_SKIP_CHAIN, CHAIN_END => true
  | S_SKIP_CHAIN, EDGE => true
  | _, _ => false

/-- The EDGE items with the values `values`. -/
def edge_items (values : List Nat) : List tree_item_t :=
  values.map (fun v => ⟨EDGE, v⟩)

/-- The snarl-nesting level after a run of items read in scan order (backward)
from the level `level`: a SNARL_END raises it, a SNARL_START lowers it. The
result is `none` when the run is not a well-nested run inside a chain that is
being skipped: when it holds a NODE_COUNT, a SNARL_START at level 0, or a
CHAIN_START at level 0 (which would end the run). -/
def skip_level : Nat → List tree_item_t → Option Nat
  | level, [] => some level
  | level, item :: rest =>
    match item.type with
    | SNARL_END => skip_level (level + 1) rest
    | SNARL_START => if level = 0 then none else skip_level (level - 1) rest
    | CHAIN_START => if level = 0 then none else skip_level level rest
    | NODE_COUNT => none
    | _ => skip_level level rest

/-- The children of chains are preceded as they should be: every SEED and every
SNARL_START item either comes right after a root-level CHAIN_START (one with no
scope open before it), or right after exactly one EDGE item (the item before
that EDGE is not an EDGE); and the item right after a root-level CHAIN_START is
not an EDGE. -/
def children_ok (zip_code_tree : List tree_item_t) : Prop :=
  (∀ a x b, zip_code_tree = a ++ x :: b → (x.type = SEED ∨ x.type = SNARL_START) →
    (∃ pre v, a = pre ++ [⟨CHAIN_START, v⟩] ∧ match_brackets [] pre = some []) ∨
    (∃ pre y v, a = pre ++ [y, ⟨EDGE, v⟩] ∧ y.type ≠ EDGE)) ∧
  (∀ a v x b, zip_code_tree = a ++ ⟨CHAIN_START, v⟩ :: x :: b →
    match_brackets [] a = some [] → x.type ≠ EDGE)

/-- The store does not end with a root-level CHAIN_START. -/
def not_root_start (zip_code_tree : List tree_item_t) : Prop :=
  ∀ pre v, zip_code_tree = pre ++ [⟨CHAIN_START, v⟩] → match_brackets [] pre ≠ some []

/-- The invariant of the constructor on the end of the store between two steps:
the last item is not an EDGE, and when the store ends with a root-level
CHAIN_START, the scratch list of depth 0 holds the CHAIN_START entry alone. -/
def tail_ok (st : build_state) : Prop :=
  (st.zip_code_tree = [] ∨ ∃ pre y, st.zip_code_tree = pre ++ [y] ∧ y.type ≠ EDGE) ∧
  ((∃ pre v, st.zip_code_tree = pre ++ [⟨CHAIN_START, v⟩] ∧ match_brackets [] pre = some []) →
    ∃ x, st.sibling_indices_at_depth[0]? = some [x] ∧ x.type = CHAIN_START)

/-- The in-node offset of a seed on a bare node as the specification gives it:
the node length minus the offset of the position when the accumulated reversal
flag differs from the strand flag of the position, the offset plus one
otherwise. -/
def bare_node_offset (s : Seed) (depth : Nat) (current_is_reversed : Bool) : Nat :=
  if current_is_reversed != s.pos.is_rev
  then size_sub (s.zipcode_decoder.get_length depth) s.pos.offset
  else size_add s.pos.offset 1

/-- The stack discipline of the two scanning states: in Scan-Chain and in
Scan-Snarl the stack is not empty. -/
def stack_ready (r : reverse_iterator) : Prop :=
  (r.current_state = S_SCAN_CHAIN ∨ r.current_state = S_SCAN_SNARL) → r.stack ≠ []

/-- The three conditions `operator*` checks, for an iterator that is not
`rend`: it points at a SEED item, and the stack is not empty; with them, the
state Scan-Chain. -/
def deref_checks (zip_code_tree : List tree_item_t) (r : reverse_iterator) : Prop :=
  r.it = 0 ∨ (∃ item, zip_code_tree.get? (r.it - 1) = some item ∧ item.type = SEED) ∧
    r.current_state = S_SCAN_CHAIN ∧ r.stack ≠ []

/-- The value recorded in the scratch list of the parent chain for a child
opened at `depth` (lines 405-423): the offset of the child, plus the length of
the child when it is a snarl. -/
def recorded_offset (D : SnarlDistanceIndex) (current_seed : Seed) (depth : Nat)
    (current_is_reversed : Bool) : Nat :=
  if current_seed.zipcode_decoder.get_code_type depth = NODE ∨
      current_seed.zipcode_decoder.get_code_type depth = ROOT_NODE
  then child_offset D current_seed depth current_is_reversed
  else D.sum (child_offset D current_seed depth current_is_reversed)
    (current_seed.zipcode_decoder.get_length depth)

/-- Lines 341-357: the offset in its parent chain of the child at `depth`, before
the offset of the position in its node is added. -/
def offset_in_parent (D : SnarlDistanceIndex) (dec : ZipCodeDecoder) (depth : Nat)
    (current_is_reversed : Bool) : Nat :=
  if dec.get_code_type depth = ROOT_NODE then 0
  else if flip_if (dec.get_is_reversed_in_parent depth) current_is_reversed then
    D.minus (dec.get_length (size_pred depth))
      (D.sum (dec.get_offset_in_chain depth) (dec.get_length depth))
  else dec.get_offset_in_chain depth

/-- Two seeds on one node at depth `d`, the last level of both addresses, that
is traversed along the strand of both seeds (with the flags `rev1` and `rev2`
of the open loop), where `sum` is the plain sum of the offset of the node and
of the offsets in the node and the sum fits the machine word. -/
def forward_on_one_node (D : SnarlDistanceIndex) (c1 c2 : Seed) (d : Nat)
    (rev1 rev2 : Bool) : Prop :=
  d = c1.zipcode_decoder.max_depth ∧ d = c2.zipcode_decoder.max_depth ∧
  c1.zipcode_decoder.get_code_type d = NODE ∧
  offset_in_parent D c1.zipcode_decoder d rev1 = offset_in_parent D c2.zipcode_decoder d rev2 ∧
  (rev1 != c1.pos.is_rev) = false ∧ (rev2 != c2.pos.is_rev) = false ∧
  D.sum (offset_in_parent D c1.zipcode_decoder d rev1) (c1.pos.offset + 1) =
    offset_in_parent D c1.zipcode_decoder d rev1 + (c1.pos.offset + 1) ∧
  D.sum (offset_in_parent D c2.zipcode_decoder d rev2) (c2.pos.offset + 1) =
    offset_in_parent D c2.zipcode_decoder d rev2 + (c2.pos.offset + 1) ∧
  offset_in_parent D c2.zipcode_decoder d rev2 + (c2.pos.offset + 1) < 2 ^ 64

/-- An open scope of a flat store: a chain, or a snarl together with the number
of child chains opened in it so far. -/
inductive frame where
  | chain
  | snarl (children : Nat)
deriving DecidableEq, Repr

/-- The streaming scope check that also counts the child chains of every open
snarl: the items are read left to right on top of the stack `open_scopes`
(innermost first); a CHAIN_START met in a snarl raises the count of that snarl
and pushes a chain, a SNARL_START pushes a snarl with no child chain, an END
must find its own kind on top and pops it. -/
def open_frames : List frame → List tree_item_t → Option (List frame)
  | open_scopes, [] => some open_scopes
  | open_scopes, item :: rest =>
    match item.type with
    | CHAIN_START =>
      match open_scopes with
      | frame.snarl k :: outer =>
        open_frames (frame.chain :: frame.snarl (k + 1) :: outer) rest
      | _ => open_frames (frame.chain :: open_scopes) rest
    | SNARL_START => open_frames (frame.snarl 0 :: open_scopes) rest
    | CHAIN_END =>
      match open_scopes with
      | frame.chain :: outer => open_frames outer rest
      | _ => none
    | SNARL_END =>
      match open_scopes with
      | frame.snarl _ :: outer => open_frames outer rest
      | _ => none
    | _ => open_frames open_scopes rest

/-- The open scopes of the levels `0 .. d - 1` of an address, innermost first,
as the scratch lists record them: the scratch list of an open snarl holds the
snarl start and one entry for each child chain opened so far. -/
def frames_of (dec : ZipCodeDecoder) (sibling_indices_at_depth : List (List child_info_t)) :
    Nat → List frame
  | 0 => []
  | d + 1 =>
    (if is_chain_like (dec.get_code_type d) then [frame.chain]
     else if is_snarl (dec.get_code_type d) then
       [frame.snarl (((sibling_indices_at_depth[d]?).getD []).length - 1)]
     else []) ++ frames_of dec sibling_indices_at_depth d

/-- Every CHAIN_START that opens the child chain number `k + 1` of a snarl
(`k` child chains of the snarl were opened before it) is immediately preceded
by exactly `k + 1` EDGE items: the item before them is not an EDGE. -/
def chain_starts_ok (zip_code_tree : List tree_item_t) : Prop :=
  ∀ a v b k outer, zip_code_tree = a ++ ⟨CHAIN_START, v⟩ :: b →
    open_frames [] a = some (frame.snarl k :: outer) →
    ∃ pre y es, a = pre ++ [y] ++ es ∧ y.type ≠ EDGE ∧ (∀ e ∈ es, e.type = EDGE) ∧
      es.length = k + 1

/-- The invariant of the constructor on the child chains of the open snarls,
while the levels `0 .. d - 1` of the address `dec` are open: the open scopes of
the store, with the number of child chains opened in each snarl, are those the
scratch lists record. -/
def frames_ok (dec : ZipCodeDecoder) (d : Nat) (st : build_state) : Prop :=
  open_frames [] st.zip_code_tree = some (frames_of dec st.sibling_indices_at_depth d)

/-- The item at index `i` of the store is a SEED, a SNARL_END or a
CHAIN_START. -/
def chain_item (zip_code_tree : List tree_item_t) (i : Nat) : Prop :=
  ∃ x, zip_code_tree.get? i = some x ∧
    (x.type = SEED ∨ x.type = SNARL_END ∨ x.type = CHAIN_START)

/-- The base index `i` of a reverse iterator stands inside a chain: the item it
reads (index `i - 1`) is a SEED, a SNARL_END or a CHAIN_START, or it is an EDGE
and the item before it is one of these. -/
def chain_pos (zip_code_tree : List tree_item_t) (i : Nat) : Prop :=
  (0 < i ∧ chain_item zip_code_tree (i - 1)) ∨
  (1 < i ∧ (∃ x, zip_code_tree.get? (i - 1) = some x ∧ x.type = EDGE) ∧
    chain_item zip_code_tree (i - 2))

/-- The local shape of a flat store on which the backward automaton relies:
every SEED, SNARL_START and CHAIN_END comes right after a SEED, a SNARL_END or
a CHAIN_START, or after one EDGE that follows one of these, and every SNARL_END
comes right after a NODE_COUNT. -/
structure scannable (zip_code_tree : List tree_item_t) : Prop where
  chain : ∀ j x, zip_code_tree.get? j = some x →
    (x.type = SEED ∨ x.type = SNARL_START ∨ x.type = CHAIN_END) → chain_pos zip_code_tree j
  count : ∀ j x, zip_code_tree.get? j = some x → x.type = SNARL_END →
    0 < j ∧ ∃ y, zip_code_tree.get? (j - 1) = some y ∧ y.type = NODE_COUNT

open reverse_iterator in
/-- In state Scan-Chain the iterator stands inside a chain. -/
def pos_ok (zip_code_tree : List tree_item_t) (r : reverse_iterator) : Prop :=
  r.current_state = S_SCAN_CHAIN → chain_pos zip_code_tree r.it

open reverse_iterator in
/-- The seed indices yielded by the traversal that resumes the scan loop at the
iterator `r` and then runs the consumer loop with `fuel` iterations. -/
def yields_from (zip_code_tree : List tree_item_t) (fuel : Nat) (r : reverse_iterator) :
    List Nat :=
  match scan zip_code_tree r.it r with
  | .error _ => []
  | .ok r1 => (backward_from zip_code_tree fuel r1).1.map Prod.fst

open reverse_iterator in
/-- The relation between the run with the smaller bound (`r1`) and the run with
the larger bound (`r2`) at the same item: they are in the same state with the
same stack, or the first skips (with nesting counter 0) the chain the second
scans, or both skip the same chain, the running distance of the chain being
the only difference. -/
def runs_related (zip_code_tree : List tree_item_t) (r1 r2 : reverse_iterator) : Prop :=
  r1.it = r2.it ∧ r1.distance_limit ≤ r2.distance_limit ∧ pos_ok zip_code_tree r2 ∧
  ((r1.stack = r2.stack ∧ r1.current_state = r2.current_state) ∨
   (r1.current_state = S_SKIP_CHAIN ∧ r2.current_state = S_SCAN_CHAIN ∧
     ∃ a1 a2 rest, r1.stack = 0 :: a1 :: rest ∧ r2.stack = a2 :: rest) ∨
   (r1.current_state = S_SKIP_CHAIN ∧ r2.current_state = S_SKIP_CHAIN ∧
     ∃ c a1 a2 rest, r1.stack = c :: a1 :: rest ∧ r2.stack = c :: a2 :: rest))

/-- The kinds of item that end a stretch of a chain read backward: a SEED, a
SNARL_END or the CHAIN_START. -/
def chain_member (y : tree_item_t) : Prop :=
  y.type = SEED ∨ y.type = SNARL_END ∨ y.type = CHAIN_START

/-- The store `a` ends inside a chain: with a SEED, a SNARL_END or a
CHAIN_START, or with one EDGE after one of these. -/
def chain_tail (a : List tree_item_t) : Prop :=
  (∃ pre y, a = pre ++ [y] ∧ chain_member y) ∨
  (∃ pre y v, a = pre ++ [y, ⟨EDGE, v⟩] ∧ chain_member y)

/-- Every SEED, SNARL_START and CHAIN_END of the store comes right after a
SEED, a SNARL_END or a CHAIN_START, or after one EDGE that follows one of
these. -/
def scan_items_ok (zip_code_tree : List tree_item_t) : Prop :=
  ∀ a x b, zip_code_tree = a ++ x :: b →
    (x.type = SEED ∨ x.type = SNARL_START ∨ x.type = CHAIN_END) → chain_tail a

/-- The invariant of the constructor on the last item of the store while the
levels `0 .. d - 1` of the address `dec` are open: inside a snarl (the level
`d - 1` is a snarl) the store ends with the SNARL_START or with the CHAIN_END of
a child chain, otherwise with a SEED, a SNARL_END or a CHAIN_START. -/
def tail_in (dec : ZipCodeDecoder) (d : Nat) (zip_code_tree : List tree_item_t) : Prop :=
  d = 0 ∨ ∃ pre y, zip_code_tree = pre ++ [y] ∧
    (if is_snarl (dec.get_code_type (d - 1)) then y.type = SNARL_START ∨ y.type = CHAIN_END
     else chain_member y)

/-! ## Fixtures -/

/-- One level of a hand-written address used in the fixtures. -/
structure fixture_level where
  type : code_type_t
  address : Nat
  is_reversed : Bool
  length : Nat
  offset_in_chain : Nat
  distance_to_start : Nat
  distance_to_end : Nat
  rank : Nat
deriving DecidableEq, Repr

/-- The level read by the queries past the last level of a fixture address. -/
def fixture_default : fixture_level := ⟨NODE, 0, false, 0, 0, 0, 0, 0⟩

/-- The decoder of a hand-written address: level `d` answers the queries at
depth `d`. -/
def fixture_decoder (levels : List fixture_level) : ZipCodeDecoder where
  max_depth := levels.length - 1
  get_code_type := fun d => (levels.getD d fixture_default).type
  get_is_reversed_in_parent := fun d => (levels.getD d fixture_default).is_reversed
  get_length := fun d => (levels.getD d fixture_default).length
  get_offset_in_chain := fun d => (levels.getD d fixture_default).offset_in_chain
  get_distance_to_snarl_start := fun d => (levels.getD d fixture_default).distance_to_start
  get_distance_to_snarl_end := fun d => (levels.getD d fixture_default).distance_to_end
  get_rank_in_snarl := fun d => (levels.getD d fixture_default).rank
  get_distance_index_address := fun d => (levels.getD d fixture_default).address
  get_net_handle := fun d => (levels.getD d fixture_default).address

/-- The distance index of the fixtures: two addresses are equal at a depth when
kind and address of that level agree; `sum` and `minus` keep the unreachable
value `SIZE_MAX`. -/
def fixture_index : SnarlDistanceIndex where
  is_equal := fun a b d => decide (a.get_code_type d = b.get_code_type d) &&
    decide (a.get_distance_index_address d = b.get_distance_index_address d)
  distance_in_snarl := fun _ _ _ _ _ => SIZE_MAX
  sum := fun a b => if a = SIZE_MAX ∨ b = SIZE_MAX then SIZE_MAX else size_add a b
  minus := fun a b => if a = SIZE_MAX then SIZE_MAX else size_sub a b

/-- A root chain (address 1, length 11) of three nodes of lengths 4, 1 and 6,
with one forward seed at offset 0 of each node. -/
def chain_seeds : List Seed :=
  [ ⟨⟨1, false, 0⟩, fixture_decoder
      [⟨ROOT_CHAIN, 1, false, 11, 0, 0, 0, 0⟩, ⟨NODE, 1, false, 4, 0, 0, 0, 0⟩]⟩,
    ⟨⟨2, false, 0⟩, fixture_decoder
      [⟨ROOT_CHAIN, 1, false, 11, 0, 0, 0, 0⟩, ⟨NODE, 2, false, 1, 4, 0, 0, 0⟩]⟩,
    ⟨⟨3, false, 0⟩, fixture_decoder
      [⟨ROOT_CHAIN, 1, false, 11, 0, 0, 0, 0⟩, ⟨NODE, 3, false, 6, 5, 0, 0, 0⟩]⟩ ]

/-- Two seeds on two root nodes of different connected components. -/
def component_seeds : List Seed :=
  [ ⟨⟨1, false, 0⟩, fixture_decoder [⟨ROOT_NODE, 1, false, 5, 0, 0, 0, 0⟩]⟩,
    ⟨⟨2, false, 2⟩, fixture_decoder [⟨ROOT_NODE, 2, false, 7, 0, 0, 0, 0⟩]⟩ ]

/-- One seed on a node (length 3) that is a trivial chain inside a regular snarl
(length 3, at offset 2) of a root chain (length 10). -/
def snarl_seed : List Seed :=
  [ ⟨⟨5, false, 1⟩, fixture_decoder
      [⟨ROOT_CHAIN, 1, false, 10, 0, 0, 0, 0⟩,
       ⟨REGULAR_SNARL, 2, false, 3, 2, 0, 0, 0⟩,
       ⟨CHAIN, 5, false, 3, 0, 0, 0, 1⟩]⟩ ]

/-- One seed on a root node. -/
def root_node_seed : List Seed :=
  [ ⟨⟨1, false, 0⟩, fixture_decoder [⟨ROOT_NODE, 1, false, 5, 0, 0, 0, 0⟩]⟩ ]

/-- A snarl with three child chains: seeds on the three trivial chains
(ranks 1, 2, 3) of an irregular snarl of a root chain, followed by a seed on
a node of the root chain after the snarl. -/
def three_chain_seeds : List Seed :=
  [ ⟨⟨5, false, 0⟩, fixture_decoder
      [⟨ROOT_CHAIN, 1, false, 20, 0, 0, 0, 0⟩,
       ⟨IRREGULAR_SNARL, 2, false, 6, 2, 0, 0, 0⟩,
       ⟨CHAIN, 5, false, 3, 0, 0, 3, 1⟩]⟩,
    ⟨⟨6, false, 0⟩, fixture_decoder
      [⟨ROOT_CHAIN, 1, false, 20, 0, 0, 0, 0⟩,
       ⟨IRREGULAR_SNARL, 2, false, 6, 2, 0, 0, 0⟩,
       ⟨CHAIN, 6, false, 2, 0, 1, 2, 2⟩]⟩,
    ⟨⟨7, false, 0⟩, fixture_decoder
      [⟨ROOT_CHAIN, 1, false, 20, 0, 0, 0, 0⟩,
       ⟨IRREGULAR_SNARL, 2, false, 6, 2, 0, 0, 0⟩,
       ⟨CHAIN, 7, false, 1, 0, 2, 1, 3⟩]⟩,
    ⟨⟨8, false, 1⟩, fixture_decoder
      [⟨ROOT_CHAIN, 1, false, 20, 0, 0, 0, 0⟩,
       ⟨NODE, 8, false, 4, 9, 0, 0, 0⟩]⟩ ]

/-- The flat store of `chain_seeds`. -/
def chain_store : List tree_item_t :=
  [⟨CHAIN_START, SIZE_MAX⟩, ⟨SEED, 0⟩, ⟨EDGE, 4⟩, ⟨SEED, 1⟩, ⟨EDGE, 1⟩, ⟨SEED, 2⟩,
   ⟨CHAIN_END, SIZE_MAX⟩]

/-- The flat store of `component_seeds`. -/
def component_store : List tree_item_t :=
  [⟨CHAIN_START, SIZE_MAX⟩, ⟨SEED, 0⟩, ⟨CHAIN_END, SIZE_MAX⟩,
   ⟨CHAIN_START, SIZE_MAX⟩, ⟨SEED, 1⟩, ⟨CHAIN_END, SIZE_MAX⟩]

/-- The flat store of `snarl_seed`. -/
def snarl_store : List tree_item_t :=
  [⟨CHAIN_START, SIZE_MAX⟩, ⟨SNARL_START, SIZE_MAX⟩, ⟨EDGE, 0⟩, ⟨CHAIN_START, SIZE_MAX⟩,
   ⟨EDGE, 2⟩, ⟨SEED, 0⟩, ⟨EDGE, 1⟩, ⟨CHAIN_END, SIZE_MAX⟩, ⟨EDGE, 0⟩, ⟨EDGE, 3⟩,
   ⟨NODE_COUNT, 1⟩, ⟨SNARL_END, SIZE_MAX⟩, ⟨CHAIN_END, SIZE_MAX⟩]

/-- Two seeds at the same position of one root node. -/
def tie_seeds : List Seed :=
  [ ⟨⟨1, false, 2⟩, fixture_decoder [⟨ROOT_NODE, 1, false, 5, 0, 0, 0, 0⟩]⟩,
    ⟨⟨1, false, 2⟩, fixture_decoder [⟨ROOT_NODE, 1, false, 5, 0, 0, 0, 0⟩]⟩ ]

/-- Three seeds under a regular snarl (address 2) of a root chain: seeds 0
and 1 on two nodes (addresses 7 and 8) of the child chain with address 5, at
node offsets 5 and 1, and seed 2 on the child chain with address 6, a single
node, at node offset 3. -/
def regular_snarl_seeds : List Seed :=
  [ ⟨⟨7, false, 5⟩, fixture_decoder
      [⟨ROOT_CHAIN, 1, false, 30, 0, 0, 0, 0⟩,
       ⟨REGULAR_SNARL, 2, false, 12, 2, 0, 0, 0⟩,
       ⟨CHAIN, 5, false, 12, 0, 0, 0, 1⟩,
       ⟨NODE, 7, false, 6, 0, 0, 0, 0⟩]⟩,
    ⟨⟨8, false, 1⟩, fixture_decoder
      [⟨ROOT_CHAIN, 1, false, 30, 0, 0, 0, 0⟩,
       ⟨REGULAR_SNARL, 2, false, 12, 2, 0, 0, 0⟩,
       ⟨CHAIN, 5, false, 12, 0, 0, 0, 1⟩,
       ⟨NODE, 8, false, 6, 6, 0, 0, 0⟩]⟩,
    ⟨⟨9, false, 3⟩, fixture_decoder
      [⟨ROOT_CHAIN, 1, false, 30, 0, 0, 0, 0⟩,
       ⟨REGULAR_SNARL, 2, false, 12, 2, 0, 0, 0⟩,
       ⟨CHAIN, 6, false, 8, 0, 0, 0, 2⟩]⟩ ]

/-- The flat store of `three_chain_seeds` under `fixture_index`. -/
def three_chain_store : List tree_item_t :=
  [⟨CHAIN_START, SIZE_MAX⟩, ⟨SNARL_START, SIZE_MAX⟩,
   ⟨EDGE, 0⟩, ⟨CHAIN_START, SIZE_MAX⟩, ⟨EDGE, 1⟩, ⟨SEED, 0⟩, ⟨EDGE, 2⟩, ⟨CHAIN_END, SIZE_MAX⟩,
   ⟨EDGE, SIZE_MAX⟩, ⟨EDGE, 1⟩, ⟨CHAIN_START, SIZE_MAX⟩, ⟨EDGE, 1⟩, ⟨SEED, 1⟩, ⟨EDGE, 1⟩,
   ⟨CHAIN_END, SIZE_MAX⟩,
   ⟨EDGE, SIZE_MAX⟩, ⟨EDGE, SIZE_MAX⟩, ⟨EDGE, 2⟩, ⟨CHAIN_START, SIZE_MAX⟩, ⟨EDGE, 1⟩,
   ⟨SEED, 2⟩, ⟨EDGE, 0⟩, ⟨CHAIN_END, SIZE_MAX⟩,
   ⟨EDGE, 0⟩, ⟨EDGE, 0⟩, ⟨EDGE, 0⟩, ⟨EDGE, 6⟩, ⟨NODE_COUNT, 3⟩, ⟨SNARL_END, SIZE_MAX⟩,
   ⟨EDGE, 3⟩, ⟨SEED, 3⟩, ⟨CHAIN_END, SIZE_MAX⟩]

/-- A distance index that answers the finite distance `10 * rank1 + rank2`
between two children of a snarl, and is `fixture_index` otherwise. -/
def metric_index : SnarlDistanceIndex where
  is_equal := fixture_index.is_equal
  distance_in_snarl := fun _ rank1 _ rank2 _ => 10 * rank1 + rank2
  sum := fixture_index.sum
  minus := fixture_index.minus

/-- The flat store of `three_chain_seeds` under `metric_index`. -/
def metric_store : List tree_item_t :=
  [⟨CHAIN_START, SIZE_MAX⟩, ⟨SNARL_START, SIZE_MAX⟩,
   ⟨EDGE, 0⟩, ⟨CHAIN_START, SIZE_MAX⟩, ⟨EDGE, 1⟩, ⟨SEED, 0⟩, ⟨EDGE, 2⟩, ⟨CHAIN_END, SIZE_MAX⟩,
   ⟨EDGE, 12⟩, ⟨EDGE, 1⟩, ⟨CHAIN_START, SIZE_MAX⟩, ⟨EDGE, 1⟩, ⟨SEED, 1⟩, ⟨EDGE, 1⟩,
   ⟨CHAIN_END, SIZE_MAX⟩,
   ⟨EDGE, 23⟩, ⟨EDGE, 13⟩, ⟨EDGE, 2⟩, ⟨CHAIN_START, SIZE_MAX⟩, ⟨EDGE, 1⟩,
   ⟨SEED, 2⟩, ⟨EDGE, 0⟩, ⟨CHAIN_END, SIZE_MAX⟩,
   ⟨EDGE, 0⟩, ⟨EDGE, 0⟩, ⟨EDGE, 0⟩, ⟨EDGE, 6⟩, ⟨NODE_COUNT, 3⟩, ⟨SNARL_END, SIZE_MAX⟩,
   ⟨EDGE, 3⟩, ⟨SEED, 3⟩, ⟨CHAIN_END, SIZE_MAX⟩]

/-- A forward seed at offset `offset` of a node of length 6 that is a trivial
child chain (address `address`, with the given distances to the snarl bounds
and rank) of a snarl of kind `snarl` on a root chain. -/
def child_seed (snarl : code_type_t) (address offset distance_to_start distance_to_end
    rank : Nat) : Seed :=
  ⟨⟨address, false, offset⟩, fixture_decoder
    [⟨ROOT_CHAIN, 1, false, 30, 0, 0, 0, 0⟩,
     ⟨snarl, 2, false, 12, 2, 0, 0, 0⟩,
     ⟨CHAIN, address, false, 6, 0, distance_to_start, distance_to_end, rank⟩]⟩

/-- A seed at offset `offset` of the strand `is_rev` of a node of length 6 that
is a trivial child chain (address `address`, reversed in the snarl or not, with
the given distances to the snarl bounds and rank) of a snarl of kind `snarl`,
whose own level answers `snarl_start` and `snarl_end` to the two distance
queries, on a root chain. -/
def oriented_seed (is_rev : Bool) (offset : Nat) (snarl : code_type_t)
    (snarl_start snarl_end address : Nat) (chain_is_reversed : Bool)
    (distance_to_start distance_to_end rank : Nat) : Seed :=
  ⟨⟨address, is_rev, offset⟩, fixture_decoder
    [⟨ROOT_CHAIN, 1, false, 30, 0, 0, 0, 0⟩,
     ⟨snarl, 2, false, 12, 2, snarl_start, snarl_end, 0⟩,
     ⟨CHAIN, address, chain_is_reversed, 6, 0, distance_to_start, distance_to_end, rank⟩]⟩

/-- A forward seed at offset 1 of a node (length 6, at offset 4) of a root chain
(length 11). -/
def node_pair_first : Seed :=
  ⟨⟨2, false, 1⟩, fixture_decoder
    [⟨ROOT_CHAIN, 1, false, 11, 0, 0, 0, 0⟩, ⟨NODE, 2, false, 6, 4, 0, 0, 0⟩]⟩

/-- A forward seed at offset 3 of the node of `node_pair_first`. -/
def node_pair_second : Seed :=
  ⟨⟨2, false, 3⟩, fixture_decoder
    [⟨ROOT_CHAIN, 1, false, 11, 0, 0, 0, 0⟩, ⟨NODE, 2, false, 6, 4, 0, 0, 0⟩]⟩

/-- Two forward seeds at offsets 1 and 3 of one node of a root chain. -/
def node_pair_seeds : List Seed := [node_pair_first, node_pair_second]

/-- Three forward seeds on three trivial child chains (addresses 5, 6, 7) of a
regular snarl of a root chain, at the node offsets 1, 3 and 0; the first child
chain is reversed in the snarl, the other two are not. -/
def orientation_seeds : List Seed :=
  [oriented_seed false 1 REGULAR_SNARL 0 0 5 true 0 0 1,
   oriented_seed false 3 REGULAR_SNARL 0 0 6 false 0 0 2,
   oriented_seed false 0 REGULAR_SNARL 0 0 7 false 0 0 3]

/-! ## Lemmas -/

open reverse_iterator

/-! ### Stores: brackets, seed values, guards -/

theorem match_brackets_append (a b : List tree_item_t) :
    ∀ s : List bracket,
      match_brackets s (a ++ b) = (match_brackets s a).bind (fun s1 => match_brackets s1 b) := by
  induction a with
  | nil => intro s; simp [match_brackets]
  | cons x a ih =>
    intro s
    rw [List.cons_append]
    cases hx : x.type <;> simp only [match_brackets, hx, ih, Option.bind]
    all_goals
      rcases s with _ | ⟨b1, s⟩
      · rfl
      · cases b1 <;> simp only [ih, Option.bind]

/-- Items that are no brackets leave the stack of open scopes as it is. -/
theorem match_brackets_neutral (es : List tree_item_t)
    (h : ∀ e ∈ es, e.type = EDGE ∨ e.type = NODE_COUNT ∨ e.type = SEED) :
    ∀ s : List bracket, match_brackets s es = some s := by
  induction es with
  | nil => intro s; rfl
  | cons x es ih =>
    intro s
    have hx := h x (List.mem_cons_self _ _)
    have ih1 := ih (fun e he => h e (List.mem_cons_of_mem _ he)) s
    simp only [match_brackets]
    rcases hx with hx | hx | hx <;> simp only [hx, ih1]

theorem seed_values_append (a b : List tree_item_t) :
    seed_values (a ++ b) = seed_values a ++ seed_values b := by
  simp [seed_values]

theorem seed_values_no_seed (es : List tree_item_t) (h : ∀ e ∈ es, e.type ≠ SEED) :
    seed_values es = [] := by
  simp only [seed_values, List.map_eq_nil_iff, List.filter_eq_nil_iff]
  intro e he
  simpa using h e he

/-- A guarded store stays guarded when an item is appended that is either no
SEED and no SNARL_START, or comes after an EDGE or a CHAIN_START. -/
theorem guarded_append_one (t : List tree_item_t) (x : tree_item_t) (h : guarded t)
    (hx : (x.type = SEED ∨ x.type = SNARL_START) →
      ∃ y, t.getLast? = some y ∧ (y.type = EDGE ∨ y.type = CHAIN_START)) :
    guarded (t ++ [x]) := by
  intro j item hj hty
  rcases Nat.lt_trichotomy j t.length with hlt | heq | hgt
  · rw [List.get?_eq_getElem?, List.getElem?_append_left hlt] at hj
    obtain ⟨h0, before, hb, hbt⟩ := h j item (by rw [List.get?_eq_getElem?]; exact hj) hty
    refine ⟨h0, before, ?_, hbt⟩
    rw [List.get?_eq_getElem?] at hb ⊢
    rw [List.getElem?_append_left (by omega)]
    exact hb
  · subst heq
    rw [List.get?_eq_getElem?, List.getElem?_append_right (le_refl _)] at hj
    simp at hj
    subst hj
    obtain ⟨y, hy, hyt⟩ := hx hty
    have hne : t ≠ [] := by
      intro h0
      simp [h0] at hy
    have hpos : 0 < t.length := List.length_pos.mpr hne
    refine ⟨hpos, y, ?_, hyt⟩
    rw [List.get?_eq_getElem?, List.getElem?_append_left (by omega)]
    rw [List.getLast?_eq_getElem?] at hy
    exact hy
  · rw [List.get?_eq_getElem?, List.getElem?_append_right (by omega)] at hj
    have : j - t.length ≠ 0 := by omega
    obtain ⟨k, hk⟩ : ∃ k, j - t.length = k + 1 := ⟨j - t.length - 1, by omega⟩
    rw [hk] at hj
    simp at hj

/-- Appending EDGE and NODE_COUNT items keeps a store guarded. -/
theorem guarded_append_plain (es t : List tree_item_t) (h : guarded t)
    (hes : ∀ e ∈ es, e.type ≠ SEED ∧ e.type ≠ SNARL_START) : guarded (t ++ es) := by
  induction es using List.reverseRecOn with
  | nil => simpa using h
  | append_singleton es x ih =>
    rw [← List.append_assoc]
    apply guarded_append_one
    · exact ih (fun e he => hes e (by simp [he]))
    · intro hx
      have := hes x (by simp)
      rcases hx with hx | hx
      · exact absurd hx this.1
      · exact absurd hx this.2

theorem guarded_nil : guarded [] := by
  intro j item hj
  simp at hj

/-- A tick never moves the iterator forward, keeps the bound, and yields only
in state Scan-Chain on a SEED item, leaving the iterator as it was. -/
theorem tick_spec (t : List tree_item_t) (r r1 : reverse_iterator) (y : Bool)
    (h : tick t r = .ok (y, r1)) :
    (r1.it = r.it ∨ r1.it = 0) ∧ r1.distance_limit = r.distance_limit ∧
    (y = true → r1 = r ∧ r.current_state = S_SCAN_CHAIN ∧
      ∃ item, t.get? (r.it - 1) = some item ∧ item.type = SEED) := by
  unfold tick at h
  split at h
  · cases h
  · split at h
    · cases h
    · rename_i item hitem
      obtain ⟨it, lim, stack, st⟩ := r
      cases st <;> cases hty : item.type <;>
        simp only [hty] at h <;>
        (try (rcases stack with _ | ⟨a, _ | ⟨b, _ | ⟨c, rest⟩⟩⟩)) <;>
        simp [bind, Except.bind, pure, Except.pure, push, pop, top, set_top, dup, depth,
                reverse_iterator.reverse, state, halt, enter_chain] at h <;>
        (try split_ifs at h) <;>
        (try simp [bind, Except.bind, pure, Except.pure, push, pop, top, set_top, dup, depth,
                reverse_iterator.reverse, state, halt, enter_chain] at h) <;>
        (try (obtain ⟨rfl, rfl⟩ := h)) <;>
        (try simp_all [push, state, halt])
      generalize (List.take a (c :: rest)).reverse ++ List.drop a (c :: rest) = l at h
      cases l <;> simp at h
      split_ifs at h <;> simp at h <;> obtain ⟨rfl, rfl⟩ := h <;> simp

/-- The scan loop never moves the iterator forward and keeps the bound; when it
stops before `rend` it stands on a SEED item in state Scan-Chain, the last tick
having yielded. -/
theorem scan_spec (t : List tree_item_t) :
    ∀ (fuel : Nat) (r r1 : reverse_iterator), r.it ≤ fuel → scan t fuel r = .ok r1 →
      r1.it ≤ r.it ∧ r1.distance_limit = r.distance_limit ∧
      (r1.it ≠ 0 → r1.current_state = S_SCAN_CHAIN ∧
        ∃ item, t.get? (r1.it - 1) = some item ∧ item.type = SEED) := by
  intro fuel
  induction fuel with
  | zero =>
    intro r r1 hf h
    simp only [scan] at h
    cases h
    refine ⟨le_refl _, rfl, fun h0 => absurd (Nat.le_zero.mp hf) h0⟩
  | succ n ih =>
    intro r r1 hf h
    simp only [scan] at h
    split_ifs at h with h0
    · cases h
      exact ⟨le_refl _, rfl, fun h1 => absurd h0 h1⟩
    · split at h
      · cases h
      · rename_i r2 ht
        cases h
        obtain ⟨_, hl, hy⟩ := tick_spec t r r1 true ht
        obtain ⟨rfl, hs, hi⟩ := hy rfl
        exact ⟨le_refl _, rfl, fun _ => ⟨hs, hi⟩⟩
      · rename_i r2 ht
        obtain ⟨hit, hl, -⟩ := tick_spec t r r2 false ht
        split_ifs at h with h2
        have := ih ⟨r2.it - 1, r2.distance_limit, r2.stack, r2.current_state⟩ r1
          (by simp only; omega) h
        simp only at this
        refine ⟨by omega, by rw [this.2.1, hl], this.2.2⟩

/-! ### The backward automaton: distances within the bound -/

/-- After a tick that does not yield, the automaton is in Scan-Chain only with
a running distance within the bound on top of its stack, unless the item just
read is a SNARL_START. -/
theorem tick_bound (t : List tree_item_t) (r r1 : reverse_iterator)
    (h : tick t r = .ok (false, r1)) (hne : r1.it ≠ 0) (hs : r1.current_state = S_SCAN_CHAIN)
    (x : Nat) (rest : List Nat) (hst : r1.stack = x :: rest) :
    x ≤ r1.distance_limit ∨
      ∃ item, t.get? (r.it - 1) = some item ∧ item.type = SNARL_START := by
  unfold tick at h
  split at h
  · cases h
  · split at h
    · cases h
    · rename_i item hitem
      obtain ⟨it, lim, stack, st⟩ := r
      cases st <;> cases hty : item.type <;>
        simp only [hty] at h <;>
        (try (rcases stack with _ | ⟨a, _ | ⟨b, _ | ⟨c, rest1⟩⟩⟩)) <;>
        simp [bind, Except.bind, pure, Except.pure, push, pop, top, set_top, dup, depth,
                reverse_iterator.reverse, state, halt, enter_chain] at h <;>
        (try split_ifs at h) <;>
        (try simp [bind, Except.bind, pure, Except.pure, push, pop, top, set_top, dup, depth,
                reverse_iterator.reverse, state, halt, enter_chain] at h) <;>
        (try subst h) <;>
        (try simp_all [push, state, halt]) <;>
        (try omega)
      generalize (List.take a (c :: rest1)).reverse ++ List.drop a (c :: rest1) = l at h
      cases l <;> simp at h
      split_ifs at h <;> simp at h <;> subst h <;> simp_all

/-- In a guarded store the scan loop stops before `rend` only with a running
distance within the bound on top of the stack. -/
theorem scan_bound (t : List tree_item_t) (hg : guarded t) :
    ∀ (fuel : Nat) (r r1 : reverse_iterator), r.it ≤ fuel → scan_ready t r →
      scan t fuel r = .ok r1 →
      r1.it ≠ 0 → r1.current_state = S_SCAN_CHAIN →
      ∀ (top : Nat) (rest : List Nat), r1.stack = top :: rest → top ≤ r1.distance_limit := by
  intro fuel
  induction fuel with
  | zero =>
    intro r r1 hf hr h h0 hs top rest hst
    simp only [scan] at h
    cases h
    exact absurd (Nat.le_zero.mp hf) h0
  | succ n ih =>
    intro r r1 hf hr h h0 hs top rest hst
    simp only [scan] at h
    split_ifs at h with hz
    · cases h
      exact absurd hz h0
    · split at h
      · cases h
      · rename_i r2 ht
        cases h
        obtain ⟨_, hl, hy⟩ := tick_spec t r r1 true ht
        obtain ⟨rfl, hsc, item, hi, hty⟩ := hy rfl
        rcases hr hsc top rest hst with hle | ⟨it2, hi2, hty2⟩
        · exact hle
        · exfalso
          obtain ⟨hpos, before, hb, hbt⟩ := hg r1.it it2 hi2 (Or.inr hty2)
          rw [hb] at hi
          cases hi
          rw [hty] at hbt
          rcases hbt with hbt | hbt <;> cases hbt
      · rename_i r2 ht
        split_ifs at h with h2
        obtain ⟨hit, -, -⟩ := tick_spec t r r2 false ht
        refine ih ⟨r2.it - 1, r2.distance_limit, r2.stack, r2.current_state⟩ r1
          (by simp only; omega) ?_ h h0 hs top rest hst
        intro hs2 top2 rest2 hst2
        have hit' : r2.it = r.it := by
          rcases hit with hit | hit
          · exact hit
          · exact absurd hit h2
        have := tick_bound t r r2 ht h2 hs2 top2 rest2 hst2
        simpa [hit'] using this

theorem scan_deref_ready (t : List tree_item_t) (hg : guarded t) (fuel : Nat)
    (r r1 : reverse_iterator) (hf : r.it ≤ fuel) (hr : scan_ready t r)
    (h : scan t fuel r = .ok r1) :
    deref_ready r1 ∧ r1.it ≤ r.it ∧ r1.distance_limit = r.distance_limit := by
  obtain ⟨hle, hl, hs⟩ := scan_spec t fuel r r1 hf h
  refine ⟨fun h0 => ⟨(hs h0).1, ?_⟩, hle, hl⟩
  exact scan_bound t hg fuel r r1 hf hr h h0 (hs h0).1

theorem operator_inc_spec (t : List tree_item_t) (hg : guarded t) (r r1 : reverse_iterator)
    (hr : deref_ready r) (h0 : r.it ≠ 0) (h : operator_inc t r = .ok r1) :
    deref_ready r1 ∧ r1.it < r.it ∧ r1.distance_limit = r.distance_limit := by
  simp only [operator_inc, if_neg h0] at h
  have hready : scan_ready t ⟨r.it - 1, r.distance_limit, r.stack, r.current_state⟩ := by
    intro _ x rest hst
    exact Or.inl ((hr h0).2 x rest hst)
  obtain ⟨h1, h2, h3⟩ := scan_deref_ready t hg (r.it - 1) _ r1 (le_refl _) hready h
  simp only at h2 h3
  exact ⟨h1, by omega, h3⟩

/-- In a guarded store every pair the consumer loop collects lies within the
bound, and its seed is the value of a SEED item before the iterator. -/
theorem backward_from_spec (t : List tree_item_t) (hg : guarded t) :
    ∀ (fuel : Nat) (r : reverse_iterator), deref_ready r →
      ∀ pr ∈ (backward_from t fuel r).1,
        pr.2 ≤ r.distance_limit ∧ ∃ j, j < r.it ∧ t.get? j = some ⟨SEED, pr.1⟩ := by
  intro fuel
  induction fuel with
  | zero => intro r _ pr hpr; simp [backward_from] at hpr
  | succ n ih =>
    intro r hr pr hpr
    simp only [backward_from] at hpr
    split_ifs at hpr with h0
    · simp at hpr
    · have hderef : ∀ p, operator_deref t r = .ok p →
          p.2 ≤ r.distance_limit ∧ ∃ j, j < r.it ∧ t.get? j = some ⟨SEED, p.1⟩ := by
        intro p hp
        simp only [operator_deref, if_neg h0] at hp
        split at hp
        · cases hp
        · rename_i item hitem
          split_ifs at hp with hty
          split at hp
          · cases hp
          · rename_i x rest hst
            cases hp
            refine ⟨(hr h0).2 x rest hst, r.it - 1, by omega, ?_⟩
            rw [hitem]
            obtain ⟨ty, v⟩ := item
            simp only at hty
            simp only [not_not] at hty
            rw [hty]
      split at hpr
      · simp at hpr
      · rename_i p hp
        split at hpr
        · simp only [List.mem_singleton] at hpr
          rw [hpr]
          exact hderef p hp
        · rename_i r1 hinc
          obtain ⟨hr1, hlt, hl⟩ := operator_inc_spec t hg r r1 hr h0 hinc
          simp only [List.mem_cons] at hpr
          rcases hpr with rfl | hpr
          · exact hderef pr hp
          · obtain ⟨hb, j, hj, hget⟩ := ih r1 hr1 pr hpr
            exact ⟨by rw [← hl]; exact hb, j, by omega, hget⟩

/-- The reverse iterator is constructed strictly before its starting position:
the first tick, in state Start, never yields. -/
theorem mk_at_lt (t : List tree_item_t) (b limit : Nat) (r : reverse_iterator)
    (h : mk_at t b limit = .ok r) (hb : b ≠ 0) : r.it < b := by
  obtain ⟨n, rfl⟩ : ∃ n, b = n + 1 := ⟨b - 1, by omega⟩
  simp only [mk_at, scan, if_neg hb] at h
  split at h
  · cases h
  · rename_i r2 ht
    obtain ⟨-, -, hy⟩ := tick_spec t _ r2 true ht
    have := (hy rfl).2.1
    cases this
  · rename_i r2 ht
    obtain ⟨hit, -, -⟩ := tick_spec t _ r2 false ht
    split_ifs at h with h2
    simp only at hit
    obtain ⟨hle, -, -⟩ := scan_spec t n _ r (by simp only; omega) h
    simp only at hle
    omega

/-- In a guarded store every pair of a backward traversal lies within the
bound, and its seed is the value of a SEED item stored at least two places
before the base index of the starting position. -/
theorem backward_traversal_spec (t : List tree_item_t) (hg : guarded t) (src : iterator)
    (limit : Nat) :
    ∀ pr ∈ (backward_traversal t src limit).1,
      pr.2 ≤ limit ∧
        ∃ j, j + 1 < t.length - src.remaining_tree ∧ t.get? j = some ⟨SEED, pr.1⟩ := by
  intro pr hpr
  simp only [backward_traversal, look_back] at hpr
  split at hpr
  · simp at hpr
  · rename_i r hr
    split_ifs at hr with hlen
    simp only [mk_at] at hr
    have hready : scan_ready t ⟨t.length - src.remaining_tree, limit, [], S_START⟩ := by
      intro hs
      cases hs
    obtain ⟨h1, h2, h3⟩ := scan_deref_ready t hg _ _ r (le_refl _) hready hr
    simp only at h2 h3
    obtain ⟨hb, j, hj, hget⟩ := backward_from_spec t hg _ r h1 pr hpr
    refine ⟨by rw [← h3]; exact hb, j, ?_, hget⟩
    have hb : t.length - src.remaining_tree ≠ 0 := by omega
    have := mk_at_lt t _ limit r hr hb
    omega

/-- Every pair the consumer loop collects is the value of a SEED item stored
before the iterator. -/
theorem backward_from_earlier (t : List tree_item_t) :
    ∀ (fuel : Nat) (r : reverse_iterator),
      ∀ pr ∈ (backward_from t fuel r).1, ∃ j, j < r.it ∧ t.get? j = some ⟨SEED, pr.1⟩ := by
  intro fuel
  induction fuel with
  | zero => intro r pr hpr; simp [backward_from] at hpr
  | succ n ih =>
    intro r pr hpr
    simp only [backward_from] at hpr
    split_ifs at hpr with h0
    · simp at hpr
    · have hderef : ∀ p, operator_deref t r = .ok p →
          ∃ j, j < r.it ∧ t.get? j = some ⟨SEED, p.1⟩ := by
        intro p hp
        simp only [operator_deref, if_neg h0] at hp
        split at hp
        · cases hp
        · rename_i item hitem
          split_ifs at hp with hty
          split at hp
          · cases hp
          · cases hp
            refine ⟨r.it - 1, by omega, ?_⟩
            rw [hitem]
            obtain ⟨ty, v⟩ := item
            simp only at hty
            simp only [not_not] at hty
            rw [hty]
      split at hpr
      · simp at hpr
      · rename_i p hp
        split at hpr
        · simp only [List.mem_singleton] at hpr
          rw [hpr]
          exact hderef p hp
        · rename_i r1 hinc
          simp only [List.mem_cons] at hpr
          rcases hpr with rfl | hpr
          · exact hderef pr hp
          · obtain ⟨j, hj, hget⟩ := ih r1 pr hpr
            simp only [operator_inc, if_neg h0] at hinc
            obtain ⟨hle, -, -⟩ := scan_spec t (r.it - 1) _ r1 (le_refl _) hinc
            simp only at hle
            exact ⟨j, by omega, hget⟩

/-! ### Addresses -/

/-- The shape of a level of a well-formed address. -/
theorem address_ok_cases (dec : ZipCodeDecoder) (h : address_ok dec) (d : Nat)
    (hd : d ≤ dec.max_depth) :
    (d = 0 ∧ dec.get_code_type d = ROOT_NODE ∧ dec.max_depth = 0) ∨
    (d = 0 ∧ dec.get_code_type d = ROOT_CHAIN ∧ 0 < dec.max_depth) ∨
    (0 < d ∧ dec.get_code_type d = NODE ∧ d = dec.max_depth ∧
      is_chain_like (dec.get_code_type (d - 1)) = true) ∨
    (0 < d ∧ is_snarl (dec.get_code_type d) = true ∧ d < dec.max_depth ∧
      is_chain_like (dec.get_code_type (d - 1)) = true) ∨
    (0 < d ∧ dec.get_code_type d = CHAIN ∧ is_snarl (dec.get_code_type (d - 1)) = true) := by
  obtain ⟨h0, hstep⟩ := h
  rcases Nat.eq_zero_or_pos d with rfl | hpos
  · rcases h0 with ⟨h1, h2⟩ | ⟨h1, h2⟩
    · exact Or.inl ⟨rfl, h1, h2⟩
    · exact Or.inr (Or.inl ⟨rfl, h1, h2⟩)
  · obtain ⟨e, rfl⟩ : ∃ e, d = e + 1 := ⟨d - 1, by omega⟩
    simp only [Nat.add_sub_cancel]
    rcases hstep e (by omega) with ⟨hp, hc⟩ | ⟨hp, hc⟩
    · have hpl : is_chain_like (dec.get_code_type e) = true := by
        rcases hp with hp | hp <;> simp [hp, is_chain_like]
      rcases hc with ⟨hc, hm⟩ | ⟨hc, hm⟩
      · exact Or.inr (Or.inr (Or.inl ⟨hpos, hc, hm, hpl⟩))
      · refine Or.inr (Or.inr (Or.inr (Or.inl ⟨hpos, ?_, hm, hpl⟩)))
        rcases hc with hc | hc <;> simp [hc, is_snarl]
    · refine Or.inr (Or.inr (Or.inr (Or.inr ⟨hpos, hc, ?_⟩)))
      rcases hp with hp | hp <;> simp [hp, is_snarl]

/-! ### Steps of the constructor -/

theorem bracket_of_node (dec : ZipCodeDecoder) (d : Nat) (h : dec.get_code_type d = NODE) :
    open_brackets dec (d + 1) = open_brackets dec d := by
  simp [open_brackets, bracket_of, h, is_chain_like, is_snarl]

theorem bracket_of_chain (dec : ZipCodeDecoder) (d : Nat)
    (h : is_chain_like (dec.get_code_type d) = true) :
    open_brackets dec (d + 1) = bracket.chain :: open_brackets dec d := by
  simp [open_brackets, bracket_of, h]

theorem bracket_of_snarl (dec : ZipCodeDecoder) (d : Nat)
    (h : is_snarl (dec.get_code_type d) = true) :
    open_brackets dec (d + 1) = bracket.snarl :: open_brackets dec d := by
  have : is_chain_like (dec.get_code_type d) = false := by
    cases hc : dec.get_code_type d <;> simp_all [is_chain_like, is_snarl]
  simp [open_brackets, bracket_of, h, this]

theorem chain_like_not_node {t : code_type_t} (h : is_chain_like t = true) : t ≠ NODE := by
  intro h1; subst h1; cases h

theorem snarl_not_node {t : code_type_t} (h : is_snarl t = true) : t ≠ NODE := by
  intro h1; subst h1; cases h

theorem snarl_not_chain_like {t : code_type_t} (h : is_snarl t = true) :
    is_chain_like t = false := by
  cases t <;> simp_all [is_chain_like, is_snarl]

/-- The store after a child has been recorded in its chain: the optional EDGE
item and then the SEED or SNARL_START item `x`. -/
theorem tree_push_child (t : List tree_item_t) (s : List bracket) (edge x : tree_item_t)
    (p : Prop) [Decidable p] (hg : guarded t) (hb : match_brackets [] t = some s)
    (he : edge.type = EDGE)
    (hlast : ¬ p → ∃ v, t.getLast? = some ⟨CHAIN_START, v⟩) :
    guarded ((if p then t ++ [edge] else t) ++ [x]) ∧
    match_brackets [] ((if p then t ++ [edge] else t) ++ [x]) = match_brackets s [x] ∧
    seed_values ((if p then t ++ [edge] else t) ++ [x]) = seed_values t ++ seed_values [x] := by
  by_cases hp : p
  · simp only [if_pos hp]
    refine ⟨?_, ?_, ?_⟩
    · apply guarded_append_one
      · apply guarded_append_one _ _ hg
        intro h
        rw [he] at h
        rcases h with h | h <;> cases h
      · intro _
        exact ⟨edge, by simp, Or.inl he⟩
    · rw [match_brackets_append, match_brackets_append, hb]
      simp [match_brackets, he]
    · rw [seed_values_append, seed_values_append]
      simp [seed_values, he]
  · simp only [if_neg hp]
    obtain ⟨v, hv⟩ := hlast hp
    refine ⟨?_, ?_, ?_⟩
    · apply guarded_append_one _ _ hg
      intro _
      exact ⟨_, hv, Or.inr rfl⟩
    · rw [match_brackets_append, hb]
      rfl
    · rw [seed_values_append]

theorem open_depth_node (D : SnarlDistanceIndex) (asserts : Bool) (seeds : List Seed)
    (c : Seed) (idx n d : Nat) (rev : Bool) (st : build_state)
    (H : scopes c.zipcode_decoder n d st) (hd : 0 < d)
    (hty : c.zipcode_decoder.get_code_type d = NODE) (hmax : d = c.zipcode_decoder.max_depth)
    (hpar : is_chain_like (c.zipcode_decoder.get_code_type (d - 1)) = true) :
    step_ok asserts (open_depth D asserts seeds c idx d (st, rev))
      (fun s => scopes c.zipcode_decoder n (d + 1) s.1 ∧
        seed_values s.1.zip_code_tree = seed_values st.zip_code_tree ++ [idx]) := by
  obtain ⟨x, hx, hxs⟩ := H.chains (d - 1) (by omega) hpar
  have hd0 : d ≠ 0 := by omega
  have hlen : d - 1 < st.sibling_indices_at_depth.length := by
    have := H.len
    omega
  unfold step_ok
  by_cases hassert : (asserts && !decide (child_offset D c d rev ≥ x.value)) = true
  · left
    simp at hassert
    simp [open_depth, open_node_or_snarl, hty, vec_get, hx, hd0, bind, Except.bind, pure,
      Except.pure, check_assert, vec_modify, vec_pop_back, hassert]
  · right
    simp [open_depth, open_node_or_snarl, hty, vec_get, hx, hd0, bind, Except.bind, pure,
      Except.pure, check_assert, vec_modify, vec_pop_back, hassert]
    obtain ⟨hg, hb, hs⟩ := tree_push_child st.zip_code_tree (open_brackets c.zipcode_decoder d)
      ⟨EDGE, size_sub (child_offset D c d rev) x.value⟩ ⟨SEED, idx⟩
      (d = 1 → c.zipcode_decoder.get_code_type (d - 1) = ROOT_CHAIN → ¬x.type = CHAIN_START)
      H.guard H.brackets rfl
      (by
        intro hp
        simp only [Classical.not_imp, not_not] at hp
        exact (hxs hp.2.2).2.2)
    refine ⟨⟨?_, ?_, ?_, ?_, ?_, hg⟩, ?_⟩
    · simpa using H.len
    · intro e he hce
      by_cases hed : e = d - 1
      · subst hed
        exact ⟨⟨SEED, child_offset D c d rev⟩, by simp [hlen], by simp⟩
      · have hne : e ≠ d := by
          intro h1; subst h1; rw [hty] at hce; cases hce
        obtain ⟨y, hy, hys⟩ := H.chains e (by omega) hce
        refine ⟨y, by simp [List.getElem?_set_ne (Ne.symm hed), hy], ?_⟩
        intro hyt
        have := (hys hyt).1
        omega
    · intro e he hse
      have hed : e ≠ d - 1 := by
        intro h1; subst h1; rw [snarl_not_chain_like hse] at hpar; cases hpar
      have hne : e ≠ d := by
        intro h1; subst h1; rw [hty] at hse; cases hse
      obtain ⟨l, hl, hl2⟩ := H.snarls e (by omega) hse
      exact ⟨l, by simp [List.getElem?_set_ne (Ne.symm hed), hl], hl2⟩
    · intro e l he hl
      have hed : e ≠ d - 1 := by
        intro h1; subst h1
        rcases he with he | he
        · omega
        · exact chain_like_not_node hpar he
      rw [List.getElem?_set_ne (Ne.symm hed)] at hl
      refine H.empty e l ?_ hl
      rcases he with he | he
      · exact Or.inl (by omega)
      · exact Or.inr he
    · rw [hb, bracket_of_node _ _ hty]
      simp [match_brackets]
    · rw [hs]
      simp [seed_values]

theorem close_snarl_edges_ok (seeds : List Seed) (dec : ZipCodeDecoder) (rev : Bool) (d : Nat) :
    ∀ l : List child_info_t, (∀ x ∈ l, x.type = SNARL_START ∨ x.value < seeds.length) →
      ∃ es, close_snarl_edges seeds dec rev d l = .ok es ∧ es.length = l.length ∧
        ∀ e ∈ es, e.type = EDGE := by
  intro l
  induction l with
  | nil => intro _; exact ⟨[], rfl, rfl, by simp⟩
  | cons x l ih =>
    intro h
    obtain ⟨es, hes, hlen, hty⟩ := ih (fun y hy => h y (List.mem_cons_of_mem _ hy))
    by_cases hx1 : x.type = SNARL_START
    · exact ⟨⟨EDGE, dec.get_length d⟩ :: es,
        by simp [close_snarl_edges, hx1, hes, bind, Except.bind, pure, Except.pure],
        by simp [hlen], by simpa using hty⟩
    · have hx : x.value < seeds.length := by
        rcases h x (List.mem_cons_self _ _) with hx | hx
        · exact absurd hx hx1
        · exact hx
      obtain ⟨s, hs⟩ : ∃ s, seeds[x.value]? = some s :=
        ⟨seeds[x.value], List.getElem?_eq_getElem hx⟩
      exact ⟨⟨EDGE, if rev then s.zipcode_decoder.get_distance_to_snarl_start d
          else s.zipcode_decoder.get_distance_to_snarl_end d⟩ :: es,
        by simp [close_snarl_edges, hx1, hes, vec_get, hs, bind, Except.bind, pure, Except.pure],
        by simp [hlen], by simpa using hty⟩

theorem open_chain_edges_ok (D : SnarlDistanceIndex) (seeds : List Seed) (dec : ZipCodeDecoder)
    (rev : Bool) (d : Nat) :
    ∀ l : List child_info_t, (∀ x ∈ l, x.type = SNARL_START ∨ x.value < seeds.length) →
      ∃ es, open_chain_edges D seeds dec rev d l = .ok es ∧ es.length = l.length ∧
        ∀ e ∈ es, e.type = EDGE := by
  intro l
  induction l with
  | nil => intro _; exact ⟨[], rfl, rfl, by simp⟩
  | cons x l ih =>
    intro h
    obtain ⟨es, hes, hlen, hty⟩ := ih (fun y hy => h y (List.mem_cons_of_mem _ hy))
    by_cases hx1 : x.type = SNARL_START
    · exact ⟨⟨EDGE, if rev then dec.get_distance_to_snarl_end d
          else dec.get_distance_to_snarl_start d⟩ :: es,
        by simp [open_chain_edges, hx1, hes, bind, Except.bind, pure, Except.pure],
        by simp [hlen], by simpa using hty⟩
    · by_cases hreg : dec.get_code_type (size_pred d) = REGULAR_SNARL
      · exact ⟨⟨EDGE, SIZE_MAX⟩ :: es,
          by simp [open_chain_edges, hx1, hreg, hes, bind, Except.bind, pure, Except.pure],
          by simp [hlen], by simpa using hty⟩
      · have hx : x.value < seeds.length := by
          rcases h x (List.mem_cons_self _ _) with hx | hx
          · exact absurd hx hx1
          · exact hx
        obtain ⟨s, hs⟩ : ∃ s, seeds[x.value]? = some s :=
          ⟨seeds[x.value], List.getElem?_eq_getElem hx⟩
        exact ⟨⟨EDGE, D.distance_in_snarl (dec.get_net_handle (size_pred d))
            (s.zipcode_decoder.get_rank_in_snarl d) false (dec.get_rank_in_snarl d) false⟩ :: es,
          by simp [open_chain_edges, hx1, hreg, hes, vec_get, hs, bind, Except.bind, pure,
            Except.pure],
          by simp [hlen], by simpa using hty⟩

/-- Closing the scope at depth `d`: the store loses its innermost open scope,
stays guarded and gains no seed. -/
theorem close_scope_spec (D : SnarlDistanceIndex) (seeds : List Seed) (dec : ZipCodeDecoder)
    (rev : Bool) (d : Nat) (st : build_state)
    (hb : match_brackets [] st.zip_code_tree = some (open_brackets dec (d + 1)))
    (hg : guarded st.zip_code_tree)
    (hc : is_chain_like (dec.get_code_type d) = true →
      ∃ l, st.sibling_indices_at_depth[d]? = some l ∧ l ≠ [])
    (hs : is_snarl (dec.get_code_type d) = true →
      ∃ l, st.sibling_indices_at_depth[d]? = some l ∧
        ∀ x ∈ l, x.type = SNARL_START ∨ x.value < seeds.length)
    (hk : is_chain_like (dec.get_code_type d) = true ∨ is_snarl (dec.get_code_type d) = true ∨
      dec.get_code_type d = NODE) :
    ∃ tree, close_scope D seeds dec rev d st = .ok tree ∧
      match_brackets [] tree = some (open_brackets dec d) ∧ guarded tree ∧
      seed_values tree = seed_values st.zip_code_tree := by
  rcases hk with hk | hk | hk
  · obtain ⟨l, hl, hne⟩ := hc hk
    rw [bracket_of_chain _ _ hk] at hb
    obtain ⟨y, hy⟩ : ∃ y, l.getLast? = some y := by
      cases hlast : l.getLast? with
      | none => simp at hlast; exact absurd hlast hne
      | some y => exact ⟨y, rfl⟩
    by_cases hch : dec.get_code_type d = CHAIN
    · refine ⟨_, by simp [close_scope, hch, vec_get, hl, vec_back, hy, bind, Except.bind,
        pure, Except.pure]; rfl, ?_, ?_, ?_⟩
      · rw [match_brackets_append, hb]
        simp [match_brackets]
      · exact guarded_append_plain _ _ hg (by simp)
      · rw [seed_values_append]
        simp [seed_values]
    · have hty : dec.get_code_type d = ROOT_CHAIN ∨ dec.get_code_type d = ROOT_NODE := by
        cases h : dec.get_code_type d <;> simp_all [is_chain_like]
      refine ⟨_, by simp [close_scope, hch, hty, bind, Except.bind, pure, Except.pure]; rfl,
        ?_, ?_, ?_⟩
      · rw [match_brackets_append, hb]
        simp [match_brackets]
      · exact guarded_append_plain _ _ hg (by simp)
      · rw [seed_values_append]
        simp [seed_values]
  · obtain ⟨l, hl, hval⟩ := hs hk
    rw [bracket_of_snarl _ _ hk] at hb
    obtain ⟨es, hes, -, hty⟩ := close_snarl_edges_ok seeds dec rev d l hval
    have h1 : ¬ (dec.get_code_type d = CHAIN ∨ dec.get_code_type d = ROOT_CHAIN ∨
        dec.get_code_type d = ROOT_NODE) := by
      cases h : dec.get_code_type d <;> simp_all [is_snarl]
    have h2 : dec.get_code_type d = REGULAR_SNARL ∨ dec.get_code_type d = IRREGULAR_SNARL := by
      cases h : dec.get_code_type d <;> simp_all [is_snarl]
    have hplain : ∀ e ∈ es.reverse ++
        [(⟨NODE_COUNT, size_sub l.length 1⟩ : tree_item_t), ⟨SNARL_END, SIZE_MAX⟩],
        e.type ≠ SEED ∧ e.type ≠ SNARL_START := by
      intro e he
      simp only [List.mem_append, List.mem_reverse, List.mem_cons, List.mem_singleton,
        List.not_mem_nil, or_false] at he
      rcases he with he | rfl | rfl
      · rw [hty e he]; simp
      · simp
      · simp
    refine ⟨st.zip_code_tree ++ (es.reverse ++
        [⟨NODE_COUNT, size_sub l.length 1⟩, ⟨SNARL_END, SIZE_MAX⟩]),
      by simp [close_scope, h1, h2, vec_get, hl, hes, bind, Except.bind, pure, Except.pure],
      ?_, ?_, ?_⟩
    · rw [match_brackets_append, hb]
      simp only [Option.bind]
      rw [match_brackets_append, match_brackets_neutral es.reverse (by
        intro e he
        exact Or.inl (hty e (List.mem_reverse.mp he)))]
      simp [match_brackets]
    · exact guarded_append_plain _ _ hg hplain
    · rw [seed_values_append, seed_values_no_seed _ (fun e he => (hplain e he).1)]
      simp
  · refine ⟨st.zip_code_tree, by simp [close_scope, hk, pure, Except.pure], ?_, hg, rfl⟩
    rw [bracket_of_node _ _ hk] at hb
    exact hb

theorem address_kind (dec : ZipCodeDecoder) (h : address_ok dec) (d : Nat)
    (hd : d ≤ dec.max_depth) :
    is_chain_like (dec.get_code_type d) = true ∨ is_snarl (dec.get_code_type d) = true ∨
      dec.get_code_type d = NODE := by
  rcases address_ok_cases dec h d hd with h1 | h1 | h1 | h1 | h1
  · exact Or.inl (by simp [h1.2.1, is_chain_like])
  · exact Or.inl (by simp [h1.2.1, is_chain_like])
  · exact Or.inr (Or.inr h1.2.1)
  · exact Or.inr (Or.inl h1.2.1)
  · exact Or.inl (by simp [h1.2.1, is_chain_like])

/-- One iteration of the close loop takes the invariant from depth `d + 1`
to depth `d`. -/
theorem close_depth_spec (D : SnarlDistanceIndex) (seeds : List Seed) (p : ZipCodeDecoder)
    (d : Nat) (rev : Bool) (st : build_state) (hp : address_ok p) (hd : d ≤ p.max_depth)
    (H : scopes p seeds.length (d + 1) st) :
    ∃ s, close_depth D seeds p d (st, rev) = .ok s ∧ scopes p seeds.length d s.1 ∧
      seed_values s.1.zip_code_tree = seed_values st.zip_code_tree ∧
      s.1.sibling_indices_at_depth.length = st.sibling_indices_at_depth.length := by
  have hlen : d < st.sibling_indices_at_depth.length := by
    have := H.len
    omega
  obtain ⟨tree, htree, hb, hg, hsv⟩ := close_scope_spec D seeds p rev d st H.brackets H.guard
    (fun hc => by
      obtain ⟨x, hx, -⟩ := H.chains d (by omega) hc
      exact ⟨[x], hx, by simp⟩)
    (fun hs => by
      obtain ⟨l, hl, -, hl2⟩ := H.snarls d (by omega) hs
      exact ⟨l, hl, hl2⟩)
    (address_kind p hp d hd)
  obtain ⟨l0, hl0⟩ : ∃ l0, st.sibling_indices_at_depth[d]? = some l0 :=
    ⟨_, List.getElem?_eq_getElem hlen⟩
  refine ⟨(⟨tree, st.sibling_indices_at_depth.set d []⟩, _), by
    simp [close_depth, htree, vec_modify, hl0, bind, Except.bind, pure, Except.pure]; rfl,
    ⟨?_, ?_, ?_, ?_, hb, hg⟩, hsv, by simp⟩
  · simpa using H.len
  · intro e he hce
    obtain ⟨x, hx, hxs⟩ := H.chains e (by omega) hce
    refine ⟨x, ?_, ?_⟩
    · simp only
      rw [List.getElem?_set_ne (by omega)]
      exact hx
    · intro hxt
      have := (hxs hxt).1
      omega
  · intro e he hse
    obtain ⟨l, hl, hl2⟩ := H.snarls e (by omega) hse
    refine ⟨l, ?_, hl2⟩
    simp only
    rw [List.getElem?_set_ne (by omega)]
    exact hl
  · intro e l he hl
    simp only at hl
    by_cases hed : e = d
    · subst hed
      rw [List.getElem?_set_self hlen] at hl
      cases hl
      rfl
    · rw [List.getElem?_set_ne (Ne.symm hed)] at hl
      refine H.empty e l ?_ hl
      rcases he with he | he
      · exact Or.inl (by omega)
      · exact Or.inr he

/-- The close loop takes the invariant from depth `low + k` to depth `low`. -/
theorem close_loop_spec (D : SnarlDistanceIndex) (seeds : List Seed) (p : ZipCodeDecoder)
    (low : Nat) (hp : address_ok p) :
    ∀ (k : Nat) (rev : Bool) (st : build_state), low + k ≤ p.max_depth + 1 →
      scopes p seeds.length (low + k) st →
      ∃ s, close_loop D seeds p low k (st, rev) = .ok s ∧ scopes p seeds.length low s.1 ∧
        seed_values s.1.zip_code_tree = seed_values st.zip_code_tree ∧
        s.1.sibling_indices_at_depth.length = st.sibling_indices_at_depth.length := by
  intro k
  induction k with
  | zero =>
    intro rev st _ H
    exact ⟨(st, rev), rfl, H, rfl, rfl⟩
  | succ k ih =>
    intro rev st hk H
    obtain ⟨s1, hs1, H1, hv1, hl1⟩ := close_depth_spec D seeds p (low + k) rev st hp (by omega) H
    obtain ⟨s2, hs2, H2, hv2, hl2⟩ := ih s1.2 s1.1 (by omega) H1
    refine ⟨s2, ?_, H2, by rw [hv2, hv1], by rw [hl2, hl1]⟩
    simp only [close_loop, hs1, bind, Except.bind]
    exact hs2

theorem open_depth_snarl (D : SnarlDistanceIndex) (asserts : Bool) (seeds : List Seed)
    (c : Seed) (idx n d : Nat) (rev : Bool) (st : build_state)
    (H : scopes c.zipcode_decoder n d st) (hd : 0 < d)
    (hty : is_snarl (c.zipcode_decoder.get_code_type d) = true)
    (hmax : d < c.zipcode_decoder.max_depth)
    (hpar : is_chain_like (c.zipcode_decoder.get_code_type (d - 1)) = true) :
    step_ok asserts (open_depth D asserts seeds c idx d (st, rev))
      (fun s => scopes c.zipcode_decoder n (d + 1) s.1 ∧
        seed_values s.1.zip_code_tree = seed_values st.zip_code_tree) := by
  obtain ⟨x, hx, hxs⟩ := H.chains (d - 1) (by omega) hpar
  have hd0 : d ≠ 0 := by omega
  have hlen1 : d - 1 < st.sibling_indices_at_depth.length := by
    have := H.len
    omega
  have hlen : d < st.sibling_indices_at_depth.length := by
    have := H.len
    omega
  have hl0 : st.sibling_indices_at_depth[d]? = some [] := by
    rw [List.getElem?_eq_getElem hlen]
    congr 1
    exact H.empty d _ (Or.inl (le_refl _)) (List.getElem?_eq_getElem hlen)
  have hx' : (st.sibling_indices_at_depth.set d [⟨SNARL_START, SIZE_MAX⟩])[d - 1]? = some [x] := by
    rw [List.getElem?_set_ne (by omega)]
    exact hx
  have h1 : c.zipcode_decoder.get_code_type d = REGULAR_SNARL ∨
      c.zipcode_decoder.get_code_type d = IRREGULAR_SNARL := by
    cases h : c.zipcode_decoder.get_code_type d <;> simp_all [is_snarl]
  have h2 : c.zipcode_decoder.get_code_type d ≠ NODE := snarl_not_node hty
  have h3 : c.zipcode_decoder.get_code_type d ≠ ROOT_NODE := by
    intro h; rw [h] at hty; cases hty
  unfold step_ok
  by_cases hassert : (asserts && !decide (child_offset D c d rev ≥ x.value)) = true
  · left
    simp at hassert
    rcases h1 with h1 | h1 <;>
    simp [open_depth, open_node_or_snarl, h1, vec_get, hx, hd0, bind, Except.bind, pure,
      Except.pure, check_assert, vec_modify, vec_pop_back, hassert]
  · right
    obtain ⟨hg, hb, hs⟩ := tree_push_child st.zip_code_tree (open_brackets c.zipcode_decoder d)
      ⟨EDGE, size_sub (child_offset D c d rev) x.value⟩ ⟨SNARL_START, SIZE_MAX⟩
      (d = 1 → c.zipcode_decoder.get_code_type (d - 1) = ROOT_CHAIN → ¬x.type = CHAIN_START)
      H.guard H.brackets rfl
      (by
        intro hp
        simp only [Classical.not_imp, not_not] at hp
        exact (hxs hp.2.2).2.2)
    refine ⟨(⟨(if d = 1 → c.zipcode_decoder.get_code_type (d - 1) = ROOT_CHAIN →
          ¬x.type = CHAIN_START then st.zip_code_tree ++
            [⟨EDGE, size_sub (child_offset D c d rev) x.value⟩] else st.zip_code_tree) ++
          [⟨SNARL_START, SIZE_MAX⟩],
        (st.sibling_indices_at_depth.set d [⟨SNARL_START, SIZE_MAX⟩]).set (d - 1)
          [⟨SEED, D.sum (child_offset D c d rev) (c.zipcode_decoder.get_length d)⟩]⟩,
        flip_if (decide (d < c.zipcode_decoder.max_depth) &&
          c.zipcode_decoder.get_is_reversed_in_parent (d + 1)) rev), ?_,
      ⟨?_, ?_, ?_, ?_, ?_, hg⟩, ?_⟩
    · rcases h1 with h1 | h1 <;>
      simp [open_depth, open_node_or_snarl, h1, vec_get, hx, hx', hl0, hd0, bind, Except.bind,
        pure, Except.pure, check_assert, vec_modify, vec_pop_back, hassert]
    · simpa using H.len
    · intro e he hce
      by_cases hed : e = d - 1
      · subst hed
        exact ⟨⟨SEED, D.sum (child_offset D c d rev) (c.zipcode_decoder.get_length d)⟩,
          by simp [hlen1], by simp⟩
      · have hne : e ≠ d := by
          intro h; subst h; rw [snarl_not_chain_like hty] at hce; cases hce
        obtain ⟨y, hy, hys⟩ := H.chains e (by omega) hce
        refine ⟨y, ?_, ?_⟩
        · simp only
          rw [List.getElem?_set_ne (Ne.symm hed), List.getElem?_set_ne (Ne.symm hne)]
          exact hy
        · intro hyt
          have := (hys hyt).1
          omega
    · intro e he hse
      have hed : e ≠ d - 1 := by
        intro h; subst h; rw [snarl_not_chain_like hse] at hpar; cases hpar
      by_cases hne : e = d
      · subst hne
        refine ⟨[⟨SNARL_START, SIZE_MAX⟩], ?_, by simp, by simp⟩
        simp only
        rw [List.getElem?_set_ne (Ne.symm hed), List.getElem?_set_self hlen]
      · obtain ⟨l, hl, hl2⟩ := H.snarls e (by omega) hse
        refine ⟨l, ?_, hl2⟩
        simp only
        rw [List.getElem?_set_ne (Ne.symm hed), List.getElem?_set_ne (Ne.symm hne)]
        exact hl
    · intro e l he hl
      simp only at hl
      have hed : e ≠ d - 1 := by
        intro h; subst h
        rcases he with he | he
        · omega
        · exact chain_like_not_node hpar he
      have hne : e ≠ d := by
        intro h; subst h
        rcases he with he | he
        · omega
        · exact h2 he
      rw [List.getElem?_set_ne (Ne.symm hed), List.getElem?_set_ne (Ne.symm hne)] at hl
      refine H.empty e l ?_ hl
      rcases he with he | he
      · exact Or.inl (by omega)
      · exact Or.inr he
    · simp only
      rw [hb, bracket_of_snarl _ _ hty]
      simp [match_brackets]
    · simp only
      rw [hs]
      simp [seed_values]

theorem open_depth_root_chain (D : SnarlDistanceIndex) (asserts : Bool) (seeds : List Seed)
    (c : Seed) (idx n : Nat) (rev : Bool) (st : build_state)
    (H : scopes c.zipcode_decoder n 0 st)
    (hty : c.zipcode_decoder.get_code_type 0 = ROOT_CHAIN)
    (hmax : 0 < c.zipcode_decoder.max_depth) :
    step_ok asserts (open_depth D asserts seeds c idx 0 (st, rev))
      (fun s => scopes c.zipcode_decoder n 1 s.1 ∧
        seed_values s.1.zip_code_tree = seed_values st.zip_code_tree) := by
  have hlen : 0 < st.sibling_indices_at_depth.length := by
    have := H.len
    omega
  have hl0 : st.sibling_indices_at_depth[0]? = some [] := by
    rw [List.getElem?_eq_getElem hlen]
    congr 1
    exact H.empty 0 _ (Or.inl (le_refl _)) (List.getElem?_eq_getElem hlen)
  right
  simp [open_depth, open_chain, hty, vec_get, hl0, bind, Except.bind, pure,
      Except.pure, check_assert, vec_modify, hmax.ne]
  refine ⟨⟨?_, ?_, ?_, ?_, ?_, ?_⟩, ?_⟩
  · simpa using H.len
  · intro e he hce
    obtain rfl : e = 0 := by omega
    refine ⟨⟨CHAIN_START, 0⟩, by simp [hlen], ?_⟩
    intro _
    exact ⟨rfl, hmax, SIZE_MAX, by simp⟩
  · intro e he hse
    obtain rfl : e = 0 := by omega
    rw [hty] at hse
    cases hse
  · intro e l he hl
    simp only at hl
    have hne : e ≠ 0 := by
      intro h; subst h
      rcases he with he | he
      · omega
      · rw [hty] at he; cases he
    rw [List.getElem?_set_ne (Ne.symm hne)] at hl
    refine H.empty e l ?_ hl
    rcases he with he | he
    · exact Or.inl (by omega)
    · exact Or.inr he
  · simp only
    rw [match_brackets_append, H.brackets, bracket_of_chain _ _ (by simp [hty, is_chain_like])]
    simp [match_brackets, open_brackets]
  · exact guarded_append_plain _ _ H.guard (by simp)
  · rw [seed_values_append]
    simp [seed_values]

theorem open_depth_root_node (D : SnarlDistanceIndex) (asserts : Bool) (seeds : List Seed)
    (c : Seed) (idx n : Nat) (rev : Bool) (st : build_state)
    (H : scopes c.zipcode_decoder n 0 st)
    (hty : c.zipcode_decoder.get_code_type 0 = ROOT_NODE)
    (hmax : c.zipcode_decoder.max_depth = 0) :
    step_ok asserts (open_depth D asserts seeds c idx 0 (st, rev))
      (fun s => scopes c.zipcode_decoder n 1 s.1 ∧
        seed_values s.1.zip_code_tree = seed_values st.zip_code_tree ++ [idx]) := by
  have hlen : 0 < st.sibling_indices_at_depth.length := by
    have := H.len
    omega
  have hl0 : st.sibling_indices_at_depth[0]? = some [] := by
    rw [List.getElem?_eq_getElem hlen]
    congr 1
    exact H.empty 0 _ (Or.inl (le_refl _)) (List.getElem?_eq_getElem hlen)
  right
  simp [open_depth, open_node_or_snarl, hty, vec_get, hl0, bind, Except.bind, pure,
      Except.pure, check_assert, vec_modify, vec_pop_back, hlen]
  refine ⟨⟨?_, ?_, ?_, ?_, ?_, ?_⟩, ?_⟩
  · simpa using H.len
  · intro e he hce
    obtain rfl : e = 0 := by omega
    exact ⟨⟨SEED, child_offset D c 0 rev⟩, by simp [hlen], by simp⟩
  · intro e he hse
    obtain rfl : e = 0 := by omega
    rw [hty] at hse
    cases hse
  · intro e l he hl
    simp only at hl
    have hne : e ≠ 0 := by
      intro h; subst h
      rcases he with he | he
      · omega
      · rw [hty] at he; cases he
    rw [List.getElem?_set_ne (Ne.symm hne)] at hl
    refine H.empty e l ?_ hl
    rcases he with he | he
    · exact Or.inl (by omega)
    · exact Or.inr he
  · simp only
    rw [match_brackets_append, H.brackets, bracket_of_chain _ _ (by simp [hty, is_chain_like])]
    simp [match_brackets, open_brackets]
  · have h1 : guarded (st.zip_code_tree ++ [⟨CHAIN_START, SIZE_MAX⟩]) :=
      guarded_append_plain _ _ H.guard (by simp)
    have h2 := guarded_append_one _ ⟨SEED, idx⟩ h1
      (fun _ => ⟨⟨CHAIN_START, SIZE_MAX⟩, by simp, Or.inr rfl⟩)
    simpa using h2
  · rw [seed_values_append]
    simp [seed_values]

theorem reopen_root_node (D : SnarlDistanceIndex) (asserts : Bool) (seeds : List Seed)
    (c : Seed) (idx n : Nat) (rev : Bool) (st : build_state)
    (H : scopes c.zipcode_decoder n 1 st)
    (hty : c.zipcode_decoder.get_code_type 0 = ROOT_NODE)
    (hmax : c.zipcode_decoder.max_depth = 0) :
    step_ok asserts (open_depth D asserts seeds c idx 0 (st, rev))
      (fun s => scopes c.zipcode_decoder n 1 s.1 ∧
        seed_values s.1.zip_code_tree = seed_values st.zip_code_tree ++ [idx]) := by
  have hlen : 0 < st.sibling_indices_at_depth.length := by
    have := H.len
    omega
  obtain ⟨x, hx, hxs⟩ := H.chains 0 (by omega) (by simp [hty, is_chain_like])
  have hxt : x.type ≠ CHAIN_START := by
    intro h
    have := (hxs h).2.1
    omega
  unfold step_ok
  by_cases hassert : (asserts && !decide (child_offset D c 0 rev ≥ x.value)) = true
  · left
    simp at hassert
    simp [open_depth, open_node_or_snarl, hty, vec_get, hx, bind, Except.bind, pure,
      Except.pure, check_assert, vec_modify, vec_pop_back, hassert]
  · right
    simp [open_depth, open_node_or_snarl, hty, vec_get, hx, bind, Except.bind, pure,
      Except.pure, check_assert, vec_modify, vec_pop_back, hassert, hxt]
    refine ⟨⟨?_, ?_, ?_, ?_, ?_, ?_⟩, ?_⟩
    · simpa using H.len
    · intro e he hce
      obtain rfl : e = 0 := by omega
      exact ⟨⟨SEED, child_offset D c 0 rev⟩, by simp [hlen], by simp⟩
    · intro e he hse
      obtain rfl : e = 0 := by omega
      rw [hty] at hse
      cases hse
    · intro e l he hl
      simp only at hl
      have hne : e ≠ 0 := by
        intro h; subst h
        rcases he with he | he
        · omega
        · rw [hty] at he; cases he
      rw [List.getElem?_set_ne (Ne.symm hne)] at hl
      exact H.empty e l he hl
    · simp only
      rw [match_brackets_append, H.brackets]
      simp [match_brackets]
    · have h1 : guarded (st.zip_code_tree ++
          [⟨EDGE, size_sub (child_offset D c 0 rev) x.value⟩]) :=
        guarded_append_plain _ _ H.guard (by simp)
      have h2 := guarded_append_one _ ⟨SEED, idx⟩ h1
        (fun _ => ⟨⟨EDGE, size_sub (child_offset D c 0 rev) x.value⟩, by simp, Or.inl rfl⟩)
      simpa using h2
    · rw [seed_values_append]
      simp [seed_values]

theorem open_depth_chain (D : SnarlDistanceIndex) (asserts : Bool) (seeds : List Seed)
    (c : Seed) (idx d : Nat) (rev : Bool) (st : build_state)
    (H : scopes c.zipcode_decoder seeds.length d st) (hd : 0 < d)
    (hidx : idx < seeds.length)
    (hty : c.zipcode_decoder.get_code_type d = CHAIN)
    (hmax : d ≤ c.zipcode_decoder.max_depth)
    (hpar : is_snarl (c.zipcode_decoder.get_code_type (d - 1)) = true) :
    step_ok asserts (open_depth D asserts seeds c idx d (st, rev))
      (fun s => scopes c.zipcode_decoder seeds.length (d + 1) s.1 ∧
        seed_values s.1.zip_code_tree = seed_values st.zip_code_tree ++
          (if d = c.zipcode_decoder.max_depth then [idx] else [])) := by
  obtain ⟨l, hl, hlne, hlv⟩ := H.snarls (d - 1) (by omega) hpar
  have hd0 : d ≠ 0 := by omega
  have hlen1 : d - 1 < st.sibling_indices_at_depth.length := by
    have := H.len
    omega
  have hlen : d < st.sibling_indices_at_depth.length := by
    have := H.len
    omega
  have hl0 : st.sibling_indices_at_depth[d]? = some [] := by
    rw [List.getElem?_eq_getElem hlen]
    congr 1
    exact H.empty d _ (Or.inl (le_refl _)) (List.getElem?_eq_getElem hlen)
  have hl' : (st.sibling_indices_at_depth.set d [⟨CHAIN_START, 0⟩])[d - 1]? = some l := by
    rw [List.getElem?_set_ne (by omega)]
    exact hl
  obtain ⟨es, hes, -, hesty⟩ := open_chain_edges_ok D seeds c.zipcode_decoder rev d l hlv
  have hsp : size_pred d = d - 1 := by simp [size_pred, hd0]
  have hcl : is_chain_like (c.zipcode_decoder.get_code_type d) = true := by
    simp [hty, is_chain_like]
  -- the store once the chain has been opened
  have hg1 : guarded (st.zip_code_tree ++ es.reverse ++ [⟨CHAIN_START, SIZE_MAX⟩]) := by
    apply guarded_append_plain _ _ _ (by simp)
    apply guarded_append_plain _ _ H.guard
    intro e he
    rw [hesty e (List.mem_reverse.mp he)]
    simp
  have hb1 : match_brackets [] (st.zip_code_tree ++ es.reverse ++ [⟨CHAIN_START, SIZE_MAX⟩]) =
      some (open_brackets c.zipcode_decoder (d + 1)) := by
    rw [match_brackets_append, match_brackets_append, H.brackets]
    simp only [Option.bind]
    rw [match_brackets_neutral es.reverse (fun e he =>
      Or.inl (hesty e (List.mem_reverse.mp he)))]
    simp [match_brackets, bracket_of_chain _ _ hcl]
  have hs1 : seed_values (st.zip_code_tree ++ es.reverse ++ [⟨CHAIN_START, SIZE_MAX⟩]) =
      seed_values st.zip_code_tree := by
    rw [seed_values_append, seed_values_append, seed_values_no_seed es.reverse (by
      intro e he
      rw [hesty e (List.mem_reverse.mp he)]
      simp)]
    simp [seed_values]
  right
  by_cases hleaf : d = c.zipcode_decoder.max_depth
  · have hown : ((st.sibling_indices_at_depth.set d [⟨CHAIN_START, 0⟩]).set (d - 1)
        (l ++ [⟨CHAIN_START, idx⟩]))[d]? = some [⟨CHAIN_START, 0⟩] := by
      rw [List.getElem?_set_ne (by omega), List.getElem?_set_self hlen]
    simp [open_depth, open_chain, hty, vec_get, hl0, hl, hl', hsp, hes, hd0, bind, Except.bind,
      pure, Except.pure, check_assert, vec_modify, vec_pop_back, vec_back, hown, ← hleaf]
    have htree : st.zip_code_tree ++ (es.reverse ++ [(⟨CHAIN_START, SIZE_MAX⟩ : tree_item_t),
        ⟨EDGE, size_sub (trivial_chain_offset c d rev) 0⟩, ⟨SEED, idx⟩]) =
        ((st.zip_code_tree ++ es.reverse ++ [⟨CHAIN_START, SIZE_MAX⟩]) ++
        [⟨EDGE, size_sub (trivial_chain_offset c d rev) 0⟩]) ++ [⟨SEED, idx⟩] := by simp
    refine ⟨⟨?_, ?_, ?_, ?_, ?_, ?_⟩, ?_⟩
    · simpa using H.len
    · intro e he hce
      by_cases hed : e = d
      · subst hed
        exact ⟨⟨SEED, trivial_chain_offset c e rev⟩, by simp [hlen], by simp⟩
      · have hne : e ≠ d - 1 := by
          intro h; subst h; rw [snarl_not_chain_like hpar] at hce; cases hce
        obtain ⟨y, hy, hys⟩ := H.chains e (by omega) hce
        refine ⟨y, ?_, ?_⟩
        · simp only
          rw [List.getElem?_set_ne (Ne.symm hed), List.getElem?_set_ne (Ne.symm hne),
            List.getElem?_set_ne (Ne.symm hed)]
          exact hy
        · intro hyt
          have := (hys hyt).1
          omega
    · intro e he hse
      have hed : e ≠ d := by
        intro h; subst h; rw [snarl_not_chain_like hse] at hcl; cases hcl
      by_cases hne : e = d - 1
      · subst hne
        refine ⟨l ++ [⟨CHAIN_START, idx⟩], ?_, by simp, ?_⟩
        · simp only
          rw [List.getElem?_set_ne (Ne.symm hed), List.getElem?_set_self (by simpa using hlen1)]
        · intro y hy
          simp only [List.mem_append, List.mem_singleton] at hy
          rcases hy with hy | rfl
          · exact hlv y hy
          · exact Or.inr hidx
      · obtain ⟨l2, hl2, hl3⟩ := H.snarls e (by omega) hse
        refine ⟨l2, ?_, hl3⟩
        simp only
        rw [List.getElem?_set_ne (Ne.symm hed), List.getElem?_set_ne (Ne.symm hne),
          List.getElem?_set_ne (Ne.symm hed)]
        exact hl2
    · intro e l2 he hl2
      simp only at hl2
      have hed : e ≠ d := by
        intro h; subst h
        rcases he with he | he
        · omega
        · rw [hty] at he; cases he
      have hne : e ≠ d - 1 := by
        intro h; subst h
        rcases he with he | he
        · omega
        · exact snarl_not_node hpar he
      rw [List.getElem?_set_ne (Ne.symm hed), List.getElem?_set_ne (Ne.symm hne),
        List.getElem?_set_ne (Ne.symm hed)] at hl2
      refine H.empty e l2 ?_ hl2
      rcases he with he | he
      · exact Or.inl (by omega)
      · exact Or.inr he
    · simp only
      rw [htree, match_brackets_append, match_brackets_append, hb1]
      simp [match_brackets]
    · simp only
      rw [htree]
      apply guarded_append_one
      · exact guarded_append_plain _ _ hg1 (by simp)
      · intro _
        exact ⟨⟨EDGE, size_sub (trivial_chain_offset c d rev) 0⟩, by simp, Or.inl rfl⟩
    · rw [htree, seed_values_append, seed_values_append, hs1]
      simp [seed_values]
  · have hmax' : d < c.zipcode_decoder.max_depth := by omega
    simp [open_depth, open_chain, hty, vec_get, hl0, hl, hl', hsp, hes, hd0, bind, Except.bind,
      pure, Except.pure, check_assert, vec_modify, vec_pop_back, vec_back, hleaf]
    have htree2 : st.zip_code_tree ++ (es.reverse ++ [(⟨CHAIN_START, SIZE_MAX⟩ : tree_item_t)]) =
        st.zip_code_tree ++ es.reverse ++ [⟨CHAIN_START, SIZE_MAX⟩] := by simp
    refine ⟨⟨?_, ?_, ?_, ?_, ?_, ?_⟩, ?_⟩
    · simpa using H.len
    · intro e he hce
      by_cases hed : e = d
      · subst hed
        refine ⟨⟨CHAIN_START, 0⟩, ?_, ?_⟩
        · simp only
          rw [List.getElem?_set_ne (by omega), List.getElem?_set_self hlen]
        · intro _
          refine ⟨rfl, by omega, SIZE_MAX, ?_⟩
          simp
      · have hne : e ≠ d - 1 := by
          intro h; subst h; rw [snarl_not_chain_like hpar] at hce; cases hce
        obtain ⟨y, hy, hys⟩ := H.chains e (by omega) hce
        refine ⟨y, ?_, ?_⟩
        · simp only
          rw [List.getElem?_set_ne (Ne.symm hne), List.getElem?_set_ne (Ne.symm hed)]
          exact hy
        · intro hyt
          have := (hys hyt).1
          omega
    · intro e he hse
      have hed : e ≠ d := by
        intro h; subst h; rw [snarl_not_chain_like hse] at hcl; cases hcl
      by_cases hne : e = d - 1
      · subst hne
        refine ⟨l ++ [⟨CHAIN_START, idx⟩], ?_, by simp, ?_⟩
        · simp only
          rw [List.getElem?_set_self (by simpa using hlen1)]
        · intro y hy
          simp only [List.mem_append, List.mem_singleton] at hy
          rcases hy with hy | rfl
          · exact hlv y hy
          · exact Or.inr hidx
      · obtain ⟨l2, hl2, hl3⟩ := H.snarls e (by omega) hse
        refine ⟨l2, ?_, hl3⟩
        simp only
        rw [List.getElem?_set_ne (Ne.symm hne), List.getElem?_set_ne (Ne.symm hed)]
        exact hl2
    · intro e l2 he hl2
      simp only at hl2
      have hed : e ≠ d := by
        intro h; subst h
        rcases he with he | he
        · omega
        · rw [hty] at he; cases he
      have hne : e ≠ d - 1 := by
        intro h; subst h
        rcases he with he | he
        · omega
        · exact snarl_not_node hpar he
      rw [List.getElem?_set_ne (Ne.symm hne), List.getElem?_set_ne (Ne.symm hed)] at hl2
      refine H.empty e l2 ?_ hl2
      rcases he with he | he
      · exact Or.inl (by omega)
      · exact Or.inr he
    · simp only
      rw [htree2]
      exact hb1
    · simp only
      rw [htree2]
      exact hg1
    · rw [htree2]
      exact hs1

theorem reopen_trivial_chain (D : SnarlDistanceIndex) (asserts : Bool) (seeds : List Seed)
    (c : Seed) (idx n d : Nat) (rev : Bool) (st : build_state)
    (H : scopes c.zipcode_decoder n (d + 1) st)
    (hty : c.zipcode_decoder.get_code_type d = CHAIN)
    (hmax : d = c.zipcode_decoder.max_depth) :
    step_ok asserts (open_depth D asserts seeds c idx d (st, rev))
      (fun s => scopes c.zipcode_decoder n (d + 1) s.1 ∧
        seed_values s.1.zip_code_tree = seed_values st.zip_code_tree ++ [idx]) := by
  have hlen : d < st.sibling_indices_at_depth.length := by
    have := H.len
    omega
  have hcl : is_chain_like (c.zipcode_decoder.get_code_type d) = true := by
    simp [hty, is_chain_like]
  obtain ⟨x, hx, hxs⟩ := H.chains d (by omega) hcl
  have hxt : x.type ≠ CHAIN_START := by
    intro h
    have := (hxs h).2.1
    omega
  right
  simp [open_depth, open_chain, hty, vec_get, hx, bind, Except.bind, pure,
      Except.pure, check_assert, vec_modify, vec_pop_back, vec_back, ← hmax]
  have htree : st.zip_code_tree ++ [(⟨EDGE, size_sub (trivial_chain_offset c d rev) x.value⟩ :
      tree_item_t), ⟨SEED, idx⟩] = (st.zip_code_tree ++
      [⟨EDGE, size_sub (trivial_chain_offset c d rev) x.value⟩]) ++ [⟨SEED, idx⟩] := by simp
  refine ⟨⟨?_, ?_, ?_, ?_, ?_, ?_⟩, ?_⟩
  · simpa using H.len
  · intro e he hce
    by_cases hed : e = d
    · subst hed
      exact ⟨⟨SEED, trivial_chain_offset c e rev⟩, by simp [hlen], by simp⟩
    · obtain ⟨y, hy, hys⟩ := H.chains e he hce
      refine ⟨y, ?_, ?_⟩
      · simp only
        rw [List.getElem?_set_ne (Ne.symm hed)]
        exact hy
      · intro hyt
        have := (hys hyt).1
        omega
  · intro e he hse
    have hed : e ≠ d := by
      intro h; subst h; rw [snarl_not_chain_like hse] at hcl; cases hcl
    obtain ⟨l2, hl2, hl3⟩ := H.snarls e he hse
    refine ⟨l2, ?_, hl3⟩
    simp only
    rw [List.getElem?_set_ne (Ne.symm hed)]
    exact hl2
  · intro e l2 he hl2
    simp only at hl2
    have hed : e ≠ d := by
      intro h; subst h
      rcases he with he | he
      · omega
      · rw [hty] at he; cases he
    rw [List.getElem?_set_ne (Ne.symm hed)] at hl2
    exact H.empty e l2 he hl2
  · simp only
    rw [htree, match_brackets_append, match_brackets_append, H.brackets]
    simp [match_brackets]
  · simp only
    rw [htree]
    apply guarded_append_one
    · exact guarded_append_plain _ _ H.guard (by simp)
    · intro _
      exact ⟨⟨EDGE, size_sub (trivial_chain_offset c d rev) x.value⟩, by simp, Or.inl rfl⟩
  · rw [htree, seed_values_append, seed_values_append]
    simp [seed_values]

/-- One iteration of the open loop takes the invariant from depth `d` to depth
`d + 1`, and adds the seed at the last level. -/
theorem open_depth_spec (D : SnarlDistanceIndex) (asserts : Bool) (seeds : List Seed)
    (c : Seed) (idx d : Nat) (rev : Bool) (st : build_state)
    (hc : address_ok c.zipcode_decoder) (hidx : idx < seeds.length)
    (hd : d ≤ c.zipcode_decoder.max_depth)
    (H : scopes c.zipcode_decoder seeds.length d st) :
    step_ok asserts (open_depth D asserts seeds c idx d (st, rev))
      (fun s => scopes c.zipcode_decoder seeds.length (d + 1) s.1 ∧
        seed_values s.1.zip_code_tree = seed_values st.zip_code_tree ++
          (if d = c.zipcode_decoder.max_depth then [idx] else [])) := by
  rcases address_ok_cases c.zipcode_decoder hc d hd with
    ⟨rfl, h1, h2⟩ | ⟨rfl, h1, h2⟩ | ⟨h0, h1, h2, h3⟩ | ⟨h0, h1, h2, h3⟩ | ⟨h0, h1, h2⟩
  · have := open_depth_root_node D asserts seeds c idx seeds.length rev st H h1 h2
    simpa [h2] using this
  · have := open_depth_root_chain D asserts seeds c idx seeds.length rev st H h1 h2
    simpa [h2.ne] using this
  · have := open_depth_node D asserts seeds c idx seeds.length d rev st H h0 h1 h2 h3
    simpa [h2] using this
  · have := open_depth_snarl D asserts seeds c idx seeds.length d rev st H h0 h1 h2 h3
    simpa [h2.ne] using this
  · exact open_depth_chain D asserts seeds c idx d rev st H h0 hidx h1 hd h2

/-- The open loop takes the invariant from depth `d` to depth `d + k`. -/
theorem open_loop_spec (D : SnarlDistanceIndex) (asserts : Bool) (seeds : List Seed)
    (c : Seed) (idx : Nat) (hc : address_ok c.zipcode_decoder) (hidx : idx < seeds.length) :
    ∀ (k d : Nat) (rev : Bool) (st : build_state), d + k = c.zipcode_decoder.max_depth + 1 →
      scopes c.zipcode_decoder seeds.length d st →
      step_ok asserts (open_loop D asserts seeds c idx k d (st, rev))
        (fun s => scopes c.zipcode_decoder seeds.length (c.zipcode_decoder.max_depth + 1) s.1 ∧
          seed_values s.1.zip_code_tree = seed_values st.zip_code_tree ++
            (if 0 < k then [idx] else [])) := by
  intro k
  induction k with
  | zero =>
    intro d rev st hk H
    right
    refine ⟨(st, rev), rfl, ?_, by simp⟩
    simp only [Nat.add_zero] at hk
    rw [← hk]
    exact H
  | succ k ih =>
    intro d rev st hk H
    rcases open_depth_spec D asserts seeds c idx d rev st hc hidx (by omega) H with
      ⟨ha, he⟩ | ⟨s1, hs1, H1, hv1⟩
    · left
      exact ⟨ha, by simp [open_loop, he, bind, Except.bind]⟩
    · rcases ih (d + 1) s1.2 s1.1 (by omega) H1 with ⟨ha, he⟩ | ⟨s2, hs2, H2, hv2⟩
      · left
        refine ⟨ha, ?_⟩
        simp only [open_loop, hs1, bind, Except.bind]
        exact he
      · right
        refine ⟨s2, ?_, H2, ?_⟩
        · simp only [open_loop, hs1, bind, Except.bind]
          exact hs2
        · rw [hv2, hv1]
          by_cases hk0 : 0 < k
          · have : d ≠ c.zipcode_decoder.max_depth := by omega
            simp [hk0, this]
          · have : d = c.zipcode_decoder.max_depth := by omega
            simp [hk0, this]

/-! ### The first differing ancestor -/

theorem find_first_different_spec (D : SnarlDistanceIndex) (first : Bool)
    (c p : ZipCodeDecoder) :
    ∀ (k depth : Nat) (cr pr : Bool),
      depth ≤ (find_first_different D first c p k depth cr pr).first_different_ancestor_depth ∧
      (find_first_different D first c p k depth cr pr).first_different_ancestor_depth
        ≤ depth + k ∧
      (∀ e, depth ≤ e →
        e < (find_first_different D first c p k depth cr pr).first_different_ancestor_depth →
        D.is_equal c p e = true) ∧
      ((find_first_different D first c p k depth cr pr).same_node = true →
        (find_first_different D first c p k depth cr pr).first_different_ancestor_depth
          = depth + k ∧
        D.is_equal c p (depth + k) = true) := by
  intro k
  induction k with
  | zero =>
    intro depth cr pr
    unfold find_first_different
    by_cases h : D.is_equal c p depth = false
    · simp [h]
      intro e h1 h2
      omega
    · simp only [Bool.not_eq_false] at h
      simp [h]
      intro e h1 h2
      omega
  | succ k ih =>
    intro depth cr pr
    unfold find_first_different
    by_cases h : D.is_equal c p depth = false
    · simp [h]
      intro e h1 h2
      omega
    · simp only [Bool.not_eq_false] at h
      simp only [h, Bool.true_eq_false, if_false]
      obtain ⟨h1, h2, h3, h4⟩ := ih (depth + 1)
        (flip_if (c.get_is_reversed_in_parent depth) cr)
        (if first = true then pr else flip_if (p.get_is_reversed_in_parent depth) pr)
      refine ⟨by omega, by omega, ?_, ?_⟩
      · intro e he1 he2
        by_cases hed : e = depth
        · rw [hed]; exact h
        · exact h3 e (by omega) he2
      · intro hs
        obtain ⟨h5, h6⟩ := h4 hs
        have heq : depth + (k + 1) = depth + 1 + k := by omega
        exact ⟨by omega, by rw [heq]; exact h6⟩

/-- The first differing ancestor depth lies within both addresses, the
addresses are equal above it, and when the same-node flag is raised they are
equal at every common depth. -/
theorem first_different_ancestor_spec (D : SnarlDistanceIndex) (c p : ZipCodeDecoder) :
    (first_different_ancestor D false c p).first_different_ancestor_depth
      ≤ min c.max_depth p.max_depth ∧
    (∀ e, e < (first_different_ancestor D false c p).first_different_ancestor_depth →
      D.is_equal c p e = true) ∧
    ((first_different_ancestor D false c p).same_node = true →
      (first_different_ancestor D false c p).first_different_ancestor_depth
        = min c.max_depth p.max_depth ∧
      ∀ e, e ≤ min c.max_depth p.max_depth → D.is_equal c p e = true) := by
  obtain ⟨-, h2, h3, h4⟩ := find_first_different_spec D false c p
    (min c.max_depth p.max_depth) 0 false false
  simp only [Nat.zero_add] at h2 h4
  simp only [first_different_ancestor, Bool.false_eq_true, if_false]
  refine ⟨h2, fun e he => h3 e (Nat.zero_le _) he, ?_⟩
  intro hs
  obtain ⟨h5, h6⟩ := h4 hs
  refine ⟨h5, ?_⟩
  intro e he
  rcases Nat.lt_or_ge e (min c.max_depth p.max_depth) with hlt | hge
  · exact h3 e (Nat.zero_le _) (by rw [h5]; exact hlt)
  · have : e = min c.max_depth p.max_depth := by omega
    rw [this]; exact h6

theorem first_different_ancestor_first (D : SnarlDistanceIndex) (c p : ZipCodeDecoder) :
    (first_different_ancestor D true c p).first_different_ancestor_depth = 0 ∧
    (first_different_ancestor D true c p).same_node = false := by
  obtain ⟨-, h2, -, -⟩ := find_first_different_spec D true c p (min c.max_depth 0) 0 false false
  simp only [first_different_ancestor, if_true]
  simp only [Nat.min_zero, Nat.zero_add] at h2 ⊢
  exact ⟨by omega, trivial⟩

/-! ### Moving the invariant -/

theorem open_brackets_congr (p c : ZipCodeDecoder) :
    ∀ d, (∀ e, e < d → p.get_code_type e = c.get_code_type e) →
      open_brackets p d = open_brackets c d := by
  intro d
  induction d with
  | zero => intro _; rfl
  | succ d ih =>
    intro h
    simp only [open_brackets]
    rw [h d (by omega), ih (fun e he => h e (by omega))]

/-- The invariant passes from one address to another that has the same kinds
above depth `d`. -/
theorem scopes_transfer (p c : ZipCodeDecoder) (n d : Nat) (st : build_state)
    (H : scopes p n d st) (hty : ∀ e, e < d → p.get_code_type e = c.get_code_type e)
    (hlen : c.max_depth < st.sibling_indices_at_depth.length)
    (hd : d ≤ p.max_depth → d ≤ c.max_depth) : scopes c n d st := by
  refine ⟨hlen, ?_, ?_, ?_, ?_, H.guard⟩
  · intro e he hce
    rw [← hty e he] at hce
    obtain ⟨x, hx, hxs⟩ := H.chains e he hce
    exact ⟨x, hx, fun hxt => ⟨(hxs hxt).1, hd (hxs hxt).2.1, (hxs hxt).2.2⟩⟩
  · intro e he hse
    rw [← hty e he] at hse
    exact H.snarls e he hse
  · intro e l he hl
    refine H.empty e l ?_ hl
    rcases he with he | he
    · exact Or.inl he
    · rcases Nat.lt_or_ge e d with hlt | hge
      · exact Or.inr (by rw [hty e hlt]; exact he)
      · exact Or.inl hge
  · rw [H.brackets, open_brackets_congr p c d hty]

/-- The invariant steps back over a leaf node. -/
theorem scopes_before_node (c : ZipCodeDecoder) (n d : Nat) (st : build_state)
    (H : scopes c n (d + 1) st) (hty : c.get_code_type d = NODE) : scopes c n d st := by
  refine ⟨H.len, ?_, ?_, ?_, ?_, H.guard⟩
  · intro e he hce
    obtain ⟨x, hx, hxs⟩ := H.chains e (by omega) hce
    refine ⟨x, hx, fun hxt => ?_⟩
    have := (hxs hxt).1
    omega
  · intro e he hse
    exact H.snarls e (by omega) hse
  · intro e l he hl
    refine H.empty e l ?_ hl
    rcases he with he | he
    · rcases Nat.eq_or_lt_of_le he with heq | hlt
      · exact Or.inr (by rw [← heq]; exact hty)
      · exact Or.inl hlt
    · exact Or.inr he
  · rw [H.brackets, bracket_of_node _ _ hty]

/-- Growing `sibling_indices_at_depth` by empty lists keeps the invariant. -/
theorem scopes_pad (p : ZipCodeDecoder) (n d k : Nat) (st : build_state)
    (H : scopes p n d st) :
    scopes p n d ⟨st.zip_code_tree, st.sibling_indices_at_depth ++ List.replicate k []⟩ := by
  have hget : ∀ (e : Nat) (l : List child_info_t), st.sibling_indices_at_depth[e]? = some l →
      (st.sibling_indices_at_depth ++ List.replicate k [])[e]? = some l := by
    intro e l hl
    have hlt : e < st.sibling_indices_at_depth.length := by
      rcases (List.getElem?_eq_some (l := st.sibling_indices_at_depth)).mp hl with ⟨h, _⟩
      exact h
    rw [List.getElem?_append_left hlt]
    exact hl
  refine ⟨?_, ?_, ?_, ?_, H.brackets, H.guard⟩
  · have := H.len
    simp only [List.length_append, List.length_replicate]
    omega
  · intro e he hce
    obtain ⟨x, hx, hxs⟩ := H.chains e he hce
    exact ⟨x, hget e _ hx, hxs⟩
  · intro e he hse
    obtain ⟨l, hl, hl2⟩ := H.snarls e he hse
    exact ⟨l, hget e _ hl, hl2⟩
  · intro e l he hl
    simp only at hl
    rcases Nat.lt_or_ge e st.sibling_indices_at_depth.length with hlt | hge
    · rw [List.getElem?_append_left hlt] at hl
      exact H.empty e l he hl
    · rw [List.getElem?_append_right hge, List.getElem?_replicate] at hl
      split_ifs at hl
      cases hl
      rfl

/-- Re-entering the leaf of the previous seed (the same-node case) keeps the
invariant and adds the seed. -/
theorem reopen_spec (D : SnarlDistanceIndex) (asserts : Bool) (seeds : List Seed)
    (c : Seed) (idx : Nat) (rev : Bool) (st : build_state)
    (hc : address_ok c.zipcode_decoder)
    (H : scopes c.zipcode_decoder seeds.length (c.zipcode_decoder.max_depth + 1) st) :
    step_ok asserts
      (open_depth D asserts seeds c idx c.zipcode_decoder.max_depth (st, rev))
      (fun s => scopes c.zipcode_decoder seeds.length (c.zipcode_decoder.max_depth + 1) s.1 ∧
        seed_values s.1.zip_code_tree = seed_values st.zip_code_tree ++ [idx]) := by
  rcases address_ok_cases c.zipcode_decoder hc c.zipcode_decoder.max_depth (le_refl _) with
    ⟨h0, h1, h2⟩ | ⟨h0, h1, h2⟩ | ⟨h0, h1, h2, h3⟩ | ⟨h0, h1, h2, h3⟩ | ⟨h0, h1, h2⟩
  · rw [h2] at H h1 ⊢
    exact reopen_root_node D asserts seeds c idx seeds.length rev st H h1 h2
  · omega
  · exact open_depth_node D asserts seeds c idx seeds.length _ rev st
      (scopes_before_node _ _ _ _ H h1) h0 h1 rfl h3
  · omega
  · exact reopen_trivial_chain D asserts seeds c idx seeds.length _ rev st H h1 rfl

theorem step_ok_bind {α β : Type} (asserts : Bool) (r : Except Err α) (f : α → Except Err β)
    (Q : α → Prop) (R : β → Prop) (h : step_ok asserts r Q)
    (hf : ∀ a, Q a → step_ok asserts (f a) R) : step_ok asserts (r >>= f) R := by
  rcases h with ⟨ha, he⟩ | ⟨a, ha, hq⟩
  · left
    exact ⟨ha, by rw [he]; rfl⟩
  · rw [ha]
    exact hf a hq

/-- The body of the main loop on the first seed establishes the invariant. -/
theorem add_seed_first (D : SnarlDistanceIndex) (asserts : Bool) (seeds : List Seed)
    (c : Seed) (idx : Nat) (hget : seeds[idx]? = some c) (hc : address_ok c.zipcode_decoder) :
    step_ok asserts (add_seed D asserts seeds none idx ⟨[], []⟩)
      (fun st => scopes c.zipcode_decoder seeds.length (c.zipcode_decoder.max_depth + 1) st ∧
        seed_values st.zip_code_tree = [idx]) := by
  have hidx : idx < seeds.length := by
    rcases (List.getElem?_eq_some (l := seeds)).mp hget with ⟨h, _⟩
    exact h
  obtain ⟨hf0, hfs⟩ := first_different_ancestor_first D c.zipcode_decoder c.zipcode_decoder
  have H0 : scopes c.zipcode_decoder seeds.length 0
      ⟨[], List.replicate (c.zipcode_decoder.max_depth + 1) []⟩ := by
    refine ⟨by simp, ?_, ?_, ?_, rfl, guarded_nil⟩
    · intro e he
      omega
    · intro e he
      omega
    · intro e l _ hl
      simp only [List.getElem?_replicate] at hl
      split_ifs at hl
      cases hl
      rfl
  have hopen := open_loop_spec D asserts seeds c idx hc hidx
    (c.zipcode_decoder.max_depth + 1) 0
    (first_different_ancestor D true c.zipcode_decoder
      c.zipcode_decoder).current_is_reversed _ (by omega) H0
  simp only [add_seed, vec_get, List.get?_eq_getElem?, hget, bind, Except.bind, pure,
    Except.pure, Option.isNone, hf0, hfs, List.length_nil, Nat.sub_zero, List.nil_append,
    Bool.not_false, Bool.not_true, Bool.and_false, Bool.false_eq_true, if_false]
  rcases hopen with ⟨ha, he⟩ | ⟨s, hs, H1, hv⟩
  · left
    refine ⟨ha, ?_⟩
    simp only [he]
  · right
    refine ⟨s.1, ?_, H1, by simpa [seed_values] using hv⟩
    simp only [hs]

theorem mem_of_getElem? {α : Type} (l : List α) (i : Nat) (a : α) (h : l[i]? = some a) :
    a ∈ l ∧ i < l.length := by
  rcases (List.getElem?_eq_some (l := l)).mp h with ⟨h1, h2⟩
  exact ⟨by rw [← h2]; exact List.getElem_mem h1, h1⟩

/-- The body of the main loop on a later seed keeps the invariant and adds the
seed. -/
theorem add_seed_next (D : SnarlDistanceIndex) (asserts : Bool) (seeds : List Seed)
    (c p : Seed) (idx j : Nat) (st : build_state)
    (hgetc : seeds[idx]? = some c) (hgetp : seeds[j]? = some p)
    (hcons : consistent D seeds)
    (H : scopes p.zipcode_decoder seeds.length (p.zipcode_decoder.max_depth + 1) st) :
    step_ok asserts (add_seed D asserts seeds (some j) idx st)
      (fun s => scopes c.zipcode_decoder seeds.length (c.zipcode_decoder.max_depth + 1) s ∧
        seed_values s.zip_code_tree = seed_values st.zip_code_tree ++ [idx]) := by
  obtain ⟨hcm, hidx⟩ := mem_of_getElem? seeds idx c hgetc
  obtain ⟨hpm, -⟩ := mem_of_getElem? seeds j p hgetp
  have hc := hcons.1 c hcm
  have hp := hcons.1 p hpm
  have hagree := hcons.2 c hcm p hpm
  obtain ⟨hf1, hf2, hf3⟩ := first_different_ancestor_spec D c.zipcode_decoder p.zipcode_decoder
  have Hpad := scopes_pad p.zipcode_decoder seeds.length (p.zipcode_decoder.max_depth + 1)
    (c.zipcode_decoder.max_depth + 1 - st.sibling_indices_at_depth.length) st H
  have hlen : c.zipcode_decoder.max_depth <
      (st.sibling_indices_at_depth ++ List.replicate
        (c.zipcode_decoder.max_depth + 1 - st.sibling_indices_at_depth.length) []).length := by
    simp only [List.length_append, List.length_replicate]
    omega
  simp only [add_seed, vec_get, List.get?_eq_getElem?, hgetc, hgetp, bind, Except.bind, pure,
    Except.pure, Option.isNone, Bool.not_false, Bool.and_true, Bool.false_eq_true, if_false]
  cases hsame : (first_different_ancestor D false c.zipcode_decoder
      p.zipcode_decoder).same_node
  · -- the seeds part at the first differing depth: close, then open
    simp only [Bool.not_false, if_true]
    have hfle : (first_different_ancestor D false c.zipcode_decoder
        p.zipcode_decoder).first_different_ancestor_depth ≤ p.zipcode_decoder.max_depth :=
      le_trans hf1 (Nat.min_le_right _ _)
    have hfle' : (first_different_ancestor D false c.zipcode_decoder
        p.zipcode_decoder).first_different_ancestor_depth ≤ c.zipcode_decoder.max_depth :=
      le_trans hf1 (Nat.min_le_left _ _)
    have hk : (first_different_ancestor D false c.zipcode_decoder
        p.zipcode_decoder).first_different_ancestor_depth +
        (p.zipcode_decoder.max_depth + 1 - (first_different_ancestor D false c.zipcode_decoder
        p.zipcode_decoder).first_different_ancestor_depth) =
        p.zipcode_decoder.max_depth + 1 := by omega
    obtain ⟨s1, hs1, H1, hv1, hl1⟩ := close_loop_spec D seeds p.zipcode_decoder
      (first_different_ancestor D false c.zipcode_decoder
        p.zipcode_decoder).first_different_ancestor_depth hp
      (p.zipcode_decoder.max_depth + 1 - (first_different_ancestor D false c.zipcode_decoder
        p.zipcode_decoder).first_different_ancestor_depth)
      (first_different_ancestor D false c.zipcode_decoder p.zipcode_decoder).previous_is_reversed
      _ (by omega) (by rw [hk]; exact Hpad)
    have H2 : scopes c.zipcode_decoder seeds.length
        (first_different_ancestor D false c.zipcode_decoder
          p.zipcode_decoder).first_different_ancestor_depth s1.1 := by
      refine scopes_transfer p.zipcode_decoder c.zipcode_decoder _ _ _ H1 ?_
        (by rw [hl1]; exact hlen) (fun _ => hfle')
      intro e he
      exact ((hagree e (by omega) (by omega) (fun e1 he1 => hf2 e1 (by omega))).1).symm
    have hopen := open_loop_spec D asserts seeds c idx hc hidx
      (c.zipcode_decoder.max_depth + 1 - (first_different_ancestor D false c.zipcode_decoder
        p.zipcode_decoder).first_different_ancestor_depth)
      (first_different_ancestor D false c.zipcode_decoder
        p.zipcode_decoder).first_different_ancestor_depth
      (first_different_ancestor D false c.zipcode_decoder p.zipcode_decoder).current_is_reversed
      s1.1 (by omega) H2
    simp only [hs1]
    rcases hopen with ⟨ha, he⟩ | ⟨s, hs, H3, hv⟩
    · left
      refine ⟨ha, ?_⟩
      simp only [he]
    · right
      refine ⟨s.1, ?_, H3, ?_⟩
      · simp only [hs]
      · rw [hv, hv1]
        have : 0 < c.zipcode_decoder.max_depth + 1 -
            (first_different_ancestor D false c.zipcode_decoder
              p.zipcode_decoder).first_different_ancestor_depth := by omega
        simp [this]
  · -- the seeds are on the same node: nothing is closed, the leaf is re-entered
    simp only [Bool.not_true, Bool.false_eq_true, if_false]
    obtain ⟨hfm, hall⟩ := hf3 hsame
    have hmin := hagree (min c.zipcode_decoder.max_depth p.zipcode_decoder.max_depth)
      (Nat.min_le_left _ _) (Nat.min_le_right _ _) (fun e he => hall e he)
    have hmax : c.zipcode_decoder.max_depth = p.zipcode_decoder.max_depth := by
      have := hmin.2
      rcases Nat.le_total c.zipcode_decoder.max_depth p.zipcode_decoder.max_depth with h | h
      · rw [Nat.min_eq_left h] at this
        exact this.mp rfl
      · rw [Nat.min_eq_right h] at this
        exact (this.mpr rfl).symm
    have hfc : (first_different_ancestor D false c.zipcode_decoder
        p.zipcode_decoder).first_different_ancestor_depth = c.zipcode_decoder.max_depth := by
      rw [hfm, hmax, Nat.min_self]
    have H2 : scopes c.zipcode_decoder seeds.length (c.zipcode_decoder.max_depth + 1)
        ⟨st.zip_code_tree, st.sibling_indices_at_depth ++ List.replicate
          (c.zipcode_decoder.max_depth + 1 - st.sibling_indices_at_depth.length) []⟩ := by
      have h := scopes_transfer p.zipcode_decoder c.zipcode_decoder _ _ _ Hpad (by
        intro e he
        exact ((hagree e (by omega) (by omega)
          (fun e1 he1 => hall e1 (by rw [hmax, Nat.min_self]; omega))).1).symm) hlen
        (fun h => by omega)
      rw [← hmax] at h
      exact h
    have hopen := reopen_spec D asserts seeds c idx
      (first_different_ancestor D false c.zipcode_decoder p.zipcode_decoder).current_is_reversed
      _ hc H2
    rw [hfc]
    have hone : c.zipcode_decoder.max_depth + 1 - c.zipcode_decoder.max_depth = 1 := by omega
    rw [hone]
    simp only [open_loop, bind, Except.bind]
    rcases hopen with ⟨ha, he⟩ | ⟨s, hs, H3, hv⟩
    · left
      refine ⟨ha, ?_⟩
      simp only [he]
    · right
      refine ⟨s.1, ?_, H3, hv⟩
      simp only [hs]

/-- The main loop keeps the invariant and appends the seed indices in order. -/
theorem add_seeds_spec (D : SnarlDistanceIndex) (asserts : Bool) (seeds : List Seed)
    (hcons : consistent D seeds) :
    ∀ (rest : List Nat) (previous : Option Nat) (st : build_state),
      (∀ i ∈ rest, i < seeds.length) → built seeds previous st →
      step_ok asserts (add_seeds D asserts seeds previous rest st)
        (fun s => built seeds (rest.getLast?.or previous) s ∧
          seed_values s.zip_code_tree = seed_values st.zip_code_tree ++ rest) := by
  intro rest
  induction rest with
  | nil =>
    intro previous st _ hb
    right
    exact ⟨st, rfl, by simpa using hb, by simp⟩
  | cons idx rest ih =>
    intro previous st hidx hb
    have hi : idx < seeds.length := hidx idx (List.mem_cons_self _ _)
    have hgetc : seeds[idx]? = some seeds[idx] := List.getElem?_eq_getElem hi
    have hc : address_ok (seeds[idx]).zipcode_decoder :=
      hcons.1 _ (List.getElem_mem hi)
    have hstep : step_ok asserts (add_seed D asserts seeds previous idx st)
        (fun s => built seeds (some idx) s ∧
          seed_values s.zip_code_tree = seed_values st.zip_code_tree ++ [idx]) := by
      cases previous with
      | none =>
        simp only [built] at hb
        subst hb
        rcases add_seed_first D asserts seeds _ idx hgetc hc with h | ⟨s, hs, H, hv⟩
        · exact Or.inl h
        · exact Or.inr ⟨s, hs, ⟨_, hgetc, H⟩, by simpa [seed_values] using hv⟩
      | some j =>
        obtain ⟨p, hgetp, H⟩ := hb
        rcases add_seed_next D asserts seeds _ p idx j st hgetc hgetp hcons H with
          h | ⟨s, hs, H1, hv⟩
        · exact Or.inl h
        · exact Or.inr ⟨s, hs, ⟨_, hgetc, H1⟩, hv⟩
    simp only [add_seeds]
    refine step_ok_bind asserts _ _ _ _ hstep ?_
    intro s1 ⟨hb1, hv1⟩
    rcases ih (some idx) s1 (fun i hi => hidx i (List.mem_cons_of_mem _ hi)) hb1 with
      h | ⟨s2, hs2, hb2, hv2⟩
    · exact Or.inl h
    · refine Or.inr ⟨s2, hs2, ?_, ?_⟩
      · have : (idx :: rest).getLast?.or previous = rest.getLast?.or (some idx) := by
          rw [List.getLast?_cons]
          cases rest.getLast? <;> simp
        rw [this]
        exact hb2
      · rw [hv2, hv1]
        simp

/-- One iteration of the final loop closes the scope at depth `k`, if there is
one. -/
theorem flush_depth_spec (D : SnarlDistanceIndex) (seeds : List Seed) (p : ZipCodeDecoder)
    (hp : address_ok p) (t0 : List tree_item_t) (sib : List (List child_info_t))
    (H : scopes p seeds.length (p.max_depth + 1) ⟨t0, sib⟩)
    (k : Nat) (hk : k ≤ p.max_depth) (rev : Bool) (tree : List tree_item_t)
    (hb : match_brackets [] tree = some (open_brackets p (k + 1))) (hg : guarded tree) :
    ∃ s, flush_depth D seeds p k (⟨tree, sib⟩, rev) = .ok s ∧
      s.1.sibling_indices_at_depth = sib ∧
      match_brackets [] s.1.zip_code_tree = some (open_brackets p k) ∧
      guarded s.1.zip_code_tree ∧ seed_values s.1.zip_code_tree = seed_values tree := by
  have hlen : k < sib.length := by
    have := H.len
    simp only at this
    omega
  rcases address_kind p hp k hk with hkind | hkind | hkind
  · obtain ⟨x, hx, -⟩ := H.chains k (by omega) hkind
    simp only at hx
    obtain ⟨tree1, h1, h2, h3, h4⟩ := close_scope_spec D seeds p rev k ⟨tree, sib⟩ hb hg
      (fun _ => ⟨[x], hx, by simp⟩)
      (fun hs => by rw [snarl_not_chain_like hs] at hkind; cases hkind)
      (Or.inl hkind)
    exact ⟨(⟨tree1, sib⟩, _), by
      simp [flush_depth, vec_get, hx, h1, bind, Except.bind, pure, Except.pure]; rfl,
      rfl, h2, h3, h4⟩
  · obtain ⟨l, hl, hlne, hlv⟩ := H.snarls k (by omega) hkind
    simp only at hl
    obtain ⟨tree1, h1, h2, h3, h4⟩ := close_scope_spec D seeds p rev k ⟨tree, sib⟩ hb hg
      (fun hc => by rw [snarl_not_chain_like hkind] at hc; cases hc)
      (fun _ => ⟨l, hl, hlv⟩)
      (Or.inr (Or.inl hkind))
    have hpos : 0 < l.length := List.length_pos.mpr hlne
    exact ⟨(⟨tree1, sib⟩, _), by
      simp [flush_depth, vec_get, hl, hpos, h1, bind, Except.bind, pure, Except.pure]; rfl,
      rfl, h2, h3, h4⟩
  · have hl : sib[k]? = some [] := by
      rw [List.getElem?_eq_getElem hlen]
      congr 1
      exact H.empty k _ (Or.inr hkind) (List.getElem?_eq_getElem hlen)
    refine ⟨(⟨tree, sib⟩, _), by
      simp [flush_depth, vec_get, hl, bind, Except.bind, pure, Except.pure]; rfl,
      rfl, ?_, hg, rfl⟩
    rw [bracket_of_node _ _ hkind] at hb
    exact hb

/-- The final loop closes the scopes of the levels `0 .. k - 1`. -/
theorem flush_loop_spec (D : SnarlDistanceIndex) (seeds : List Seed) (p : ZipCodeDecoder)
    (hp : address_ok p) (t0 : List tree_item_t) (sib : List (List child_info_t))
    (H : scopes p seeds.length (p.max_depth + 1) ⟨t0, sib⟩) :
    ∀ (k : Nat), k ≤ p.max_depth + 1 → ∀ (rev : Bool) (tree : List tree_item_t),
      match_brackets [] tree = some (open_brackets p k) → guarded tree →
      ∃ s, flush_loop D seeds p k (⟨tree, sib⟩, rev) = .ok s ∧
        well_bracketed s.1.zip_code_tree ∧ guarded s.1.zip_code_tree ∧
        seed_values s.1.zip_code_tree = seed_values tree := by
  intro k
  induction k with
  | zero =>
    intro _ rev tree hb hg
    exact ⟨_, rfl, hb, hg, rfl⟩
  | succ k ih =>
    intro hk rev tree hb hg
    obtain ⟨s1, hs1, hsib, hb1, hg1, hv1⟩ :=
      flush_depth_spec D seeds p hp t0 sib H k (by omega) rev tree hb hg
    obtain ⟨s2, hs2, hb2, hg2, hv2⟩ := ih (by omega) s1.2 s1.1.zip_code_tree hb1 hg1
    refine ⟨s2, ?_, hb2, hg2, by rw [hv2, hv1]⟩
    simp only [flush_loop, hs1, bind, Except.bind]
    have : s1 = (⟨s1.1.zip_code_tree, sib⟩, s1.2) := by
      rw [← hsib]
    rw [this]
    exact hs2

/-- The constructor, run on consistent addresses and valid seed indices, either
fails the offset assertion (when assertions are compiled in) or returns a
store that is well bracketed and guarded and lists the seed indices in order. -/
theorem build_spec (D : SnarlDistanceIndex) (asserts : Bool) (seeds : List Seed)
    (seed_indices : List Nat) (hcons : consistent D seeds) (hne : seed_indices ≠ [])
    (hidx : ∀ i ∈ seed_indices, i < seeds.length) :
    step_ok asserts (build D asserts seeds seed_indices)
      (fun t => well_bracketed t ∧ guarded t ∧ seed_values t = seed_indices) := by
  obtain ⟨j, hj⟩ : ∃ j, seed_indices.getLast? = some j := by
    cases h : seed_indices.getLast? with
    | none => simp at h; exact absurd h hne
    | some j => exact ⟨j, rfl⟩
  simp only [build]
  refine step_ok_bind asserts _ _ _ _
    (add_seeds_spec D asserts seeds hcons seed_indices none ⟨[], []⟩ hidx rfl) ?_
  intro s ⟨hb, hv⟩
  rw [hj] at hb
  obtain ⟨p, hgetp, H⟩ := hb
  obtain ⟨hpm, -⟩ := mem_of_getElem? seeds j p hgetp
  obtain ⟨s2, hs2, hw, hg, hv2⟩ := flush_loop_spec D seeds p.zipcode_decoder (hcons.1 p hpm)
    s.zip_code_tree s.sibling_indices_at_depth H (p.zipcode_decoder.max_depth + 1) (le_refl _)
    ((List.range (p.zipcode_decoder.max_depth + 1)).foldl
      (fun flag depth => flip_if (p.zipcode_decoder.get_is_reversed_in_parent depth) flag) false)
    s.zip_code_tree H.brackets H.guard
  right
  refine ⟨s2.1.zip_code_tree, ?_, hw, hg, ?_⟩
  · simp only [final_flush, vec_back, hj, vec_get, List.get?_eq_getElem?, hgetp, bind,
      Except.bind, pure, Except.pure, hs2]
  · rw [hv2, hv]
    simp [seed_values]

/-- The constructor returns a store when assertions are compiled out. -/
theorem build_total (D : SnarlDistanceIndex) (seeds : List Seed)
    (seed_indices : List Nat) (hcons : consistent D seeds) (hne : seed_indices ≠ [])
    (hidx : ∀ i ∈ seed_indices, i < seeds.length) :
    ∃ t, build D false seeds seed_indices = .ok t := by
  rcases build_spec D false seeds seed_indices hcons hne hidx with ⟨h, -⟩ | ⟨t, ht, -⟩
  · cases h
  · exact ⟨t, ht⟩

/-- Whatever store the constructor returns is well bracketed and guarded and
lists the seed indices in order. -/
theorem build_sound (D : SnarlDistanceIndex) (asserts : Bool) (seeds : List Seed)
    (seed_indices : List Nat) (hcons : consistent D seeds) (hne : seed_indices ≠ [])
    (hidx : ∀ i ∈ seed_indices, i < seeds.length) (t : List tree_item_t)
    (h : build D asserts seeds seed_indices = .ok t) :
    well_bracketed t ∧ guarded t ∧ seed_values t = seed_indices := by
  rcases build_spec D asserts seeds seed_indices hcons hne hidx with ⟨-, he⟩ | ⟨t1, ht, hq⟩
  · rw [he] at h
    cases h
  · rw [ht] at h
    cases h
    exact hq

/-- The number of open chains in a stack of scopes. -/
theorem match_brackets_count (t : List tree_item_t) :
    ∀ (s s1 : List bracket), match_brackets s t = some s1 →
      count_type CHAIN_START t + s.count bracket.chain =
        count_type CHAIN_END t + s1.count bracket.chain ∧
      count_type SNARL_START t + s.count bracket.snarl =
        count_type SNARL_END t + s1.count bracket.snarl := by
  induction t with
  | nil =>
    intro s s1 h
    simp only [match_brackets, Option.some.injEq] at h
    subst h
    simp [count_type]
  | cons x t ih =>
    intro s s1 h
    simp only [match_brackets] at h
    cases hx : x.type <;> simp only [hx] at h
    · have := ih s s1 h
      simpa [count_type, hx] using this
    · have := ih _ s1 h
      simp [count_type, hx] at this ⊢
      omega
    · rcases s with _ | ⟨b, s⟩
      · cases h
      · cases b
        · cases h
        · have := ih _ s1 h
          simp [count_type, hx] at this ⊢
          omega
    · have := ih _ s1 h
      simp [count_type, hx] at this ⊢
      omega
    · rcases s with _ | ⟨b, s⟩
      · cases h
      · cases b
        · have := ih _ s1 h
          simp [count_type, hx] at this ⊢
          omega
        · cases h
    · have := ih s s1 h
      simpa [count_type, hx] using this
    · have := ih s s1 h
      simpa [count_type, hx] using this

/-- When the item before forward position `p` is no SEED, `look_back` from `p`
raises the unsupported-symbol error: its first tick, in state Start, reads that
item. -/
theorem look_back_before (zip_code_tree : List tree_item_t) (p limit : Nat)
    (before : tree_item_t) (hp : 0 < p) (hlt : p < zip_code_tree.length)
    (hbefore : zip_code_tree.get? (p - 1) = some before) (hb : before.type ≠ SEED) :
    look_back zip_code_tree ⟨p, zip_code_tree.length⟩ limit = .error .domain_error := by
  obtain ⟨q, rfl⟩ : ∃ q, p = q + 1 := ⟨p - 1, by omega⟩
  have hrem : zip_code_tree.length - (zip_code_tree.length - (q + 1)) = q + 1 := by omega
  simp only [look_back, iterator.remaining_tree]
  rw [if_neg (by omega), hrem]
  simp only [Nat.add_sub_cancel] at hbefore
  simp only [mk_at, scan, tick, Nat.add_sub_cancel, hbefore]
  cases hty : before.type <;> simp_all

/-! ### The comparator -/

/-- The comparator loop stops at the first depth at which the addresses differ
or one of them ends. -/
theorem comparator_depth_stops (D : SnarlDistanceIndex) (a b : ZipCodeDecoder) (d : Nat)
    (hda : d ≤ a.max_depth) (hdb : d ≤ b.max_depth)
    (heq : ∀ e, e < d → D.is_equal a b e = true)
    (hne : D.is_equal a b d = false) :
    ∀ (k depth : Nat) (ar br : Bool), depth ≤ d → d ≤ depth + k →
      (comparator_depth D a b k depth ar br).1 = d := by
  intro k
  induction k with
  | zero =>
    intro depth ar br h1 h2
    simp only [comparator_depth]
    omega
  | succ k ih =>
    intro depth ar br h1 h2
    simp only [comparator_depth]
    rcases Nat.lt_or_ge depth d with hlt | hge
    · rw [if_pos ⟨by omega, by omega, heq depth hlt⟩]
      exact ih (depth + 1) _ _ (by omega) (by omega)
    · have hd : depth = d := by omega
      subst hd
      rw [if_neg (by simp [hne])]

/-- The comparator never puts a seed before itself. -/
theorem comparator_irrefl (D : SnarlDistanceIndex) (A : Seed) : comparator D A A = false := by
  simp only [comparator]
  split_ifs <;> simp_all

/-! ### Stores: the items before the END items -/

theorem split_append {α : Type} (t c a b : List α) (x : α) (h : t ++ c = a ++ x :: b) :
    (∃ b1, t = a ++ x :: b1 ∧ b = b1 ++ c) ∨ (∃ a1, a = t ++ a1 ∧ c = a1 ++ x :: b) := by
  rcases List.append_eq_append_iff.1 h with ⟨a1, ha, hc⟩ | ⟨c1, ht, hx⟩
  · exact Or.inr ⟨a1, ha, hc⟩
  · cases c1 with
    | nil =>
      simp only [List.nil_append] at hx
      exact Or.inr ⟨[], by simpa using ht.symm, by simpa using hx.symm⟩
    | cons y c1 =>
      simp only [List.cons_append, List.cons.injEq] at hx
      obtain ⟨rfl, rfl⟩ := hx
      exact Or.inl ⟨c1, ht, rfl⟩

theorem split_last (l a b : List tree_item_t) (z x : tree_item_t) (ty : tree_item_type_t)
    (hl : ∀ e ∈ l, e.type ≠ ty) (hx : x.type = ty) (h : l ++ [z] = a ++ x :: b) :
    a = l ∧ x = z ∧ b = [] := by
  rcases split_append l [z] a b x h with ⟨b1, hl1, _⟩ | ⟨a1, ha, hz⟩
  · exact absurd hx (hl x (by rw [hl1]; simp))
  · cases a1 with
    | nil =>
      simp only [List.nil_append, List.cons.injEq] at hz
      exact ⟨by simpa using ha, hz.1.symm, hz.2.symm⟩
    | cons y a1 =>
      simp only [List.cons_append, List.cons.injEq] at hz
      have := hz.2
      simp at this

theorem snarl_ends_ok_nil : snarl_ends_ok [] := by
  intro a x b h
  simp at h

theorem chain_ends_ok_nil : chain_ends_ok [] := by
  intro a x b h
  simp at h

theorem snarl_ends_ok_append (t c : List tree_item_t) (h : snarl_ends_ok t)
    (hc : ∀ x ∈ c, x.type ≠ SNARL_END) : snarl_ends_ok (t ++ c) := by
  intro a x b hsplit hx
  rcases split_append t c a b x hsplit with ⟨b1, ht, _⟩ | ⟨a1, _, hc1⟩
  · exact h a x b1 ht hx
  · exact absurd hx (hc x (by rw [hc1]; simp))

theorem chain_ends_ok_append (t c : List tree_item_t) (h : chain_ends_ok t)
    (hc : ∀ x ∈ c, x.type ≠ CHAIN_END) : chain_ends_ok (t ++ c) := by
  intro a x b hsplit hx
  rcases split_append t c a b x hsplit with ⟨b1, ht, _⟩ | ⟨a1, _, hc1⟩
  · exact h a x b1 ht hx
  · exact absurd hx (hc x (by rw [hc1]; simp))

theorem snarl_ends_ok_close (t edges : List tree_item_t) (pre : List tree_item_t)
    (y : tree_item_t) (v : Nat) (h : snarl_ends_ok t) (ht : t = pre ++ [y])
    (hy : y.type = CHAIN_END) (hne : edges ≠ []) (he : ∀ e ∈ edges, e.type = EDGE) :
    snarl_ends_ok (t ++ edges ++ [⟨NODE_COUNT, size_sub edges.length 1⟩, ⟨SNARL_END, v⟩]) := by
  intro a x b hsplit hx
  rw [List.append_assoc] at hsplit
  rcases split_append t _ a b x hsplit with ⟨b1, ht1, _⟩ | ⟨a1, ha, hc1⟩
  · exact h a x b1 ht1 hx
  · have hc2 : (edges ++ [⟨NODE_COUNT, size_sub edges.length 1⟩]) ++ [⟨SNARL_END, v⟩]
        = a1 ++ x :: b := by simpa using hc1
    obtain ⟨ha1, -, -⟩ := split_last _ a1 b _ x SNARL_END (by
      intro e hmem
      rcases List.mem_append.1 hmem with hmem | hmem
      · rw [he e hmem]; decide
      · simp only [List.mem_singleton] at hmem
        rw [hmem]; simp) hx hc2
    refine ⟨pre, y, edges, ?_, hy, hne, he⟩
    rw [ha, ha1, ht]
    simp

theorem chain_ends_ok_close_root (t pre : List tree_item_t) (y : tree_item_t) (v : Nat)
    (h : chain_ends_ok t) (ht : t = pre ++ [y]) (hy : y.type ≠ EDGE)
    (hb : match_brackets [] t = some [bracket.chain]) :
    chain_ends_ok (t ++ [⟨CHAIN_END, v⟩]) := by
  intro a x b hsplit hx
  rcases split_append t _ a b x hsplit with ⟨b1, ht1, _⟩ | ⟨a1, ha, hc1⟩
  · exact h a x b1 ht1 hx
  · obtain ⟨ha1, -, -⟩ := split_last [] a1 b _ x CHAIN_END (by simp) hx
      (by simpa using hc1)
    subst ha1
    simp only [List.append_nil] at ha
    subst ha
    exact ⟨pre, y, hy, Or.inl ⟨hb, ht⟩⟩

theorem chain_ends_ok_close (t pre : List tree_item_t) (y : tree_item_t) (w v : Nat)
    (o : bracket) (outer : List bracket)
    (h : chain_ends_ok t) (ht : t = pre ++ [y]) (hy : y.type ≠ EDGE)
    (hb : match_brackets [] t = some (bracket.chain :: o :: outer)) :
    chain_ends_ok (t ++ [⟨EDGE, w⟩, ⟨CHAIN_END, v⟩]) := by
  intro a x b hsplit hx
  rcases split_append t _ a b x hsplit with ⟨b1, ht1, _⟩ | ⟨a1, ha, hc1⟩
  · exact h a x b1 ht1 hx
  · obtain ⟨ha1, -, -⟩ := split_last [⟨EDGE, w⟩] a1 b _ x CHAIN_END (by simp) hx
      (by simpa using hc1)
    subst ha1
    subst ha
    refine ⟨pre, y, hy, Or.inr ⟨⟨o, outer, ?_⟩, w, by rw [ht]; simp⟩⟩
    rw [match_brackets_append, hb]
    simp [match_brackets]

theorem close_snarl_edges_shape (seeds : List Seed) (dec : ZipCodeDecoder) (rev : Bool)
    (d : Nat) : ∀ (l : List child_info_t) (es : List tree_item_t),
      close_snarl_edges seeds dec rev d l = .ok es →
      es.length = l.length ∧ ∀ e ∈ es, e.type = EDGE := by
  intro l
  induction l with
  | nil =>
    intro es h
    simp only [close_snarl_edges, Except.ok.injEq] at h
    subst h
    simp
  | cons x l ih =>
    intro es h
    simp only [close_snarl_edges, bind, Except.bind, pure, Except.pure] at h
    by_cases hx : x.type = SNARL_START
    · rw [if_pos hx] at h
      cases hes1 : close_snarl_edges seeds dec rev d l with
      | error e => rw [hes1] at h; simp at h
      | ok es1 =>
        obtain ⟨hlen, hty⟩ := ih es1 hes1
        rw [hes1] at h
        simp only [Except.ok.injEq] at h
        subst h
        exact ⟨by simp [hlen], by simpa using hty⟩
    · rw [if_neg hx] at h
      cases hv : vec_get seeds x.value with
      | error e => rw [hv] at h; simp at h
      | ok v =>
        cases hes1 : close_snarl_edges seeds dec rev d l with
        | error e => rw [hv, hes1] at h; simp at h
        | ok es1 =>
          obtain ⟨hlen, hty⟩ := ih es1 hes1
          rw [hv, hes1] at h
          simp only [Except.ok.injEq] at h
          subst h
          exact ⟨by simp [hlen], by simpa using hty⟩

theorem open_brackets_cons (dec : ZipCodeDecoder)
    (h0 : is_chain_like (dec.get_code_type 0) = true) :
    ∀ d, 0 < d → ∃ o outer, open_brackets dec d = o :: outer := by
  intro d
  induction d with
  | zero => intro h; omega
  | succ d ih =>
    intro _
    rcases Nat.eq_zero_or_pos d with rfl | hpos
    · exact ⟨bracket.chain, [], by simp [open_brackets, bracket_of, h0]⟩
    · obtain ⟨o, outer, ho⟩ := ih hpos
      simp only [open_brackets, ho]
      cases hb : bracket_of (dec.get_code_type d) with
      | nil => exact ⟨o, outer, rfl⟩
      | cons b bs => exact ⟨b, bs ++ o :: outer, rfl⟩

theorem address_root_chain_like (dec : ZipCodeDecoder) (h : address_ok dec) :
    is_chain_like (dec.get_code_type 0) = true := by
  rcases h.1 with ⟨h1, _⟩ | ⟨h1, _⟩ <;> simp [h1, is_chain_like]

/-- Closing the scope at depth `d` keeps the END items of the store preceded as
they should be. -/
theorem close_scope_ends (D : SnarlDistanceIndex) (seeds : List Seed) (dec : ZipCodeDecoder)
    (rev : Bool) (d : Nat) (st : build_state) (t : List tree_item_t)
    (hp : address_ok dec) (hd : d ≤ dec.max_depth)
    (hb : match_brackets [] st.zip_code_tree = some (open_brackets dec (d + 1)))
    (hs : is_snarl (dec.get_code_type d) = true →
      ∃ l, st.sibling_indices_at_depth[d]? = some l ∧ l ≠ [])
    (hQ : closed_to dec (d + 1) st.zip_code_tree)
    (h : close_scope D seeds dec rev d st = .ok t) : closed_to dec d t := by
  obtain ⟨hse, hce, pre, y, htree, hy⟩ := hQ
  rcases address_ok_cases dec hp d hd with ⟨rfl, hty, hmax⟩ | ⟨rfl, hty, hmax⟩ |
    ⟨hpos, hty, hmax, hpar⟩ | ⟨hpos, hty, hmax, hpar⟩ | ⟨hpos, hty, hpar⟩
  · -- a root node
    have hy1 : y.type = SEED := by
      rw [hy]; simp [last_after_close, hmax]
    simp [close_scope, hty, bind, Except.bind, pure, Except.pure] at h
    subst h
    refine ⟨snarl_ends_ok_append _ _ hse (by simp), ?_, _, _, rfl, ?_⟩
    · exact chain_ends_ok_close_root _ pre y _ hce htree (by rw [hy1]; decide)
        (by rw [hb]; simp [open_brackets, bracket_of, hty, is_chain_like])
    · simp [last_after_close, hty, is_snarl, is_chain_like]
  · -- a root chain
    have hy1 : y.type = SEED ∨ y.type = SNARL_END := by
      rw [hy]
      rcases address_ok_cases dec hp 1 (by omega) with ⟨h1, _⟩ | ⟨h1, _⟩ |
        ⟨_, hty1, _, _⟩ | ⟨_, hty1, _, _⟩ | ⟨_, _, hpar1⟩
      · omega
      · omega
      · simp [last_after_close, hty1, is_snarl, is_chain_like]
      · simp [last_after_close, hty1]; omega
      · simp [hty, is_snarl] at hpar1
    simp [close_scope, hty, bind, Except.bind, pure, Except.pure] at h
    subst h
    refine ⟨snarl_ends_ok_append _ _ hse (by simp), ?_, _, _, rfl, ?_⟩
    · exact chain_ends_ok_close_root _ pre y _ hce htree
        (by rcases hy1 with h1 | h1 <;> rw [h1] <;> decide)
        (by rw [hb]; simp [open_brackets, bracket_of, hty, is_chain_like])
    · simp [last_after_close, hty, is_snarl, is_chain_like]
  · -- a leaf node
    have hy1 : y.type = SEED := by
      rw [hy]; simp [last_after_close, hmax]
    simp [close_scope, hty, bind, Except.bind, pure, Except.pure] at h
    subst h
    refine ⟨hse, hce, pre, y, htree, ?_⟩
    rw [hy1]
    simp [last_after_close, hty, is_snarl, is_chain_like]
  · -- a snarl
    have hty1 : dec.get_code_type (d + 1) = CHAIN := by
      rcases address_ok_cases dec hp (d + 1) (by omega) with ⟨h1, _⟩ | ⟨h1, _⟩ |
        ⟨_, _, _, hpar1⟩ | ⟨_, _, _, hpar1⟩ | ⟨_, hty1, _⟩
      · omega
      · omega
      · simp [snarl_not_chain_like hty] at hpar1
      · simp [snarl_not_chain_like hty] at hpar1
      · exact hty1
    have hy1 : y.type = CHAIN_END := by
      rw [hy]
      have : d + 1 ≤ dec.max_depth := by omega
      simp [last_after_close, hty1, is_snarl, is_chain_like, this]
    obtain ⟨l, hl, hne⟩ := hs hty
    have ht : ¬ (dec.get_code_type d = CHAIN ∨ dec.get_code_type d = ROOT_CHAIN ∨
        dec.get_code_type d = ROOT_NODE) := by
      cases h1 : dec.get_code_type d <;> simp_all [is_snarl]
    have hs1 : dec.get_code_type d = REGULAR_SNARL ∨
        dec.get_code_type d = IRREGULAR_SNARL := by
      cases h1 : dec.get_code_type d <;> simp_all [is_snarl]
    simp only [close_scope, if_neg ht, if_pos hs1, vec_get, List.get?_eq_getElem?, hl, bind,
      Except.bind, pure, Except.pure] at h
    split at h
    · simp at h
    · rename_i es hes
      simp only [Except.ok.injEq] at h
      subst h
      obtain ⟨hlen, hedge⟩ := close_snarl_edges_shape seeds dec rev d l es hes
      have hlen1 : l.length = es.reverse.length := by simp [hlen]
      have hne1 : es.reverse ≠ [] := by
        intro h0
        rw [h0] at hlen1
        exact hne (List.length_eq_zero.1 hlen1)
      rw [hlen1]
      refine ⟨snarl_ends_ok_close _ _ pre y _ hse htree hy1 hne1 (by simpa using hedge),
        ?_, st.zip_code_tree ++ es.reverse ++ [⟨NODE_COUNT, size_sub es.reverse.length 1⟩],
        ⟨SNARL_END, SIZE_MAX⟩, by simp, ?_⟩
      · rw [List.append_assoc]
        apply chain_ends_ok_append _ _ hce
        intro x hx
        rcases List.mem_append.1 hx with hx | hx
        · rw [hedge x (by simpa using hx)]; decide
        · simp only [List.mem_cons, List.mem_singleton, List.not_mem_nil, or_false] at hx
          rcases hx with rfl | rfl <;> simp
      · simp [last_after_close, hty, hd]
  · -- a chain inside a snarl
    have hy1 : y.type = SEED ∨ y.type = SNARL_END := by
      rw [hy]
      by_cases hle : d + 1 ≤ dec.max_depth
      · rcases address_ok_cases dec hp (d + 1) hle with ⟨h1, _⟩ | ⟨h1, _⟩ |
          ⟨_, hty1, _, _⟩ | ⟨_, hty1, _, _⟩ | ⟨_, _, hpar1⟩
        · omega
        · omega
        · simp [last_after_close, hty1, is_snarl, is_chain_like]
        · simp [last_after_close, hty1, hle]
        · simp [hty, is_snarl] at hpar1
      · simp [last_after_close, hle]
    simp only [close_scope, hty, true_or, if_true, bind, Except.bind, pure, Except.pure] at h
    split at h
    · simp at h
    · rename_i siblings _
      split at h
      · simp at h
      · rename_i last _
        simp only [Except.ok.injEq] at h
        subst h
        obtain ⟨o, outer, ho⟩ := open_brackets_cons dec (address_root_chain_like dec hp) d hpos
        refine ⟨snarl_ends_ok_append _ _ hse (by simp), ?_, _, _,
          (List.append_assoc _ [_] [_]).symm, ?_⟩
        · exact chain_ends_ok_close _ pre y _ _ o outer hce htree
            (by rcases hy1 with h1 | h1 <;> rw [h1] <;> decide)
            (by rw [hb, bracket_of_chain _ _ (by simp [hty, is_chain_like]), ho])
        · simp [last_after_close, hty, is_snarl, is_chain_like, hd]

theorem close_depth_ends (D : SnarlDistanceIndex) (seeds : List Seed) (p : ZipCodeDecoder)
    (d : Nat) (rev : Bool) (st : build_state) (hp : address_ok p) (hd : d ≤ p.max_depth)
    (H : scopes p seeds.length (d + 1) st) (hQ : closed_to p (d + 1) st.zip_code_tree)
    (s : build_state × Bool) (h : close_depth D seeds p d (st, rev) = .ok s) :
    closed_to p d s.1.zip_code_tree := by
  simp only [close_depth, bind, Except.bind, pure, Except.pure] at h
  cases hcs : close_scope D seeds p rev d st with
  | error e => rw [hcs] at h; simp at h
  | ok tree =>
    rw [hcs] at h
    have hQ1 := close_scope_ends D seeds p rev d st tree hp hd H.brackets
      (fun hs => by
        obtain ⟨l, hl, hne, -⟩ := H.snarls d (by omega) hs
        exact ⟨l, hl, hne⟩) hQ hcs
    simp only at h
    split at h
    · simp at h
    · simp only [Except.ok.injEq] at h
      subst h
      exact hQ1

/-- The close loop keeps the END items of the store preceded as they should
be. -/
theorem close_loop_ends (D : SnarlDistanceIndex) (seeds : List Seed) (p : ZipCodeDecoder)
    (low : Nat) (hp : address_ok p) :
    ∀ (k : Nat) (rev : Bool) (st : build_state) (s : build_state × Bool),
      low + k ≤ p.max_depth + 1 → scopes p seeds.length (low + k) st →
      closed_to p (low + k) st.zip_code_tree →
      close_loop D seeds p low k (st, rev) = .ok s → closed_to p low s.1.zip_code_tree := by
  intro k
  induction k with
  | zero =>
    intro rev st s _ _ hQ h
    simp only [close_loop, Except.ok.injEq] at h
    subst h
    exact hQ
  | succ k ih =>
    intro rev st s hk H hQ h
    obtain ⟨s1, hs1, H1, -, -⟩ := close_depth_spec D seeds p (low + k) rev st hp (by omega) H
    have hQ1 := close_depth_ends D seeds p (low + k) rev st hp (by omega) H hQ s1 hs1
    simp only [close_loop, hs1, bind, Except.bind] at h
    exact ih s1.2 s1.1 s (by omega) H1 hQ1 h

theorem extends_plain_refl (t : List tree_item_t) : extends_plain t t :=
  ⟨[], by simp, by simp⟩

theorem extends_plain_append (t t1 c : List tree_item_t) (h : extends_plain t t1)
    (hc : ∀ x ∈ c, x.type ≠ CHAIN_END ∧ x.type ≠ SNARL_END) : extends_plain t (t1 ++ c) := by
  obtain ⟨chunk, rfl, hchunk⟩ := h
  refine ⟨chunk ++ c, by simp, ?_⟩
  intro x hx
  rcases List.mem_append.1 hx with hx | hx
  · exact hchunk x hx
  · exact hc x hx

theorem extends_plain_snoc (t t1 : List tree_item_t) (x : tree_item_t)
    (h : extends_plain t t1) (h1 : x.type ≠ CHAIN_END) (h2 : x.type ≠ SNARL_END) :
    extends_plain t (t1 ++ [x]) :=
  extends_plain_append t t1 [x] h (by simpa using ⟨h1, h2⟩)

theorem extends_plain_ite (t a b : List tree_item_t) (p : Prop) [Decidable p]
    (ha : extends_plain t a) (hb : extends_plain t b) : extends_plain t (if p then a else b) := by
  split_ifs
  · exact ha
  · exact hb

theorem extends_plain_trans (t t1 t2 : List tree_item_t) (h1 : extends_plain t t1)
    (h2 : extends_plain t1 t2) : extends_plain t t2 := by
  obtain ⟨c2, rfl, hc2⟩ := h2
  exact extends_plain_append t t1 c2 h1 hc2

theorem ends_with_seed (t l : List tree_item_t) (idx : Nat) :
    ∃ pre v, t ++ (l ++ [⟨SEED, idx⟩]) = pre ++ [(⟨SEED, v⟩ : tree_item_t)] :=
  ⟨t ++ l, idx, by simp⟩

theorem open_node_or_snarl_shape (D : SnarlDistanceIndex) (asserts : Bool) (c : Seed)
    (idx d : Nat) (rev : Bool) (st s : build_state)
    (h : open_node_or_snarl D asserts c idx d rev st = .ok s) :
    extends_plain st.zip_code_tree s.zip_code_tree ∧
      ((c.zipcode_decoder.get_code_type d = NODE ∨ c.zipcode_decoder.get_code_type d = ROOT_NODE) →
        ∃ pre v, s.zip_code_tree = pre ++ [⟨SEED, v⟩]) := by
  simp only [open_node_or_snarl, bind, Except.bind, pure, Except.pure] at h
  repeat' split at h
  all_goals (try (simp at h))
  all_goals (try subst h)
  all_goals
    refine ⟨⟨_, rfl, by simp⟩, fun hleaf => ?_⟩
    first
      | exact ends_with_seed _ [] _
      | exact ends_with_seed _ [_] _
      | exact ends_with_seed _ [_, _] _
      | exact absurd hleaf (by assumption)

theorem open_chain_edges_shape (D : SnarlDistanceIndex) (seeds : List Seed)
    (dec : ZipCodeDecoder) (rev : Bool) (d : Nat) :
    ∀ (l : List child_info_t) (es : List tree_item_t),
      open_chain_edges D seeds dec rev d l = .ok es →
      es.length = l.length ∧ ∀ e ∈ es, e.type = EDGE := by
  intro l
  induction l with
  | nil =>
    intro es h
    simp only [open_chain_edges, Except.ok.injEq] at h
    subst h
    simp
  | cons x l ih =>
    intro es h
    simp only [open_chain_edges, bind, Except.bind, pure, Except.pure] at h
    cases hes1 : open_chain_edges D seeds dec rev d l with
    | error e =>
      rw [hes1] at h
      by_cases hx : x.type = SNARL_START
      · rw [if_pos hx] at h; simp at h
      · rw [if_neg hx] at h
        by_cases hr : dec.get_code_type (size_pred d) = REGULAR_SNARL
        · rw [if_pos hr] at h; simp at h
        · rw [if_neg hr] at h
          cases hv : vec_get seeds x.value with
          | error e => rw [hv] at h; simp at h
          | ok v => rw [hv] at h; simp at h
    | ok es1 =>
      obtain ⟨hlen, hty⟩ := ih es1 hes1
      rw [hes1] at h
      by_cases hx : x.type = SNARL_START
      · rw [if_pos hx] at h
        simp only [Except.ok.injEq] at h
        subst h
        exact ⟨by simp [hlen], by simpa using hty⟩
      · rw [if_neg hx] at h
        by_cases hr : dec.get_code_type (size_pred d) = REGULAR_SNARL
        · rw [if_pos hr] at h
          simp only [Except.ok.injEq] at h
          subst h
          exact ⟨by simp [hlen], by simpa using hty⟩
        · rw [if_neg hr] at h
          cases hv : vec_get seeds x.value with
          | error e => rw [hv] at h; simp at h
          | ok v =>
            rw [hv] at h
            simp only [Except.ok.injEq] at h
            subst h
            exact ⟨by simp [hlen], by simpa using hty⟩

theorem extends_plain_edges (t es l : List tree_item_t) (hes : ∀ e ∈ es, e.type = EDGE)
    (hl : ∀ x ∈ l, x.type ≠ CHAIN_END ∧ x.type ≠ SNARL_END) :
    extends_plain t (t ++ (es.reverse ++ l)) := by
  refine ⟨_, rfl, ?_⟩
  intro x hx
  rcases List.mem_append.1 hx with hx | hx
  · rw [hes x (by simpa using hx)]
    exact ⟨by decide, by decide⟩
  · exact hl x hx

theorem ends_with_seed_edges (t es l : List tree_item_t) (idx : Nat) :
    ∃ pre v, t ++ (es ++ (l ++ [⟨SEED, idx⟩])) = pre ++ [(⟨SEED, v⟩ : tree_item_t)] :=
  ⟨t ++ es ++ l, idx, by simp⟩

theorem extends_plain_open_edges (D : SnarlDistanceIndex) (seeds : List Seed)
    (dec : ZipCodeDecoder) (rev : Bool) (d : Nat) (l : List child_info_t)
    (es t tail : List tree_item_t) (h : open_chain_edges D seeds dec rev d l = .ok es)
    (hl : ∀ x ∈ tail, x.type ≠ CHAIN_END ∧ x.type ≠ SNARL_END) :
    extends_plain t (t ++ (es.reverse ++ tail)) :=
  extends_plain_edges t es tail (open_chain_edges_shape D seeds dec rev d l es h).2 hl

theorem open_chain_shape (D : SnarlDistanceIndex) (asserts : Bool) (seeds : List Seed)
    (c : Seed) (idx d : Nat) (rev : Bool) (st s : build_state)
    (h : open_chain D asserts seeds c idx d rev st = .ok s) :
    extends_plain st.zip_code_tree s.zip_code_tree ∧
      (c.zipcode_decoder.get_code_type d = CHAIN ∧ d = c.zipcode_decoder.max_depth →
        ∃ pre v, s.zip_code_tree = pre ++ [⟨SEED, v⟩]) := by
  simp only [open_chain, bind, Except.bind, pure, Except.pure] at h
  repeat' split at h
  all_goals (try (simp at h))
  all_goals (try subst h)
  all_goals
    refine ⟨?_, fun hleaf => ?_⟩
    · first
        | exact extends_plain_refl _
        | (refine extends_plain_open_edges D seeds _ _ _ _ _ _ _ (by assumption) ?_
           simp)
        | (refine ⟨_, rfl, ?_⟩
           simp)
    · first
        | exact ends_with_seed _ [_] _
        | exact ends_with_seed _ [_, _] _
        | exact ends_with_seed_edges _ _ [_, _] _
        | exact absurd hleaf (by assumption)

theorem open_depth_shape (D : SnarlDistanceIndex) (asserts : Bool) (seeds : List Seed)
    (c : Seed) (idx d : Nat) (rev : Bool) (st : build_state) (s : build_state × Bool)
    (h : open_depth D asserts seeds c idx d (st, rev) = .ok s) :
    extends_plain st.zip_code_tree s.1.zip_code_tree ∧
      (d = c.zipcode_decoder.max_depth →
        (c.zipcode_decoder.get_code_type d = NODE ∨ c.zipcode_decoder.get_code_type d = ROOT_NODE ∨
          c.zipcode_decoder.get_code_type d = CHAIN) →
        ∃ pre v, s.1.zip_code_tree = pre ++ [⟨SEED, v⟩]) := by
  simp only [open_depth, bind, Except.bind, pure, Except.pure] at h
  by_cases hty : c.zipcode_decoder.get_code_type d = NODE ∨
      c.zipcode_decoder.get_code_type d = REGULAR_SNARL ∨
      c.zipcode_decoder.get_code_type d = IRREGULAR_SNARL ∨
      c.zipcode_decoder.get_code_type d = ROOT_NODE
  · rw [if_pos hty] at h
    cases hst1 : open_node_or_snarl D asserts c idx d rev st with
    | error e => rw [hst1] at h; simp at h
    | ok st1 =>
      rw [hst1] at h
      simp only [Except.ok.injEq] at h
      subst h
      obtain ⟨h1, h2⟩ := open_node_or_snarl_shape D asserts c idx d rev st st1 hst1
      refine ⟨h1, fun _ hleaf => ?_⟩
      rcases hleaf with hl | hl | hl
      · exact h2 (Or.inl hl)
      · exact h2 (Or.inr hl)
      · rw [hl] at hty
        simp at hty
  · rw [if_neg hty] at h
    cases hst1 : open_chain D asserts seeds c idx d rev st with
    | error e => rw [hst1] at h; simp at h
    | ok st1 =>
      rw [hst1] at h
      simp only [Except.ok.injEq] at h
      subst h
      obtain ⟨h1, h2⟩ := open_chain_shape D asserts seeds c idx d rev st st1 hst1
      refine ⟨h1, fun hd hleaf => ?_⟩
      rcases hleaf with hl | hl | hl
      · exact absurd (Or.inl hl) hty
      · exact absurd (Or.inr (Or.inr (Or.inr hl))) hty
      · exact h2 ⟨hl, hd⟩

/-- The open loop appends no END item and, when it reaches the last level of
the address, ends with the SEED item. -/
theorem open_loop_shape (D : SnarlDistanceIndex) (asserts : Bool) (seeds : List Seed)
    (c : Seed) (idx : Nat)
    (hleaf : c.zipcode_decoder.get_code_type c.zipcode_decoder.max_depth = NODE ∨
      c.zipcode_decoder.get_code_type c.zipcode_decoder.max_depth = ROOT_NODE ∨
      c.zipcode_decoder.get_code_type c.zipcode_decoder.max_depth = CHAIN) :
    ∀ (k d : Nat) (s0 s : build_state × Bool),
      open_loop D asserts seeds c idx k d s0 = .ok s →
      extends_plain s0.1.zip_code_tree s.1.zip_code_tree ∧
        (0 < k → d + k = c.zipcode_decoder.max_depth + 1 →
          ∃ pre v, s.1.zip_code_tree = pre ++ [⟨SEED, v⟩]) := by
  intro k
  induction k with
  | zero =>
    intro d s0 s h
    simp only [open_loop, Except.ok.injEq] at h
    subst h
    exact ⟨extends_plain_refl _, fun h => by omega⟩
  | succ k ih =>
    intro d s0 s h
    simp only [open_loop, bind, Except.bind] at h
    cases hs1 : open_depth D asserts seeds c idx d s0 with
    | error e => rw [hs1] at h; simp at h
    | ok s1 =>
      rw [hs1] at h
      obtain ⟨h1, h2⟩ := open_depth_shape D asserts seeds c idx d s0.2 s0.1 s1 hs1
      obtain ⟨h3, h4⟩ := ih (d + 1) s1 s h
      refine ⟨extends_plain_trans _ _ _ h1 h3, fun _ hk => ?_⟩
      rcases Nat.eq_zero_or_pos k with rfl | hpos
      · simp only [open_loop, Except.ok.injEq] at h
        subst h
        have hd : d = c.zipcode_decoder.max_depth := by omega
        exact h2 hd (by rw [hd]; exact hleaf)
      · exact h4 hpos (by omega)

theorem address_leaf (dec : ZipCodeDecoder) (h : address_ok dec) :
    dec.get_code_type dec.max_depth = NODE ∨ dec.get_code_type dec.max_depth = ROOT_NODE ∨
      dec.get_code_type dec.max_depth = CHAIN := by
  rcases address_ok_cases dec h dec.max_depth (Nat.le_refl _) with ⟨_, h1, _⟩ | ⟨h0, _, h2⟩ |
    ⟨_, h1, _, _⟩ | ⟨_, _, h2, _⟩ | ⟨_, h1, _⟩
  · exact Or.inr (Or.inl h1)
  · omega
  · exact Or.inl h1
  · omega
  · exact Or.inr (Or.inr h1)

theorem snarl_ends_ok_extends (t t1 : List tree_item_t) (h : extends_plain t t1)
    (h1 : snarl_ends_ok t) : snarl_ends_ok t1 := by
  obtain ⟨c, rfl, hc⟩ := h
  exact snarl_ends_ok_append t c h1 (fun x hx => (hc x hx).2)

theorem chain_ends_ok_extends (t t1 : List tree_item_t) (h : extends_plain t t1)
    (h1 : chain_ends_ok t) : chain_ends_ok t1 := by
  obtain ⟨c, rfl, hc⟩ := h
  exact chain_ends_ok_append t c h1 (fun x hx => (hc x hx).1)

theorem closed_to_of_seed (dec : ZipCodeDecoder) (t pre : List tree_item_t) (v : Nat)
    (h1 : snarl_ends_ok t) (h2 : chain_ends_ok t) (ht : t = pre ++ [⟨SEED, v⟩]) :
    closed_to dec (dec.max_depth + 1) t :=
  ⟨h1, h2, pre, _, ht, by simp [last_after_close]⟩

theorem add_seed_first_ends (D : SnarlDistanceIndex) (asserts : Bool) (seeds : List Seed)
    (c : Seed) (idx : Nat) (hget : seeds[idx]? = some c) (hc : address_ok c.zipcode_decoder)
    (s : build_state) (h : add_seed D asserts seeds none idx ⟨[], []⟩ = .ok s) :
    closed_to c.zipcode_decoder (c.zipcode_decoder.max_depth + 1) s.zip_code_tree := by
  obtain ⟨hf0, hfs⟩ := first_different_ancestor_first D c.zipcode_decoder c.zipcode_decoder
  simp only [add_seed, vec_get, List.get?_eq_getElem?, hget, bind, Except.bind, pure,
    Except.pure, Option.isNone, hf0, hfs, List.length_nil, Nat.sub_zero, List.nil_append,
    Bool.not_false, Bool.not_true, Bool.and_false, Bool.false_eq_true, if_false] at h
  split at h
  · simp at h
  · rename_i s2 hs2
    simp only [Except.ok.injEq] at h
    subst h
    obtain ⟨h1, h2⟩ := open_loop_shape D asserts seeds c idx (address_leaf _ hc) _ _ _ _ hs2
    obtain ⟨pre, v, hv⟩ := h2 (by omega) (by omega)
    exact closed_to_of_seed _ _ pre v (snarl_ends_ok_extends _ _ h1 snarl_ends_ok_nil)
      (chain_ends_ok_extends _ _ h1 chain_ends_ok_nil) hv

/-- The body of the main loop keeps the END items of the store preceded as they
should be, and leaves the store ending with a SEED. -/
theorem add_seed_next_ends (D : SnarlDistanceIndex) (asserts : Bool) (seeds : List Seed)
    (c p : Seed) (idx j : Nat) (st : build_state)
    (hgetc : seeds[idx]? = some c) (hgetp : seeds[j]? = some p)
    (hcons : consistent D seeds)
    (H : scopes p.zipcode_decoder seeds.length (p.zipcode_decoder.max_depth + 1) st)
    (hQ : closed_to p.zipcode_decoder (p.zipcode_decoder.max_depth + 1) st.zip_code_tree)
    (s : build_state) (h : add_seed D asserts seeds (some j) idx st = .ok s) :
    closed_to c.zipcode_decoder (c.zipcode_decoder.max_depth + 1) s.zip_code_tree := by
  obtain ⟨hcm, hidx⟩ := mem_of_getElem? seeds idx c hgetc
  obtain ⟨hpm, -⟩ := mem_of_getElem? seeds j p hgetp
  have hc := hcons.1 c hcm
  have hp := hcons.1 p hpm
  obtain ⟨hf1, hf2, hf3⟩ := first_different_ancestor_spec D c.zipcode_decoder p.zipcode_decoder
  have Hpad := scopes_pad p.zipcode_decoder seeds.length (p.zipcode_decoder.max_depth + 1)
    (c.zipcode_decoder.max_depth + 1 - st.sibling_indices_at_depth.length) st H
  have hfle : (first_different_ancestor D false c.zipcode_decoder
      p.zipcode_decoder).first_different_ancestor_depth ≤ p.zipcode_decoder.max_depth :=
    le_trans hf1 (Nat.min_le_right _ _)
  have hfle' : (first_different_ancestor D false c.zipcode_decoder
      p.zipcode_decoder).first_different_ancestor_depth ≤ c.zipcode_decoder.max_depth :=
    le_trans hf1 (Nat.min_le_left _ _)
  simp only [add_seed, vec_get, List.get?_eq_getElem?, hgetc, hgetp, bind, Except.bind, pure,
    Except.pure, Option.isNone, Bool.not_false, Bool.and_true, Bool.false_eq_true, if_false]
    at h
  have key : ∀ (st1 : build_state) (s2 : build_state × Bool),
      snarl_ends_ok st1.zip_code_tree → chain_ends_ok st1.zip_code_tree →
      open_loop D asserts seeds c idx
          (c.zipcode_decoder.max_depth + 1 - (first_different_ancestor D false
            c.zipcode_decoder p.zipcode_decoder).first_different_ancestor_depth)
          (first_different_ancestor D false c.zipcode_decoder
            p.zipcode_decoder).first_different_ancestor_depth
          (st1, (first_different_ancestor D false c.zipcode_decoder
            p.zipcode_decoder).current_is_reversed) = .ok s2 →
      closed_to c.zipcode_decoder (c.zipcode_decoder.max_depth + 1) s2.1.zip_code_tree := by
    intro st1 s2 hs hce hs2
    obtain ⟨h1, h2⟩ := open_loop_shape D asserts seeds c idx (address_leaf _ hc) _ _ _ _ hs2
    obtain ⟨pre, v, hv⟩ := h2 (by omega) (by omega)
    exact closed_to_of_seed _ _ pre v (snarl_ends_ok_extends _ _ h1 hs)
      (chain_ends_ok_extends _ _ h1 hce) hv
  cases hsame : (first_different_ancestor D false c.zipcode_decoder
      p.zipcode_decoder).same_node
  · simp only [hsame, Bool.not_false, if_true] at h
    have hk : (first_different_ancestor D false c.zipcode_decoder
        p.zipcode_decoder).first_different_ancestor_depth +
        (p.zipcode_decoder.max_depth + 1 - (first_different_ancestor D false c.zipcode_decoder
        p.zipcode_decoder).first_different_ancestor_depth) =
        p.zipcode_decoder.max_depth + 1 := by omega
    obtain ⟨s1, hs1, -, -, -⟩ := close_loop_spec D seeds p.zipcode_decoder
      (first_different_ancestor D false c.zipcode_decoder
        p.zipcode_decoder).first_different_ancestor_depth hp
      (p.zipcode_decoder.max_depth + 1 - (first_different_ancestor D false c.zipcode_decoder
        p.zipcode_decoder).first_different_ancestor_depth)
      (first_different_ancestor D false c.zipcode_decoder p.zipcode_decoder).previous_is_reversed
      _ (by omega) (by rw [hk]; exact Hpad)
    have hQ1 := close_loop_ends D seeds p.zipcode_decoder
      (first_different_ancestor D false c.zipcode_decoder
        p.zipcode_decoder).first_different_ancestor_depth hp
      (p.zipcode_decoder.max_depth + 1 - (first_different_ancestor D false c.zipcode_decoder
        p.zipcode_decoder).first_different_ancestor_depth)
      (first_different_ancestor D false c.zipcode_decoder p.zipcode_decoder).previous_is_reversed
      _ s1 (by omega) (by rw [hk]; exact Hpad) (by rw [hk]; exact hQ) hs1
    simp only [hs1] at h
    split at h
    · simp at h
    · rename_i s2 hs2
      simp only [Except.ok.injEq] at h
      subst h
      exact key s1.1 s2 hQ1.1 hQ1.2.1 hs2
  · simp only [hsame, Bool.not_true, Bool.false_eq_true, if_false] at h
    split at h
    · simp at h
    · rename_i s2 hs2
      simp only [Except.ok.injEq] at h
      subst h
      exact key ⟨st.zip_code_tree, st.sibling_indices_at_depth ++ List.replicate
        (c.zipcode_decoder.max_depth + 1 - st.sibling_indices_at_depth.length) []⟩ s2
        hQ.1 hQ.2.1 hs2

theorem step_ok_ok {α : Type} (asserts : Bool) (r : Except Err α) (Q : α → Prop) (a : α)
    (h : step_ok asserts r Q) (hr : r = .ok a) : Q a := by
  rcases h with ⟨_, he⟩ | ⟨b, hb, hq⟩
  · rw [hr] at he
    cases he
  · rw [hr] at hb
    cases hb
    exact hq

theorem flush_depth_ends (D : SnarlDistanceIndex) (seeds : List Seed) (p : ZipCodeDecoder)
    (hp : address_ok p) (t0 : List tree_item_t) (sib : List (List child_info_t))
    (H : scopes p seeds.length (p.max_depth + 1) ⟨t0, sib⟩)
    (k : Nat) (hk : k ≤ p.max_depth) (rev : Bool) (tree : List tree_item_t)
    (hb : match_brackets [] tree = some (open_brackets p (k + 1)))
    (hQ : closed_to p (k + 1) tree) (s : build_state × Bool)
    (h : flush_depth D seeds p k (⟨tree, sib⟩, rev) = .ok s) :
    closed_to p k s.1.zip_code_tree := by
  have hlen : k < sib.length := by
    have := H.len
    simp only at this
    omega
  have hsn : is_snarl (p.get_code_type k) = true →
      ∃ l, (⟨tree, sib⟩ : build_state).sibling_indices_at_depth[k]? = some l ∧ l ≠ [] := by
    intro hs
    obtain ⟨l, hl, hlne, -⟩ := H.snarls k (by omega) hs
    exact ⟨l, hl, hlne⟩
  have hclose : ∃ t, close_scope D seeds p rev k ⟨tree, sib⟩ = .ok t ∧ s.1.zip_code_tree = t := by
    rcases address_kind p hp k hk with hkind | hkind | hkind
    · obtain ⟨x, hx, -⟩ := H.chains k (by omega) hkind
      simp only at hx
      simp only [flush_depth, vec_get, List.get?_eq_getElem?, hx, bind, Except.bind, pure,
        Except.pure, List.length_singleton, gt_iff_lt, Nat.lt_one_iff, Nat.pos_of_ne_zero,
        if_true] at h
      split at h
      · simp at h
      · rename_i t ht
        simp only [Except.ok.injEq] at h
        subst h
        exact ⟨t, ht, rfl⟩
    · obtain ⟨l, hl, hlne, -⟩ := H.snarls k (by omega) hkind
      simp only at hl
      have hpos : 0 < l.length := List.length_pos.mpr hlne
      simp only [flush_depth, vec_get, List.get?_eq_getElem?, hl, bind, Except.bind, pure,
        Except.pure, gt_iff_lt, hpos, if_true] at h
      split at h
      · simp at h
      · rename_i t ht
        simp only [Except.ok.injEq] at h
        subst h
        exact ⟨t, ht, rfl⟩
    · have hl : sib[k]? = some [] := by
        rw [List.getElem?_eq_getElem hlen]
        congr 1
        exact H.empty k _ (Or.inr hkind) (List.getElem?_eq_getElem hlen)
      simp [flush_depth, vec_get, hl, bind, Except.bind, pure, Except.pure] at h
      subst h
      exact ⟨tree, by simp [close_scope, hkind, bind, Except.bind, pure, Except.pure], rfl⟩
  obtain ⟨t, ht, hst⟩ := hclose
  rw [hst]
  exact close_scope_ends D seeds p rev k ⟨tree, sib⟩ t hp hk hb hsn hQ ht

/-- The final loop keeps the END items of the store preceded as they should
be. -/
theorem flush_loop_ends (D : SnarlDistanceIndex) (seeds : List Seed) (p : ZipCodeDecoder)
    (hp : address_ok p) (t0 : List tree_item_t) (sib : List (List child_info_t))
    (H : scopes p seeds.length (p.max_depth + 1) ⟨t0, sib⟩) :
    ∀ (k : Nat), k ≤ p.max_depth + 1 → ∀ (rev : Bool) (tree : List tree_item_t)
      (s : build_state × Bool),
      match_brackets [] tree = some (open_brackets p k) → guarded tree →
      closed_to p k tree → flush_loop D seeds p k (⟨tree, sib⟩, rev) = .ok s →
      snarl_ends_ok s.1.zip_code_tree ∧ chain_ends_ok s.1.zip_code_tree := by
  intro k
  induction k with
  | zero =>
    intro _ rev tree s _ _ hQ h
    simp only [flush_loop, Except.ok.injEq] at h
    subst h
    exact ⟨hQ.1, hQ.2.1⟩
  | succ k ih =>
    intro hk rev tree s hb hg hQ h
    obtain ⟨s1, hs1, hsib, hb1, hg1, -⟩ :=
      flush_depth_spec D seeds p hp t0 sib H k (by omega) rev tree hb hg
    have hQ1 := flush_depth_ends D seeds p hp t0 sib H k (by omega) rev tree hb hQ s1 hs1
    simp only [flush_loop, hs1, bind, Except.bind] at h
    have : s1 = (⟨s1.1.zip_code_tree, sib⟩, s1.2) := by
      rw [← hsib]
    rw [this] at h
    exact ih (by omega) s1.2 s1.1.zip_code_tree s hb1 hg1 hQ1 h

/-- The main loop keeps the END items of the store preceded as they should be,
and leaves the store ending with the SEED of the last seed added. -/
theorem add_seeds_ends (D : SnarlDistanceIndex) (asserts : Bool) (seeds : List Seed)
    (hcons : consistent D seeds) :
    ∀ (rest : List Nat) (previous : Option Nat) (st s : build_state),
      (∀ i ∈ rest, i < seeds.length) → built seeds previous st →
      (∀ j p, previous = some j → seeds[j]? = some p →
        closed_to p.zipcode_decoder (p.zipcode_decoder.max_depth + 1) st.zip_code_tree) →
      add_seeds D asserts seeds previous rest st = .ok s →
      built seeds (rest.getLast?.or previous) s ∧
      ∀ j p, rest.getLast?.or previous = some j → seeds[j]? = some p →
        closed_to p.zipcode_decoder (p.zipcode_decoder.max_depth + 1) s.zip_code_tree := by
  intro rest
  induction rest with
  | nil =>
    intro previous st s _ hb hE h
    simp only [add_seeds, Except.ok.injEq] at h
    subst h
    exact ⟨by simpa using hb, by simpa using hE⟩
  | cons idx rest ih =>
    intro previous st s hidx hb hE h
    have hi : idx < seeds.length := hidx idx (List.mem_cons_self _ _)
    have hgetc : seeds[idx]? = some seeds[idx] := List.getElem?_eq_getElem hi
    have hc : address_ok (seeds[idx]).zipcode_decoder :=
      hcons.1 _ (List.getElem_mem hi)
    simp only [add_seeds, bind, Except.bind] at h
    cases hs1 : add_seed D asserts seeds previous idx st with
    | error e => rw [hs1] at h; simp at h
    | ok s1 =>
      rw [hs1] at h
      have hstep : built seeds (some idx) s1 ∧
          closed_to (seeds[idx]).zipcode_decoder ((seeds[idx]).zipcode_decoder.max_depth + 1)
            s1.zip_code_tree := by
        cases previous with
        | none =>
          simp only [built] at hb
          subst hb
          have h1 := step_ok_ok asserts _ _ s1
            (add_seed_first D asserts seeds _ idx hgetc hc) hs1
          exact ⟨⟨_, hgetc, h1.1⟩, add_seed_first_ends D asserts seeds _ idx hgetc hc s1 hs1⟩
        | some j =>
          obtain ⟨p, hgetp, H⟩ := hb
          have h1 := step_ok_ok asserts _ _ s1
            (add_seed_next D asserts seeds _ p idx j st hgetc hgetp hcons H) hs1
          exact ⟨⟨_, hgetc, h1.1⟩, add_seed_next_ends D asserts seeds _ p idx j st hgetc hgetp
            hcons H (hE j p rfl hgetp) s1 hs1⟩
      have hlast : (idx :: rest).getLast?.or previous = rest.getLast?.or (some idx) := by
        rw [List.getLast?_cons]
        cases rest.getLast? <;> simp
      rw [hlast]
      refine ih (some idx) s1 s (fun i hi => hidx i (List.mem_cons_of_mem _ hi)) hstep.1 ?_ h
      intro j p hj hp
      cases hj
      rw [hgetc] at hp
      cases hp
      exact hstep.2

/-- In every store the constructor returns, the SNARL_END and CHAIN_END items
are preceded as they should be. -/
theorem build_ends (D : SnarlDistanceIndex) (asserts : Bool) (seeds : List Seed)
    (seed_indices : List Nat) (hcons : consistent D seeds) (hne : seed_indices ≠ [])
    (hidx : ∀ i ∈ seed_indices, i < seeds.length) (t : List tree_item_t)
    (h : build D asserts seeds seed_indices = .ok t) :
    snarl_ends_ok t ∧ chain_ends_ok t := by
  obtain ⟨j, hj⟩ : ∃ j, seed_indices.getLast? = some j := by
    cases h : seed_indices.getLast? with
    | none => simp at h; exact absurd h hne
    | some j => exact ⟨j, rfl⟩
  simp only [build, bind, Except.bind, pure, Except.pure] at h
  cases hs : add_seeds D asserts seeds none seed_indices ⟨[], []⟩ with
  | error e => rw [hs] at h; simp at h
  | ok st =>
    rw [hs] at h
    obtain ⟨hb, hE⟩ := add_seeds_ends D asserts seeds hcons seed_indices none ⟨[], []⟩ st hidx
      rfl (fun j p hj => by cases hj) hs
    rw [hj] at hb hE
    obtain ⟨p, hgetp, H⟩ := hb
    have hQ := hE j p rfl hgetp
    obtain ⟨hpm, -⟩ := mem_of_getElem? seeds j p hgetp
    simp only [final_flush, vec_back, hj, vec_get, List.get?_eq_getElem?, hgetp, bind,
      Except.bind, pure, Except.pure] at h
    split at h
    · simp at h
    · rename_i st1 hst1
      simp only [Except.ok.injEq] at h
      subst h
      split at hst1
      · simp at hst1
      · rename_i s2 hs2
        simp only [Except.ok.injEq] at hst1
        subst hst1
        exact flush_loop_ends D seeds p.zipcode_decoder (hcons.1 p hpm) st.zip_code_tree
          st.sibling_indices_at_depth H (p.zipcode_decoder.max_depth + 1) (le_refl _) _
          st.zip_code_tree s2 H.brackets H.guard hQ hs2

/-- The comparator loop, run on addresses that are equal below depth `d` and
stop being compared at `d`, returns `d` and the flags flipped at the levels
below `d`. -/
theorem comparator_depth_eq (D : SnarlDistanceIndex) (a b : ZipCodeDecoder) (d : Nat)
    (hda : d ≤ a.max_depth) (hdb : d ≤ b.max_depth)
    (heq : ∀ e, e < d → D.is_equal a b e = true)
    (hstop : d = a.max_depth ∨ d = b.max_depth ∨ D.is_equal a b d = false) :
    ∀ (k depth : Nat) (ar br : Bool), depth ≤ d → d ≤ depth + k →
      comparator_depth D a b k depth ar br =
        (d, (List.range' depth (d - depth)).foldl
              (fun flag e => flip_if (a.get_is_reversed_in_parent e) flag) ar,
            (List.range' depth (d - depth)).foldl
              (fun flag e => flip_if (b.get_is_reversed_in_parent e) flag) br) := by
  intro k
  induction k with
  | zero =>
    intro depth ar br h1 h2
    have : depth = d := by omega
    subst this
    simp [comparator_depth]
  | succ k ih =>
    intro depth ar br h1 h2
    simp only [comparator_depth]
    rcases Nat.lt_or_ge depth d with hlt | hge
    · rw [if_pos ⟨by omega, by omega, heq depth hlt⟩]
      rw [ih (depth + 1) _ _ (by omega) (by omega)]
      have hd : d - depth = (d - (depth + 1)) + 1 := by omega
      rw [hd, List.range'_succ]
      simp
    · have hd : depth = d := by omega
      subst hd
      have hneg : ¬ (depth < a.max_depth ∧ depth < b.max_depth ∧
          D.is_equal a b depth = true) := by
        rintro ⟨h3, h4, h5⟩
        rcases hstop with h | h | h
        · omega
        · omega
        · rw [h] at h5; cases h5
      rw [if_neg hneg]
      simp

theorem reversal_parity_succ (dec : ZipCodeDecoder) (d : Nat) :
    reversal_parity dec (d + 1) =
      flip_if (dec.get_is_reversed_in_parent d) (reversal_parity dec d) := by
  simp [reversal_parity, List.range_succ]

/-- The depth at which the comparator leaves its loop and the orientation flag
of the first seed after the last flip. -/
theorem comparator_flag (D : SnarlDistanceIndex) (a b : ZipCodeDecoder) (d : Nat)
    (hda : d ≤ a.max_depth) (hdb : d ≤ b.max_depth)
    (heq : ∀ e, e < d → D.is_equal a b e = true)
    (hstop : d = a.max_depth ∨ d = b.max_depth ∨ D.is_equal a b d = false) :
    (comparator_depth D a b (min a.max_depth b.max_depth) 0 false false).1 = d ∧
    flip_if (a.get_is_reversed_in_parent d)
      (comparator_depth D a b (min a.max_depth b.max_depth) 0 false false).2.1
      = reversal_parity a (d + 1) := by
  rw [comparator_depth_eq D a b d hda hdb heq hstop _ 0 false false (Nat.zero_le _)
    (by simp; omega)]
  refine ⟨rfl, ?_⟩
  rw [reversal_parity_succ]
  simp [reversal_parity, List.range_eq_range']

/-! ### The backward automaton: unsupported symbols -/

theorem bind_ne_domain {α β : Type} (x : Except Err α) (f : α → Except Err β)
    (hx : x ≠ .error .domain_error) (hf : ∀ a, f a ≠ .error .domain_error) :
    (x >>= f) ≠ .error .domain_error := by
  cases x with
  | error e =>
    intro h
    apply hx
    simpa [bind, Except.bind] using h
  | ok a => exact hf a

theorem pop_ne_domain (r : reverse_iterator) : pop r ≠ .error .domain_error := by
  rcases r with ⟨_, _, _ | _, _⟩ <;> simp [pop]

theorem top_ne_domain (r : reverse_iterator) : top r ≠ .error .domain_error := by
  rcases r with ⟨_, _, _ | _, _⟩ <;> simp [top]

theorem set_top_ne_domain (f : Nat → Nat) (r : reverse_iterator) :
    set_top f r ≠ .error .domain_error := by
  rcases r with ⟨_, _, _ | _, _⟩ <;> simp [set_top]

theorem dup_ne_domain (r : reverse_iterator) : dup r ≠ .error .domain_error := by
  rcases r with ⟨_, _, _ | _, _⟩ <;> simp [dup]

theorem reverse_ne_domain (n : Nat) (r : reverse_iterator) :
    reverse n r ≠ .error .domain_error := by
  simp only [reverse]
  split_ifs <;> simp

theorem enter_chain_ne_domain (r : reverse_iterator) :
    enter_chain r ≠ .error .domain_error := by
  simp only [enter_chain]
  refine bind_ne_domain _ _ (top_ne_domain r) ?_
  intro a
  split_ifs <;> simp [pure, Except.pure]

/-! ### The backward automaton: runs of ticks -/

theorem get?_middle (pre post : List tree_item_t) (x : tree_item_t) :
    (pre ++ x :: post).get? pre.length = some x := by
  rw [List.get?_eq_getElem?, List.getElem?_append_right (Nat.le_refl _)]
  simp

/-- One non-yielding step of the scan loop. -/
theorem scan_step (t : List tree_item_t) (fuel : Nat) (r r1 : reverse_iterator)
    (hit : r.it ≠ 0) (h : tick t r = .ok (false, r1)) (h1 : r1.it = r.it) :
    scan t (fuel + 1) r
      = scan t fuel ⟨r.it - 1, r1.distance_limit, r1.stack, r1.current_state⟩ := by
  simp [scan, hit, h, h1]

theorem tick_stack_edge (t : List tree_item_t) (it limit c p v : Nat) (rest : List Nat)
    (hit : it ≠ 0) (hitem : t.get? (it - 1) = some ⟨EDGE, v⟩) :
    tick t ⟨it, limit, c :: p :: rest, S_STACK_SNARL⟩
      = .ok (false, ⟨it, limit, size_add c 1 :: p :: size_add p v :: rest, S_STACK_SNARL⟩) := by
  unfold tick
  rw [if_neg hit, hitem]
  simp [reverse, dup, set_top, bind, Except.bind, pure, Except.pure]

theorem tick_stack_chain_end (t : List tree_item_t) (it limit c p v : Nat) (rest : List Nat)
    (hit : it ≠ 0) (hitem : t.get? (it - 1) = some ⟨CHAIN_END, v⟩) (hc : c ≤ rest.length) :
    tick t ⟨it, limit, c :: p :: rest, S_STACK_SNARL⟩
      = (enter_chain ⟨it, limit, (rest.take c).reverse ++ rest.drop c, S_STACK_SNARL⟩).map
          (fun r => (false, r)) := by
  unfold tick
  rw [if_neg hit, hitem]
  simp [reverse, pop, hc, bind, Except.bind, pure, Except.pure, Except.map]

theorem enter_chain_eq (it limit x : Nat) (rest : List Nat) (s : State) :
    enter_chain ⟨it, limit, x :: rest, s⟩ =
      .ok (if x > limit then ⟨it, limit, 0 :: x :: rest, S_SKIP_CHAIN⟩
        else ⟨it, limit, x :: rest, S_SCAN_CHAIN⟩) := by
  simp only [enter_chain, top, bind, Except.bind, pure, Except.pure, push,
    reverse_iterator.state]
  split_ifs <;> rfl

theorem enter_chain_it (r r1 : reverse_iterator) (h : enter_chain r = .ok r1) :
    r1.it = r.it ∧ r1.distance_limit = r.distance_limit := by
  rcases r with ⟨it, limit, _ | ⟨x, rest⟩, s⟩
  · simp [enter_chain, top, bind, Except.bind] at h
  · rw [enter_chain_eq] at h
    simp only [Except.ok.injEq] at h
    subst h
    split_ifs <;> exact ⟨rfl, rfl⟩

/-- The run of Stack-Snarl over the EDGE items with the values `edges` (in scan
order) that lie between a CHAIN_END and the position of the iterator: with the
counter `c`, the accumulator `p` and `c` staged accumulators on the stack, the
scan stages one accumulator per EDGE and, at the CHAIN_END, drops the counter and
`p` and puts the staged accumulators in the order they were read. -/
theorem scan_stack_snarl (t pre : List tree_item_t) (w limit p : Nat) :
    ∀ (edges : List Nat) (post : List tree_item_t) (c : Nat) (staged rest : List Nat),
      t = pre ++ [⟨CHAIN_END, w⟩] ++ (edge_items edges).reverse ++ post →
      c = staged.length → c + edges.length < 2 ^ 64 →
      scan t (edges.length + 1)
        ⟨pre.length + 1 + edges.length, limit, c :: p :: (staged ++ rest), S_STACK_SNARL⟩
      = (enter_chain ⟨pre.length + 1, limit,
            staged.reverse ++ edges.map (fun v => size_add p v) ++ rest, S_STACK_SNARL⟩).bind
          (fun r => .ok ⟨pre.length, r.distance_limit, r.stack, r.current_state⟩) := by
  intro edges
  induction edges with
  | nil =>
    intro post c staged rest ht hc _
    have hitem : t.get? (pre.length + 1 + 0 - 1) = some ⟨CHAIN_END, w⟩ := by
      rw [ht]
      have := get?_middle pre post ⟨CHAIN_END, w⟩
      simpa [edge_items] using this
    have htick := tick_stack_chain_end t (pre.length + 1 + 0) limit c p w (staged ++ rest)
      (by omega) hitem (by simp [hc])
    have htake : (List.take c (staged ++ rest)).reverse ++ List.drop c (staged ++ rest)
        = staged.reverse ++ rest := by
      rw [hc]; simp
    rw [htake] at htick
    simp only [List.map_nil, List.length_nil, Nat.add_zero, List.append_nil] at htick ⊢
    cases he : enter_chain ⟨pre.length + 1, limit, staged.reverse ++ rest, S_STACK_SNARL⟩ with
    | error e =>
      rw [he] at htick
      simp [scan, htick, Except.map, Except.bind]
    | ok r1 =>
      rw [he] at htick
      obtain ⟨hr1, -⟩ := enter_chain_it _ _ he
      simp only at hr1
      simp [scan, htick, Except.map, Except.bind, hr1]
  | cons v edges ih =>
    intro post c staged rest ht hc hlen
    simp only [List.length_cons] at hlen
    have hsplit : t = pre ++ [⟨CHAIN_END, w⟩] ++ (edge_items edges).reverse
        ++ (⟨EDGE, v⟩ :: post) := by
      rw [ht]
      simp [edge_items]
    have hi : pre.length + 1 + (edges.length + 1) - 1
        = (pre ++ [(⟨CHAIN_END, w⟩ : tree_item_t)] ++ (edge_items edges).reverse).length := by
      simp [edge_items]
      omega
    have hitem : t.get? (pre.length + 1 + (edges.length + 1) - 1) = some ⟨EDGE, v⟩ := by
      rw [hi]
      have := get?_middle (pre ++ [⟨CHAIN_END, w⟩] ++ (edge_items edges).reverse) post ⟨EDGE, v⟩
      rw [← hsplit] at this
      exact this
    have htick := tick_stack_edge t (pre.length + 1 + (edges.length + 1)) limit c p v
      (staged ++ rest) (by omega) hitem
    have hadd : size_add c 1 = c + 1 := by
      simp only [size_add]
      omega
    have hidx : pre.length + 1 + (edges.length + 1) - 1 = pre.length + 1 + edges.length := by
      omega
    have := ih (⟨EDGE, v⟩ :: post) (c + 1) (size_add p v :: staged) rest hsplit (by simp [hc])
      (by omega)
    simp only [List.cons_append] at this
    show scan t (edges.length + 1 + 1) ⟨pre.length + 1 + (edges.length + 1), limit,
      c :: p :: (staged ++ rest), S_STACK_SNARL⟩ = _
    rw [scan_step t _ _ _ (by simp) htick rfl]
    simp only [hadd, hidx]
    rw [this]
    simp

/-- One tick in state Skip-Chain on an item of a well-nested run: the nesting
counter follows `skip_level`, nothing else changes and nothing is yielded. -/
theorem tick_skip (t : List tree_item_t) (it limit level : Nat) (rest : List Nat)
    (x : tree_item_t) (run : List tree_item_t) (hit : it ≠ 0)
    (hitem : t.get? (it - 1) = some x) (hlevel : level + 1 < 2 ^ 64)
    (hrun : skip_level level (x :: run) = some 0) :
    ∃ level1, tick t ⟨it, limit, level :: rest, S_SKIP_CHAIN⟩
        = .ok (false, ⟨it, limit, level1 :: rest, S_SKIP_CHAIN⟩) ∧
      skip_level level1 run = some 0 ∧ level1 ≤ level + 1 := by
  unfold tick
  rw [if_neg hit, hitem]
  simp only [skip_level] at hrun
  cases hx : x.type <;> simp only [hx] at hrun ⊢
  · exact ⟨level, rfl, hrun, by omega⟩
  · split_ifs at hrun with h0
    refine ⟨level - 1, ?_, hrun, by omega⟩
    have : size_sub level 1 = level - 1 := by
      simp only [size_sub]
      omega
    simp [set_top, this, bind, Except.bind, pure, Except.pure]
  · refine ⟨level + 1, ?_, hrun, by omega⟩
    have : size_add level 1 = level + 1 := by
      simp only [size_add]
      omega
    simp [set_top, this, bind, Except.bind, pure, Except.pure]
  · split_ifs at hrun with h0
    refine ⟨level, ?_, hrun, by omega⟩
    simp [top, h0, bind, Except.bind, pure, Except.pure]
  · exact ⟨level, rfl, hrun, by omega⟩
  · exact ⟨level, rfl, hrun, by omega⟩
  · cases hrun

theorem tick_skip_chain_start (t : List tree_item_t) (it limit c n w : Nat) (rest : List Nat)
    (hit : it ≠ 0) (hitem : t.get? (it - 1) = some ⟨CHAIN_START, w⟩) :
    tick t ⟨it, limit, 0 :: c :: n :: rest, S_SKIP_CHAIN⟩
      = .ok (false, ⟨it, limit, n :: rest, S_SCAN_SNARL⟩) := by
  unfold tick
  rw [if_neg hit, hitem]
  simp [top, pop, depth, reverse_iterator.state, bind, Except.bind, pure, Except.pure]

/-- The run of Skip-Chain over a well-nested run of items (in scan order) that
lies between a CHAIN_START and the position of the iterator. -/
theorem scan_skip_chain (t pre : List tree_item_t) (w limit c n : Nat) (rest : List Nat) :
    ∀ (run post : List tree_item_t) (level : Nat),
      t = pre ++ [⟨CHAIN_START, w⟩] ++ run.reverse ++ post →
      skip_level level run = some 0 → level + run.length + 1 < 2 ^ 64 →
      scan t (run.length + 1)
        ⟨pre.length + 1 + run.length, limit, level :: c :: n :: rest, S_SKIP_CHAIN⟩
      = .ok ⟨pre.length, limit, n :: rest, S_SCAN_SNARL⟩ := by
  intro run
  induction run with
  | nil =>
    intro post level ht hrun _
    simp only [skip_level, Option.some.injEq] at hrun
    subst hrun
    have hitem : t.get? (pre.length + 1 + 0 - 1) = some ⟨CHAIN_START, w⟩ := by
      rw [ht]
      have := get?_middle pre post ⟨CHAIN_START, w⟩
      simpa using this
    have htick := tick_skip_chain_start t (pre.length + 1 + 0) limit c n w rest (by omega) hitem
    simp only [Nat.add_zero] at htick
    simp [scan, htick]
  | cons x run ih =>
    intro post level ht hrun hlen
    simp only [List.length_cons] at hlen
    have hsplit : t = pre ++ [⟨CHAIN_START, w⟩] ++ run.reverse ++ (x :: post) := by
      rw [ht]
      simp
    have hi : pre.length + 1 + (run.length + 1) - 1
        = (pre ++ [(⟨CHAIN_START, w⟩ : tree_item_t)] ++ run.reverse).length := by
      simp
      omega
    have hitem : t.get? (pre.length + 1 + (run.length + 1) - 1) = some x := by
      rw [hi]
      have := get?_middle (pre ++ [⟨CHAIN_START, w⟩] ++ run.reverse) post x
      rw [← hsplit] at this
      exact this
    obtain ⟨level1, htick, hrun1, hle⟩ := tick_skip t (pre.length + 1 + (run.length + 1)) limit
      level (c :: n :: rest) x run (by omega) hitem (by omega) hrun
    have hidx : pre.length + 1 + (run.length + 1) - 1 = pre.length + 1 + run.length := by
      omega
    show scan t (run.length + 1 + 1) ⟨pre.length + 1 + (run.length + 1), limit,
      level :: c :: n :: rest, S_SKIP_CHAIN⟩ = _
    rw [scan_step t _ _ _ (by simp) htick rfl]
    simp only [hidx]
    exact ih (x :: post) level1 hsplit hrun1 (by omega)

/-! ### The backward automaton: number of pairs -/

theorem count_type_take_le (ty : tree_item_type_t) (t : List tree_item_t) (j k : Nat)
    (h : j ≤ k) : count_type ty (t.take j) ≤ count_type ty (t.take k) := by
  have : t.take k = t.take j ++ (t.take k).drop j := by
    have h1 : (t.take k).take j = t.take j := by
      rw [List.take_take, Nat.min_eq_left h]
    rw [← h1, List.take_append_drop]
  rw [this]
  simp [count_type, List.filter_append]

theorem count_type_take_succ (ty : tree_item_type_t) (t : List tree_item_t) (j : Nat)
    (item : tree_item_t) (hitem : t.get? j = some item) (hty : item.type = ty) :
    count_type ty (t.take (j + 1)) = count_type ty (t.take j) + 1 := by
  rw [List.get?_eq_getElem?] at hitem
  rw [List.take_succ, hitem]
  simp [count_type, List.filter_append, hty]

/-- The pairs a traversal produces from an iterator are at most as many as the
SEED items below the base index of the iterator. -/
theorem backward_from_count (t : List tree_item_t) :
    ∀ (fuel : Nat) (r : reverse_iterator),
      (backward_from t fuel r).1.length ≤ count_type SEED (t.take r.it) := by
  intro fuel
  induction fuel with
  | zero => intro r; simp [backward_from]
  | succ n ih =>
    intro r
    simp only [backward_from]
    split_ifs with h0
    · simp
    · have hderef : ∀ p, operator_deref t r = .ok p →
          count_type SEED (t.take r.it) = count_type SEED (t.take (r.it - 1)) + 1 := by
        intro p hp
        simp only [operator_deref, if_neg h0] at hp
        split at hp
        · cases hp
        · rename_i item hitem
          split_ifs at hp with hty
          simp only [not_not] at hty
          have := count_type_take_succ SEED t (r.it - 1) item hitem hty
          have hs : r.it - 1 + 1 = r.it := by omega
          rw [hs] at this
          exact this
      split
      · simp
      · rename_i p hp
        have hc := hderef p hp
        split
        · simp only [List.length_singleton]
          omega
        · rename_i r1 hinc
          simp only [List.length_cons]
          simp only [operator_inc, if_neg h0] at hinc
          obtain ⟨hle, -, -⟩ := scan_spec t (r.it - 1) _ r1 (le_refl _) hinc
          simp only at hle
          have h1 := ih r1
          have h2 := count_type_take_le SEED t r1.it (r.it - 1) hle
          omega

/-! ### Stores: the items before the children of chains -/

theorem split_append_pair {α : Type} (t c a b : List α) (y x : α)
    (h : t ++ c = a ++ y :: x :: b) :
    (∃ b1, t = a ++ y :: x :: b1) ∨ (t = a ++ [y] ∧ c = x :: b) ∨
      (∃ a1, a = t ++ a1 ∧ c = a1 ++ y :: x :: b) := by
  rcases split_append t c a (x :: b) y h with ⟨b1, ht, hb⟩ | ⟨a1, ha, hc⟩
  · cases b1 with
    | nil =>
      simp only [List.nil_append] at hb
      exact Or.inr (Or.inl ⟨ht, hb.symm⟩)
    | cons z b1 =>
      simp only [List.cons_append, List.cons.injEq] at hb
      obtain ⟨rfl, -⟩ := hb
      exact Or.inl ⟨b1, ht⟩
  · exact Or.inr (Or.inr ⟨a1, ha, hc⟩)

theorem append_singleton_inj {α : Type} (a b : List α) (x y : α) (h : a ++ [x] = b ++ [y]) :
    a = b ∧ x = y := by
  have := List.append_inj' h rfl
  exact ⟨this.1, by simpa using this.2⟩

theorem children_ok_nil : children_ok [] := by
  constructor
  · intro a x b h
    simp at h
  · intro a v x b h
    simp at h

/-- Appending items that are neither children nor CHAIN_START items to a store
that does not end with a CHAIN_START. -/
theorem children_ok_append_plain (t c : List tree_item_t) (h : children_ok t)
    (hc : ∀ x ∈ c, x.type ≠ SEED ∧ x.type ≠ SNARL_START ∧ x.type ≠ CHAIN_START)
    (hlast : ∀ pre v, t ≠ pre ++ [⟨CHAIN_START, v⟩]) : children_ok (t ++ c) := by
  constructor
  · intro a x b hsplit hx
    rcases split_append t c a b x hsplit with ⟨b1, ht, _⟩ | ⟨a1, _, hc1⟩
    · exact h.1 a x b1 ht hx
    · have := hc x (by rw [hc1]; simp)
      rcases hx with hx | hx
      · exact absurd hx this.1
      · exact absurd hx this.2.1
  · intro a v x b hsplit hb
    rcases split_append_pair t c a b _ x hsplit with ⟨b1, ht⟩ | ⟨ht, _⟩ | ⟨a1, _, hc1⟩
    · exact h.2 a v x b1 ht hb
    · exact absurd ht (hlast a v)
    · exact absurd rfl (hc ⟨CHAIN_START, v⟩ (by rw [hc1]; simp)).2.2

/-- Appending an item that is neither a child nor an EDGE. -/
theorem children_ok_snoc_other (t : List tree_item_t) (x : tree_item_t) (h : children_ok t)
    (h1 : x.type ≠ SEED) (h2 : x.type ≠ SNARL_START) (h3 : x.type ≠ EDGE) :
    children_ok (t ++ [x]) := by
  constructor
  · intro a y b hsplit hy
    rcases split_append t [x] a b y hsplit with ⟨b1, ht, _⟩ | ⟨a1, _, hc1⟩
    · exact h.1 a y b1 ht hy
    · have hmem : y ∈ [x] := by rw [hc1]; simp
      simp only [List.mem_singleton] at hmem
      subst hmem
      rcases hy with hy | hy
      · exact absurd hy h1
      · exact absurd hy h2
  · intro a v y b hsplit hb
    rcases split_append_pair t [x] a b _ y hsplit with ⟨b1, ht⟩ | ⟨_, hc1⟩ | ⟨a1, _, hc1⟩
    · exact h.2 a v y b1 ht hb
    · simp only [List.cons.injEq] at hc1
      rw [← hc1.1]
      exact h3
    · have := congrArg List.length hc1
      simp at this
      omega

/-- Appending an EDGE to a store that does not end with a root-level
CHAIN_START. -/
theorem children_ok_snoc_edge (t : List tree_item_t) (x : tree_item_t) (h : children_ok t)
    (hx : x.type = EDGE) (hroot : not_root_start t) : children_ok (t ++ [x]) := by
  constructor
  · intro a y b hsplit hy
    rcases split_append t [x] a b y hsplit with ⟨b1, ht, _⟩ | ⟨a1, _, hc1⟩
    · exact h.1 a y b1 ht hy
    · have hmem : y ∈ [x] := by rw [hc1]; simp
      simp only [List.mem_singleton] at hmem
      subst hmem
      rw [hx] at hy
      rcases hy with hy | hy <;> cases hy
  · intro a v y b hsplit hb
    rcases split_append_pair t [x] a b _ y hsplit with ⟨b1, ht⟩ | ⟨ht, _⟩ | ⟨a1, _, hc1⟩
    · exact h.2 a v y b1 ht hb
    · exact absurd hb (hroot a v ht)
    · have := congrArg List.length hc1
      simp at this
      omega

/-- Appending a child whose predecessors are as they should be. -/
theorem children_ok_snoc_child (t : List tree_item_t) (x : tree_item_t) (h : children_ok t)
    (hx : x.type = SEED ∨ x.type = SNARL_START)
    (hpre : (∃ pre v, t = pre ++ [⟨CHAIN_START, v⟩] ∧ match_brackets [] pre = some []) ∨
      (∃ pre y v, t = pre ++ [y, ⟨EDGE, v⟩] ∧ y.type ≠ EDGE)) :
    children_ok (t ++ [x]) := by
  constructor
  · intro a y b hsplit hy
    rcases split_append t [x] a b y hsplit with ⟨b1, ht, _⟩ | ⟨a1, ha, hc1⟩
    · exact h.1 a y b1 ht hy
    · cases a1 with
      | nil =>
        simp only [List.append_nil] at ha
        rw [ha]
        exact hpre
      | cons z a1 =>
        have := congrArg List.length hc1
        simp at this
  · intro a v y b hsplit hb
    rcases split_append_pair t [x] a b _ y hsplit with ⟨b1, ht⟩ | ⟨_, hc1⟩ | ⟨a1, _, hc1⟩
    · exact h.2 a v y b1 ht hb
    · simp only [List.cons.injEq] at hc1
      rw [← hc1.1]
      rcases hx with hx | hx <;> rw [hx] <;> decide
    · have := congrArg List.length hc1
      simp at this
      omega

theorem not_root_start_of_last (t pre : List tree_item_t) (y : tree_item_t)
    (ht : t = pre ++ [y]) (hy : y.type ≠ CHAIN_START) : not_root_start t := by
  intro pre1 v h
  rw [ht] at h
  obtain ⟨-, rfl⟩ := append_singleton_inj _ _ _ _ h
  exact absurd rfl hy

theorem not_root_start_of_brackets (t : List tree_item_t) (o1 o2 : bracket)
    (outer : List bracket) (hb : match_brackets [] t = some (o1 :: o2 :: outer)) :
    not_root_start t := by
  intro pre v h hpre
  rw [h, match_brackets_append, hpre] at hb
  simp [match_brackets] at hb

theorem not_root_start_of_snarl (t : List tree_item_t) (outer : List bracket)
    (hb : match_brackets [] t = some (bracket.snarl :: outer)) : not_root_start t := by
  intro pre v h hpre
  rw [h, match_brackets_append, hpre] at hb
  simp [match_brackets] at hb

/-- Appending EDGE items to a store that does not end with a root-level
CHAIN_START. -/
theorem children_ok_append_edges (es : List tree_item_t) :
    ∀ t : List tree_item_t, children_ok t → not_root_start t → (∀ e ∈ es, e.type = EDGE) →
      children_ok (t ++ es) := by
  induction es with
  | nil => intro t h _ _; simpa using h
  | cons e es ih =>
    intro t h hroot hes
    have he : e.type = EDGE := hes e (List.mem_cons_self _ _)
    have h1 := children_ok_snoc_edge t e h he hroot
    have h2 := ih (t ++ [e]) h1
      (not_root_start_of_last _ t e rfl (by rw [he]; decide))
      (fun x hx => hes x (List.mem_cons_of_mem _ hx))
    simpa using h2

theorem close_scope_shape (D : SnarlDistanceIndex) (seeds : List Seed) (dec : ZipCodeDecoder)
    (rev : Bool) (d : Nat) (st : build_state) (t : List tree_item_t)
    (h : close_scope D seeds dec rev d st = .ok t) :
    ∃ chunk, t = st.zip_code_tree ++ chunk ∧
      ∀ x ∈ chunk, x.type = EDGE ∨ x.type = CHAIN_END ∨ x.type = NODE_COUNT ∨
        x.type = SNARL_END := by
  simp only [close_scope, bind, Except.bind, pure, Except.pure] at h
  split_ifs at h with h1 h2 h3
  · split at h
    · simp at h
    · split at h
      · simp at h
      · simp only [Except.ok.injEq] at h
        exact ⟨_, h.symm, by simp⟩
  · simp only [Except.ok.injEq] at h
    exact ⟨_, h.symm, by simp⟩
  · split at h
    · simp at h
    · rename_i siblings _
      split at h
      · simp at h
      · rename_i es hes
        simp only [Except.ok.injEq] at h
        obtain ⟨-, hedge⟩ := close_snarl_edges_shape seeds dec rev d siblings es hes
        refine ⟨es.reverse ++ [⟨NODE_COUNT, size_sub siblings.length 1⟩, ⟨SNARL_END, SIZE_MAX⟩],
          by rw [← h]; simp, ?_⟩
        intro x hx
        rcases List.mem_append.1 hx with hx | hx
        · exact Or.inl (hedge x (by simpa using hx))
        · simp only [List.mem_cons, List.mem_singleton, List.not_mem_nil, or_false] at hx
          rcases hx with rfl | rfl <;> simp
  · simp only [Except.ok.injEq] at h
    exact ⟨[], by simp [h], by simp⟩

theorem last_after_close_cases (dec : ZipCodeDecoder) (d : Nat) :
    last_after_close dec d = SNARL_END ∨ last_after_close dec d = CHAIN_END ∨
      last_after_close dec d = SEED := by
  simp only [last_after_close]
  split_ifs <;> simp

theorem closed_to_last (dec : ZipCodeDecoder) (d : Nat) (t : List tree_item_t)
    (h : closed_to dec d t) :
    ∃ pre y, t = pre ++ [y] ∧ y.type ≠ EDGE ∧ y.type ≠ CHAIN_START := by
  obtain ⟨-, -, pre, y, ht, hy⟩ := h
  refine ⟨pre, y, ht, ?_, ?_⟩ <;>
    rcases last_after_close_cases dec d with h1 | h1 | h1 <;> rw [hy, h1] <;> decide

theorem tail_ok_of_last (st : build_state) (pre : List tree_item_t) (y : tree_item_t)
    (ht : st.zip_code_tree = pre ++ [y]) (h1 : y.type ≠ EDGE) (h2 : y.type ≠ CHAIN_START) :
    tail_ok st := by
  refine ⟨Or.inr ⟨pre, y, ht, h1⟩, ?_⟩
  rintro ⟨pre1, v, h, -⟩
  rw [ht] at h
  obtain ⟨-, rfl⟩ := append_singleton_inj _ _ _ _ h
  exact absurd rfl h2

theorem tail_ok_of_closed_to (dec : ZipCodeDecoder) (d : Nat) (st : build_state)
    (h : closed_to dec d st.zip_code_tree) : tail_ok st := by
  obtain ⟨pre, y, ht, h1, h2⟩ := closed_to_last dec d _ h
  exact tail_ok_of_last st pre y ht h1 h2

theorem children_ok_close_scope (D : SnarlDistanceIndex) (seeds : List Seed)
    (dec : ZipCodeDecoder) (rev : Bool) (d e : Nat) (st : build_state) (t : List tree_item_t)
    (hQ : closed_to dec e st.zip_code_tree) (hc : children_ok st.zip_code_tree)
    (h : close_scope D seeds dec rev d st = .ok t) : children_ok t := by
  obtain ⟨chunk, rfl, hchunk⟩ := close_scope_shape D seeds dec rev d st t h
  obtain ⟨pre, y, ht, -, h2⟩ := closed_to_last dec e _ hQ
  refine children_ok_append_plain _ _ hc ?_ ?_
  · intro x hx
    rcases hchunk x hx with h1 | h1 | h1 | h1 <;> rw [h1] <;> decide
  · intro pre1 v h1
    rw [ht] at h1
    obtain ⟨-, rfl⟩ := append_singleton_inj _ _ _ _ h1
    exact absurd rfl h2

theorem close_depth_children (D : SnarlDistanceIndex) (seeds : List Seed) (p : ZipCodeDecoder)
    (d : Nat) (rev : Bool) (st : build_state)
    (hQ : closed_to p (d + 1) st.zip_code_tree) (hc : children_ok st.zip_code_tree)
    (s : build_state × Bool) (h : close_depth D seeds p d (st, rev) = .ok s) :
    children_ok s.1.zip_code_tree := by
  simp only [close_depth, bind, Except.bind, pure, Except.pure] at h
  cases hcs : close_scope D seeds p rev d st with
  | error e => rw [hcs] at h; simp at h
  | ok tree =>
    rw [hcs] at h
    have h1 := children_ok_close_scope D seeds p rev d (d + 1) st tree hQ hc hcs
    simp only at h
    split at h
    · simp at h
    · simp only [Except.ok.injEq] at h
      subst h
      exact h1

/-- The close loop keeps the children of chains preceded as they should be. -/
theorem close_loop_children (D : SnarlDistanceIndex) (seeds : List Seed) (p : ZipCodeDecoder)
    (low : Nat) (hp : address_ok p) :
    ∀ (k : Nat) (rev : Bool) (st : build_state) (s : build_state × Bool),
      low + k ≤ p.max_depth + 1 → scopes p seeds.length (low + k) st →
      closed_to p (low + k) st.zip_code_tree → children_ok st.zip_code_tree →
      close_loop D seeds p low k (st, rev) = .ok s → children_ok s.1.zip_code_tree := by
  intro k
  induction k with
  | zero =>
    intro rev st s _ _ _ hc h
    simp only [close_loop, Except.ok.injEq] at h
    subst h
    exact hc
  | succ k ih =>
    intro rev st s hk H hQ hc h
    obtain ⟨s1, hs1, H1, -, -⟩ := close_depth_spec D seeds p (low + k) rev st hp (by omega) H
    have hQ1 := close_depth_ends D seeds p (low + k) rev st hp (by omega) H hQ s1 hs1
    have hc1 := close_depth_children D seeds p (low + k) rev st hQ hc s1 hs1
    simp only [close_loop, hs1, bind, Except.bind] at h
    exact ih s1.2 s1.1 s (by omega) H1 hQ1 hc1 h

theorem flush_depth_close (D : SnarlDistanceIndex) (seeds : List Seed) (p : ZipCodeDecoder)
    (hp : address_ok p) (t0 : List tree_item_t) (sib : List (List child_info_t))
    (H : scopes p seeds.length (p.max_depth + 1) ⟨t0, sib⟩)
    (k : Nat) (hk : k ≤ p.max_depth) (rev : Bool) (tree : List tree_item_t)
    (s : build_state × Bool) (h : flush_depth D seeds p k (⟨tree, sib⟩, rev) = .ok s) :
    ∃ t, close_scope D seeds p rev k ⟨tree, sib⟩ = .ok t ∧ s.1.zip_code_tree = t := by
  have hlen : k < sib.length := by
    have := H.len
    simp only at this
    omega
  rcases address_kind p hp k hk with hkind | hkind | hkind
  · obtain ⟨x, hx, -⟩ := H.chains k (by omega) hkind
    simp only at hx
    simp only [flush_depth, vec_get, List.get?_eq_getElem?, hx, bind, Except.bind, pure,
      Except.pure, List.length_singleton, gt_iff_lt, Nat.lt_one_iff, Nat.pos_of_ne_zero,
      if_true] at h
    split at h
    · simp at h
    · rename_i t ht
      simp only [Except.ok.injEq] at h
      subst h
      exact ⟨t, ht, rfl⟩
  · obtain ⟨l, hl, hlne, -⟩ := H.snarls k (by omega) hkind
    simp only at hl
    have hpos : 0 < l.length := List.length_pos.mpr hlne
    simp only [flush_depth, vec_get, List.get?_eq_getElem?, hl, bind, Except.bind, pure,
      Except.pure, gt_iff_lt, hpos, if_true] at h
    split at h
    · simp at h
    · rename_i t ht
      simp only [Except.ok.injEq] at h
      subst h
      exact ⟨t, ht, rfl⟩
  · have hl : sib[k]? = some [] := by
      rw [List.getElem?_eq_getElem hlen]
      congr 1
      exact H.empty k _ (Or.inr hkind) (List.getElem?_eq_getElem hlen)
    simp [flush_depth, vec_get, hl, bind, Except.bind, pure, Except.pure] at h
    subst h
    exact ⟨tree, by simp [close_scope, hkind, bind, Except.bind, pure, Except.pure], rfl⟩

/-- The final loop keeps the children of chains preceded as they should be. -/
theorem flush_loop_children (D : SnarlDistanceIndex) (seeds : List Seed) (p : ZipCodeDecoder)
    (hp : address_ok p) (t0 : List tree_item_t) (sib : List (List child_info_t))
    (H : scopes p seeds.length (p.max_depth + 1) ⟨t0, sib⟩) :
    ∀ (k : Nat), k ≤ p.max_depth + 1 → ∀ (rev : Bool) (tree : List tree_item_t)
      (s : build_state × Bool),
      match_brackets [] tree = some (open_brackets p k) → guarded tree →
      closed_to p k tree → children_ok tree →
      flush_loop D seeds p k (⟨tree, sib⟩, rev) = .ok s → children_ok s.1.zip_code_tree := by
  intro k
  induction k with
  | zero =>
    intro _ rev tree s _ _ _ hc h
    simp only [flush_loop, Except.ok.injEq] at h
    subst h
    exact hc
  | succ k ih =>
    intro hk rev tree s hb hg hQ hc h
    obtain ⟨s1, hs1, hsib, hb1, hg1, -⟩ :=
      flush_depth_spec D seeds p hp t0 sib H k (by omega) rev tree hb hg
    have hQ1 := flush_depth_ends D seeds p hp t0 sib H k (by omega) rev tree hb hQ s1 hs1
    obtain ⟨t, ht, hst⟩ := flush_depth_close D seeds p hp t0 sib H k (by omega) rev tree s1 hs1
    have hc1 : children_ok s1.1.zip_code_tree := by
      rw [hst]
      exact children_ok_close_scope D seeds p rev k (k + 1) ⟨tree, sib⟩ t hQ hc ht
    simp only [flush_loop, hs1, bind, Except.bind] at h
    have : s1 = (⟨s1.1.zip_code_tree, sib⟩, s1.2) := by
      rw [← hsib]
    rw [this] at h
    exact ih (by omega) s1.2 s1.1.zip_code_tree s hb1 hg1 hQ1 hc1 h

/-! ### Steps of the constructor: the items they append -/

theorem open_node_or_snarl_tree (D : SnarlDistanceIndex) (asserts : Bool)
    (c : Seed) (idx d : Nat) (rev : Bool) (st : build_state) (x : child_info_t)
    (s : build_state) (hd : 0 < d)
    (hnr : c.zipcode_decoder.get_code_type d ≠ ROOT_NODE)
    (hx : st.sibling_indices_at_depth[d - 1]? = some [x])
    (h : open_node_or_snarl D asserts c idx d rev st = .ok s) :
    ∃ child e, (child.type = SEED ∨ child.type = SNARL_START) ∧ e.type = EDGE ∧
      s.zip_code_tree =
        (if d = 1 ∧ c.zipcode_decoder.get_code_type (d - 1) = ROOT_CHAIN ∧ x.type = CHAIN_START
          then st.zip_code_tree else st.zip_code_tree ++ [e]) ++ [child] := by
  have hd0 : d ≠ 0 := by omega
  simp only [open_node_or_snarl, if_neg hnr, vec_get,
    List.get?_eq_getElem?, hx, hd0, if_false, bind, Except.bind, pure, Except.pure,
    List.getElem?_cons_zero, false_and, not_false_eq_true, true_and] at h
  repeat' split at h
  all_goals (try (simp at h; done))
  all_goals simp only [Except.ok.injEq] at h
  all_goals subst h
  all_goals rename_i hcond
  all_goals first
    | (simp only [if_neg hcond]; exact ⟨_, _, Or.inl rfl, rfl, rfl⟩)
    | (simp only [if_neg hcond]; exact ⟨_, _, Or.inr rfl, rfl, rfl⟩)
    | (simp only [if_pos (not_not.mp hcond)]; exact ⟨_, ⟨EDGE, 0⟩, Or.inl rfl, rfl, rfl⟩)
    | (simp only [if_pos (not_not.mp hcond)]; exact ⟨_, ⟨EDGE, 0⟩, Or.inr rfl, rfl, rfl⟩)

/-- The items appended when a chain below a snarl is opened or re-entered. -/
theorem open_chain_tree (D : SnarlDistanceIndex) (asserts : Bool) (seeds : List Seed)
    (c : Seed) (idx d : Nat) (rev : Bool) (st s : build_state)
    (hty : c.zipcode_decoder.get_code_type d = CHAIN)
    (h : open_chain D asserts seeds c idx d rev st = .ok s) :
    ∃ l, st.sibling_indices_at_depth[d]? = some l ∧
      ((l = [] ∧ ∃ es, (∀ e ∈ es, e.type = EDGE) ∧
          ((d ≠ c.zipcode_decoder.max_depth ∧
              s.zip_code_tree = st.zip_code_tree ++ es ++ [⟨CHAIN_START, SIZE_MAX⟩]) ∨
           (d = c.zipcode_decoder.max_depth ∧ ∃ v,
              s.zip_code_tree = st.zip_code_tree ++ es ++ [⟨CHAIN_START, SIZE_MAX⟩] ++
                [⟨EDGE, v⟩, ⟨SEED, idx⟩]))) ∨
       (l ≠ [] ∧
          ((d ≠ c.zipcode_decoder.max_depth ∧ s = st) ∨
           (d = c.zipcode_decoder.max_depth ∧ ∃ v,
              s.zip_code_tree = st.zip_code_tree ++ [⟨EDGE, v⟩, ⟨SEED, idx⟩])))) := by
  cases hl : st.sibling_indices_at_depth[d]? with
  | none =>
    simp [open_chain, vec_get, hl, bind, Except.bind, pure, Except.pure] at h
    split at h <;> simp at h
  | some l =>
    refine ⟨l, rfl, ?_⟩
    cases l with
    | nil =>
      left
      refine ⟨rfl, ?_⟩
      simp only [open_chain, hty, vec_get, List.get?_eq_getElem?, hl, bind, Except.bind, pure,
        Except.pure, List.length_nil, if_true, true_and] at h
      repeat' split at h
      all_goals (try (simp at h; done))
      all_goals simp only [Except.ok.injEq] at h
      all_goals subst h
      all_goals
        refine ⟨_, fun e he => (open_chain_edges_shape D seeds _ _ _ _ _
          (by assumption)).2 e (List.mem_reverse.mp he), ?_⟩
        first
          | exact Or.inl ⟨by assumption, rfl⟩
          | exact Or.inr ⟨by assumption, _, rfl⟩
    | cons a l =>
      right
      refine ⟨by simp, ?_⟩
      simp only [open_chain, hty, vec_get, List.get?_eq_getElem?, hl, bind, Except.bind, pure,
        Except.pure, List.length_cons, Nat.succ_ne_zero, if_false, true_and] at h
      repeat' split at h
      all_goals (try (simp at h; done))
      all_goals simp only [Except.ok.injEq] at h
      all_goals subst h
      all_goals first
        | exact Or.inl ⟨by assumption, rfl⟩
        | exact Or.inr ⟨by assumption, _, rfl⟩

/-- The items appended when a root node is opened or re-entered. -/
theorem open_root_node_tree (D : SnarlDistanceIndex) (asserts : Bool)
    (c : Seed) (idx : Nat) (rev : Bool) (st s : build_state)
    (hty : c.zipcode_decoder.get_code_type 0 = ROOT_NODE)
    (h : open_node_or_snarl D asserts c idx 0 rev st = .ok s) :
    ∃ l, st.sibling_indices_at_depth[0]? = some l ∧
      ((l = [] ∧ s.zip_code_tree = st.zip_code_tree ++ [⟨CHAIN_START, SIZE_MAX⟩, ⟨SEED, idx⟩]) ∨
       (∃ x rest, l = x :: rest ∧
          ((x.type = CHAIN_START ∧ s.zip_code_tree = st.zip_code_tree ++ [⟨SEED, idx⟩]) ∨
           (x.type ≠ CHAIN_START ∧ ∃ v,
              s.zip_code_tree = st.zip_code_tree ++ [⟨EDGE, v⟩, ⟨SEED, idx⟩])))) := by
  cases hl : st.sibling_indices_at_depth[0]? with
  | none =>
    simp [open_node_or_snarl, vec_get, hl, hty, bind, Except.bind, pure, Except.pure] at h
  | some l =>
    refine ⟨l, rfl, ?_⟩
    cases l with
    | nil =>
      left
      refine ⟨rfl, ?_⟩
      have hlen : 0 < st.sibling_indices_at_depth.length :=
        (mem_of_getElem? _ _ _ hl).2
      simp [open_node_or_snarl, hty, vec_get, hl, bind, Except.bind, pure, Except.pure,
        vec_modify, vec_pop_back, hlen] at h
      repeat' split at h
      all_goals (try (simp at h; done))
      all_goals simp only [Except.ok.injEq] at h
      all_goals subst h
      all_goals simp
    | cons a l =>
      right
      refine ⟨a, l, rfl, ?_⟩
      simp only [open_node_or_snarl, hty, vec_get, List.get?_eq_getElem?, hl, bind, Except.bind,
        pure, Except.pure, List.isEmpty_cons, if_true, true_and, List.getElem?_cons_zero,
        Bool.false_eq_true, if_false, or_true] at h
      repeat' split at h
      all_goals (try (simp at h; done))
      all_goals simp only [Except.ok.injEq] at h
      all_goals subst h
      all_goals rename_i hcond
      all_goals first
        | (refine Or.inr ⟨hcond.1, size_sub (child_offset D c 0 rev) a.value, ?_⟩
           simp)
        | (refine Or.inl ⟨by simpa using hcond, ?_⟩
           simp)

/-- The item appended when a root chain is opened: its CHAIN_START, recorded
alone in the scratch list of depth 0. -/
theorem open_root_chain_tree (D : SnarlDistanceIndex) (asserts : Bool) (seeds : List Seed)
    (c : Seed) (idx : Nat) (rev : Bool) (st s : build_state)
    (hty : c.zipcode_decoder.get_code_type 0 = ROOT_CHAIN)
    (hl : st.sibling_indices_at_depth[0]? = some [])
    (h : open_chain D asserts seeds c idx 0 rev st = .ok s) :
    s.zip_code_tree = st.zip_code_tree ++ [⟨CHAIN_START, SIZE_MAX⟩] ∧
      s.sibling_indices_at_depth[0]? = some [⟨CHAIN_START, 0⟩] := by
  have hlen : 0 < st.sibling_indices_at_depth.length := (mem_of_getElem? _ _ _ hl).2
  simp [open_chain, hty, vec_get, hl, bind, Except.bind, pure, Except.pure, vec_modify,
    hlen] at h
  repeat' split at h
  all_goals (try (simp at h; done))
  all_goals simp only [Except.ok.injEq] at h
  all_goals subst h
  all_goals simp [hlen]

/-! ### The children of chains -/

theorem open_brackets_length (dec : ZipCodeDecoder) (h : address_ok dec) :
    ∀ d, d ≤ dec.max_depth → (open_brackets dec d).length = d := by
  intro d
  induction d with
  | zero => intro _; rfl
  | succ d ih =>
    intro hd
    have hlt : d < dec.max_depth := by omega
    rcases h.2 d hlt with ⟨hp, _⟩ | ⟨hp, _⟩
    · rw [bracket_of_chain dec d (by rcases hp with hp | hp <;> simp [hp, is_chain_like])]
      simp [ih (by omega)]
    · rw [bracket_of_snarl dec d (by rcases hp with hp | hp <;> simp [hp, is_snarl])]
      simp [ih (by omega)]

theorem open_brackets_two (dec : ZipCodeDecoder) (h : address_ok dec) (d : Nat) (h2 : 2 ≤ d)
    (hd : d ≤ dec.max_depth) : ∃ o1 o2 outer, open_brackets dec d = o1 :: o2 :: outer := by
  have hlen := open_brackets_length dec h d hd
  match hb : open_brackets dec d with
  | [] => rw [hb] at hlen; simp at hlen; omega
  | [_] => rw [hb] at hlen; simp at hlen; omega
  | o1 :: o2 :: outer => exact ⟨o1, o2, outer, rfl⟩

/-- A store whose depth-0 scratch list holds an entry other than a CHAIN_START
does not end with a root-level CHAIN_START. -/
theorem tail_not_root_start (st : build_state) (x : child_info_t) (hT : tail_ok st)
    (hx : st.sibling_indices_at_depth[0]? = some [x]) (hxt : x.type ≠ CHAIN_START) :
    not_root_start st.zip_code_tree := by
  intro pre v h hpre
  obtain ⟨y, hy, hyt⟩ := hT.2 ⟨pre, v, h, hpre⟩
  rw [hx] at hy
  simp only [Option.some.injEq, List.cons.injEq, and_true] at hy
  subst hy
  exact hxt hyt

/-- Below the root level the store is not empty, so it ends with an item that
is not an EDGE. -/
theorem tree_last_of_scopes (dec : ZipCodeDecoder) (n d : Nat) (st : build_state)
    (hc : address_ok dec) (hd : 0 < d) (H : scopes dec n d st) (hT : tail_ok st) :
    ∃ pre y, st.zip_code_tree = pre ++ [y] ∧ y.type ≠ EDGE := by
  rcases hT.1 with h | h
  · obtain ⟨o, outer, ho⟩ := open_brackets_cons dec (address_root_chain_like dec hc) d hd
    have hb := H.brackets
    rw [h, ho] at hb
    simp [match_brackets] at hb
  · exact h

theorem match_brackets_edges (t es : List tree_item_t) (hes : ∀ e ∈ es, e.type = EDGE) :
    match_brackets [] (t ++ es) = match_brackets [] t := by
  rw [match_brackets_append]
  cases match_brackets [] t with
  | none => rfl
  | some s =>
    simp only [Option.bind]
    exact match_brackets_neutral es (fun e he => Or.inl (hes e he)) s

/-- Appending an EDGE and a child to a store that ends with an item other than
an EDGE and not with a root-level CHAIN_START. -/
theorem children_ok_push (t : List tree_item_t) (e child : tree_item_t) (h : children_ok t)
    (hlast : ∃ pre y, t = pre ++ [y] ∧ y.type ≠ EDGE) (hroot : not_root_start t)
    (he : e.type = EDGE) (hchild : child.type = SEED ∨ child.type = SNARL_START) :
    children_ok (t ++ [e] ++ [child]) := by
  obtain ⟨pre, y, ht, hy⟩ := hlast
  refine children_ok_snoc_child _ child (children_ok_snoc_edge t e h he hroot) hchild
    (Or.inr ⟨pre, y, e.value, ?_, hy⟩)
  rw [ht]
  cases e
  simp only at he
  subst he
  simp

/-- Appending the distance items of a new child chain of a snarl and its
CHAIN_START. -/
theorem children_ok_push_chain (t es : List tree_item_t) (v : Nat) (outer : List bracket)
    (h : children_ok t) (hb : match_brackets [] t = some (bracket.snarl :: outer))
    (hes : ∀ e ∈ es, e.type = EDGE) :
    children_ok (t ++ es ++ [⟨CHAIN_START, v⟩]) ∧
      not_root_start (t ++ es ++ [⟨CHAIN_START, v⟩]) := by
  refine ⟨children_ok_snoc_other _ _ (children_ok_append_edges es t h
    (not_root_start_of_snarl t outer hb) hes) (by simp) (by simp) (by simp), ?_⟩
  intro pre w hsplit hpre
  obtain ⟨hp, -⟩ := append_singleton_inj _ _ _ _ hsplit
  rw [← hp, match_brackets_edges t es hes, hb] at hpre
  cases hpre

theorem open_depth_ok (D : SnarlDistanceIndex) (asserts : Bool) (seeds : List Seed)
    (c : Seed) (idx d : Nat) (rev : Bool) (st : build_state) (s : build_state × Bool)
    (h : open_depth D asserts seeds c idx d (st, rev) = .ok s) :
    ((c.zipcode_decoder.get_code_type d = NODE ∨
        c.zipcode_decoder.get_code_type d = REGULAR_SNARL ∨
        c.zipcode_decoder.get_code_type d = IRREGULAR_SNARL ∨
        c.zipcode_decoder.get_code_type d = ROOT_NODE) →
      open_node_or_snarl D asserts c idx d rev st = .ok s.1) ∧
    (¬ (c.zipcode_decoder.get_code_type d = NODE ∨
        c.zipcode_decoder.get_code_type d = REGULAR_SNARL ∨
        c.zipcode_decoder.get_code_type d = IRREGULAR_SNARL ∨
        c.zipcode_decoder.get_code_type d = ROOT_NODE) →
      open_chain D asserts seeds c idx d rev st = .ok s.1) := by
  simp only [open_depth, bind, Except.bind, pure, Except.pure] at h
  constructor
  · intro hk
    rw [if_pos hk] at h
    split at h
    · simp at h
    · rename_i st1 hst1
      simp only [Except.ok.injEq] at h
      subst h
      exact hst1
  · intro hk
    rw [if_neg hk] at h
    split at h
    · simp at h
    · rename_i st1 hst1
      simp only [Except.ok.injEq] at h
      subst h
      exact hst1

/-- Opening a node or a snarl below a chain keeps the children of chains
preceded as they should be. -/
theorem open_child_children (D : SnarlDistanceIndex) (asserts : Bool) (seeds : List Seed)
    (c : Seed) (idx d : Nat) (rev : Bool) (st : build_state) (s : build_state × Bool)
    (hc : address_ok c.zipcode_decoder) (hd0 : 0 < d) (hd : d ≤ c.zipcode_decoder.max_depth)
    (hty : c.zipcode_decoder.get_code_type d = NODE ∨
      is_snarl (c.zipcode_decoder.get_code_type d) = true)
    (hpar : is_chain_like (c.zipcode_decoder.get_code_type (d - 1)) = true)
    (H : scopes c.zipcode_decoder seeds.length d st)
    (hK : children_ok st.zip_code_tree) (hT : tail_ok st)
    (h : open_depth D asserts seeds c idx d (st, rev) = .ok s) :
    children_ok s.1.zip_code_tree ∧ tail_ok s.1 := by
  obtain ⟨x, hx, hxs⟩ := H.chains (d - 1) (by omega) hpar
  have hkind : c.zipcode_decoder.get_code_type d = NODE ∨
      c.zipcode_decoder.get_code_type d = REGULAR_SNARL ∨
      c.zipcode_decoder.get_code_type d = IRREGULAR_SNARL ∨
      c.zipcode_decoder.get_code_type d = ROOT_NODE := by
    rcases hty with hty | hty
    · exact Or.inl hty
    · cases h1 : c.zipcode_decoder.get_code_type d <;> simp_all [is_snarl]
  have hnr : c.zipcode_decoder.get_code_type d ≠ ROOT_NODE := by
    rcases hty with hty | hty
    · rw [hty]; decide
    · intro h1; rw [h1] at hty; cases hty
  obtain ⟨child, e, hchild, he, htree⟩ :=
    open_node_or_snarl_tree D asserts c idx d rev st x s.1 hd0 hnr hx
      ((open_depth_ok D asserts seeds c idx d rev st s h).1 hkind)
  have hlast := tree_last_of_scopes _ _ _ st hc hd0 H hT
  have htail : tail_ok s.1 := by
    refine tail_ok_of_last s.1 _ child htree ?_ ?_
    · rcases hchild with h1 | h1 <;> rw [h1] <;> decide
    · rcases hchild with h1 | h1 <;> rw [h1] <;> decide
  refine ⟨?_, htail⟩
  rw [htree]
  by_cases hcond : d = 1 ∧ c.zipcode_decoder.get_code_type (d - 1) = ROOT_CHAIN ∧
      x.type = CHAIN_START
  · rw [if_pos hcond]
    obtain ⟨-, -, v, hv⟩ := hxs hcond.2.2
    obtain ⟨pre, y, hpre, -⟩ := hlast
    have hy : y = ⟨CHAIN_START, v⟩ := by
      rw [hpre] at hv
      simpa using hv
    subst hy
    refine children_ok_snoc_child _ child hK hchild (Or.inl ⟨pre, v, hpre, ?_⟩)
    have hb := H.brackets
    obtain ⟨hd1, h0, -⟩ := hcond
    subst hd1
    rw [hpre, match_brackets_append,
      bracket_of_chain _ 0 (by simpa using hpar)] at hb
    cases hm : match_brackets [] pre with
    | none => rw [hm] at hb; simp at hb
    | some o =>
      rw [hm] at hb
      simp [match_brackets, open_brackets] at hb
      rw [hb]
  · rw [if_neg hcond]
    refine children_ok_push _ e child hK hlast ?_ he hchild
    rcases Nat.lt_or_ge d 2 with hlt | hge
    · have hd1 : d = 1 := by omega
      subst hd1
      have h0 : c.zipcode_decoder.get_code_type 0 = ROOT_CHAIN := by
        rcases hc.1 with ⟨_, hm⟩ | ⟨h0, _⟩
        · omega
        · exact h0
      refine tail_not_root_start st x hT (by simpa using hx) ?_
      intro hxt
      exact hcond ⟨rfl, by simpa using h0, hxt⟩
    · obtain ⟨o1, o2, outer, ho⟩ := open_brackets_two _ hc d hge hd
      exact not_root_start_of_brackets _ o1 o2 outer (by rw [H.brackets, ho])

theorem chain_not_node_kind {t : code_type_t} (h : t = CHAIN ∨ t = ROOT_CHAIN) :
    ¬ (t = NODE ∨ t = REGULAR_SNARL ∨ t = IRREGULAR_SNARL ∨ t = ROOT_NODE) := by
  rcases h with h | h <;> subst h <;> decide

/-- Opening a new child chain of a snarl keeps the children of chains preceded
as they should be. -/
theorem open_chain_children (D : SnarlDistanceIndex) (asserts : Bool) (seeds : List Seed)
    (c : Seed) (idx d : Nat) (rev : Bool) (st : build_state) (s : build_state × Bool)
    (hd0 : 0 < d) (hty : c.zipcode_decoder.get_code_type d = CHAIN)
    (hpar : is_snarl (c.zipcode_decoder.get_code_type (d - 1)) = true)
    (H : scopes c.zipcode_decoder seeds.length d st)
    (hK : children_ok st.zip_code_tree)
    (h : open_depth D asserts seeds c idx d (st, rev) = .ok s) :
    children_ok s.1.zip_code_tree ∧ tail_ok s.1 := by
  have hst := (open_depth_ok D asserts seeds c idx d rev st s h).2
    (chain_not_node_kind (Or.inl hty))
  obtain ⟨l, hl, hcases⟩ := open_chain_tree D asserts seeds c idx d rev st s.1 hty hst
  have hl0 : l = [] := H.empty d l (Or.inl (le_refl _)) hl
  have hb : match_brackets [] st.zip_code_tree =
      some (bracket.snarl :: open_brackets c.zipcode_decoder (d - 1)) := by
    rw [H.brackets]
    obtain ⟨e, rfl⟩ : ∃ e, d = e + 1 := ⟨d - 1, by omega⟩
    rw [bracket_of_snarl _ e (by simpa using hpar)]
    simp
  rcases hcases with ⟨-, es, hes, ⟨-, htree⟩ | ⟨-, v, htree⟩⟩ | ⟨hne, -⟩
  · obtain ⟨h1, h2⟩ := children_ok_push_chain st.zip_code_tree es SIZE_MAX _ hK hb hes
    rw [htree]
    refine ⟨h1, ⟨Or.inr ⟨_, _, htree, by simp⟩, ?_⟩⟩
    rintro ⟨pre, w, hsplit, hpre⟩
    rw [htree] at hsplit
    exact absurd hpre (h2 pre w hsplit)
  · obtain ⟨h1, h2⟩ := children_ok_push_chain st.zip_code_tree es SIZE_MAX _ hK hb hes
    have h3 := children_ok_push _ ⟨EDGE, v⟩ ⟨SEED, idx⟩ h1 ⟨_, _, rfl, by simp⟩ h2 rfl
      (Or.inl rfl)
    have heq : s.1.zip_code_tree = st.zip_code_tree ++ es ++ [⟨CHAIN_START, SIZE_MAX⟩] ++
        [⟨EDGE, v⟩] ++ [⟨SEED, idx⟩] := by
      rw [htree]
      simp
    rw [heq]
    exact ⟨h3, tail_ok_of_last s.1 _ ⟨SEED, idx⟩ heq (by simp) (by simp)⟩
  · exact absurd hl0 hne

/-- Opening a root chain keeps the children of chains preceded as they should
be. -/
theorem open_root_chain_children (D : SnarlDistanceIndex) (asserts : Bool)
    (seeds : List Seed) (c : Seed) (idx : Nat) (rev : Bool) (st : build_state)
    (s : build_state × Bool) (hty : c.zipcode_decoder.get_code_type 0 = ROOT_CHAIN)
    (H : scopes c.zipcode_decoder seeds.length 0 st)
    (hK : children_ok st.zip_code_tree)
    (h : open_depth D asserts seeds c idx 0 (st, rev) = .ok s) :
    children_ok s.1.zip_code_tree ∧ tail_ok s.1 := by
  have hst := (open_depth_ok D asserts seeds c idx 0 rev st s h).2
    (chain_not_node_kind (Or.inr hty))
  have hlen : 0 < st.sibling_indices_at_depth.length := by
    have := H.len
    omega
  have hl0 : st.sibling_indices_at_depth[0]? = some [] := by
    rw [List.getElem?_eq_getElem hlen]
    congr 1
    exact H.empty 0 _ (Or.inl (le_refl _)) (List.getElem?_eq_getElem hlen)
  obtain ⟨htree, hsib⟩ := open_root_chain_tree D asserts seeds c idx rev st s.1 hty hl0 hst
  rw [htree]
  refine ⟨children_ok_snoc_other _ _ hK (by simp) (by simp) (by simp),
    ⟨Or.inr ⟨_, _, htree, by simp⟩, fun _ => ⟨_, hsib, rfl⟩⟩⟩

/-- Opening a root node keeps the children of chains preceded as they should
be. -/
theorem open_root_node_children (D : SnarlDistanceIndex) (asserts : Bool)
    (seeds : List Seed) (c : Seed) (idx : Nat) (rev : Bool) (st : build_state)
    (s : build_state × Bool) (hty : c.zipcode_decoder.get_code_type 0 = ROOT_NODE)
    (H : scopes c.zipcode_decoder seeds.length 0 st)
    (hK : children_ok st.zip_code_tree)
    (h : open_depth D asserts seeds c idx 0 (st, rev) = .ok s) :
    children_ok s.1.zip_code_tree ∧ tail_ok s.1 := by
  have hst := (open_depth_ok D asserts seeds c idx 0 rev st s h).1
    (Or.inr (Or.inr (Or.inr hty)))
  obtain ⟨l, hl, hcases⟩ := open_root_node_tree D asserts c idx rev st s.1 hty hst
  have hl0 : l = [] := H.empty 0 l (Or.inl (le_refl _)) hl
  rcases hcases with ⟨-, htree⟩ | ⟨x, rest, hx, -⟩
  · have heq : s.1.zip_code_tree = st.zip_code_tree ++ [⟨CHAIN_START, SIZE_MAX⟩] ++
        [⟨SEED, idx⟩] := by
      rw [htree]
      simp
    rw [heq]
    refine ⟨children_ok_snoc_child _ _
      (children_ok_snoc_other _ _ hK (by simp) (by simp) (by simp)) (Or.inl rfl)
      (Or.inl ⟨_, _, rfl, ?_⟩), tail_ok_of_last s.1 _ ⟨SEED, idx⟩ heq (by simp) (by simp)⟩
    rw [H.brackets]
    rfl
  · rw [hl0] at hx
    cases hx

/-- Adding a seed to the root node of the seed before it keeps the children of
chains preceded as they should be. -/
theorem reopen_root_node_children (D : SnarlDistanceIndex) (asserts : Bool)
    (seeds : List Seed) (c : Seed) (idx : Nat) (rev : Bool) (st : build_state)
    (s : build_state × Bool) (hc : address_ok c.zipcode_decoder)
    (hty : c.zipcode_decoder.get_code_type 0 = ROOT_NODE)
    (hmax : c.zipcode_decoder.max_depth = 0)
    (H : scopes c.zipcode_decoder seeds.length 1 st)
    (hK : children_ok st.zip_code_tree) (hT : tail_ok st)
    (h : open_depth D asserts seeds c idx 0 (st, rev) = .ok s) :
    children_ok s.1.zip_code_tree ∧ tail_ok s.1 := by
  have hst := (open_depth_ok D asserts seeds c idx 0 rev st s h).1
    (Or.inr (Or.inr (Or.inr hty)))
  obtain ⟨l, hl, hcases⟩ := open_root_node_tree D asserts c idx rev st s.1 hty hst
  obtain ⟨x, hx, hxs⟩ := H.chains 0 (by omega) (by simp [hty, is_chain_like])
  have hxt : x.type ≠ CHAIN_START := by
    intro h
    have := (hxs h).2.1
    omega
  rw [hx] at hl
  simp only [Option.some.injEq] at hl
  subst hl
  rcases hcases with ⟨hnil, -⟩ | ⟨y, rest, hy, ⟨hyt, -⟩ | ⟨-, v, htree⟩⟩
  · cases hnil
  · simp only [List.cons.injEq] at hy
    rw [← hy.1] at hyt
    exact absurd hyt hxt
  · have heq : s.1.zip_code_tree = st.zip_code_tree ++ [⟨EDGE, v⟩] ++ [⟨SEED, idx⟩] := by
      rw [htree]
      simp
    rw [heq]
    exact ⟨children_ok_push _ ⟨EDGE, v⟩ ⟨SEED, idx⟩ hK
      (tree_last_of_scopes _ _ _ st hc (by omega) H hT)
      (tail_not_root_start st x hT hx hxt) rfl (Or.inl rfl),
      tail_ok_of_last s.1 _ ⟨SEED, idx⟩ heq (by simp) (by simp)⟩

/-- Adding a seed to the trivial chain of the seed before it keeps the children
of chains preceded as they should be. -/
theorem reopen_chain_children (D : SnarlDistanceIndex) (asserts : Bool)
    (seeds : List Seed) (c : Seed) (idx : Nat) (rev : Bool) (st : build_state)
    (s : build_state × Bool) (hc : address_ok c.zipcode_decoder)
    (hd0 : 0 < c.zipcode_decoder.max_depth)
    (hty : c.zipcode_decoder.get_code_type c.zipcode_decoder.max_depth = CHAIN)
    (hpar : is_snarl (c.zipcode_decoder.get_code_type (c.zipcode_decoder.max_depth - 1)) = true)
    (H : scopes c.zipcode_decoder seeds.length (c.zipcode_decoder.max_depth + 1) st)
    (hK : children_ok st.zip_code_tree) (hT : tail_ok st)
    (h : open_depth D asserts seeds c idx c.zipcode_decoder.max_depth (st, rev) = .ok s) :
    children_ok s.1.zip_code_tree ∧ tail_ok s.1 := by
  have hst := (open_depth_ok D asserts seeds c idx _ rev st s h).2
    (chain_not_node_kind (Or.inl hty))
  obtain ⟨l, hl, hcases⟩ := open_chain_tree D asserts seeds c idx _ rev st s.1 hty hst
  obtain ⟨x, hx, -⟩ := H.chains c.zipcode_decoder.max_depth (by omega)
    (by simp [hty, is_chain_like])
  rw [hx] at hl
  simp only [Option.some.injEq] at hl
  subst hl
  have hb : ∃ outer, match_brackets [] st.zip_code_tree =
      some (bracket.chain :: bracket.snarl :: outer) := by
    refine ⟨open_brackets c.zipcode_decoder (c.zipcode_decoder.max_depth - 1), ?_⟩
    rw [H.brackets, bracket_of_chain _ _ (by simp [hty, is_chain_like])]
    obtain ⟨e, he⟩ : ∃ e, c.zipcode_decoder.max_depth = e + 1 :=
      ⟨c.zipcode_decoder.max_depth - 1, by omega⟩
    rw [he] at hpar ⊢
    rw [bracket_of_snarl _ e (by simpa using hpar)]
    simp
  obtain ⟨outer, hb⟩ := hb
  rcases hcases with ⟨hnil, -⟩ | ⟨-, ⟨hne, -⟩ | ⟨-, v, htree⟩⟩
  · cases hnil
  · exact absurd rfl hne
  · have heq : s.1.zip_code_tree = st.zip_code_tree ++ [⟨EDGE, v⟩] ++ [⟨SEED, idx⟩] := by
      rw [htree]
      simp
    rw [heq]
    exact ⟨children_ok_push _ ⟨EDGE, v⟩ ⟨SEED, idx⟩ hK
      (tree_last_of_scopes _ _ _ st hc (by omega) H hT)
      (not_root_start_of_brackets _ _ _ outer hb) rfl (Or.inl rfl),
      tail_ok_of_last s.1 _ ⟨SEED, idx⟩ heq (by simp) (by simp)⟩

/-- One iteration of the open loop keeps the children of chains preceded as
they should be. -/
theorem open_depth_children (D : SnarlDistanceIndex) (asserts : Bool) (seeds : List Seed)
    (c : Seed) (idx d : Nat) (rev : Bool) (st : build_state) (s : build_state × Bool)
    (hc : address_ok c.zipcode_decoder) (hd : d ≤ c.zipcode_decoder.max_depth)
    (H : scopes c.zipcode_decoder seeds.length d st)
    (hK : children_ok st.zip_code_tree) (hT : tail_ok st)
    (h : open_depth D asserts seeds c idx d (st, rev) = .ok s) :
    children_ok s.1.zip_code_tree ∧ tail_ok s.1 := by
  rcases address_ok_cases c.zipcode_decoder hc d hd with
    ⟨rfl, h1, h2⟩ | ⟨rfl, h1, h2⟩ | ⟨h0, h1, h2, h3⟩ | ⟨h0, h1, h2, h3⟩ | ⟨h0, h1, h2⟩
  · exact open_root_node_children D asserts seeds c idx rev st s h1 H hK h
  · exact open_root_chain_children D asserts seeds c idx rev st s h1 H hK h
  · exact open_child_children D asserts seeds c idx d rev st s hc h0 hd (Or.inl h1) h3 H hK hT h
  · exact open_child_children D asserts seeds c idx d rev st s hc h0 hd (Or.inr h1) h3 H hK hT h
  · exact open_chain_children D asserts seeds c idx d rev st s h0 h1 h2 H hK h

/-- Re-entering the leaf of the previous seed (the same-node case) keeps the
children of chains preceded as they should be. -/
theorem reopen_children (D : SnarlDistanceIndex) (asserts : Bool) (seeds : List Seed)
    (c : Seed) (idx : Nat) (rev : Bool) (st : build_state) (s : build_state × Bool)
    (hc : address_ok c.zipcode_decoder)
    (H : scopes c.zipcode_decoder seeds.length (c.zipcode_decoder.max_depth + 1) st)
    (hK : children_ok st.zip_code_tree) (hT : tail_ok st)
    (h : open_depth D asserts seeds c idx c.zipcode_decoder.max_depth (st, rev) = .ok s) :
    children_ok s.1.zip_code_tree ∧ tail_ok s.1 := by
  rcases address_ok_cases c.zipcode_decoder hc c.zipcode_decoder.max_depth (le_refl _) with
    ⟨h0, h1, h2⟩ | ⟨h0, h1, h2⟩ | ⟨h0, h1, h2, h3⟩ | ⟨h0, h1, h2, h3⟩ | ⟨h0, h1, h2⟩
  · rw [h2] at H h1 h
    exact reopen_root_node_children D asserts seeds c idx rev st s hc h1 h2 H hK hT h
  · omega
  · exact open_child_children D asserts seeds c idx _ rev st s hc h0 (le_refl _) (Or.inl h1) h3
      (scopes_before_node _ _ _ _ H h1) hK hT h
  · omega
  · exact reopen_chain_children D asserts seeds c idx rev st s hc h0 h1 h2 H hK hT h

/-- The open loop keeps the children of chains preceded as they should be. -/
theorem open_loop_children (D : SnarlDistanceIndex) (asserts : Bool) (seeds : List Seed)
    (c : Seed) (idx : Nat) (hc : address_ok c.zipcode_decoder) (hidx : idx < seeds.length) :
    ∀ (k d : Nat) (rev : Bool) (st : build_state) (s : build_state × Bool),
      d + k = c.zipcode_decoder.max_depth + 1 →
      scopes c.zipcode_decoder seeds.length d st →
      children_ok st.zip_code_tree → tail_ok st →
      open_loop D asserts seeds c idx k d (st, rev) = .ok s →
      children_ok s.1.zip_code_tree ∧ tail_ok s.1 := by
  intro k
  induction k with
  | zero =>
    intro d rev st s _ _ hK hT h
    simp only [open_loop, Except.ok.injEq] at h
    subst h
    exact ⟨hK, hT⟩
  | succ k ih =>
    intro d rev st s hk H hK hT h
    simp only [open_loop, bind, Except.bind] at h
    cases hs1 : open_depth D asserts seeds c idx d (st, rev) with
    | error e => rw [hs1] at h; simp at h
    | ok s1 =>
      rw [hs1] at h
      have H1 := (step_ok_ok asserts _ _ s1
        (open_depth_spec D asserts seeds c idx d rev st hc hidx (by omega) H) hs1).1
      obtain ⟨hK1, hT1⟩ :=
        open_depth_children D asserts seeds c idx d rev st s1 hc (by omega) H hK hT hs1
      exact ih (d + 1) s1.2 s1.1 s (by omega) H1 hK1 hT1 h

/-- The body of the main loop on the first seed leaves the children of chains
preceded as they should be. -/
theorem add_seed_first_children (D : SnarlDistanceIndex) (asserts : Bool)
    (seeds : List Seed) (c : Seed) (idx : Nat) (hget : seeds[idx]? = some c)
    (hc : address_ok c.zipcode_decoder) (s : build_state)
    (h : add_seed D asserts seeds none idx ⟨[], []⟩ = .ok s) :
    children_ok s.zip_code_tree := by
  have hidx : idx < seeds.length := (mem_of_getElem? seeds idx c hget).2
  obtain ⟨hf0, hfs⟩ := first_different_ancestor_first D c.zipcode_decoder c.zipcode_decoder
  have H0 : scopes c.zipcode_decoder seeds.length 0
      ⟨[], List.replicate (c.zipcode_decoder.max_depth + 1) []⟩ := by
    refine ⟨by simp, ?_, ?_, ?_, rfl, guarded_nil⟩
    · intro e he
      omega
    · intro e he
      omega
    · intro e l _ hl
      simp only [List.getElem?_replicate] at hl
      split_ifs at hl
      cases hl
      rfl
  have hT0 : tail_ok ⟨[], List.replicate (c.zipcode_decoder.max_depth + 1) []⟩ := by
    refine ⟨Or.inl rfl, ?_⟩
    rintro ⟨pre, v, hsplit, -⟩
    have := congrArg List.length hsplit
    simp at this
  simp only [add_seed, vec_get, List.get?_eq_getElem?, hget, bind, Except.bind, pure,
    Except.pure, Option.isNone, hf0, hfs, List.length_nil, Nat.sub_zero, List.nil_append,
    Bool.not_false, Bool.not_true, Bool.and_false, Bool.false_eq_true, if_false] at h
  split at h
  · simp at h
  · rename_i s2 hs2
    simp only [Except.ok.injEq] at h
    subst h
    exact (open_loop_children D asserts seeds c idx hc hidx _ 0 _ _ s2 (by omega) H0
      children_ok_nil hT0 hs2).1

/-- The body of the main loop keeps the children of chains preceded as they
should be. -/
theorem add_seed_next_children (D : SnarlDistanceIndex) (asserts : Bool) (seeds : List Seed)
    (c p : Seed) (idx j : Nat) (st : build_state)
    (hgetc : seeds[idx]? = some c) (hgetp : seeds[j]? = some p)
    (hcons : consistent D seeds)
    (H : scopes p.zipcode_decoder seeds.length (p.zipcode_decoder.max_depth + 1) st)
    (hQ : closed_to p.zipcode_decoder (p.zipcode_decoder.max_depth + 1) st.zip_code_tree)
    (hK : children_ok st.zip_code_tree)
    (s : build_state) (h : add_seed D asserts seeds (some j) idx st = .ok s) :
    children_ok s.zip_code_tree := by
  obtain ⟨hcm, hidx⟩ := mem_of_getElem? seeds idx c hgetc
  obtain ⟨hpm, -⟩ := mem_of_getElem? seeds j p hgetp
  have hc := hcons.1 c hcm
  have hp := hcons.1 p hpm
  have hagree := hcons.2 c hcm p hpm
  obtain ⟨hf1, hf2, hf3⟩ := first_different_ancestor_spec D c.zipcode_decoder p.zipcode_decoder
  have Hpad := scopes_pad p.zipcode_decoder seeds.length (p.zipcode_decoder.max_depth + 1)
    (c.zipcode_decoder.max_depth + 1 - st.sibling_indices_at_depth.length) st H
  have hlen : c.zipcode_decoder.max_depth <
      (st.sibling_indices_at_depth ++ List.replicate
        (c.zipcode_decoder.max_depth + 1 - st.sibling_indices_at_depth.length) []).length := by
    simp only [List.length_append, List.length_replicate]
    omega
  have hfle : (first_different_ancestor D false c.zipcode_decoder
      p.zipcode_decoder).first_different_ancestor_depth ≤ p.zipcode_decoder.max_depth :=
    le_trans hf1 (Nat.min_le_right _ _)
  have hfle' : (first_different_ancestor D false c.zipcode_decoder
      p.zipcode_decoder).first_different_ancestor_depth ≤ c.zipcode_decoder.max_depth :=
    le_trans hf1 (Nat.min_le_left _ _)
  simp only [add_seed, vec_get, List.get?_eq_getElem?, hgetc, hgetp, bind, Except.bind, pure,
    Except.pure, Option.isNone, Bool.not_false, Bool.and_true, Bool.false_eq_true, if_false]
    at h
  cases hsame : (first_different_ancestor D false c.zipcode_decoder
      p.zipcode_decoder).same_node
  · simp only [hsame, Bool.not_false, if_true] at h
    have hk : (first_different_ancestor D false c.zipcode_decoder
        p.zipcode_decoder).first_different_ancestor_depth +
        (p.zipcode_decoder.max_depth + 1 - (first_different_ancestor D false c.zipcode_decoder
        p.zipcode_decoder).first_different_ancestor_depth) =
        p.zipcode_decoder.max_depth + 1 := by omega
    obtain ⟨s1, hs1, H1, -, hl1⟩ := close_loop_spec D seeds p.zipcode_decoder
      (first_different_ancestor D false c.zipcode_decoder
        p.zipcode_decoder).first_different_ancestor_depth hp
      (p.zipcode_decoder.max_depth + 1 - (first_different_ancestor D false c.zipcode_decoder
        p.zipcode_decoder).first_different_ancestor_depth)
      (first_different_ancestor D false c.zipcode_decoder p.zipcode_decoder).previous_is_reversed
      _ (by omega) (by rw [hk]; exact Hpad)
    have hQ1 := close_loop_ends D seeds p.zipcode_decoder
      (first_different_ancestor D false c.zipcode_decoder
        p.zipcode_decoder).first_different_ancestor_depth hp
      (p.zipcode_decoder.max_depth + 1 - (first_different_ancestor D false c.zipcode_decoder
        p.zipcode_decoder).first_different_ancestor_depth)
      (first_different_ancestor D false c.zipcode_decoder p.zipcode_decoder).previous_is_reversed
      _ s1 (by omega) (by rw [hk]; exact Hpad) (by rw [hk]; exact hQ) hs1
    have hK1 := close_loop_children D seeds p.zipcode_decoder
      (first_different_ancestor D false c.zipcode_decoder
        p.zipcode_decoder).first_different_ancestor_depth hp
      (p.zipcode_decoder.max_depth + 1 - (first_different_ancestor D false c.zipcode_decoder
        p.zipcode_decoder).first_different_ancestor_depth)
      (first_different_ancestor D false c.zipcode_decoder p.zipcode_decoder).previous_is_reversed
      ⟨st.zip_code_tree, st.sibling_indices_at_depth ++ List.replicate
        (c.zipcode_decoder.max_depth + 1 - st.sibling_indices_at_depth.length) []⟩
      s1 (by omega) (by rw [hk]; exact Hpad) (by rw [hk]; exact hQ) hK hs1
    have H2 : scopes c.zipcode_decoder seeds.length
        (first_different_ancestor D false c.zipcode_decoder
          p.zipcode_decoder).first_different_ancestor_depth s1.1 := by
      refine scopes_transfer p.zipcode_decoder c.zipcode_decoder _ _ _ H1 ?_
        (by rw [hl1]; exact hlen) (fun _ => hfle')
      intro e he
      exact ((hagree e (by omega) (by omega) (fun e1 he1 => hf2 e1 (by omega))).1).symm
    simp only [hs1] at h
    split at h
    · simp at h
    · rename_i s2 hs2
      simp only [Except.ok.injEq] at h
      subst h
      exact (open_loop_children D asserts seeds c idx hc hidx _ _ _ s1.1 s2 (by omega) H2 hK1
        (tail_ok_of_closed_to _ _ s1.1 hQ1) hs2).1
  · simp only [hsame, Bool.not_true, Bool.false_eq_true, if_false] at h
    obtain ⟨hfm, hall⟩ := hf3 hsame
    have hmin := hagree (min c.zipcode_decoder.max_depth p.zipcode_decoder.max_depth)
      (Nat.min_le_left _ _) (Nat.min_le_right _ _) (fun e he => hall e he)
    have hmax : c.zipcode_decoder.max_depth = p.zipcode_decoder.max_depth := by
      have := hmin.2
      rcases Nat.le_total c.zipcode_decoder.max_depth p.zipcode_decoder.max_depth with h | h
      · rw [Nat.min_eq_left h] at this
        exact this.mp rfl
      · rw [Nat.min_eq_right h] at this
        exact (this.mpr rfl).symm
    have hfc : (first_different_ancestor D false c.zipcode_decoder
        p.zipcode_decoder).first_different_ancestor_depth = c.zipcode_decoder.max_depth := by
      rw [hfm, hmax, Nat.min_self]
    have H2 : scopes c.zipcode_decoder seeds.length (c.zipcode_decoder.max_depth + 1)
        ⟨st.zip_code_tree, st.sibling_indices_at_depth ++ List.replicate
          (c.zipcode_decoder.max_depth + 1 - st.sibling_indices_at_depth.length) []⟩ := by
      have h := scopes_transfer p.zipcode_decoder c.zipcode_decoder _ _ _ Hpad (by
        intro e he
        exact ((hagree e (by omega) (by omega)
          (fun e1 he1 => hall e1 (by rw [hmax, Nat.min_self]; omega))).1).symm) hlen
        (fun h => by omega)
      rw [← hmax] at h
      exact h
    rw [hfc] at h
    have hone : c.zipcode_decoder.max_depth + 1 - c.zipcode_decoder.max_depth = 1 := by omega
    rw [hone] at h
    simp only [open_loop, bind, Except.bind] at h
    split at h
    · simp at h
    · rename_i s2 hs2
      split at hs2
      · simp at hs2
      · rename_i s3 hs3
        simp only [Except.ok.injEq] at hs2 h
        subst hs2
        subst h
        exact (reopen_children D asserts seeds c idx _ _ s3 hc H2 hK
          (tail_ok_of_closed_to p.zipcode_decoder (p.zipcode_decoder.max_depth + 1)
            ⟨st.zip_code_tree, st.sibling_indices_at_depth ++ List.replicate
              (c.zipcode_decoder.max_depth + 1 - st.sibling_indices_at_depth.length) []⟩ hQ)
          hs3).1

/-- The main loop keeps the children of chains preceded as they should be. -/
theorem add_seeds_children (D : SnarlDistanceIndex) (asserts : Bool) (seeds : List Seed)
    (hcons : consistent D seeds) :
    ∀ (rest : List Nat) (previous : Option Nat) (st s : build_state),
      (∀ i ∈ rest, i < seeds.length) → built seeds previous st →
      (∀ j p, previous = some j → seeds[j]? = some p →
        closed_to p.zipcode_decoder (p.zipcode_decoder.max_depth + 1) st.zip_code_tree) →
      children_ok st.zip_code_tree →
      add_seeds D asserts seeds previous rest st = .ok s → children_ok s.zip_code_tree := by
  intro rest
  induction rest with
  | nil =>
    intro previous st s _ _ _ hK h
    simp only [add_seeds, Except.ok.injEq] at h
    subst h
    exact hK
  | cons idx rest ih =>
    intro previous st s hidx hb hE hK h
    have hi : idx < seeds.length := hidx idx (List.mem_cons_self _ _)
    have hgetc : seeds[idx]? = some seeds[idx] := List.getElem?_eq_getElem hi
    have hc : address_ok (seeds[idx]).zipcode_decoder :=
      hcons.1 _ (List.getElem_mem hi)
    simp only [add_seeds, bind, Except.bind] at h
    cases hs1 : add_seed D asserts seeds previous idx st with
    | error e => rw [hs1] at h; simp at h
    | ok s1 =>
      rw [hs1] at h
      have hstep : built seeds (some idx) s1 ∧
          closed_to (seeds[idx]).zipcode_decoder ((seeds[idx]).zipcode_decoder.max_depth + 1)
            s1.zip_code_tree ∧ children_ok s1.zip_code_tree := by
        cases previous with
        | none =>
          simp only [built] at hb
          subst hb
          have h1 := step_ok_ok asserts _ _ s1
            (add_seed_first D asserts seeds _ idx hgetc hc) hs1
          exact ⟨⟨_, hgetc, h1.1⟩, add_seed_first_ends D asserts seeds _ idx hgetc hc s1 hs1,
            add_seed_first_children D asserts seeds _ idx hgetc hc s1 hs1⟩
        | some j =>
          obtain ⟨p, hgetp, H⟩ := hb
          have h1 := step_ok_ok asserts _ _ s1
            (add_seed_next D asserts seeds _ p idx j st hgetc hgetp hcons H) hs1
          exact ⟨⟨_, hgetc, h1.1⟩, add_seed_next_ends D asserts seeds _ p idx j st hgetc hgetp
            hcons H (hE j p rfl hgetp) s1 hs1,
            add_seed_next_children D asserts seeds _ p idx j st hgetc hgetp hcons H
              (hE j p rfl hgetp) hK s1 hs1⟩
      refine ih (some idx) s1 s (fun i hi => hidx i (List.mem_cons_of_mem _ hi)) hstep.1 ?_
        hstep.2.2 h
      intro j p hj hp
      cases hj
      rw [hgetc] at hp
      cases hp
      exact hstep.2.1

/-- In every store the constructor returns, the children of chains are
preceded as they should be. -/
theorem build_children (D : SnarlDistanceIndex) (asserts : Bool) (seeds : List Seed)
    (seed_indices : List Nat) (hcons : consistent D seeds) (hne : seed_indices ≠ [])
    (hidx : ∀ i ∈ seed_indices, i < seeds.length) (t : List tree_item_t)
    (h : build D asserts seeds seed_indices = .ok t) : children_ok t := by
  obtain ⟨j, hj⟩ : ∃ j, seed_indices.getLast? = some j := by
    cases h : seed_indices.getLast? with
    | none => simp at h; exact absurd h hne
    | some j => exact ⟨j, rfl⟩
  simp only [build, bind, Except.bind, pure, Except.pure] at h
  cases hs : add_seeds D asserts seeds none seed_indices ⟨[], []⟩ with
  | error e => rw [hs] at h; simp at h
  | ok st =>
    rw [hs] at h
    obtain ⟨hb, hE⟩ := add_seeds_ends D asserts seeds hcons seed_indices none ⟨[], []⟩ st hidx
      rfl (fun j p hj => by cases hj) hs
    have hK := add_seeds_children D asserts seeds hcons seed_indices none ⟨[], []⟩ st hidx
      rfl (fun j p hj => by cases hj) children_ok_nil hs
    rw [hj] at hb hE
    obtain ⟨p, hgetp, H⟩ := hb
    have hQ := hE j p rfl hgetp
    obtain ⟨hpm, -⟩ := mem_of_getElem? seeds j p hgetp
    simp only [final_flush, vec_back, hj, vec_get, List.get?_eq_getElem?, hgetp, bind,
      Except.bind, pure, Except.pure] at h
    split at h
    · simp at h
    · rename_i st1 hst1
      simp only [Except.ok.injEq] at h
      subst h
      split at hst1
      · simp at hst1
      · rename_i s2 hs2
        simp only [Except.ok.injEq] at hst1
        subst hst1
        exact flush_loop_children D seeds p.zipcode_decoder (hcons.1 p hpm) st.zip_code_tree
          st.sibling_indices_at_depth H (p.zipcode_decoder.max_depth + 1) (le_refl _) _
          st.zip_code_tree s2 H.brackets H.guard hQ hK hs2

/-- A `size_t` subtraction that does not wrap. -/
theorem size_sub_of_le (a b : Nat) (hb : b ≤ a) (ha : a < 2 ^ 64) : size_sub a b = a - b := by
  unfold size_sub
  have h1 : a % 2 ^ 64 = a := Nat.mod_eq_of_lt ha
  have h2 : b % 2 ^ 64 = b := Nat.mod_eq_of_lt (lt_of_le_of_lt hb ha)
  rw [h1, h2]
  have : a + 2 ^ 64 - b = (a - b) + 2 ^ 64 := by omega
  rw [this, Nat.add_mod_right]
  exact Nat.mod_eq_of_lt (by omega)

/-! ### The backward automaton: the stack in the scanning states -/

/-- A tick that returns keeps the stack non-empty in the scanning states. -/
theorem tick_stack_ready (t : List tree_item_t) (r r1 : reverse_iterator) (y : Bool)
    (hr : stack_ready r) (h : tick t r = .ok (y, r1)) : stack_ready r1 := by
  unfold tick at h
  split at h
  · cases h
  · split at h
    · cases h
    · rename_i item hitem
      obtain ⟨it, lim, stack, st⟩ := r
      unfold stack_ready at hr ⊢
      cases st <;> cases hty : item.type <;>
        simp only [hty] at h <;>
        (try (rcases stack with _ | ⟨a, _ | ⟨b, _ | ⟨c, rest⟩⟩⟩)) <;>
        simp [bind, Except.bind, pure, Except.pure, push, pop, top, set_top, dup, depth,
                reverse_iterator.reverse, state, halt, enter_chain] at h <;>
        (try split_ifs at h) <;>
        (try simp [bind, Except.bind, pure, Except.pure, push, pop, top, set_top, dup, depth,
                reverse_iterator.reverse, state, halt, enter_chain] at h) <;>
        (try (obtain ⟨rfl, rfl⟩ := h)) <;>
        (try simp_all [push, state, halt])
      generalize (List.take a (c :: rest)).reverse ++ List.drop a (c :: rest) = l at h
      cases l <;> simp at h
      split_ifs at h <;> simp at h <;> obtain ⟨rfl, rfl⟩ := h <;> simp

/-- The scan loop keeps the stack non-empty in the scanning states. -/
theorem scan_stack_ready (t : List tree_item_t) :
    ∀ (fuel : Nat) (r r1 : reverse_iterator), stack_ready r → scan t fuel r = .ok r1 →
      stack_ready r1 := by
  intro fuel
  induction fuel with
  | zero =>
    intro r r1 hr h
    simp only [scan] at h
    cases h
    exact hr
  | succ n ih =>
    intro r r1 hr h
    simp only [scan] at h
    split_ifs at h with h0
    · cases h
      exact hr
    · split at h
      · cases h
      · rename_i r2 ht
        cases h
        exact tick_stack_ready t r r1 true hr ht
      · rename_i r2 ht
        split_ifs at h with h2
        exact ih ⟨r2.it - 1, r2.distance_limit, r2.stack, r2.current_state⟩ r1
          (tick_stack_ready t r r2 false hr ht) h

/-- When the scan loop returns, the conditions checked by `operator*` hold. -/
theorem scan_deref_checks (t : List tree_item_t) (fuel : Nat) (r r1 : reverse_iterator)
    (hf : r.it ≤ fuel) (hr : stack_ready r) (h : scan t fuel r = .ok r1) :
    deref_checks t r1 := by
  by_cases h0 : r1.it = 0
  · exact Or.inl h0
  · obtain ⟨-, -, hs⟩ := scan_spec t fuel r r1 hf h
    obtain ⟨hstate, hitem⟩ := hs h0
    exact Or.inr ⟨hitem, hstate, scan_stack_ready t fuel r r1 hr h (Or.inl hstate)⟩

theorem vec_modify_ok {α : Type} (v v1 : List α) (i : Nat) (f : α → Except Err α)
    (h : vec_modify v i f = .ok v1) :
    ∃ x y, v[i]? = some x ∧ f x = .ok y ∧ v1 = v.set i y := by
  unfold vec_modify at h
  rw [List.get?_eq_getElem?] at h
  cases hx : v[i]? with
  | none => rw [hx] at h; simp at h
  | some x =>
    rw [hx] at h
    simp only at h
    cases hy : f x with
    | error e => rw [hy] at h; simp at h
    | ok y =>
      rw [hy] at h
      simp only [Except.ok.injEq] at h
      exact ⟨x, y, rfl, hy, h.symm⟩

/-- The exact effect of opening a node or a snarl below a chain whose scratch
list holds the entry `x` alone. -/
theorem open_node_or_snarl_exact (D : SnarlDistanceIndex) (asserts : Bool)
    (c : Seed) (idx d : Nat) (rev : Bool) (st : build_state) (x : child_info_t)
    (s : build_state) (hd : 0 < d)
    (hnr : c.zipcode_decoder.get_code_type d ≠ ROOT_NODE)
    (hx : st.sibling_indices_at_depth[d - 1]? = some [x])
    (h : open_node_or_snarl D asserts c idx d rev st = .ok s) :
    s.zip_code_tree =
      (if d = 1 ∧ c.zipcode_decoder.get_code_type (d - 1) = ROOT_CHAIN ∧ x.type = CHAIN_START
        then st.zip_code_tree
        else st.zip_code_tree ++ [⟨EDGE, size_sub (child_offset D c d rev) x.value⟩]) ++
      [if c.zipcode_decoder.get_code_type d = NODE then ⟨SEED, idx⟩
        else ⟨SNARL_START, SIZE_MAX⟩] ∧
    s.sibling_indices_at_depth[d - 1]? = some [⟨SEED, recorded_offset D c d rev⟩] ∧
    (∀ i, i ≠ d → i ≠ d - 1 →
      s.sibling_indices_at_depth[i]? = st.sibling_indices_at_depth[i]?) ∧
    (if c.zipcode_decoder.get_code_type d = NODE
      then s.sibling_indices_at_depth[d]? = st.sibling_indices_at_depth[d]?
      else ∃ l, st.sibling_indices_at_depth[d]? = some l ∧
        s.sibling_indices_at_depth[d]? = some (l ++ [⟨SNARL_START, SIZE_MAX⟩])) := by
  have hd0 : d ≠ 0 := by omega
  have hlen : d - 1 < st.sibling_indices_at_depth.length := (mem_of_getElem? _ _ _ hx).2
  simp only [open_node_or_snarl, if_neg hnr, vec_get,
    List.get?_eq_getElem?, hx, hd0, if_false, bind, Except.bind, pure, Except.pure,
    List.getElem?_cons_zero, false_and, not_false_eq_true, true_and, or_false] at h
  split at h
  · cases h
  split at h
  · cases h
  have hrec : recorded_offset D c d rev =
      if c.zipcode_decoder.get_code_type d = NODE then child_offset D c d rev
      else D.sum (child_offset D c d rev) (c.zipcode_decoder.get_length d) := by
    simp [recorded_offset, hnr]
  by_cases hnode : c.zipcode_decoder.get_code_type d = NODE
  · simp only [hnode, if_true, true_or] at h hrec ⊢
    split at h
    · cases h
    rename_i v hv
    obtain ⟨x1, y, hx1, hy, rfl⟩ := vec_modify_ok _ _ _ _ hv
    rw [hx] at hx1
    cases hx1
    simp [vec_pop_back] at hy
    subst hy
    simp only [Except.ok.injEq] at h
    subst h
    refine ⟨?_, ?_, ?_, ?_⟩
    · by_cases hc : d = 1 ∧ c.zipcode_decoder.get_code_type (d - 1) = ROOT_CHAIN ∧
          x.type = CHAIN_START
      · simp [hc]
      · simp only [hc, not_false_eq_true, if_true, if_false]
    · simp [hlen, hrec]
    · intro i _ hi
      simp [List.getElem?_set_ne (Ne.symm hi)]
    · have : d - 1 ≠ d := by omega
      simp [List.getElem?_set_ne this]
  · have hnn : ¬ (c.zipcode_decoder.get_code_type d = NODE ∨
        c.zipcode_decoder.get_code_type d = ROOT_NODE) := by
      intro h1
      rcases h1 with h1 | h1
      · exact hnode h1
      · exact hnr h1
    simp only [if_neg hnn, if_neg hnode] at h hrec ⊢
    split at h
    · cases h
    rename_i v hv
    split at h
    · cases h
    rename_i v1 hv1
    obtain ⟨l, y, hl, hy, rfl⟩ := vec_modify_ok _ _ _ _ hv
    simp only [Except.ok.injEq] at hy
    subst hy
    obtain ⟨x1, y1, hx1, hy1, rfl⟩ := vec_modify_ok _ _ _ _ hv1
    have hne : d ≠ d - 1 := by omega
    rw [List.getElem?_set_ne hne, hx] at hx1
    cases hx1
    simp [vec_pop_back] at hy1
    subst hy1
    simp only [Except.ok.injEq] at h
    subst h
    have hlend : d < st.sibling_indices_at_depth.length := (mem_of_getElem? _ _ _ hl).2
    refine ⟨?_, ?_, ?_, ?_⟩
    · by_cases hc : d = 1 ∧ c.zipcode_decoder.get_code_type (d - 1) = ROOT_CHAIN ∧
          x.type = CHAIN_START
      · simp [hc]
      · simp only [hc, not_false_eq_true, if_true, if_false]
    · simp [hlen, hrec]
    · intro i hi1 hi
      simp [List.getElem?_set_ne (Ne.symm hi), List.getElem?_set_ne (Ne.symm hi1)]
    · refine ⟨l, hl, ?_⟩
      simp [List.getElem?_set_ne (Ne.symm hne), hlend]

/-- The exact effect of opening a new child chain of a snarl: the distance
items of the scratch list `l` of the snarl in reverse order, the CHAIN_START,
and for a trivial chain the seed with its distance item; the chain is recorded
at the end of the scratch list of the snarl. -/
theorem open_chain_exact (D : SnarlDistanceIndex) (asserts : Bool) (seeds : List Seed)
    (c : Seed) (idx d : Nat) (rev : Bool) (st s : build_state) (l : List child_info_t)
    (hd : 0 < d) (hty : c.zipcode_decoder.get_code_type d = CHAIN)
    (hown : st.sibling_indices_at_depth[d]? = some [])
    (hl : st.sibling_indices_at_depth[d - 1]? = some l)
    (h : open_chain D asserts seeds c idx d rev st = .ok s) :
    ∃ es, open_chain_edges D seeds c.zipcode_decoder rev d l = .ok es ∧
      s.zip_code_tree = st.zip_code_tree ++ es.reverse ++ [⟨CHAIN_START, SIZE_MAX⟩] ++
        (if d = c.zipcode_decoder.max_depth
          then [⟨EDGE, size_sub (trivial_chain_offset c d rev) 0⟩, ⟨SEED, idx⟩] else []) ∧
      s.sibling_indices_at_depth[d - 1]? = some (l ++ [⟨CHAIN_START, idx⟩]) ∧
      s.sibling_indices_at_depth[d]? =
        some (if d = c.zipcode_decoder.max_depth then [⟨SEED, trivial_chain_offset c d rev⟩]
          else [⟨CHAIN_START, 0⟩]) ∧
      (∀ i, i ≠ d → i ≠ d - 1 →
        s.sibling_indices_at_depth[i]? = st.sibling_indices_at_depth[i]?) := by
  have hd0 : d ≠ 0 := by omega
  have hne : d ≠ d - 1 := by omega
  have hlen : d < st.sibling_indices_at_depth.length := (mem_of_getElem? _ _ _ hown).2
  have hlen1 : d - 1 < st.sibling_indices_at_depth.length := (mem_of_getElem? _ _ _ hl).2
  have hpred : size_pred d = d - 1 := by simp [size_pred, hd0]
  simp only [open_chain, hty, vec_get, List.get?_eq_getElem?, hown, hl, hpred, bind,
    Except.bind, pure, Except.pure, List.length_nil, if_true, true_and, true_or] at h
  split at h
  · cases h
  cases hes : open_chain_edges D seeds c.zipcode_decoder rev d l with
  | error e => rw [hes] at h; simp at h
  | ok es =>
    rw [hes] at h
    refine ⟨es, rfl, ?_⟩
    simp only [vec_modify, List.get?_eq_getElem?, hown, hd0, ne_eq, not_false_eq_true,
      if_true, List.nil_append] at h
    rw [List.getElem?_set_ne hne, hl] at h
    simp only at h
    by_cases hmax : d = c.zipcode_decoder.max_depth
    · rw [if_pos hmax] at h
      simp only [if_pos hmax]
      have hget : ((st.sibling_indices_at_depth.set d [⟨CHAIN_START, 0⟩]).set (d - 1)
          (l ++ [⟨CHAIN_START, idx⟩]))[d]? = some [⟨CHAIN_START, 0⟩] := by
        simp [List.getElem?_set_ne (Ne.symm hne), hlen]
      simp only [hget, vec_back, List.getLast?_singleton, vec_pop_back, List.dropLast_single,
        List.nil_append, Except.ok.injEq] at h
      subst h
      refine ⟨by simp, ?_, ?_, ?_⟩
      · simp [List.getElem?_set_ne hne, hlen1]
      · simp [hlen]
      · intro i hi hi1
        simp [List.getElem?_set_ne (Ne.symm hi), List.getElem?_set_ne (Ne.symm hi1)]
    · rw [if_neg hmax] at h
      simp only [if_neg hmax]
      simp only [Except.ok.injEq] at h
      subst h
      refine ⟨by simp, ?_, ?_, ?_⟩
      · simp [hlen1]
      · simp [List.getElem?_set_ne (Ne.symm hne), hlen]
      · intro i hi hi1
        simp [List.getElem?_set_ne (Ne.symm hi), List.getElem?_set_ne (Ne.symm hi1)]

theorem vec_modify_iff {α : Type} (v v1 : List α) (i : Nat) (f : α → Except Err α) :
    vec_modify v i f = .ok v1 ↔ ∃ x y, v[i]? = some x ∧ f x = .ok y ∧ v1 = v.set i y := by
  constructor
  · exact vec_modify_ok v v1 i f
  · rintro ⟨x, y, hx, hy, rfl⟩
    simp [vec_modify, hx, hy]

/-- Opening a node, a snarl or a root node at `depth` changes the scratch lists
of the depths `depth` and `depth - 1` only. -/
theorem open_node_or_snarl_frame (D : SnarlDistanceIndex) (asserts : Bool)
    (c : Seed) (idx d : Nat) (rev : Bool) (st s : build_state)
    (h : open_node_or_snarl D asserts c idx d rev st = .ok s) :
    ∀ i, i ≠ d → i ≠ d - 1 →
      s.sibling_indices_at_depth[i]? = st.sibling_indices_at_depth[i]? := by
  simp only [open_node_or_snarl, bind, Except.bind, pure, Except.pure] at h
  repeat' split at h
  all_goals (try (simp at h; done))
  all_goals simp only [Except.ok.injEq] at h
  all_goals subst h
  all_goals intro i hi hi1
  all_goals (try simp only [vec_modify_iff] at *)
  all_goals casesm* ∃ _, _, _ ∧ _
  all_goals subst_vars
  all_goals (try split_ifs)
  all_goals simp (disch := omega) [List.getElem?_set_ne]

/-- Opening or re-entering a chain at `depth` changes the scratch lists of the
depths `depth` and `depth - 1` only. -/
theorem open_chain_frame (D : SnarlDistanceIndex) (asserts : Bool) (seeds : List Seed)
    (c : Seed) (idx d : Nat) (rev : Bool) (st s : build_state)
    (h : open_chain D asserts seeds c idx d rev st = .ok s) :
    ∀ i, i ≠ d → i ≠ d - 1 →
      s.sibling_indices_at_depth[i]? = st.sibling_indices_at_depth[i]? := by
  simp only [open_chain, bind, Except.bind, pure, Except.pure] at h
  repeat' split at h
  all_goals (try (simp at h; done))
  all_goals simp only [Except.ok.injEq] at h
  all_goals subst h
  all_goals intro i hi hi1
  all_goals (try simp only [vec_modify_iff] at *)
  all_goals casesm* ∃ _, _, _ ∧ _
  all_goals subst_vars
  all_goals simp (disch := omega) [List.getElem?_set_ne]

/-- One iteration of the open loop at `depth` changes the scratch lists of
the depths `depth` and `depth - 1` only. -/
theorem open_depth_frame (D : SnarlDistanceIndex) (asserts : Bool) (seeds : List Seed)
    (c : Seed) (idx d : Nat) (rev : Bool) (st : build_state) (s : build_state × Bool)
    (h : open_depth D asserts seeds c idx d (st, rev) = .ok s) :
    ∀ i, i ≠ d → i ≠ d - 1 →
      s.1.sibling_indices_at_depth[i]? = st.sibling_indices_at_depth[i]? := by
  obtain ⟨h1, h2⟩ := open_depth_ok D asserts seeds c idx d rev st s h
  by_cases hk : c.zipcode_decoder.get_code_type d = NODE ∨
      c.zipcode_decoder.get_code_type d = REGULAR_SNARL ∨
      c.zipcode_decoder.get_code_type d = IRREGULAR_SNARL ∨
      c.zipcode_decoder.get_code_type d = ROOT_NODE
  · exact open_node_or_snarl_frame D asserts c idx d rev st s.1 (h1 hk)
  · exact open_chain_frame D asserts seeds c idx d rev st s.1 (h2 hk)

/-- The open loop from `depth` on leaves the scratch lists above `depth - 1`
as they are. -/
theorem open_loop_frame (D : SnarlDistanceIndex) (asserts : Bool) (seeds : List Seed)
    (c : Seed) (idx : Nat) :
    ∀ (k d : Nat) (s0 s : build_state × Bool),
      open_loop D asserts seeds c idx k d s0 = .ok s →
      ∀ i, i + 1 < d →
        s.1.sibling_indices_at_depth[i]? = s0.1.sibling_indices_at_depth[i]? := by
  intro k
  induction k with
  | zero =>
    intro d s0 s h i _
    simp only [open_loop, Except.ok.injEq] at h
    subst h
    rfl
  | succ k ih =>
    intro d s0 s h i hi
    simp only [open_loop, bind, Except.bind] at h
    cases hs1 : open_depth D asserts seeds c idx d s0 with
    | error e => rw [hs1] at h; simp at h
    | ok s1 =>
      rw [hs1] at h
      rw [ih (d + 1) s1 s h i (by omega)]
      exact open_depth_frame D asserts seeds c idx d s0.2 s0.1 s1 hs1 i (by omega) (by omega)

/-- One iteration of the close loop at `depth`: the store is closed as
`close_scope` says and the scratch list of `depth` is cleared. -/
theorem close_depth_exact (D : SnarlDistanceIndex) (seeds : List Seed) (p : ZipCodeDecoder)
    (d : Nat) (rev : Bool) (st : build_state) (s : build_state × Bool)
    (h : close_depth D seeds p d (st, rev) = .ok s) :
    close_scope D seeds p rev d st = .ok s.1.zip_code_tree ∧
    s.1.sibling_indices_at_depth = st.sibling_indices_at_depth.set d [] ∧
    s.2 = flip_if (decide (d > 0) && p.get_is_reversed_in_parent (d - 1)) rev := by
  simp only [close_depth, bind, Except.bind, pure, Except.pure] at h
  split at h
  · cases h
  rename_i t ht
  split at h
  · cases h
  rename_i v hv
  obtain ⟨_, _, _, hy, rfl⟩ := vec_modify_ok _ _ _ _ hv
  simp only [Except.ok.injEq] at hy h
  subst hy
  subst h
  exact ⟨ht, rfl, rfl⟩

/-- The close loop down to `low` leaves the scratch lists above `low` as they
are and appends closing items only. -/
theorem close_loop_frame (D : SnarlDistanceIndex) (seeds : List Seed) (p : ZipCodeDecoder)
    (low : Nat) :
    ∀ (k : Nat) (s0 s : build_state × Bool),
      close_loop D seeds p low k s0 = .ok s →
      (∀ i, i < low →
        s.1.sibling_indices_at_depth[i]? = s0.1.sibling_indices_at_depth[i]?) ∧
      ∃ closed, s.1.zip_code_tree = s0.1.zip_code_tree ++ closed ∧
        ∀ x ∈ closed, x.type = EDGE ∨ x.type = CHAIN_END ∨ x.type = NODE_COUNT ∨
          x.type = SNARL_END := by
  intro k
  induction k with
  | zero =>
    intro s0 s h
    simp only [close_loop, Except.ok.injEq] at h
    subst h
    exact ⟨fun _ _ => rfl, [], by simp, by simp⟩
  | succ k ih =>
    intro s0 s h
    simp only [close_loop, bind, Except.bind] at h
    cases hs1 : close_depth D seeds p (low + k) s0 with
    | error e => rw [hs1] at h; simp at h
    | ok s1 =>
      rw [hs1] at h
      obtain ⟨ht, hsib, -⟩ := close_depth_exact D seeds p (low + k) s0.2 s0.1 s1 hs1
      obtain ⟨chunk, hchunk, hall⟩ := close_scope_shape D seeds p s0.2 (low + k) s0.1 _ ht
      obtain ⟨hf, closed, hclosed, hall1⟩ := ih s1 s h
      refine ⟨?_, chunk ++ closed, ?_, ?_⟩
      · intro i hi
        rw [hf i hi, hsib]
        have : low + k ≠ i := by omega
        simp [List.getElem?_set_ne this]
      · rw [hclosed, hchunk]
        simp
      · intro x hx
        rcases List.mem_append.1 hx with hx | hx
        · exact hall x hx
        · exact hall1 x hx

/-- The exact effect of one iteration of the open loop that opens a node or a
snarl below a chain whose scratch list holds the entry `x` alone. -/
theorem open_depth_child_exact (D : SnarlDistanceIndex) (asserts : Bool) (seeds : List Seed)
    (c : Seed) (idx d : Nat) (rev : Bool) (st : build_state) (x : child_info_t)
    (s : build_state × Bool) (hd : 0 < d)
    (hty : c.zipcode_decoder.get_code_type d = NODE ∨
      is_snarl (c.zipcode_decoder.get_code_type d) = true)
    (hx : st.sibling_indices_at_depth[d - 1]? = some [x])
    (h : open_depth D asserts seeds c idx d (st, rev) = .ok s) :
    s.1.zip_code_tree =
      (if d = 1 ∧ c.zipcode_decoder.get_code_type (d - 1) = ROOT_CHAIN ∧ x.type = CHAIN_START
        then st.zip_code_tree
        else st.zip_code_tree ++ [⟨EDGE, size_sub (child_offset D c d rev) x.value⟩]) ++
      [if c.zipcode_decoder.get_code_type d = NODE then ⟨SEED, idx⟩
        else ⟨SNARL_START, SIZE_MAX⟩] ∧
    s.1.sibling_indices_at_depth[d - 1]? = some [⟨SEED, recorded_offset D c d rev⟩] := by
  have hkind : c.zipcode_decoder.get_code_type d = NODE ∨
      c.zipcode_decoder.get_code_type d = REGULAR_SNARL ∨
      c.zipcode_decoder.get_code_type d = IRREGULAR_SNARL ∨
      c.zipcode_decoder.get_code_type d = ROOT_NODE := by
    rcases hty with hty | hty
    · exact Or.inl hty
    · cases h1 : c.zipcode_decoder.get_code_type d <;> simp_all [is_snarl]
  have hnr : c.zipcode_decoder.get_code_type d ≠ ROOT_NODE := by
    rcases hty with hty | hty
    · rw [hty]; decide
    · intro h1; rw [h1] at hty; cases hty
  obtain ⟨h1, h2, -, -⟩ := open_node_or_snarl_exact D asserts c idx d rev st x s.1 hd hnr hx
    ((open_depth_ok D asserts seeds c idx d rev st s h).1 hkind)
  exact ⟨h1, h2⟩

/-- The open loop only appends to the store. -/
theorem open_loop_extends (D : SnarlDistanceIndex) (asserts : Bool) (seeds : List Seed)
    (c : Seed) (idx : Nat) :
    ∀ (k d : Nat) (s0 s : build_state × Bool),
      open_loop D asserts seeds c idx k d s0 = .ok s →
      extends_plain s0.1.zip_code_tree s.1.zip_code_tree := by
  intro k
  induction k with
  | zero =>
    intro d s0 s h
    simp only [open_loop, Except.ok.injEq] at h
    subst h
    exact extends_plain_refl _
  | succ k ih =>
    intro d s0 s h
    simp only [open_loop, bind, Except.bind] at h
    cases hs1 : open_depth D asserts seeds c idx d s0 with
    | error e => rw [hs1] at h; simp at h
    | ok s1 =>
      rw [hs1] at h
      exact extends_plain_trans _ _ _
        (open_depth_shape D asserts seeds c idx d s0.2 s0.1 s1 hs1).1 (ih (d + 1) s1 s h)

/-- The body of the main loop on a seed that leaves the previous seed at depth
`d` below a common chain: whatever was open below the chain is closed, then the
new child is opened with the distance item computed from the entry `x` of the
scratch list of the chain, which is replaced by the entry of the new child. -/
theorem add_seed_next_edge (D : SnarlDistanceIndex) (asserts : Bool) (seeds : List Seed)
    (c p : Seed) (idx j : Nat) (st s : build_state) (x : child_info_t)
    (hgetc : seeds[idx]? = some c) (hgetp : seeds[j]? = some p)
    (hsame : (first_different_ancestor D false c.zipcode_decoder
      p.zipcode_decoder).same_node = false)
    (hd : 0 < (first_different_ancestor D false c.zipcode_decoder
      p.zipcode_decoder).first_different_ancestor_depth)
    (hty : c.zipcode_decoder.get_code_type (first_different_ancestor D false c.zipcode_decoder
        p.zipcode_decoder).first_different_ancestor_depth = NODE ∨
      is_snarl (c.zipcode_decoder.get_code_type (first_different_ancestor D false
        c.zipcode_decoder p.zipcode_decoder).first_different_ancestor_depth) = true)
    (hx : st.sibling_indices_at_depth[(first_different_ancestor D false c.zipcode_decoder
      p.zipcode_decoder).first_different_ancestor_depth - 1]? = some [x])
    (hxt : x.type ≠ CHAIN_START)
    (h : add_seed D asserts seeds (some j) idx st = .ok s) :
    (∃ closed rest,
      s.zip_code_tree = st.zip_code_tree ++ closed ++
        [⟨EDGE, size_sub (child_offset D c
          (first_different_ancestor D false c.zipcode_decoder
            p.zipcode_decoder).first_different_ancestor_depth
          (first_different_ancestor D false c.zipcode_decoder
            p.zipcode_decoder).current_is_reversed) x.value⟩,
         if c.zipcode_decoder.get_code_type (first_different_ancestor D false
            c.zipcode_decoder p.zipcode_decoder).first_different_ancestor_depth = NODE
          then ⟨SEED, idx⟩ else ⟨SNARL_START, SIZE_MAX⟩] ++ rest ∧
      (∀ y ∈ closed, y.type = EDGE ∨ y.type = CHAIN_END ∨ y.type = NODE_COUNT ∨
        y.type = SNARL_END)) ∧
    s.sibling_indices_at_depth[(first_different_ancestor D false c.zipcode_decoder
      p.zipcode_decoder).first_different_ancestor_depth - 1]? =
      some [⟨SEED, recorded_offset D c
        (first_different_ancestor D false c.zipcode_decoder
          p.zipcode_decoder).first_different_ancestor_depth
        (first_different_ancestor D false c.zipcode_decoder
          p.zipcode_decoder).current_is_reversed⟩] := by
  obtain ⟨hf1, -, -⟩ := first_different_ancestor_spec D c.zipcode_decoder p.zipcode_decoder
  have hfle' : (first_different_ancestor D false c.zipcode_decoder
      p.zipcode_decoder).first_different_ancestor_depth ≤ c.zipcode_decoder.max_depth :=
    le_trans hf1 (Nat.min_le_left _ _)
  simp only [add_seed, vec_get, List.get?_eq_getElem?, hgetc, hgetp, bind, Except.bind, pure,
    Except.pure, Option.isNone, Bool.not_false, Bool.and_true, Bool.false_eq_true, if_false,
    hsame, if_true] at h
  generalize (first_different_ancestor D false c.zipcode_decoder p.zipcode_decoder) = a at *
  split at h
  · cases h
  rename_i s1 hs1
  split at h
  · cases h
  rename_i s2 hs2
  simp only [Except.ok.injEq] at h
  subst h
  obtain ⟨hframe, closed, hclosed, hall⟩ := close_loop_frame D seeds p.zipcode_decoder _ _ _ _ hs1
  have hlen := (mem_of_getElem? _ _ _ hx).2
  have hx1 : s1.1.sibling_indices_at_depth[a.first_different_ancestor_depth - 1]? = some [x] := by
    rw [hframe _ (by omega)]
    simp only
    rw [List.getElem?_append_left hlen]
    exact hx
  obtain ⟨k, hk⟩ : ∃ k, c.zipcode_decoder.max_depth + 1 - a.first_different_ancestor_depth
      = k + 1 := ⟨c.zipcode_decoder.max_depth - a.first_different_ancestor_depth, by omega⟩
  rw [hk] at hs2
  simp only [open_loop, bind, Except.bind] at hs2
  split at hs2
  · cases hs2
  rename_i s3 hs3
  obtain ⟨ht3, hsib3⟩ := open_depth_child_exact D asserts seeds c idx _ _ s1.1 x s3 hd hty hx1 hs3
  have hcond : ¬ (a.first_different_ancestor_depth = 1 ∧
      c.zipcode_decoder.get_code_type (a.first_different_ancestor_depth - 1) = ROOT_CHAIN ∧
      x.type = CHAIN_START) := fun h => hxt h.2.2
  rw [if_neg hcond] at ht3
  obtain ⟨rest, hrest, -⟩ := open_loop_extends D asserts seeds c idx k _ s3 s2 hs2
  have hsib2 := open_loop_frame D asserts seeds c idx k _ s3 s2 hs2
    (a.first_different_ancestor_depth - 1) (by omega)
  refine ⟨⟨closed, rest, ?_, hall⟩, ?_⟩
  · rw [hrest, ht3, hclosed]
    simp only [List.append_assoc, List.singleton_append, List.cons_append, List.nil_append]
  · rw [hsib2]
    exact hsib3

/-- The body of the main loop on a seed whose address agrees with the address of
the previous seed up to the depth `d` at which the comparison stops: nothing is
closed, and the child at depth `d` is opened with the distance item computed
from the entry `x` of the scratch list of the chain. -/
theorem add_seed_same_edge (D : SnarlDistanceIndex) (asserts : Bool) (seeds : List Seed)
    (c p : Seed) (idx j : Nat) (st s : build_state) (x : child_info_t)
    (hgetc : seeds[idx]? = some c) (hgetp : seeds[j]? = some p)
    (hsame : (first_different_ancestor D false c.zipcode_decoder
      p.zipcode_decoder).same_node = true)
    (hd : 0 < (first_different_ancestor D false c.zipcode_decoder
      p.zipcode_decoder).first_different_ancestor_depth)
    (hty : c.zipcode_decoder.get_code_type (first_different_ancestor D false c.zipcode_decoder
        p.zipcode_decoder).first_different_ancestor_depth = NODE ∨
      is_snarl (c.zipcode_decoder.get_code_type (first_different_ancestor D false
        c.zipcode_decoder p.zipcode_decoder).first_different_ancestor_depth) = true)
    (hx : st.sibling_indices_at_depth[(first_different_ancestor D false c.zipcode_decoder
      p.zipcode_decoder).first_different_ancestor_depth - 1]? = some [x])
    (hxt : x.type ≠ CHAIN_START)
    (h : add_seed D asserts seeds (some j) idx st = .ok s) :
    (∃ rest,
      s.zip_code_tree = st.zip_code_tree ++
        [⟨EDGE, size_sub (child_offset D c
          (first_different_ancestor D false c.zipcode_decoder
            p.zipcode_decoder).first_different_ancestor_depth
          (first_different_ancestor D false c.zipcode_decoder
            p.zipcode_decoder).current_is_reversed) x.value⟩,
         if c.zipcode_decoder.get_code_type (first_different_ancestor D false
            c.zipcode_decoder p.zipcode_decoder).first_different_ancestor_depth = NODE
          then ⟨SEED, idx⟩ else ⟨SNARL_START, SIZE_MAX⟩] ++ rest) ∧
    s.sibling_indices_at_depth[(first_different_ancestor D false c.zipcode_decoder
      p.zipcode_decoder).first_different_ancestor_depth - 1]? =
      some [⟨SEED, recorded_offset D c
        (first_different_ancestor D false c.zipcode_decoder
          p.zipcode_decoder).first_different_ancestor_depth
        (first_different_ancestor D false c.zipcode_decoder
          p.zipcode_decoder).current_is_reversed⟩] := by
  obtain ⟨hf1, -, -⟩ := first_different_ancestor_spec D c.zipcode_decoder p.zipcode_decoder
  have hfle' : (first_different_ancestor D false c.zipcode_decoder
      p.zipcode_decoder).first_different_ancestor_depth ≤ c.zipcode_decoder.max_depth :=
    le_trans hf1 (Nat.min_le_left _ _)
  simp only [add_seed, vec_get, List.get?_eq_getElem?, hgetc, hgetp, bind, Except.bind, pure,
    Except.pure, Option.isNone, Bool.not_false, Bool.and_true, Bool.false_eq_true, if_false,
    hsame, Bool.not_true] at h
  generalize (first_different_ancestor D false c.zipcode_decoder p.zipcode_decoder) = a at *
  split at h
  · cases h
  rename_i s2 hs2
  simp only [Except.ok.injEq] at h
  subst h
  have hlen := (mem_of_getElem? _ _ _ hx).2
  have hx1 : (st.sibling_indices_at_depth ++ List.replicate
      (c.zipcode_decoder.max_depth + 1 - st.sibling_indices_at_depth.length)
      [])[a.first_different_ancestor_depth - 1]? = some [x] := by
    rw [List.getElem?_append_left hlen]
    exact hx
  obtain ⟨k, hk⟩ : ∃ k, c.zipcode_decoder.max_depth + 1 - a.first_different_ancestor_depth
      = k + 1 := ⟨c.zipcode_decoder.max_depth - a.first_different_ancestor_depth, by omega⟩
  rw [hk] at hs2
  simp only [open_loop, bind, Except.bind] at hs2
  split at hs2
  · cases hs2
  rename_i s3 hs3
  obtain ⟨ht3, hsib3⟩ := open_depth_child_exact D asserts seeds c idx _ _
    ⟨st.zip_code_tree, st.sibling_indices_at_depth ++ List.replicate
      (c.zipcode_decoder.max_depth + 1 - st.sibling_indices_at_depth.length) []⟩
    x s3 hd hty hx1 hs3
  have hcond : ¬ (a.first_different_ancestor_depth = 1 ∧
      c.zipcode_decoder.get_code_type (a.first_different_ancestor_depth - 1) = ROOT_CHAIN ∧
      x.type = CHAIN_START) := fun h => hxt h.2.2
  rw [if_neg hcond] at ht3
  obtain ⟨rest, hrest, -⟩ := open_loop_extends D asserts seeds c idx k _ s3 s2 hs2
  have hsib2 := open_loop_frame D asserts seeds c idx k _ s3 s2 hs2
    (a.first_different_ancestor_depth - 1) (by omega)
  refine ⟨⟨rest, ?_⟩, ?_⟩
  · rw [hrest, ht3]
    simp only [List.append_assoc, List.singleton_append, List.cons_append, List.nil_append]
  · rw [hsib2]
    exact hsib3

/-- The body of the main loop on a seed whose address leaves the address of the
previous seed below depth `i + 1` leaves the scratch list of depth `i` as it
is. -/
theorem add_seed_frame (D : SnarlDistanceIndex) (asserts : Bool) (seeds : List Seed)
    (c p : Seed) (idx j i : Nat) (st s : build_state)
    (hgetc : seeds[idx]? = some c) (hgetp : seeds[j]? = some p)
    (hi : i + 1 < (first_different_ancestor D false c.zipcode_decoder
      p.zipcode_decoder).first_different_ancestor_depth)
    (hlen : i < st.sibling_indices_at_depth.length)
    (h : add_seed D asserts seeds (some j) idx st = .ok s) :
    s.sibling_indices_at_depth[i]? = st.sibling_indices_at_depth[i]? := by
  simp only [add_seed, vec_get, List.get?_eq_getElem?, hgetc, hgetp, bind, Except.bind, pure,
    Except.pure, Option.isNone, Bool.not_false, Bool.and_true, Bool.false_eq_true, if_false]
    at h
  generalize (first_different_ancestor D false c.zipcode_decoder p.zipcode_decoder) = a at *
  cases hsame : a.same_node
  · simp only [hsame, Bool.not_false, if_true] at h
    split at h
    · cases h
    rename_i s1 hs1
    split at h
    · cases h
    rename_i s2 hs2
    simp only [Except.ok.injEq] at h
    subst h
    rw [open_loop_frame D asserts seeds c idx _ _ _ s2 hs2 i hi,
      (close_loop_frame D seeds p.zipcode_decoder _ _ _ _ hs1).1 i (by omega)]
    exact List.getElem?_append_left hlen
  · simp only [hsame, Bool.not_true, Bool.false_eq_true, if_false] at h
    split at h
    · cases h
    rename_i s2 hs2
    simp only [Except.ok.injEq] at h
    subst h
    rw [open_loop_frame D asserts seeds c idx _ _ _ s2 hs2 i hi]
    exact List.getElem?_append_left hlen

theorem child_offset_leaf (D : SnarlDistanceIndex) (s : Seed) (d : Nat) (rev : Bool)
    (hd : d = s.zipcode_decoder.max_depth) :
    child_offset D s d rev =
      D.sum (offset_in_parent D s.zipcode_decoder d rev) (bare_node_offset s d rev) := by
  simp only [child_offset, offset_in_parent, bare_node_offset, if_pos hd]

theorem forward_node_edge (D : SnarlDistanceIndex) (c1 c2 : Seed) (d : Nat) (rev1 rev2 : Bool)
    (h : forward_on_one_node D c1 c2 d rev1 rev2) (ho : c1.pos.offset ≤ c2.pos.offset) :
    size_sub (child_offset D c2 d rev2) (recorded_offset D c1 d rev1) =
      c2.pos.offset - c1.pos.offset := by
  obtain ⟨h1, h2, hty, hbase, hf1, hf2, hs1, hs2, hlt⟩ := h
  have hb1 : bare_node_offset c1 d rev1 = c1.pos.offset + 1 := by
    simp only [bare_node_offset, hf1, Bool.false_eq_true, if_false, size_add]
    exact Nat.mod_eq_of_lt (by omega)
  have hb2 : bare_node_offset c2 d rev2 = c2.pos.offset + 1 := by
    simp only [bare_node_offset, hf2, Bool.false_eq_true, if_false, size_add]
    exact Nat.mod_eq_of_lt (by omega)
  rw [recorded_offset, if_pos (Or.inl hty), child_offset_leaf D c1 d rev1 h1,
    child_offset_leaf D c2 d rev2 h2, hb1, hb2, hs1, hs2, hbase,
    size_sub_of_le _ _ (by omega) hlt]
  omega

theorem open_frames_append (a b : List tree_item_t) :
    ∀ s : List frame,
      open_frames s (a ++ b) = (open_frames s a).bind (fun s1 => open_frames s1 b) := by
  induction a with
  | nil => intro s; simp [open_frames]
  | cons x a ih =>
    intro s
    rw [List.cons_append]
    cases hx : x.type <;> simp only [open_frames, hx, ih, Option.bind]
    all_goals
      rcases s with _ | ⟨b1, s⟩
      · simp only [ih, Option.bind]
      · cases b1 <;> simp only [ih, Option.bind]

/-- Items that are no brackets leave the open scopes as they are. -/
theorem open_frames_neutral (es : List tree_item_t)
    (h : ∀ e ∈ es, e.type = EDGE ∨ e.type = NODE_COUNT ∨ e.type = SEED) :
    ∀ s : List frame, open_frames s es = some s := by
  induction es with
  | nil => intro s; rfl
  | cons x es ih =>
    intro s
    have hx := h x (List.mem_cons_self _ _)
    have ih1 := ih (fun e he => h e (List.mem_cons_of_mem _ he)) s
    simp only [open_frames]
    rcases hx with hx | hx | hx <;> simp only [hx, ih1]

/-- The recorded scopes depend on the kinds of the open levels and on the
scratch lists of the open snarls only. -/
theorem frames_of_congr (dec dec1 : ZipCodeDecoder) (sib sib1 : List (List child_info_t)) :
    ∀ d, (∀ e, e < d → dec.get_code_type e = dec1.get_code_type e) →
      (∀ e, e < d → is_snarl (dec.get_code_type e) = true → sib[e]? = sib1[e]?) →
      frames_of dec sib d = frames_of dec1 sib1 d := by
  intro d
  induction d with
  | zero => intro _ _; rfl
  | succ d ih =>
    intro h1 h2
    simp only [frames_of]
    rw [ih (fun e he => h1 e (by omega)) (fun e he => h2 e (by omega)), ← h1 d (by omega)]
    congr 1
    by_cases hs : is_snarl (dec.get_code_type d) = true
    · rw [h2 d (by omega) hs]
    · simp only [hs, if_false]
      rfl

theorem chain_starts_ok_nil : chain_starts_ok [] := by
  intro a v b k outer h
  simp at h

/-- Appending items other than CHAIN_START items. -/
theorem chain_starts_ok_append_plain (t c : List tree_item_t) (h : chain_starts_ok t)
    (hc : ∀ x ∈ c, x.type ≠ CHAIN_START) : chain_starts_ok (t ++ c) := by
  intro a v b k outer hsplit hf
  rcases split_append t c a b _ hsplit with ⟨b1, ht, _⟩ | ⟨a1, _, hc1⟩
  · exact h a v b1 k outer ht hf
  · exact absurd rfl (hc ⟨CHAIN_START, v⟩ (by rw [hc1]; simp))

/-- Appending the distance items of the child chain number `k + 1` of a snarl
and its CHAIN_START. -/
theorem chain_starts_ok_push_chain (t es : List tree_item_t) (v k : Nat) (outer : List frame)
    (h : chain_starts_ok t) (hf : open_frames [] t = some (frame.snarl k :: outer))
    (hlast : ∃ pre y, t = pre ++ [y] ∧ y.type ≠ EDGE)
    (hes : ∀ e ∈ es, e.type = EDGE) (hlen : es.length = k + 1) :
    chain_starts_ok (t ++ es ++ [⟨CHAIN_START, v⟩]) := by
  have h1 : chain_starts_ok (t ++ es) :=
    chain_starts_ok_append_plain t es h (fun x hx => by rw [hes x hx]; decide)
  intro a v1 b k1 outer1 hsplit hf1
  rcases split_append (t ++ es) [⟨CHAIN_START, v⟩] a b _ hsplit with ⟨b1, ht, _⟩ | ⟨a1, ha, hc1⟩
  · exact h1 a v1 b1 k1 outer1 ht hf1
  · cases a1 with
    | nil =>
      simp only [List.append_nil] at ha
      subst ha
      rw [open_frames_append, hf] at hf1
      simp only [Option.bind] at hf1
      rw [open_frames_neutral es (fun e he => Or.inl (hes e he))] at hf1
      simp only [Option.some.injEq, List.cons.injEq, frame.snarl.injEq] at hf1
      obtain ⟨pre, y, hpre, hy⟩ := hlast
      refine ⟨pre, y, es, by rw [hpre], hy, hes, ?_⟩
      rw [hlen, hf1.1]
    | cons z a1 =>
      have := congrArg List.length hc1
      simp at this

/-- Appending a CHAIN_START that is not in a snarl. -/
theorem chain_starts_ok_push_root (t : List tree_item_t) (v : Nat)
    (h : chain_starts_ok t) (hf : ∀ k outer, open_frames [] t ≠ some (frame.snarl k :: outer)) :
    chain_starts_ok (t ++ [⟨CHAIN_START, v⟩]) := by
  intro a v1 b k1 outer1 hsplit hf1
  rcases split_append t [⟨CHAIN_START, v⟩] a b _ hsplit with ⟨b1, ht, _⟩ | ⟨a1, ha, hc1⟩
  · exact h a v1 b1 k1 outer1 ht hf1
  · cases a1 with
    | nil =>
      simp only [List.append_nil] at ha
      subst ha
      exact absurd hf1 (hf k1 outer1)
    | cons z a1 =>
      have := congrArg List.length hc1
      simp at this

theorem frames_of_node (dec : ZipCodeDecoder) (sib : List (List child_info_t)) (d : Nat)
    (h : dec.get_code_type d = NODE) : frames_of dec sib (d + 1) = frames_of dec sib d := by
  simp [frames_of, h, is_chain_like, is_snarl]

theorem frames_of_chain (dec : ZipCodeDecoder) (sib : List (List child_info_t)) (d : Nat)
    (h : is_chain_like (dec.get_code_type d) = true) :
    frames_of dec sib (d + 1) = frame.chain :: frames_of dec sib d := by
  simp [frames_of, h]

theorem frames_of_snarl (dec : ZipCodeDecoder) (sib : List (List child_info_t)) (d : Nat)
    (l : List child_info_t) (h : is_snarl (dec.get_code_type d) = true)
    (hl : sib[d]? = some l) :
    frames_of dec sib (d + 1) = frame.snarl (l.length - 1) :: frames_of dec sib d := by
  have : is_chain_like (dec.get_code_type d) = false := snarl_not_chain_like h
  simp [frames_of, h, this, hl]

/-- Closing the scope at depth `d` pops it from the open scopes of the store. -/
theorem close_scope_frames (D : SnarlDistanceIndex) (seeds : List Seed) (dec : ZipCodeDecoder)
    (rev : Bool) (d : Nat) (st : build_state) (t : List tree_item_t)
    (hk : is_chain_like (dec.get_code_type d) = true ∨ is_snarl (dec.get_code_type d) = true ∨
      dec.get_code_type d = NODE)
    (hf : frames_ok dec (d + 1) st)
    (h : close_scope D seeds dec rev d st = .ok t) :
    open_frames [] t = some (frames_of dec st.sibling_indices_at_depth d) := by
  unfold frames_ok at hf
  rcases hk with hk | hk | hk
  · rw [frames_of_chain dec _ d hk] at hf
    have h1 : dec.get_code_type d = CHAIN ∨ dec.get_code_type d = ROOT_CHAIN ∨
        dec.get_code_type d = ROOT_NODE := by
      cases h2 : dec.get_code_type d <;> simp_all [is_chain_like]
    simp only [close_scope, if_pos h1, bind, Except.bind, pure, Except.pure] at h
    repeat' split at h
    all_goals (try (simp at h; done))
    all_goals simp only [Except.ok.injEq] at h
    all_goals subst h
    all_goals rw [open_frames_append, hf]
    all_goals simp [open_frames, Option.bind]
  · have h1 : ¬ (dec.get_code_type d = CHAIN ∨ dec.get_code_type d = ROOT_CHAIN ∨
        dec.get_code_type d = ROOT_NODE) := by
      cases h2 : dec.get_code_type d <;> simp_all [is_snarl]
    have h2 : dec.get_code_type d = REGULAR_SNARL ∨ dec.get_code_type d = IRREGULAR_SNARL := by
      cases h2 : dec.get_code_type d <;> simp_all [is_snarl]
    simp only [close_scope, if_neg h1, if_pos h2, vec_get, List.get?_eq_getElem?, bind,
      Except.bind, pure, Except.pure] at h
    cases hl : st.sibling_indices_at_depth[d]? with
    | none => rw [hl] at h; simp at h
    | some l =>
      rw [hl] at h
      simp only at h
      rw [frames_of_snarl dec _ d l hk hl] at hf
      split at h
      · simp at h
      · rename_i es hes
        simp only [Except.ok.injEq] at h
        subst h
        obtain ⟨-, hall⟩ := close_snarl_edges_shape seeds dec rev d l es hes
        rw [open_frames_append, open_frames_append, hf]
        simp only [Option.bind]
        rw [open_frames_neutral es.reverse (fun e he => Or.inl (hall e (List.mem_reverse.mp he)))]
        simp [open_frames]
  · rw [frames_of_node dec _ d hk] at hf
    simp [close_scope, hk, bind, Except.bind, pure, Except.pure] at h
    subst h
    exact hf

/-- One iteration of the close loop takes the count invariant from depth
`d + 1` to depth `d`. -/
theorem close_depth_frames (D : SnarlDistanceIndex) (seeds : List Seed) (p : ZipCodeDecoder)
    (d : Nat) (rev : Bool) (st : build_state) (hp : address_ok p) (hd : d ≤ p.max_depth)
    (hf : frames_ok p (d + 1) st) (hK : chain_starts_ok st.zip_code_tree)
    (s : build_state × Bool) (h : close_depth D seeds p d (st, rev) = .ok s) :
    frames_ok p d s.1 ∧ chain_starts_ok s.1.zip_code_tree := by
  simp only [close_depth, bind, Except.bind, pure, Except.pure] at h
  cases hcs : close_scope D seeds p rev d st with
  | error e => rw [hcs] at h; simp at h
  | ok tree =>
    rw [hcs] at h
    have h1 := close_scope_frames D seeds p rev d st tree (address_kind p hp d hd) hf hcs
    obtain ⟨chunk, hchunk, hall⟩ := close_scope_shape D seeds p rev d st tree hcs
    simp only at h
    split at h
    · simp at h
    · rename_i sib hsib
      simp only [Except.ok.injEq] at h
      subst h
      obtain ⟨x, y, -, hy, hset⟩ := vec_modify_ok _ _ _ _ hsib
      refine ⟨?_, ?_⟩
      · unfold frames_ok
        simp only
        rw [h1]
        congr 1
        refine frames_of_congr p p _ _ d (fun _ _ => rfl) (fun e he _ => ?_)
        rw [hset, List.getElem?_set_ne (by omega)]
      · simp only
        rw [hchunk]
        refine chain_starts_ok_append_plain _ _ hK (fun x hx => ?_)
        rcases hall x hx with h2 | h2 | h2 | h2 <;> rw [h2] <;> decide

/-- The close loop takes the count invariant from depth `low + k` to depth
`low`. -/
theorem close_loop_frames (D : SnarlDistanceIndex) (seeds : List Seed) (p : ZipCodeDecoder)
    (low : Nat) (hp : address_ok p) :
    ∀ (k : Nat) (rev : Bool) (st : build_state) (s : build_state × Bool),
      low + k ≤ p.max_depth + 1 → frames_ok p (low + k) st → chain_starts_ok st.zip_code_tree →
      close_loop D seeds p low k (st, rev) = .ok s →
      frames_ok p low s.1 ∧ chain_starts_ok s.1.zip_code_tree := by
  intro k
  induction k with
  | zero =>
    intro rev st s _ hf hK h
    simp only [close_loop, Except.ok.injEq] at h
    subst h
    exact ⟨hf, hK⟩
  | succ k ih =>
    intro rev st s hk hf hK h
    simp only [close_loop, bind, Except.bind] at h
    cases hs1 : close_depth D seeds p (low + k) (st, rev) with
    | error e => rw [hs1] at h; simp at h
    | ok s1 =>
      rw [hs1] at h
      obtain ⟨hf1, hK1⟩ := close_depth_frames D seeds p (low + k) rev st hp (by omega) hf hK
        s1 hs1
      exact ih s1.2 s1.1 s (by omega) hf1 hK1 h

/-- Opening a node or a snarl below a chain keeps the count invariant. -/
theorem open_child_frames (D : SnarlDistanceIndex) (asserts : Bool) (seeds : List Seed)
    (c : Seed) (idx d : Nat) (rev : Bool) (st : build_state) (s : build_state × Bool)
    (hd0 : 0 < d)
    (hty : c.zipcode_decoder.get_code_type d = NODE ∨
      is_snarl (c.zipcode_decoder.get_code_type d) = true)
    (hpar : is_chain_like (c.zipcode_decoder.get_code_type (d - 1)) = true)
    (H : scopes c.zipcode_decoder seeds.length d st)
    (hf : frames_ok c.zipcode_decoder d st) (hK : chain_starts_ok st.zip_code_tree)
    (h : open_depth D asserts seeds c idx d (st, rev) = .ok s) :
    frames_ok c.zipcode_decoder (d + 1) s.1 ∧ chain_starts_ok s.1.zip_code_tree := by
  obtain ⟨x, hx, -⟩ := H.chains (d - 1) (by omega) hpar
  have hkind : c.zipcode_decoder.get_code_type d = NODE ∨
      c.zipcode_decoder.get_code_type d = REGULAR_SNARL ∨
      c.zipcode_decoder.get_code_type d = IRREGULAR_SNARL ∨
      c.zipcode_decoder.get_code_type d = ROOT_NODE := by
    rcases hty with hty | hty
    · exact Or.inl hty
    · cases h1 : c.zipcode_decoder.get_code_type d <;> simp_all [is_snarl]
  have hnr : c.zipcode_decoder.get_code_type d ≠ ROOT_NODE := by
    rcases hty with hty | hty
    · rw [hty]; decide
    · intro h1; rw [h1] at hty; cases hty
  obtain ⟨ht, -, hframe, hown⟩ := open_node_or_snarl_exact D asserts c idx d rev st x s.1 hd0
    hnr hx ((open_depth_ok D asserts seeds c idx d rev st s h).1 hkind)
  have hsame : frames_of c.zipcode_decoder s.1.sibling_indices_at_depth d =
      frames_of c.zipcode_decoder st.sibling_indices_at_depth d := by
    refine frames_of_congr _ _ _ _ d (fun _ _ => rfl) (fun e he hs => ?_)
    refine hframe e (by omega) ?_
    intro he1
    subst he1
    rw [snarl_not_chain_like hs] at hpar
    cases hpar
  have hpre : ∀ (t : List tree_item_t), open_frames [] t = open_frames [] st.zip_code_tree →
      open_frames []
        (if d = 1 ∧ c.zipcode_decoder.get_code_type (d - 1) = ROOT_CHAIN ∧ x.type = CHAIN_START
          then st.zip_code_tree
          else st.zip_code_tree ++ [⟨EDGE, size_sub (child_offset D c d rev) x.value⟩]) =
        open_frames [] st.zip_code_tree := by
    intro _ _
    split
    · rfl
    · rw [open_frames_append]
      cases open_frames [] st.zip_code_tree <;> simp [open_frames, Option.bind]
  unfold frames_ok at hf ⊢
  refine ⟨?_, ?_⟩
  · rw [ht, open_frames_append, hpre _ rfl, hf]
    simp only [Option.bind]
    rcases hty with hty | hty
    · rw [frames_of_node _ _ d hty, hsame, if_pos hty]
      simp [open_frames]
    · have hn : c.zipcode_decoder.get_code_type d ≠ NODE := snarl_not_node hty
      rw [if_neg hn] at hown ⊢
      obtain ⟨l, hl, hl1⟩ := hown
      have hnil : l = [] := H.empty d l (Or.inl (le_refl _)) hl
      subst hnil
      rw [frames_of_snarl _ _ d _ hty hl1, hsame]
      simp [open_frames]
  · rw [ht]
    refine chain_starts_ok_append_plain _ _ ?_ ?_
    · split
      · exact hK
      · exact chain_starts_ok_append_plain _ _ hK (by simp)
    · intro y hy
      simp only [List.mem_singleton] at hy
      subst hy
      split <;> simp

/-- Opening a new child chain of a snarl keeps the count invariant: the new
CHAIN_START comes after one EDGE for each entry of the scratch list of the
snarl. -/
theorem open_chain_frames (D : SnarlDistanceIndex) (asserts : Bool) (seeds : List Seed)
    (c : Seed) (idx d : Nat) (rev : Bool) (st : build_state) (s : build_state × Bool)
    (hd0 : 0 < d) (hd : d ≤ c.zipcode_decoder.max_depth)
    (hty : c.zipcode_decoder.get_code_type d = CHAIN)
    (hpar : is_snarl (c.zipcode_decoder.get_code_type (d - 1)) = true)
    (H : scopes c.zipcode_decoder seeds.length d st)
    (hf : frames_ok c.zipcode_decoder d st) (hK : chain_starts_ok st.zip_code_tree)
    (hlast : ∃ pre y, st.zip_code_tree = pre ++ [y] ∧ y.type ≠ EDGE)
    (h : open_depth D asserts seeds c idx d (st, rev) = .ok s) :
    frames_ok c.zipcode_decoder (d + 1) s.1 ∧ chain_starts_ok s.1.zip_code_tree := by
  have hst := (open_depth_ok D asserts seeds c idx d rev st s h).2
    (chain_not_node_kind (Or.inl hty))
  have hlen : d < st.sibling_indices_at_depth.length := by
    have := H.len
    omega
  have hown : st.sibling_indices_at_depth[d]? = some [] := by
    rw [List.getElem?_eq_getElem hlen]
    congr 1
    exact H.empty d _ (Or.inl (le_refl _)) (List.getElem?_eq_getElem hlen)
  obtain ⟨l, hl, hlne, -⟩ := H.snarls (d - 1) (by omega) hpar
  obtain ⟨es, hes, ht, hsib1, -, hframe⟩ := open_chain_exact D asserts seeds c idx d rev st s.1 l
    hd0 hty hown hl hst
  obtain ⟨heslen, hesall⟩ := open_chain_edges_shape D seeds c.zipcode_decoder rev d l es hes
  have hpos : 0 < l.length := List.length_pos.mpr hlne
  obtain ⟨e, rfl⟩ : ∃ e, d = e + 1 := ⟨d - 1, by omega⟩
  simp only [Nat.add_sub_cancel] at hl hsib1 hpar hframe
  have hcl : is_chain_like (c.zipcode_decoder.get_code_type (e + 1)) = true := by
    rw [hty]; rfl
  have hsame : frames_of c.zipcode_decoder s.1.sibling_indices_at_depth e =
      frames_of c.zipcode_decoder st.sibling_indices_at_depth e := by
    refine frames_of_congr _ _ _ _ e (fun _ _ => rfl) (fun i hi _ => ?_)
    exact hframe i (by omega) (by omega)
  have hrev : ∀ x ∈ es.reverse, x.type = EDGE := fun x hx => hesall x (List.mem_reverse.mp hx)
  unfold frames_ok at hf ⊢
  rw [frames_of_snarl _ _ e l hpar hl] at hf
  have hpush : chain_starts_ok (st.zip_code_tree ++ es.reverse ++ [⟨CHAIN_START, SIZE_MAX⟩]) :=
    chain_starts_ok_push_chain _ _ _ (l.length - 1) _ hK hf hlast hrev (by
      rw [List.length_reverse, heslen]; omega)
  refine ⟨?_, ?_⟩
  · rw [frames_of_chain _ _ (e + 1) hcl, frames_of_snarl _ _ e _ hpar hsib1, hsame, ht,
      open_frames_append, open_frames_append, open_frames_append, hf]
    simp only [Option.bind]
    rw [open_frames_neutral es.reverse (fun x hx => Or.inl (hrev x hx))]
    have h1 : (l ++ [(⟨CHAIN_START, idx⟩ : child_info_t)]).length - 1 = l.length - 1 + 1 := by
      simp only [List.length_append, List.length_singleton]
      omega
    rw [h1]
    by_cases hm : e + 1 = c.zipcode_decoder.max_depth
    · simp only [if_pos hm]
      simp [open_frames]
    · simp only [if_neg hm]
      simp [open_frames]
  · rw [ht]
    refine chain_starts_ok_append_plain _ _ hpush ?_
    intro y hy
    split at hy
    · simp only [List.mem_cons, List.mem_singleton, List.not_mem_nil, or_false] at hy
      rcases hy with hy | hy <;> subst hy <;> simp
    · cases hy

/-- Re-entering a chain whose scratch list is not empty changes the scratch list
of that chain only. -/
theorem open_chain_reopen_frame (D : SnarlDistanceIndex) (asserts : Bool) (seeds : List Seed)
    (c : Seed) (idx d : Nat) (rev : Bool) (st s : build_state) (x : child_info_t)
    (hx : st.sibling_indices_at_depth[d]? = some [x])
    (h : open_chain D asserts seeds c idx d rev st = .ok s) :
    ∀ i, i ≠ d → s.sibling_indices_at_depth[i]? = st.sibling_indices_at_depth[i]? := by
  simp only [open_chain, vec_get, List.get?_eq_getElem?, hx, bind, Except.bind, pure,
    Except.pure, List.length_singleton, one_ne_zero, if_false] at h
  repeat' split at h
  all_goals (try (simp at h; done))
  all_goals simp only [Except.ok.injEq] at h
  all_goals subst h
  all_goals intro i hi
  all_goals (try simp only [vec_modify_iff] at *)
  all_goals casesm* ∃ _, _, _ ∧ _
  all_goals subst_vars
  all_goals simp (disch := omega) [List.getElem?_set_ne]

/-- Opening a root chain keeps the count invariant. -/
theorem open_root_chain_frames (D : SnarlDistanceIndex) (asserts : Bool)
    (seeds : List Seed) (c : Seed) (idx : Nat) (rev : Bool) (st : build_state)
    (s : build_state × Bool) (hty : c.zipcode_decoder.get_code_type 0 = ROOT_CHAIN)
    (H : scopes c.zipcode_decoder seeds.length 0 st)
    (hf : frames_ok c.zipcode_decoder 0 st) (hK : chain_starts_ok st.zip_code_tree)
    (h : open_depth D asserts seeds c idx 0 (st, rev) = .ok s) :
    frames_ok c.zipcode_decoder 1 s.1 ∧ chain_starts_ok s.1.zip_code_tree := by
  have hst := (open_depth_ok D asserts seeds c idx 0 rev st s h).2
    (chain_not_node_kind (Or.inr hty))
  have hlen : 0 < st.sibling_indices_at_depth.length := by
    have := H.len
    omega
  have hl0 : st.sibling_indices_at_depth[0]? = some [] := by
    rw [List.getElem?_eq_getElem hlen]
    congr 1
    exact H.empty 0 _ (Or.inl (le_refl _)) (List.getElem?_eq_getElem hlen)
  obtain ⟨htree, -⟩ := open_root_chain_tree D asserts seeds c idx rev st s.1 hty hl0 hst
  unfold frames_ok at hf ⊢
  simp only [frames_of] at hf
  refine ⟨?_, ?_⟩
  · rw [frames_of_chain _ _ 0 (by rw [hty]; rfl), htree, open_frames_append, hf]
    simp [open_frames, frames_of]
  · rw [htree]
    exact chain_starts_ok_push_root _ _ hK (fun k outer hk => by rw [hf] at hk; cases hk)

/-- Opening a root node keeps the count invariant. -/
theorem open_root_node_frames (D : SnarlDistanceIndex) (asserts : Bool)
    (seeds : List Seed) (c : Seed) (idx : Nat) (rev : Bool) (st : build_state)
    (s : build_state × Bool) (hty : c.zipcode_decoder.get_code_type 0 = ROOT_NODE)
    (H : scopes c.zipcode_decoder seeds.length 0 st)
    (hf : frames_ok c.zipcode_decoder 0 st) (hK : chain_starts_ok st.zip_code_tree)
    (h : open_depth D asserts seeds c idx 0 (st, rev) = .ok s) :
    frames_ok c.zipcode_decoder 1 s.1 ∧ chain_starts_ok s.1.zip_code_tree := by
  have hst := (open_depth_ok D asserts seeds c idx 0 rev st s h).1
    (Or.inr (Or.inr (Or.inr hty)))
  obtain ⟨l, hl, hcases⟩ := open_root_node_tree D asserts c idx rev st s.1 hty hst
  have hl0 : l = [] := H.empty 0 l (Or.inl (le_refl _)) hl
  unfold frames_ok at hf ⊢
  simp only [frames_of] at hf
  rcases hcases with ⟨-, htree⟩ | ⟨x, rest, hne, -⟩
  · have heq : s.1.zip_code_tree = st.zip_code_tree ++ [⟨CHAIN_START, SIZE_MAX⟩] ++
        [⟨SEED, idx⟩] := by
      rw [htree]
      simp
    refine ⟨?_, ?_⟩
    · rw [frames_of_chain _ _ 0 (by rw [hty]; rfl), htree, open_frames_append, hf]
      simp [open_frames, frames_of]
    · rw [heq]
      exact chain_starts_ok_append_plain _ _
        (chain_starts_ok_push_root _ _ hK (fun k outer hk => by rw [hf] at hk; cases hk))
        (by simp)
  · rw [hl0] at hne
    cases hne

/-- Adding a seed to the root node of the seed before it keeps the count
invariant. -/
theorem reopen_root_node_frames (D : SnarlDistanceIndex) (asserts : Bool)
    (seeds : List Seed) (c : Seed) (idx : Nat) (rev : Bool) (st : build_state)
    (s : build_state × Bool)
    (hty : c.zipcode_decoder.get_code_type 0 = ROOT_NODE)
    (H : scopes c.zipcode_decoder seeds.length 1 st)
    (hf : frames_ok c.zipcode_decoder 1 st) (hK : chain_starts_ok st.zip_code_tree)
    (h : open_depth D asserts seeds c idx 0 (st, rev) = .ok s) :
    frames_ok c.zipcode_decoder 1 s.1 ∧ chain_starts_ok s.1.zip_code_tree := by
  have hst := (open_depth_ok D asserts seeds c idx 0 rev st s h).1
    (Or.inr (Or.inr (Or.inr hty)))
  obtain ⟨l, hl, hcases⟩ := open_root_node_tree D asserts c idx rev st s.1 hty hst
  obtain ⟨x, hx, -⟩ := H.chains 0 (by omega) (by simp [hty, is_chain_like])
  rw [hx] at hl
  simp only [Option.some.injEq] at hl
  subst hl
  have hcl : is_chain_like (c.zipcode_decoder.get_code_type 0) = true := by rw [hty]; rfl
  unfold frames_ok at hf ⊢
  rw [frames_of_chain _ _ 0 hcl] at hf ⊢
  simp only [frames_of] at hf ⊢
  rcases hcases with ⟨hnil, -⟩ | ⟨y, rest, -, ⟨-, htree⟩ | ⟨-, v, htree⟩⟩
  · cases hnil
  · rw [htree]
    refine ⟨?_, chain_starts_ok_append_plain _ _ hK (by simp)⟩
    rw [open_frames_append, hf]
    simp [open_frames]
  · rw [htree]
    refine ⟨?_, chain_starts_ok_append_plain _ _ hK (by simp)⟩
    rw [open_frames_append, hf]
    simp [open_frames]

/-- Adding a seed to the trivial chain of the seed before it keeps the count
invariant. -/
theorem reopen_chain_frames (D : SnarlDistanceIndex) (asserts : Bool)
    (seeds : List Seed) (c : Seed) (idx : Nat) (rev : Bool) (st : build_state)
    (s : build_state × Bool)
    (hty : c.zipcode_decoder.get_code_type c.zipcode_decoder.max_depth = CHAIN)
    (H : scopes c.zipcode_decoder seeds.length (c.zipcode_decoder.max_depth + 1) st)
    (hf : frames_ok c.zipcode_decoder (c.zipcode_decoder.max_depth + 1) st)
    (hK : chain_starts_ok st.zip_code_tree)
    (h : open_depth D asserts seeds c idx c.zipcode_decoder.max_depth (st, rev) = .ok s) :
    frames_ok c.zipcode_decoder (c.zipcode_decoder.max_depth + 1) s.1 ∧
      chain_starts_ok s.1.zip_code_tree := by
  have hst := (open_depth_ok D asserts seeds c idx _ rev st s h).2
    (chain_not_node_kind (Or.inl hty))
  obtain ⟨l, hl, hcases⟩ := open_chain_tree D asserts seeds c idx _ rev st s.1 hty hst
  obtain ⟨x, hx, -⟩ := H.chains c.zipcode_decoder.max_depth (by omega)
    (by simp [hty, is_chain_like])
  have hframe := open_chain_reopen_frame D asserts seeds c idx _ rev st s.1 x hx hst
  rw [hx] at hl
  simp only [Option.some.injEq] at hl
  subst hl
  have hcl : is_chain_like (c.zipcode_decoder.get_code_type c.zipcode_decoder.max_depth)
      = true := by rw [hty]; rfl
  have hsame : frames_of c.zipcode_decoder s.1.sibling_indices_at_depth
      c.zipcode_decoder.max_depth =
      frames_of c.zipcode_decoder st.sibling_indices_at_depth c.zipcode_decoder.max_depth := by
    refine frames_of_congr _ _ _ _ _ (fun _ _ => rfl) (fun i hi _ => ?_)
    exact hframe i (by omega)
  unfold frames_ok at hf ⊢
  rw [frames_of_chain _ _ _ hcl] at hf ⊢
  rcases hcases with ⟨hnil, -⟩ | ⟨-, ⟨hne, -⟩ | ⟨-, v, htree⟩⟩
  · cases hnil
  · exact absurd rfl hne
  · rw [htree, hsame]
    refine ⟨?_, chain_starts_ok_append_plain _ _ hK (by simp)⟩
    rw [open_frames_append, hf]
    simp [open_frames]

/-- One iteration of the open loop takes the count invariant from depth `d` to
depth `d + 1`. -/
theorem open_depth_frames (D : SnarlDistanceIndex) (asserts : Bool) (seeds : List Seed)
    (c : Seed) (idx d : Nat) (rev : Bool) (st : build_state) (s : build_state × Bool)
    (hc : address_ok c.zipcode_decoder) (hd : d ≤ c.zipcode_decoder.max_depth)
    (H : scopes c.zipcode_decoder seeds.length d st) (hT : tail_ok st)
    (hf : frames_ok c.zipcode_decoder d st) (hK : chain_starts_ok st.zip_code_tree)
    (h : open_depth D asserts seeds c idx d (st, rev) = .ok s) :
    frames_ok c.zipcode_decoder (d + 1) s.1 ∧ chain_starts_ok s.1.zip_code_tree := by
  rcases address_ok_cases c.zipcode_decoder hc d hd with
    ⟨rfl, h1, h2⟩ | ⟨rfl, h1, h2⟩ | ⟨h0, h1, h2, h3⟩ | ⟨h0, h1, h2, h3⟩ | ⟨h0, h1, h2⟩
  · exact open_root_node_frames D asserts seeds c idx rev st s h1 H hf hK h
  · exact open_root_chain_frames D asserts seeds c idx rev st s h1 H hf hK h
  · exact open_child_frames D asserts seeds c idx d rev st s h0 (Or.inl h1) h3 H hf hK h
  · exact open_child_frames D asserts seeds c idx d rev st s h0 (Or.inr h1) h3 H hf hK h
  · exact open_chain_frames D asserts seeds c idx d rev st s h0 hd h1 h2 H hf hK
      (tree_last_of_scopes _ _ _ st hc h0 H hT) h

/-- Re-entering the leaf of the previous seed (the same-node case) keeps the
count invariant. -/
theorem reopen_frames (D : SnarlDistanceIndex) (asserts : Bool) (seeds : List Seed)
    (c : Seed) (idx : Nat) (rev : Bool) (st : build_state) (s : build_state × Bool)
    (hc : address_ok c.zipcode_decoder)
    (H : scopes c.zipcode_decoder seeds.length (c.zipcode_decoder.max_depth + 1) st)
    (hf : frames_ok c.zipcode_decoder (c.zipcode_decoder.max_depth + 1) st)
    (hK : chain_starts_ok st.zip_code_tree)
    (h : open_depth D asserts seeds c idx c.zipcode_decoder.max_depth (st, rev) = .ok s) :
    frames_ok c.zipcode_decoder (c.zipcode_decoder.max_depth + 1) s.1 ∧
      chain_starts_ok s.1.zip_code_tree := by
  rcases address_ok_cases c.zipcode_decoder hc c.zipcode_decoder.max_depth (le_refl _) with
    ⟨h0, h1, h2⟩ | ⟨h0, h1, h2⟩ | ⟨h0, h1, h2, h3⟩ | ⟨h0, h1, h2, h3⟩ | ⟨h0, h1, h2⟩
  · rw [h2] at H h1 h hf ⊢
    exact reopen_root_node_frames D asserts seeds c idx rev st s h1 H hf hK h
  · omega
  · refine open_child_frames D asserts seeds c idx _ rev st s h0 (Or.inl h1) h3
      (scopes_before_node _ _ _ _ H h1) ?_ hK h
    unfold frames_ok at hf ⊢
    rw [frames_of_node _ _ _ h1] at hf
    exact hf
  · omega
  · exact reopen_chain_frames D asserts seeds c idx rev st s h1 H hf hK h

/-- The open loop takes the count invariant from depth `d` to the last level
of the address. -/
theorem open_loop_frames (D : SnarlDistanceIndex) (asserts : Bool) (seeds : List Seed)
    (c : Seed) (idx : Nat) (hc : address_ok c.zipcode_decoder) (hidx : idx < seeds.length) :
    ∀ (k d : Nat) (rev : Bool) (st : build_state) (s : build_state × Bool),
      d + k = c.zipcode_decoder.max_depth + 1 →
      scopes c.zipcode_decoder seeds.length d st →
      children_ok st.zip_code_tree → tail_ok st →
      frames_ok c.zipcode_decoder d st → chain_starts_ok st.zip_code_tree →
      open_loop D asserts seeds c idx k d (st, rev) = .ok s →
      frames_ok c.zipcode_decoder (c.zipcode_decoder.max_depth + 1) s.1 ∧
        chain_starts_ok s.1.zip_code_tree := by
  intro k
  induction k with
  | zero =>
    intro d rev st s hk _ _ _ hf hK h
    simp only [open_loop, Except.ok.injEq] at h
    subst h
    have hd : d = c.zipcode_decoder.max_depth + 1 := by omega
    subst hd
    exact ⟨hf, hK⟩
  | succ k ih =>
    intro d rev st s hk H hC hT hf hK h
    simp only [open_loop, bind, Except.bind] at h
    cases hs1 : open_depth D asserts seeds c idx d (st, rev) with
    | error e => rw [hs1] at h; simp at h
    | ok s1 =>
      rw [hs1] at h
      have H1 := (step_ok_ok asserts _ _ s1
        (open_depth_spec D asserts seeds c idx d rev st hc hidx (by omega) H) hs1).1
      obtain ⟨hC1, hT1⟩ :=
        open_depth_children D asserts seeds c idx d rev st s1 hc (by omega) H hC hT hs1
      obtain ⟨hf1, hK1⟩ :=
        open_depth_frames D asserts seeds c idx d rev st s1 hc (by omega) H hT hf hK hs1
      exact ih (d + 1) s1.2 s1.1 s (by omega) H1 hC1 hT1 hf1 hK1 h

/-- The body of the main loop on the first seed establishes the count
invariant. -/
theorem add_seed_first_frames (D : SnarlDistanceIndex) (asserts : Bool)
    (seeds : List Seed) (c : Seed) (idx : Nat) (hget : seeds[idx]? = some c)
    (hc : address_ok c.zipcode_decoder) (s : build_state)
    (h : add_seed D asserts seeds none idx ⟨[], []⟩ = .ok s) :
    frames_ok c.zipcode_decoder (c.zipcode_decoder.max_depth + 1) s ∧
      chain_starts_ok s.zip_code_tree := by
  have hidx : idx < seeds.length := (mem_of_getElem? seeds idx c hget).2
  obtain ⟨hf0, hfs⟩ := first_different_ancestor_first D c.zipcode_decoder c.zipcode_decoder
  have H0 : scopes c.zipcode_decoder seeds.length 0
      ⟨[], List.replicate (c.zipcode_decoder.max_depth + 1) []⟩ := by
    refine ⟨by simp, ?_, ?_, ?_, rfl, guarded_nil⟩
    · intro e he
      omega
    · intro e he
      omega
    · intro e l _ hl
      simp only [List.getElem?_replicate] at hl
      split_ifs at hl
      cases hl
      rfl
  have hT0 : tail_ok ⟨[], List.replicate (c.zipcode_decoder.max_depth + 1) []⟩ := by
    refine ⟨Or.inl rfl, ?_⟩
    rintro ⟨pre, v, hsplit, -⟩
    have := congrArg List.length hsplit
    simp at this
  simp only [add_seed, vec_get, List.get?_eq_getElem?, hget, bind, Except.bind, pure,
    Except.pure, Option.isNone, hf0, hfs, List.length_nil, Nat.sub_zero, List.nil_append,
    Bool.not_false, Bool.not_true, Bool.and_false, Bool.false_eq_true, if_false] at h
  split at h
  · simp at h
  · rename_i s2 hs2
    simp only [Except.ok.injEq] at h
    subst h
    exact open_loop_frames D asserts seeds c idx hc hidx _ 0 _ _ s2 (by omega) H0
      children_ok_nil hT0 rfl chain_starts_ok_nil hs2

/-- Growing `sibling_indices_at_depth` by empty lists keeps the count
invariant. -/
theorem frames_ok_pad (p : ZipCodeDecoder) (d k : Nat) (st : build_state)
    (hlen : d ≤ st.sibling_indices_at_depth.length) (hf : frames_ok p d st) :
    frames_ok p d ⟨st.zip_code_tree, st.sibling_indices_at_depth ++ List.replicate k []⟩ := by
  unfold frames_ok at hf ⊢
  rw [hf]
  congr 1
  refine frames_of_congr p p _ _ d (fun _ _ => rfl) (fun e he _ => ?_)
  exact (List.getElem?_append_left (by omega)).symm

/-- The count invariant passes from one address to another that has the same
kinds above depth `d`. -/
theorem frames_ok_transfer (p c : ZipCodeDecoder) (d : Nat) (st : build_state)
    (hf : frames_ok p d st) (hty : ∀ e, e < d → p.get_code_type e = c.get_code_type e) :
    frames_ok c d st := by
  unfold frames_ok at hf ⊢
  rw [hf]
  congr 1
  exact frames_of_congr p c _ _ d hty (fun _ _ _ => rfl)

/-- The body of the main loop keeps the count invariant. -/
theorem add_seed_next_frames (D : SnarlDistanceIndex) (asserts : Bool) (seeds : List Seed)
    (c p : Seed) (idx j : Nat) (st : build_state)
    (hgetc : seeds[idx]? = some c) (hgetp : seeds[j]? = some p)
    (hcons : consistent D seeds)
    (H : scopes p.zipcode_decoder seeds.length (p.zipcode_decoder.max_depth + 1) st)
    (hQ : closed_to p.zipcode_decoder (p.zipcode_decoder.max_depth + 1) st.zip_code_tree)
    (hC : children_ok st.zip_code_tree)
    (hf : frames_ok p.zipcode_decoder (p.zipcode_decoder.max_depth + 1) st)
    (hK : chain_starts_ok st.zip_code_tree)
    (s : build_state) (h : add_seed D asserts seeds (some j) idx st = .ok s) :
    frames_ok c.zipcode_decoder (c.zipcode_decoder.max_depth + 1) s ∧
      chain_starts_ok s.zip_code_tree := by
  obtain ⟨hcm, hidx⟩ := mem_of_getElem? seeds idx c hgetc
  obtain ⟨hpm, -⟩ := mem_of_getElem? seeds j p hgetp
  have hc := hcons.1 c hcm
  have hp := hcons.1 p hpm
  have hagree := hcons.2 c hcm p hpm
  obtain ⟨hf1, hf2, hf3⟩ := first_different_ancestor_spec D c.zipcode_decoder p.zipcode_decoder
  have Hpad := scopes_pad p.zipcode_decoder seeds.length (p.zipcode_decoder.max_depth + 1)
    (c.zipcode_decoder.max_depth + 1 - st.sibling_indices_at_depth.length) st H
  have hfpad := frames_ok_pad p.zipcode_decoder (p.zipcode_decoder.max_depth + 1)
    (c.zipcode_decoder.max_depth + 1 - st.sibling_indices_at_depth.length) st
    (by have := H.len; omega) hf
  have hlen : c.zipcode_decoder.max_depth <
      (st.sibling_indices_at_depth ++ List.replicate
        (c.zipcode_decoder.max_depth + 1 - st.sibling_indices_at_depth.length) []).length := by
    simp only [List.length_append, List.length_replicate]
    omega
  have hfle : (first_different_ancestor D false c.zipcode_decoder
      p.zipcode_decoder).first_different_ancestor_depth ≤ p.zipcode_decoder.max_depth :=
    le_trans hf1 (Nat.min_le_right _ _)
  have hfle' : (first_different_ancestor D false c.zipcode_decoder
      p.zipcode_decoder).first_different_ancestor_depth ≤ c.zipcode_decoder.max_depth :=
    le_trans hf1 (Nat.min_le_left _ _)
  simp only [add_seed, vec_get, List.get?_eq_getElem?, hgetc, hgetp, bind, Except.bind, pure,
    Except.pure, Option.isNone, Bool.not_false, Bool.and_true, Bool.false_eq_true, if_false]
    at h
  cases hsame : (first_different_ancestor D false c.zipcode_decoder
      p.zipcode_decoder).same_node
  · simp only [hsame, Bool.not_false, if_true] at h
    have hk : (first_different_ancestor D false c.zipcode_decoder
        p.zipcode_decoder).first_different_ancestor_depth +
        (p.zipcode_decoder.max_depth + 1 - (first_different_ancestor D false c.zipcode_decoder
        p.zipcode_decoder).first_different_ancestor_depth) =
        p.zipcode_decoder.max_depth + 1 := by omega
    obtain ⟨s1, hs1, H1, -, hl1⟩ := close_loop_spec D seeds p.zipcode_decoder
      (first_different_ancestor D false c.zipcode_decoder
        p.zipcode_decoder).first_different_ancestor_depth hp
      (p.zipcode_decoder.max_depth + 1 - (first_different_ancestor D false c.zipcode_decoder
        p.zipcode_decoder).first_different_ancestor_depth)
      (first_different_ancestor D false c.zipcode_decoder p.zipcode_decoder).previous_is_reversed
      _ (by omega) (by rw [hk]; exact Hpad)
    have hQ1 := close_loop_ends D seeds p.zipcode_decoder
      (first_different_ancestor D false c.zipcode_decoder
        p.zipcode_decoder).first_different_ancestor_depth hp
      (p.zipcode_decoder.max_depth + 1 - (first_different_ancestor D false c.zipcode_decoder
        p.zipcode_decoder).first_different_ancestor_depth)
      (first_different_ancestor D false c.zipcode_decoder p.zipcode_decoder).previous_is_reversed
      _ s1 (by omega) (by rw [hk]; exact Hpad) (by rw [hk]; exact hQ) hs1
    have hC1 := close_loop_children D seeds p.zipcode_decoder
      (first_different_ancestor D false c.zipcode_decoder
        p.zipcode_decoder).first_different_ancestor_depth hp
      (p.zipcode_decoder.max_depth + 1 - (first_different_ancestor D false c.zipcode_decoder
        p.zipcode_decoder).first_different_ancestor_depth)
      (first_different_ancestor D false c.zipcode_decoder p.zipcode_decoder).previous_is_reversed
      ⟨st.zip_code_tree, st.sibling_indices_at_depth ++ List.replicate
        (c.zipcode_decoder.max_depth + 1 - st.sibling_indices_at_depth.length) []⟩
      s1 (by omega) (by rw [hk]; exact Hpad) (by rw [hk]; exact hQ) hC hs1
    obtain ⟨hfr1, hK1⟩ := close_loop_frames D seeds p.zipcode_decoder
      (first_different_ancestor D false c.zipcode_decoder
        p.zipcode_decoder).first_different_ancestor_depth hp
      (p.zipcode_decoder.max_depth + 1 - (first_different_ancestor D false c.zipcode_decoder
        p.zipcode_decoder).first_different_ancestor_depth)
      (first_different_ancestor D false c.zipcode_decoder p.zipcode_decoder).previous_is_reversed
      ⟨st.zip_code_tree, st.sibling_indices_at_depth ++ List.replicate
        (c.zipcode_decoder.max_depth + 1 - st.sibling_indices_at_depth.length) []⟩
      s1 (by omega) (by rw [hk]; exact hfpad) hK hs1
    have hty : ∀ e, e < (first_different_ancestor D false c.zipcode_decoder
        p.zipcode_decoder).first_different_ancestor_depth →
        p.zipcode_decoder.get_code_type e = c.zipcode_decoder.get_code_type e := by
      intro e he
      exact ((hagree e (by omega) (by omega) (fun e1 he1 => hf2 e1 (by omega))).1).symm
    have H2 : scopes c.zipcode_decoder seeds.length
        (first_different_ancestor D false c.zipcode_decoder
          p.zipcode_decoder).first_different_ancestor_depth s1.1 :=
      scopes_transfer p.zipcode_decoder c.zipcode_decoder _ _ _ H1 hty
        (by rw [hl1]; exact hlen) (fun _ => hfle')
    have hfr2 := frames_ok_transfer p.zipcode_decoder c.zipcode_decoder _ s1.1 hfr1 hty
    simp only [hs1] at h
    split at h
    · simp at h
    · rename_i s2 hs2
      simp only [Except.ok.injEq] at h
      subst h
      exact open_loop_frames D asserts seeds c idx hc hidx _ _ _ s1.1 s2 (by omega) H2 hC1
        (tail_ok_of_closed_to _ _ s1.1 hQ1) hfr2 hK1 hs2
  · simp only [hsame, Bool.not_true, Bool.false_eq_true, if_false] at h
    obtain ⟨hfm, hall⟩ := hf3 hsame
    have hmin := hagree (min c.zipcode_decoder.max_depth p.zipcode_decoder.max_depth)
      (Nat.min_le_left _ _) (Nat.min_le_right _ _) (fun e he => hall e he)
    have hmax : c.zipcode_decoder.max_depth = p.zipcode_decoder.max_depth := by
      have := hmin.2
      rcases Nat.le_total c.zipcode_decoder.max_depth p.zipcode_decoder.max_depth with h | h
      · rw [Nat.min_eq_left h] at this
        exact this.mp rfl
      · rw [Nat.min_eq_right h] at this
        exact (this.mpr rfl).symm
    have hfc : (first_different_ancestor D false c.zipcode_decoder
        p.zipcode_decoder).first_different_ancestor_depth = c.zipcode_decoder.max_depth := by
      rw [hfm, hmax, Nat.min_self]
    have hty : ∀ e, e < p.zipcode_decoder.max_depth + 1 →
        p.zipcode_decoder.get_code_type e = c.zipcode_decoder.get_code_type e := by
      intro e he
      exact ((hagree e (by omega) (by omega)
        (fun e1 he1 => hall e1 (by rw [hmax, Nat.min_self]; omega))).1).symm
    have H2 : scopes c.zipcode_decoder seeds.length (c.zipcode_decoder.max_depth + 1)
        ⟨st.zip_code_tree, st.sibling_indices_at_depth ++ List.replicate
          (c.zipcode_decoder.max_depth + 1 - st.sibling_indices_at_depth.length) []⟩ := by
      have h := scopes_transfer p.zipcode_decoder c.zipcode_decoder _ _ _ Hpad hty hlen
        (fun h => by omega)
      rw [← hmax] at h
      exact h
    have hfr2 : frames_ok c.zipcode_decoder (c.zipcode_decoder.max_depth + 1)
        ⟨st.zip_code_tree, st.sibling_indices_at_depth ++ List.replicate
          (c.zipcode_decoder.max_depth + 1 - st.sibling_indices_at_depth.length) []⟩ := by
      have h := frames_ok_transfer p.zipcode_decoder c.zipcode_decoder _ _ hfpad hty
      rw [← hmax] at h
      exact h
    rw [hfc] at h
    have hone : c.zipcode_decoder.max_depth + 1 - c.zipcode_decoder.max_depth = 1 := by omega
    rw [hone] at h
    simp only [open_loop, bind, Except.bind] at h
    split at h
    · simp at h
    · rename_i s2 hs2
      split at hs2
      · simp at hs2
      · rename_i s3 hs3
        simp only [Except.ok.injEq] at hs2 h
        subst hs2
        subst h
        exact reopen_frames D asserts seeds c idx _ _ s3 hc H2 hfr2 hK hs3

/-- The main loop keeps the count invariant. -/
theorem add_seeds_frames (D : SnarlDistanceIndex) (asserts : Bool) (seeds : List Seed)
    (hcons : consistent D seeds) :
    ∀ (rest : List Nat) (previous : Option Nat) (st s : build_state),
      (∀ i ∈ rest, i < seeds.length) → built seeds previous st →
      (∀ j p, previous = some j → seeds[j]? = some p →
        closed_to p.zipcode_decoder (p.zipcode_decoder.max_depth + 1) st.zip_code_tree ∧
        frames_ok p.zipcode_decoder (p.zipcode_decoder.max_depth + 1) st) →
      children_ok st.zip_code_tree → chain_starts_ok st.zip_code_tree →
      add_seeds D asserts seeds previous rest st = .ok s → chain_starts_ok s.zip_code_tree := by
  intro rest
  induction rest with
  | nil =>
    intro previous st s _ _ _ _ hK h
    simp only [add_seeds, Except.ok.injEq] at h
    subst h
    exact hK
  | cons idx rest ih =>
    intro previous st s hidx hb hE hC hK h
    have hi : idx < seeds.length := hidx idx (List.mem_cons_self _ _)
    have hgetc : seeds[idx]? = some seeds[idx] := List.getElem?_eq_getElem hi
    have hc : address_ok (seeds[idx]).zipcode_decoder :=
      hcons.1 _ (List.getElem_mem hi)
    simp only [add_seeds, bind, Except.bind] at h
    cases hs1 : add_seed D asserts seeds previous idx st with
    | error e => rw [hs1] at h; simp at h
    | ok s1 =>
      rw [hs1] at h
      have hstep : built seeds (some idx) s1 ∧
          closed_to (seeds[idx]).zipcode_decoder ((seeds[idx]).zipcode_decoder.max_depth + 1)
            s1.zip_code_tree ∧ children_ok s1.zip_code_tree ∧
          frames_ok (seeds[idx]).zipcode_decoder ((seeds[idx]).zipcode_decoder.max_depth + 1)
            s1 ∧ chain_starts_ok s1.zip_code_tree := by
        cases previous with
        | none =>
          simp only [built] at hb
          subst hb
          have h1 := step_ok_ok asserts _ _ s1
            (add_seed_first D asserts seeds _ idx hgetc hc) hs1
          exact ⟨⟨_, hgetc, h1.1⟩, add_seed_first_ends D asserts seeds _ idx hgetc hc s1 hs1,
            add_seed_first_children D asserts seeds _ idx hgetc hc s1 hs1,
            add_seed_first_frames D asserts seeds _ idx hgetc hc s1 hs1⟩
        | some j =>
          obtain ⟨p, hgetp, H⟩ := hb
          have h1 := step_ok_ok asserts _ _ s1
            (add_seed_next D asserts seeds _ p idx j st hgetc hgetp hcons H) hs1
          exact ⟨⟨_, hgetc, h1.1⟩, add_seed_next_ends D asserts seeds _ p idx j st hgetc hgetp
            hcons H (hE j p rfl hgetp).1 s1 hs1,
            add_seed_next_children D asserts seeds _ p idx j st hgetc hgetp hcons H
              (hE j p rfl hgetp).1 hC s1 hs1,
            add_seed_next_frames D asserts seeds _ p idx j st hgetc hgetp hcons H
              (hE j p rfl hgetp).1 hC (hE j p rfl hgetp).2 hK s1 hs1⟩
      refine ih (some idx) s1 s (fun i hi => hidx i (List.mem_cons_of_mem _ hi)) hstep.1 ?_
        hstep.2.2.1 hstep.2.2.2.2 h
      intro j p hj hp
      cases hj
      rw [hgetc] at hp
      cases hp
      exact ⟨hstep.2.1, hstep.2.2.2.1⟩

/-- One iteration of the final loop appends no CHAIN_START. -/
theorem flush_depth_plain (D : SnarlDistanceIndex) (seeds : List Seed) (p : ZipCodeDecoder)
    (k : Nat) (s0 s : build_state × Bool) (h : flush_depth D seeds p k s0 = .ok s) :
    ∃ chunk, s.1.zip_code_tree = s0.1.zip_code_tree ++ chunk ∧
      ∀ x ∈ chunk, x.type ≠ CHAIN_START := by
  simp only [flush_depth, bind, Except.bind, pure, Except.pure] at h
  cases hsib : vec_get s0.1.sibling_indices_at_depth k with
  | error e => rw [hsib] at h; simp at h
  | ok siblings =>
    rw [hsib] at h
    simp only at h
    by_cases hpos : siblings.length > 0
    · rw [if_pos hpos] at h
      cases ht : close_scope D seeds p s0.2 k s0.1 with
      | error e => rw [ht] at h; simp at h
      | ok t =>
        rw [ht] at h
        simp only [Except.ok.injEq] at h
        subst h
        obtain ⟨chunk, hchunk, hall⟩ := close_scope_shape D seeds p _ k s0.1 t ht
        refine ⟨chunk, hchunk, fun x hx => ?_⟩
        rcases hall x hx with h3 | h3 | h3 | h3 <;> rw [h3] <;> decide
    · rw [if_neg hpos] at h
      simp only [Except.ok.injEq] at h
      subst h
      exact ⟨[], by simp, by simp⟩

/-- The final loop appends no CHAIN_START. -/
theorem flush_loop_plain (D : SnarlDistanceIndex) (seeds : List Seed) (p : ZipCodeDecoder) :
    ∀ (k : Nat) (s0 s : build_state × Bool),
      flush_loop D seeds p k s0 = .ok s →
      ∃ chunk, s.1.zip_code_tree = s0.1.zip_code_tree ++ chunk ∧
        ∀ x ∈ chunk, x.type ≠ CHAIN_START := by
  intro k
  induction k with
  | zero =>
    intro s0 s h
    simp only [flush_loop, Except.ok.injEq] at h
    subst h
    exact ⟨[], by simp, by simp⟩
  | succ k ih =>
    intro s0 s h
    simp only [flush_loop, bind, Except.bind] at h
    cases hs1 : flush_depth D seeds p k s0 with
    | error e => rw [hs1] at h; simp at h
    | ok s1 =>
      rw [hs1] at h
      obtain ⟨chunk2, h2, hall2⟩ := ih s1 s h
      obtain ⟨chunk1, h1, hall1⟩ := flush_depth_plain D seeds p k s0 s1 hs1
      refine ⟨chunk1 ++ chunk2, by rw [h2, h1, List.append_assoc], fun x hx => ?_⟩
      rcases List.mem_append.mp hx with hx | hx
      · exact hall1 x hx
      · exact hall2 x hx

/-- In every store the constructor returns, the CHAIN_START of the child chain
number `k + 1` of a snarl comes after exactly `k + 1` EDGE items. -/
theorem build_frames (D : SnarlDistanceIndex) (asserts : Bool) (seeds : List Seed)
    (seed_indices : List Nat) (hcons : consistent D seeds)
    (hidx : ∀ i ∈ seed_indices, i < seeds.length) (t : List tree_item_t)
    (h : build D asserts seeds seed_indices = .ok t) : chain_starts_ok t := by
  simp only [build, bind, Except.bind, pure, Except.pure] at h
  cases hs : add_seeds D asserts seeds none seed_indices ⟨[], []⟩ with
  | error e => rw [hs] at h; simp at h
  | ok st =>
    rw [hs] at h
    have hK := add_seeds_frames D asserts seeds hcons seed_indices none ⟨[], []⟩ st hidx
      rfl (fun j p hj => by cases hj) children_ok_nil chain_starts_ok_nil hs
    simp only [final_flush, bind, Except.bind, pure, Except.pure] at h
    cases h1 : vec_back seed_indices with
    | error e => rw [h1] at h; simp at h
    | ok last_index =>
      rw [h1] at h
      simp only at h
      cases h2 : vec_get seeds last_index with
      | error e => rw [h2] at h; simp at h
      | ok last_seed =>
        rw [h2] at h
        simp only at h
        split at h
        · simp at h
        · rename_i st1 hst1
          simp only [Except.ok.injEq] at h
          subst h
          split at hst1
          · simp at hst1
          · rename_i s2 hs2
            simp only [Except.ok.injEq] at hst1
            subst hst1
            obtain ⟨chunk, hchunk, hall⟩ := flush_loop_plain D seeds _ _ _ s2 hs2
            rw [hchunk]
            exact chain_starts_ok_append_plain _ _ hK hall

/-- The distance items of a new child chain are computed entry by entry from
the scratch list of the snarl. -/
theorem open_chain_edges_get (D : SnarlDistanceIndex) (seeds : List Seed)
    (dec : ZipCodeDecoder) (rev : Bool) (d : Nat) :
    ∀ (l : List child_info_t) (es : List tree_item_t),
      open_chain_edges D seeds dec rev d l = .ok es →
      ∀ (i : Nat) (x : child_info_t), l[i]? = some x →
        ∃ e, es[i]? = some e ∧ open_chain_edges D seeds dec rev d [x] = .ok [e] := by
  intro l
  induction l with
  | nil =>
    intro es _ i x hx
    simp at hx
  | cons y l ih =>
    intro es h i x hx
    simp only [open_chain_edges, bind, Except.bind, pure, Except.pure] at h ⊢
    cases hes1 : open_chain_edges D seeds dec rev d l with
    | error e =>
      rw [hes1] at h
      repeat' split at h
      all_goals simp_all
    | ok es1 =>
      rw [hes1] at h
      cases i with
      | zero =>
        simp only [List.getElem?_cons_zero, Option.some.injEq] at hx
        subst hx
        repeat' split at h
        all_goals (try (simp at h; done))
        all_goals simp only [Except.ok.injEq] at h
        all_goals subst h
        all_goals simp [*]
      | succ i =>
        simp only [List.getElem?_cons_succ] at hx
        have h3 := ih es1 hes1 i x hx
        simp only [open_chain_edges, bind, Except.bind, pure, Except.pure] at h3
        repeat' split at h
        all_goals (try (simp at h; done))
        all_goals simp only [Except.ok.injEq] at h
        all_goals subst h
        all_goals simp only [List.getElem?_cons_succ]
        all_goals (first | exact h3 | (simp only [Except.ok.injEq] at *; subst_vars; exact h3))

theorem getElem?_reverse_of_getElem? {α : Type} (es : List α) (i : Nat) (e : α)
    (h : es[i]? = some e) : es.reverse[es.length - 1 - i]? = some e := by
  have hi : i < es.length := (mem_of_getElem? es i e h).2
  rw [List.getElem?_reverse (by omega)]
  have : es.length - 1 - (es.length - 1 - i) = i := by omega
  rw [this]
  exact h

theorem yields_from_rend (t : List tree_item_t) (fuel : Nat) (r : reverse_iterator)
    (h : r.it = 0) : yields_from t fuel r = [] := by
  simp only [yields_from, h, scan]
  cases fuel with
  | zero => simp [backward_from]
  | succ f => simp [backward_from, h]

theorem yields_from_error (t : List tree_item_t) (fuel : Nat) (r : reverse_iterator)
    (e : Err) (h : tick t r = .error e) : yields_from t fuel r = [] := by
  by_cases h0 : r.it = 0
  · exact yields_from_rend t fuel r h0
  · obtain ⟨n, hn⟩ : ∃ n, r.it = n + 1 := ⟨r.it - 1, by omega⟩
    simp only [yields_from, hn, scan]
    rw [← hn, if_neg h0, h]

/-- A tick that does not yield: the traversal goes on at the item before, unless
the tick has halted. -/
theorem yields_from_skip (t : List tree_item_t) (fuel : Nat) (r r1 : reverse_iterator)
    (h : tick t r = .ok (false, r1)) :
    yields_from t fuel r =
      if r1.it = 0 then []
      else yields_from t fuel ⟨r.it - 1, r1.distance_limit, r1.stack, r1.current_state⟩ := by
  by_cases h0 : r.it = 0
  · simp [tick, h0] at h
  · obtain ⟨n, hn⟩ : ∃ n, r.it = n + 1 := ⟨r.it - 1, by omega⟩
    have hit := (tick_spec t r r1 false h).1
    by_cases h1 : r1.it = 0
    · rw [if_pos h1]
      simp only [yields_from, hn, scan]
      rw [← hn, if_neg h0, h]
      simp [h1]
    · rw [if_neg h1]
      have h2 : r1.it = r.it := by
        rcases hit with hit | hit
        · exact hit
        · exact absurd hit h1
      simp only [yields_from]
      rw [hn, scan_step t n r r1 h0 h h2, hn]
      simp

/-- A tick that yields: the seed is produced, and the traversal goes on at the
item before with one iteration less. -/
theorem yields_from_yield (t : List tree_item_t) (fuel : Nat) (r r1 : reverse_iterator)
    (x : tree_item_t) (top : Nat) (rest : List Nat)
    (h : tick t r = .ok (true, r1)) (hx : t.get? (r.it - 1) = some x)
    (hstack : r.stack = top :: rest) :
    yields_from t (fuel + 1) r =
      x.value :: yields_from t fuel ⟨r.it - 1, r.distance_limit, r.stack, r.current_state⟩ := by
  by_cases h0 : r.it = 0
  · simp [tick, h0] at h
  · obtain ⟨n, hn⟩ : ∃ n, r.it = n + 1 := ⟨r.it - 1, by omega⟩
    obtain ⟨-, -, hy⟩ := tick_spec t r r1 true h
    obtain ⟨hr1, hstate, item, hitem, hseed⟩ := hy rfl
    rw [hx] at hitem
    simp only [Option.some.injEq] at hitem
    subst hitem
    subst hr1
    have hscan : scan t r1.it r1 = .ok r1 := by
      rw [hn]
      simp only [scan]
      rw [if_neg h0, h]
    simp only [yields_from, hscan]
    simp only [backward_from, if_neg h0, operator_deref, hx, hseed, hstack, operator_inc,
      ne_eq, not_true_eq_false, if_false]
    cases hs : scan t (r1.it - 1) ⟨r1.it - 1, r1.distance_limit, top :: rest,
      r1.current_state⟩ with
    | error e => simp
    | ok r2 => simp

/-- A tick in state Skip-Chain with at most two entries on the stack stays
there. -/
theorem tick_dead (t : List tree_item_t) (r r1 : reverse_iterator) (y : Bool)
    (hs : r.current_state = S_SKIP_CHAIN) (hl : r.stack.length ≤ 2)
    (h : tick t r = .ok (y, r1)) :
    y = false ∧ r1.current_state = S_SKIP_CHAIN ∧ r1.stack.length ≤ 2 := by
  unfold tick at h
  split at h
  · cases h
  · split at h
    · cases h
    · rename_i item hitem
      obtain ⟨it, lim, stack, st⟩ := r
      simp only at hs hl
      subst hs
      cases hty : item.type <;>
        simp only [hty] at h <;>
        (rcases stack with _ | ⟨a, _ | ⟨b, _ | ⟨c, rest⟩⟩⟩) <;>
        simp [bind, Except.bind, pure, Except.pure, push, pop, top, set_top, dup, depth,
                state, halt] at h hl <;>
        (try split_ifs at h) <;>
        (try simp [bind, Except.bind, pure, Except.pure, push, pop, top, set_top, dup, depth,
                state, halt] at h) <;>
        (try (obtain ⟨rfl, rfl⟩ := h)) <;>
        (try simp_all)

/-- A run in state Skip-Chain with at most two entries on the stack yields
nothing more. -/
theorem yields_from_dead (t : List tree_item_t) (fuel : Nat) :
    ∀ (n : Nat) (r : reverse_iterator), r.it = n → r.current_state = S_SKIP_CHAIN →
      r.stack.length ≤ 2 → yields_from t fuel r = [] := by
  intro n
  induction n with
  | zero => intro r hn _ _; exact yields_from_rend t fuel r hn
  | succ n ih =>
    intro r hn hs hl
    cases ht : tick t r with
    | error e => exact yields_from_error t fuel r e ht
    | ok res =>
      obtain ⟨y, r1⟩ := res
      obtain ⟨rfl, hs1, hl1⟩ := tick_dead t r r1 y hs hl ht
      rw [yields_from_skip t fuel r r1 ht]
      split
      · rfl
      · exact ih _ (by simp [hn]) hs1 hl1

/-- The NODE_COUNT item stops every run. -/
theorem yields_from_node_count (t : List tree_item_t) (fuel : Nat) (r : reverse_iterator)
    (x : tree_item_t) (hx : t.get? (r.it - 1) = some x) (hty : x.type = NODE_COUNT) :
    yields_from t fuel r = [] := by
  by_cases h0 : r.it = 0
  · exact yields_from_rend t fuel r h0
  · refine yields_from_error t fuel r .domain_error ?_
    unfold tick
    rw [if_neg h0, hx]
    cases r.current_state <;> simp [hty]

/-- A tick that returns has read an item. -/
theorem tick_item (t : List tree_item_t) (r r1 : reverse_iterator) (y : Bool)
    (h : tick t r = .ok (y, r1)) : r.it ≠ 0 ∧ ∃ x, t.get? (r.it - 1) = some x := by
  unfold tick at h
  split at h
  · cases h
  · rename_i h0
    split at h
    · cases h
    · rename_i item hitem
      exact ⟨h0, item, hitem⟩

/-- A tick leaves the automaton in state Scan-Chain only after a SEED, a
SNARL_START or a CHAIN_END, or after an EDGE read in state Scan-Chain. -/
theorem tick_to_scan_chain (t : List tree_item_t) (r r1 : reverse_iterator) (y : Bool)
    (x : tree_item_t) (hx : t.get? (r.it - 1) = some x)
    (h : tick t r = .ok (y, r1)) (hs : r1.current_state = S_SCAN_CHAIN) :
    x.type = SEED ∨ x.type = SNARL_START ∨ x.type = CHAIN_END ∨
      (x.type = EDGE ∧ r.current_state = S_SCAN_CHAIN) := by
  unfold tick at h
  split at h
  · cases h
  · rw [hx] at h
    simp only at h
    obtain ⟨it, lim, stack, st⟩ := r
    cases st <;> cases hty : x.type <;>
      simp only [hty] at h <;>
      (try (rcases stack with _ | ⟨a, _ | ⟨b, _ | ⟨c, rest⟩⟩⟩)) <;>
      simp [bind, Except.bind, pure, Except.pure, push, pop, top, set_top, dup, depth,
              reverse_iterator.reverse, state, halt, enter_chain] at h <;>
      (try split_ifs at h) <;>
      (try simp [bind, Except.bind, pure, Except.pure, push, pop, top, set_top, dup, depth,
              reverse_iterator.reverse, state, halt, enter_chain] at h) <;>
      (try (obtain ⟨rfl, rfl⟩ := h)) <;>
      (try simp_all [push, state, halt])

/-- On a scannable store a tick keeps the iterator inside a chain whenever it
leaves the automaton in state Scan-Chain. -/
theorem tick_pos_ok (t : List tree_item_t) (hS : scannable t) (r r1 : reverse_iterator)
    (y : Bool) (hr : pos_ok t r) (h : tick t r = .ok (y, r1)) :
    pos_ok t ⟨r.it - 1, r1.distance_limit, r1.stack, r1.current_state⟩ := by
  intro hs
  simp only at hs ⊢
  obtain ⟨h0, x, hx⟩ := tick_item t r r1 y h
  rcases tick_to_scan_chain t r r1 y x hx h hs with hty | hty | hty | ⟨hty, hst⟩
  · exact hS.chain _ x hx (Or.inl hty)
  · exact hS.chain _ x hx (Or.inr (Or.inl hty))
  · exact hS.chain _ x hx (Or.inr (Or.inr hty))
  · rcases hr hst with ⟨-, y1, hy1, hy1t⟩ | ⟨h1, -, hc⟩
    · rw [hx] at hy1
      simp only [Option.some.injEq] at hy1
      subst hy1
      rw [hty] at hy1t
      simp at hy1t
    · refine Or.inl ⟨by omega, ?_⟩
      have : r.it - 1 - 1 = r.it - 2 := by omega
      rw [this]
      exact hc

set_option maxHeartbeats 1600000 in
/-- One tick of two runs that are in the same state with the same stack, with
bounds `B1 ≤ B2`: the first run halts, or both take the same step, or the first
starts to skip the chain that the second goes on scanning. -/
theorem tick_sync (t : List tree_item_t) (i B1 B2 : Nat) (s : List Nat) (st : State)
    (hB : B1 ≤ B2) (y1 : Bool) (r1 : reverse_iterator)
    (h : tick t ⟨i, B1, s, st⟩ = .ok (y1, r1)) :
    (y1 = false ∧ r1.it = 0) ∨
    ∃ r2, tick t ⟨i, B2, s, st⟩ = .ok (y1, r2) ∧ r2.it = i ∧ r1.it = i ∧
      r1.distance_limit = B1 ∧ r2.distance_limit = B2 ∧
      ((r1.stack = r2.stack ∧ r1.current_state = r2.current_state) ∨
       (y1 = false ∧ r1.current_state = S_SKIP_CHAIN ∧ r2.current_state = S_SCAN_CHAIN ∧
         ∃ a rest, r1.stack = 0 :: a :: rest ∧ r2.stack = a :: rest)) := by
  unfold tick at h ⊢
  simp only at h ⊢
  split at h
  · cases h
  rename_i h0
  rw [if_neg h0]
  split at h
  · cases h
  rename_i item hitem
  cases st <;> cases hty : item.type <;>
    simp only [hty] at h ⊢ <;>
    (try (rcases s with _ | ⟨a, _ | ⟨b, _ | ⟨c, rest⟩⟩⟩)) <;>
    simp [bind, Except.bind, pure, Except.pure, push, pop, top, set_top, dup, depth,
            reverse_iterator.reverse, state, halt, enter_chain] at h ⊢ <;>
    (try split_ifs at h) <;>
    (try simp [bind, Except.bind, pure, Except.pure, push, pop, top, set_top, dup, depth,
            reverse_iterator.reverse, state, halt, enter_chain] at h) <;>
    (try (obtain ⟨rfl, rfl⟩ := h)) <;>
    (try simp_all [push, state, halt])
  all_goals (try split_ifs)
  all_goals (try omega)
  all_goals (try (exact ⟨_, rfl, by simp⟩))
  all_goals generalize (List.take a (c :: rest)).reverse ++ List.drop a (c :: rest) = l at h ⊢
  all_goals rcases l with _ | ⟨v, l⟩
  all_goals simp at h ⊢
  all_goals split_ifs at h
  all_goals simp at h
  all_goals obtain ⟨rfl, rfl⟩ := h
  all_goals simp
  all_goals (try split_ifs)
  all_goals (try omega)
  all_goals (exact Or.inr ⟨_, rfl, by simp⟩)

set_option maxHeartbeats 1600000 in
/-- One tick of two runs that skip the same chain with the same nesting
counter: both take the same step. -/
theorem tick_skip_pair (t : List tree_item_t) (i B1 B2 c a1 a2 : Nat) (rest : List Nat)
    (y1 : Bool) (r1 : reverse_iterator)
    (h : tick t ⟨i, B1, c :: a1 :: rest, S_SKIP_CHAIN⟩ = .ok (y1, r1)) :
    y1 = false ∧ r1.it = i ∧ r1.distance_limit = B1 ∧
    ∃ r2, tick t ⟨i, B2, c :: a2 :: rest, S_SKIP_CHAIN⟩ = .ok (false, r2) ∧ r2.it = i ∧
      r2.distance_limit = B2 ∧
      ((r1.current_state = S_SKIP_CHAIN ∧ r2.current_state = S_SKIP_CHAIN ∧
          ∃ c1, r1.stack = c1 :: a1 :: rest ∧ r2.stack = c1 :: a2 :: rest) ∨
       (r1.current_state = S_SCAN_SNARL ∧ r2.current_state = S_SCAN_SNARL ∧
          r1.stack = rest ∧ r2.stack = rest)) := by
  unfold tick at h ⊢
  simp only at h ⊢
  split at h
  · cases h
  rename_i h0
  rw [if_neg h0]
  split at h
  · cases h
  rename_i item hitem
  cases hty : item.type <;>
    simp only [hty] at h ⊢ <;>
    (try (rcases rest with _ | ⟨b, rest⟩)) <;>
    simp [bind, Except.bind, pure, Except.pure, push, pop, top, set_top, dup, depth,
            state, halt] at h ⊢ <;>
    (try split_ifs at h) <;>
    (try simp [bind, Except.bind, pure, Except.pure, push, pop, top, set_top, dup, depth,
            state, halt] at h) <;>
    (try (obtain ⟨rfl, rfl⟩ := h)) <;>
    (try simp_all [push, state, halt])

theorem tick_skip_plain (t : List tree_item_t) (i B : Nat) (s : List Nat) (x : tree_item_t)
    (h0 : i ≠ 0) (hx : t.get? (i - 1) = some x) (hty : x.type = SEED ∨ x.type = EDGE) :
    tick t ⟨i, B, s, S_SKIP_CHAIN⟩ = .ok (false, ⟨i, B, s, S_SKIP_CHAIN⟩) := by
  unfold tick
  simp only
  rw [if_neg h0, hx]
  rcases hty with hty | hty <;> simp [hty]

theorem tick_skip_snarl_end (t : List tree_item_t) (i B c : Nat) (s : List Nat)
    (x : tree_item_t) (h0 : i ≠ 0) (hx : t.get? (i - 1) = some x) (hty : x.type = SNARL_END) :
    tick t ⟨i, B, c :: s, S_SKIP_CHAIN⟩ = .ok (false, ⟨i, B, size_add c 1 :: s, S_SKIP_CHAIN⟩) := by
  unfold tick
  simp only
  rw [if_neg h0, hx]
  simp [hty, set_top, bind, Except.bind, pure, Except.pure]

theorem tick_skip_leave_chain (t : List tree_item_t) (i B a : Nat) (rest : List Nat)
    (x : tree_item_t) (h0 : i ≠ 0) (hx : t.get? (i - 1) = some x)
    (hty : x.type = CHAIN_START) :
    tick t ⟨i, B, 0 :: a :: rest, S_SKIP_CHAIN⟩ =
      if rest = [] then .error .crash else .ok (false, ⟨i, B, rest, S_SCAN_SNARL⟩) := by
  unfold tick
  simp only
  rw [if_neg h0, hx]
  rcases rest with _ | ⟨b, rest⟩ <;>
    simp [hty, top, pop, depth, state, bind, Except.bind, pure, Except.pure]

theorem tick_scan_seed (t : List tree_item_t) (i B : Nat) (s : List Nat) (x : tree_item_t)
    (h0 : i ≠ 0) (hx : t.get? (i - 1) = some x) (hty : x.type = SEED) :
    tick t ⟨i, B, s, S_SCAN_CHAIN⟩ = .ok (true, ⟨i, B, s, S_SCAN_CHAIN⟩) := by
  unfold tick
  simp only
  rw [if_neg h0, hx]
  simp [hty]

theorem tick_scan_snarl_end (t : List tree_item_t) (i B : Nat) (s : List Nat) (x : tree_item_t)
    (h0 : i ≠ 0) (hx : t.get? (i - 1) = some x) (hty : x.type = SNARL_END) :
    tick t ⟨i, B, s, S_SCAN_CHAIN⟩ = .ok (false, ⟨i, B, 0 :: s, S_STACK_SNARL⟩) := by
  unfold tick
  simp only
  rw [if_neg h0, hx]
  simp [hty, push, state]

theorem tick_scan_edge (t : List tree_item_t) (i B a : Nat) (rest : List Nat) (x : tree_item_t)
    (h0 : i ≠ 0) (hx : t.get? (i - 1) = some x) (hty : x.type = EDGE) :
    tick t ⟨i, B, a :: rest, S_SCAN_CHAIN⟩ = .ok (false,
      if size_add a x.value > B then
        if rest = [] then ⟨0, B, [size_add a x.value], S_SCAN_CHAIN⟩
        else ⟨i, B, 0 :: size_add a x.value :: rest, S_SKIP_CHAIN⟩
      else ⟨i, B, size_add a x.value :: rest, S_SCAN_CHAIN⟩) := by
  unfold tick
  simp only
  rw [if_neg h0, hx]
  rcases rest with _ | ⟨b, rest⟩ <;>
    simp [hty, set_top, top, depth, halt, push, state, bind, Except.bind, pure, Except.pure] <;>
    split_ifs <;> rfl

theorem tick_scan_chain_start (t : List tree_item_t) (i B a b : Nat) (rest : List Nat)
    (x : tree_item_t) (h0 : i ≠ 0) (hx : t.get? (i - 1) = some x)
    (hty : x.type = CHAIN_START) :
    tick t ⟨i, B, a :: b :: rest, S_SCAN_CHAIN⟩ =
      .ok (false, ⟨i, B, b :: rest, S_SCAN_SNARL⟩) := by
  unfold tick
  simp only
  rw [if_neg h0, hx]
  simp [hty, pop, depth, state, bind, Except.bind, pure, Except.pure]

/-- A tick that yields with an empty stack: the dereference fails and nothing
is produced. -/
theorem yields_from_yield_empty (t : List tree_item_t) (fuel : Nat) (r r1 : reverse_iterator)
    (h : tick t r = .ok (true, r1)) (hstack : r.stack = []) :
    yields_from t fuel r = [] := by
  by_cases h0 : r.it = 0
  · exact yields_from_rend t fuel r h0
  · obtain ⟨n, hn⟩ : ∃ n, r.it = n + 1 := ⟨r.it - 1, by omega⟩
    obtain ⟨-, -, hy⟩ := tick_spec t r r1 true h
    obtain ⟨hr1, hstate, item, hitem, hseed⟩ := hy rfl
    subst hr1
    have hscan : scan t r1.it r1 = .ok r1 := by
      rw [hn]
      simp only [scan]
      rw [if_neg h0, h]
    simp only [yields_from, hscan]
    cases fuel with
    | zero => simp [backward_from]
    | succ f =>
      rw [List.get?_eq_getElem?] at hitem
      simp [backward_from, h0, operator_deref, hitem, hseed, hstack]

/-- On a scannable store, the run with the smaller bound yields only seeds that
the run with the larger bound yields. -/
theorem runs_related_yields (t : List tree_item_t) (hS : scannable t) :
    ∀ (n : Nat) (r1 r2 : reverse_iterator) (F1 F2 : Nat), r1.it = n → n < F1 → n < F2 →
      runs_related t r1 r2 → yields_from t F1 r1 ⊆ yields_from t F2 r2 := by
  intro n
  induction n with
  | zero =>
    intro r1 r2 F1 F2 hn _ _ _
    rw [yields_from_rend t F1 r1 hn]
    exact List.nil_subset _
  | succ n ih =>
    intro r1 r2 F1 F2 hn hF1 hF2 hrel
    obtain ⟨hit, hB, hpos, hmode⟩ := hrel
    obtain ⟨i1, B1, s1, st1⟩ := r1
    obtain ⟨i2, B2, s2, st2⟩ := r2
    simp only at hn hit hB hmode
    subst hn
    subst hit
    obtain ⟨G1, rfl⟩ : ∃ G, F1 = G + 1 := ⟨F1 - 1, by omega⟩
    obtain ⟨G2, rfl⟩ : ∃ G, F2 = G + 1 := ⟨F2 - 1, by omega⟩
    cases ht1 : tick t ⟨n + 1, B1, s1, st1⟩ with
    | error e =>
      rw [yields_from_error t _ _ e ht1]
      exact List.nil_subset _
    | ok res =>
      obtain ⟨y1, r1'⟩ := res
      rcases hmode with ⟨hs, hst⟩ | ⟨hst1, hst2, a1, a2, rest, hs1, hs2⟩ |
        ⟨hst1, hst2, c, a1, a2, rest, hs1, hs2⟩
      · -- the two runs are in the same state with the same stack
        subst hs
        subst hst
        rcases tick_sync t (n + 1) B1 B2 s1 st1 hB y1 r1' ht1 with ⟨rfl, hhalt⟩ |
          ⟨r2', ht2, hi2, hi1, hl1, hl2, hmode'⟩
        · rw [yields_from_skip t _ _ r1' ht1, if_pos hhalt]
          exact List.nil_subset _
        · have hpos' := tick_pos_ok t hS _ r2' y1 hpos ht2
          cases y1 with
          | true =>
            obtain ⟨-, -, hy⟩ := tick_spec t _ r1' true ht1
            obtain ⟨hr1, -, item, hitem, -⟩ := hy rfl
            obtain ⟨-, -, hy2⟩ := tick_spec t _ r2' true ht2
            obtain ⟨hr2, -, -⟩ := hy2 rfl
            subst hr1
            subst hr2
            rcases s1 with _ | ⟨top, srest⟩
            · rw [yields_from_yield_empty t _ _ _ ht1 rfl]
              exact List.nil_subset _
            · rw [yields_from_yield t G1 _ _ item top srest ht1 hitem rfl,
                yields_from_yield t G2 _ _ item top srest ht2 hitem rfl]
              refine List.cons_subset_cons _ ?_
              exact ih _ _ G1 G2 (by simp) (by omega) (by omega)
                ⟨rfl, hB, hpos', Or.inl ⟨rfl, rfl⟩⟩
          | false =>
            rw [yields_from_skip t _ _ r1' ht1, yields_from_skip t _ _ r2' ht2,
              if_neg (by omega), if_neg (by omega)]
            refine ih _ _ _ _ (by simp) (by omega) (by omega) ⟨rfl, ?_, hpos', ?_⟩
            · simp only [hl1, hl2]
              exact hB
            · rcases hmode' with ⟨h1, h2⟩ | ⟨-, h1, h2, a, rest, h3, h4⟩
              · exact Or.inl ⟨h1, h2⟩
              · exact Or.inr (Or.inl ⟨h1, h2, a, a, rest, h3, h4⟩)
      · -- the first run skips the chain that the second scans
        subst hst1
        subst hst2
        subst hs1
        subst hs2
        have h0 : n + 1 ≠ 0 := by omega
        rcases hpos rfl with ⟨-, x, hx, hty⟩ | ⟨hn1, ⟨x, hx, hty⟩, hci⟩
        · rcases hty with hty | hty | hty
          · -- a SEED: the second run yields it
            have e1 := tick_skip_plain t (n + 1) B1 (0 :: a1 :: rest) x h0 hx (Or.inl hty)
            have e2 := tick_scan_seed t (n + 1) B2 (a2 :: rest) x h0 hx hty
            rw [yields_from_skip t _ _ _ e1, if_neg h0,
              yields_from_yield t G2 _ _ x a2 rest e2 hx rfl]
            refine List.subset_cons_of_subset _ ?_
            exact ih _ _ _ _ (by simp) (by omega) (by omega)
              ⟨rfl, hB, tick_pos_ok t hS _ _ true hpos e2,
                Or.inr (Or.inl ⟨rfl, rfl, a1, a2, rest, rfl, rfl⟩)⟩
          · -- a SNARL_END: the NODE_COUNT before it stops the first run
            have e1 := tick_skip_snarl_end t (n + 1) B1 0 (a1 :: rest) x h0 hx hty
            rw [yields_from_skip t _ _ _ e1, if_neg h0]
            obtain ⟨hj, y, hy, hyt⟩ := hS.count _ x hx hty
            rw [yields_from_node_count t _ _ y hy hyt]
            exact List.nil_subset _
          · -- the CHAIN_START: both runs leave the chain
            have e1 := tick_skip_leave_chain t (n + 1) B1 a1 rest x h0 hx hty
            rcases rest with _ | ⟨b, rest⟩
            · rw [if_pos rfl] at e1
              rw [yields_from_error t _ _ _ e1]
              exact List.nil_subset _
            · rw [if_neg (by simp)] at e1
              have e2 := tick_scan_chain_start t (n + 1) B2 a2 b rest x h0 hx hty
              rw [yields_from_skip t _ _ _ e1, yields_from_skip t _ _ _ e2, if_neg h0, if_neg h0]
              exact ih _ _ _ _ (by simp) (by omega) (by omega)
                ⟨rfl, hB, tick_pos_ok t hS _ _ false hpos e2, Or.inl ⟨rfl, rfl⟩⟩
        · -- an EDGE of the chain
          have e1 := tick_skip_plain t (n + 1) B1 (0 :: a1 :: rest) x h0 hx (Or.inr hty)
          have e2 := tick_scan_edge t (n + 1) B2 a2 rest x h0 hx hty
          have hpos' := tick_pos_ok t hS _ _ false hpos e2
          rw [yields_from_skip t _ _ _ e1, if_neg h0, yields_from_skip t _ _ _ e2]
          by_cases hgt : size_add a2 x.value > B2
          · simp only [if_pos hgt] at hpos' ⊢
            rcases rest with _ | ⟨b, rest⟩
            · rw [yields_from_dead t _ n _ (by simp) rfl (by simp)]
              exact List.nil_subset _
            · simp only [if_neg (List.cons_ne_nil b rest), if_neg h0] at hpos' ⊢
              exact ih _ _ _ _ (by simp) (by omega) (by omega)
                ⟨rfl, hB, hpos', Or.inr (Or.inr ⟨rfl, rfl, 0, a1, _, _, rfl, rfl⟩)⟩
          · simp only [if_neg hgt, if_neg h0] at hpos' ⊢
            exact ih _ _ _ _ (by simp) (by omega) (by omega)
              ⟨rfl, hB, hpos', Or.inr (Or.inl ⟨rfl, rfl, a1, _, rest, rfl, rfl⟩)⟩
      · -- both runs skip the same chain
        subst hst1
        subst hst2
        subst hs1
        subst hs2
        obtain ⟨rfl, hi1, hl1, r2', ht2, hi2, hl2, hmode'⟩ :=
          tick_skip_pair t (n + 1) B1 B2 c a1 a2 rest y1 r1' ht1
        have hpos' := tick_pos_ok t hS _ r2' false hpos ht2
        rw [yields_from_skip t _ _ r1' ht1, yields_from_skip t _ _ r2' ht2,
          if_neg (by omega), if_neg (by omega)]
        refine ih _ _ _ _ (by simp) (by omega) (by omega) ⟨rfl, ?_, hpos', ?_⟩
        · simp only [hl1, hl2]
          exact hB
        · rcases hmode' with ⟨h1, h2, c1, h3, h4⟩ | ⟨h1, h2, h3, h4⟩
          · exact Or.inr (Or.inr ⟨h1, h2, c1, a1, a2, rest, h3, h4⟩)
          · exact Or.inl ⟨by simp only [h3, h4], by simp only [h1, h2]⟩

theorem scan_items_ok_nil : scan_items_ok [] := by
  intro a x b h
  simp at h

/-- Appending items that are no SEED, SNARL_START or CHAIN_END. -/
theorem scan_items_ok_append_plain (t c : List tree_item_t) (h : scan_items_ok t)
    (hc : ∀ x ∈ c, x.type ≠ SEED ∧ x.type ≠ SNARL_START ∧ x.type ≠ CHAIN_END) :
    scan_items_ok (t ++ c) := by
  intro a x b hsplit hx
  rcases split_append t c a b x hsplit with ⟨b1, ht, _⟩ | ⟨a1, _, hc1⟩
  · exact h a x b1 ht hx
  · have := hc x (by rw [hc1]; simp)
    rcases hx with hx | hx | hx
    · exact absurd hx this.1
    · exact absurd hx this.2.1
    · exact absurd hx this.2.2

/-- Appending one item to a store that ends inside a chain. -/
theorem scan_items_ok_snoc (t : List tree_item_t) (x : tree_item_t) (h : scan_items_ok t)
    (ht : chain_tail t) : scan_items_ok (t ++ [x]) := by
  intro a y b hsplit hy
  rcases split_append t [x] a b y hsplit with ⟨b1, ht1, _⟩ | ⟨a1, ha, hc1⟩
  · exact h a y b1 ht1 hy
  · cases a1 with
    | nil =>
      simp only [List.append_nil] at ha
      subst ha
      exact ht
    | cons z a1 =>
      have := congrArg List.length hc1
      simp at this

/-- Appending an EDGE and one more item to a store that ends with a SEED, a
SNARL_END or a CHAIN_START. -/
theorem scan_items_ok_push (t pre : List tree_item_t) (y x : tree_item_t) (v : Nat)
    (h : scan_items_ok t) (ht : t = pre ++ [y]) (hy : chain_member y) :
    scan_items_ok (t ++ [⟨EDGE, v⟩, x]) := by
  have h1 : scan_items_ok (t ++ [⟨EDGE, v⟩]) :=
    scan_items_ok_append_plain t _ h (by simp)
  have h2 : chain_tail (t ++ [⟨EDGE, v⟩]) := Or.inr ⟨pre, y, v, by rw [ht]; simp, hy⟩
  have := scan_items_ok_snoc _ x h1 h2
  simpa using this

theorem tail_in_snoc (dec : ZipCodeDecoder) (d : Nat) (t : List tree_item_t) (y : tree_item_t)
    (h : if is_snarl (dec.get_code_type (d - 1)) then y.type = SNARL_START ∨ y.type = CHAIN_END
      else chain_member y) : tail_in dec d (t ++ [y]) :=
  Or.inr ⟨t, y, rfl, h⟩

/-- The invariant on the last item passes from one address to another that has
the same kinds above depth `d`. -/
theorem tail_in_transfer (p c : ZipCodeDecoder) (d : Nat) (t : List tree_item_t)
    (h : tail_in p d t) (hty : ∀ e, e < d → p.get_code_type e = c.get_code_type e) :
    tail_in c d t := by
  rcases h with h | ⟨pre, y, ht, hy⟩
  · exact Or.inl h
  · by_cases h0 : d = 0
    · exact Or.inl h0
    · rw [hty (d - 1) (by omega)] at hy
      exact Or.inr ⟨pre, y, ht, hy⟩

/-- The positional form of the local shape of a store. -/
theorem scannable_of_ends (t : List tree_item_t) (h1 : scan_items_ok t)
    (h2 : snarl_ends_ok t) : scannable t := by
  have hsplit : ∀ j x, t.get? j = some x → t = t.take j ++ x :: t.drop (j + 1) ∧
      (t.take j).length = j := by
    intro j x hj
    rw [List.get?_eq_getElem?] at hj
    have hlt : j < t.length := (mem_of_getElem? t j x hj).2
    have hx : t[j] = x := by
      rw [List.getElem?_eq_getElem hlt] at hj
      exact Option.some.inj hj
    refine ⟨?_, by simp; omega⟩
    rw [← hx, ← List.drop_eq_getElem_cons hlt]
    exact (List.take_append_drop j t).symm
  constructor
  · intro j x hj hx
    obtain ⟨hs, hlen⟩ := hsplit j x hj
    generalize List.drop (j + 1) t = rest at hs
    rcases h1 _ x _ hs hx with ⟨pre, y, ha, hy⟩ | ⟨pre, y, v, ha, hy⟩
    · have hl : j = pre.length + 1 := by
        rw [← hlen, ha]; simp
      have ht : t = pre ++ y :: (x :: rest) := by
        rw [hs, ha]; simp
      have hget := get?_middle pre (x :: rest) y
      rw [← ht] at hget
      refine Or.inl ⟨by omega, y, ?_, hy⟩
      rw [hl]
      exact hget
    · have hl : j = pre.length + 2 := by
        rw [← hlen, ha]; simp
      have ht : t = pre ++ y :: (⟨EDGE, v⟩ :: x :: rest) := by
        rw [hs, ha]; simp
      have ht1 : t = (pre ++ [y]) ++ ⟨EDGE, v⟩ :: (x :: rest) := by
        rw [hs, ha]; simp
      have hget := get?_middle pre (⟨EDGE, v⟩ :: x :: rest) y
      rw [← ht] at hget
      have hget1 := get?_middle (pre ++ [y]) (x :: rest) ⟨EDGE, v⟩
      rw [← ht1] at hget1
      simp only [List.length_append, List.length_singleton] at hget1
      refine Or.inr ⟨by omega, ⟨⟨EDGE, v⟩, ?_, rfl⟩, y, ?_, hy⟩
      · rw [hl]
        exact hget1
      · rw [hl]
        exact hget
  · intro j x hj hx
    obtain ⟨hs, hlen⟩ := hsplit j x hj
    generalize List.drop (j + 1) t = rest at hs
    obtain ⟨pre, y, edges, ha, -, -, -⟩ := h2 _ x _ hs hx
    have hl : j = (pre ++ [y] ++ edges).length + 1 := by
      rw [← hlen, ha]; simp; omega
    have ht : t = (pre ++ [y] ++ edges) ++ ⟨NODE_COUNT, size_sub edges.length 1⟩ ::
        (x :: rest) := by
      rw [hs, ha]; simp
    have hget := get?_middle (pre ++ [y] ++ edges) (x :: rest)
      ⟨NODE_COUNT, size_sub edges.length 1⟩
    rw [← ht] at hget
    refine ⟨by omega, ⟨NODE_COUNT, size_sub edges.length 1⟩, ?_, rfl⟩
    rw [hl]
    exact hget

theorem tail_in_member (dec : ZipCodeDecoder) (d : Nat) (t : List tree_item_t)
    (h : tail_in dec (d + 1) t) (hk : is_snarl (dec.get_code_type d) = false) :
    ∃ pre y, t = pre ++ [y] ∧ chain_member y := by
  rcases h with h | ⟨pre, y, ht, hy⟩
  · omega
  · simp only [Nat.add_sub_cancel, hk, Bool.false_eq_true, if_false] at hy
    exact ⟨pre, y, ht, hy⟩

theorem chain_like_not_snarl {t : code_type_t} (h : is_chain_like t = true) :
    is_snarl t = false := by
  cases t <;> simp_all [is_chain_like, is_snarl]

/-- Closing the scope at depth `d` keeps the local shape of the store. -/
theorem close_scope_scan (D : SnarlDistanceIndex) (seeds : List Seed) (dec : ZipCodeDecoder)
    (rev : Bool) (d : Nat) (st : build_state) (t : List tree_item_t)
    (hp : address_ok dec) (hd : d ≤ dec.max_depth)
    (hK : scan_items_ok st.zip_code_tree) (hT : tail_in dec (d + 1) st.zip_code_tree)
    (h : close_scope D seeds dec rev d st = .ok t) :
    scan_items_ok t ∧ tail_in dec d t := by
  have hroot : ∀ (hty : dec.get_code_type d = ROOT_NODE ∨ dec.get_code_type d = ROOT_CHAIN),
      d = 0 → scan_items_ok t ∧ tail_in dec d t := by
    intro hty h0
    have h1 : dec.get_code_type d = CHAIN ∨ dec.get_code_type d = ROOT_CHAIN ∨
        dec.get_code_type d = ROOT_NODE := by
      rcases hty with hty | hty
      · exact Or.inr (Or.inr hty)
      · exact Or.inr (Or.inl hty)
    have h2 : dec.get_code_type d ≠ CHAIN := by
      rcases hty with hty | hty <;> rw [hty] <;> decide
    have hns : is_snarl (dec.get_code_type d) = false := by
      rcases hty with hty | hty <;> rw [hty] <;> rfl
    simp only [close_scope, if_pos h1, if_neg h2, pure, Except.pure, Except.ok.injEq] at h
    subst h
    obtain ⟨pre, y, ht, hy⟩ := tail_in_member dec d _ hT hns
    exact ⟨scan_items_ok_snoc _ _ hK (Or.inl ⟨pre, y, ht, hy⟩), Or.inl h0⟩
  rcases address_ok_cases dec hp d hd with ⟨h0, hty, -⟩ | ⟨h0, hty, -⟩ |
    ⟨hpos, hty, hmax, hpar⟩ | ⟨hpos, hty, hmax, hpar⟩ | ⟨hpos, hty, hpar⟩
  · exact hroot (Or.inl hty) h0
  · exact hroot (Or.inr hty) h0
  · -- a leaf node
    simp [close_scope, hty, bind, Except.bind, pure, Except.pure] at h
    subst h
    refine ⟨hK, ?_⟩
    obtain ⟨pre, y, ht, hy⟩ := tail_in_member dec d _ hT (by rw [hty]; rfl)
    refine Or.inr ⟨pre, y, ht, ?_⟩
    rw [chain_like_not_snarl hpar]
    simpa using hy
  · -- a snarl
    have h1 : ¬ (dec.get_code_type d = CHAIN ∨ dec.get_code_type d = ROOT_CHAIN ∨
        dec.get_code_type d = ROOT_NODE) := by
      cases h2 : dec.get_code_type d <;> simp_all [is_snarl]
    have h2 : dec.get_code_type d = REGULAR_SNARL ∨ dec.get_code_type d = IRREGULAR_SNARL := by
      cases h2 : dec.get_code_type d <;> simp_all [is_snarl]
    simp only [close_scope, if_neg h1, if_pos h2, vec_get, List.get?_eq_getElem?, bind,
      Except.bind, pure, Except.pure] at h
    cases hl : st.sibling_indices_at_depth[d]? with
    | none => rw [hl] at h; simp at h
    | some l =>
      rw [hl] at h
      simp only at h
      split at h
      · simp at h
      · rename_i es hes
        simp only [Except.ok.injEq] at h
        subst h
        obtain ⟨-, hall⟩ := close_snarl_edges_shape seeds dec rev d l es hes
        refine ⟨?_, ?_⟩
        · rw [List.append_assoc]
          refine scan_items_ok_append_plain _ _ hK ?_
          intro x hx
          rcases List.mem_append.mp hx with hx | hx
          · rw [hall x (List.mem_reverse.mp hx)]
            simp
          · simp only [List.mem_cons, List.mem_singleton, List.not_mem_nil, or_false] at hx
            rcases hx with hx | hx <;> subst hx <;> simp
        · refine Or.inr ⟨st.zip_code_tree ++ es.reverse ++
            [⟨NODE_COUNT, size_sub l.length 1⟩], ⟨SNARL_END, SIZE_MAX⟩, by simp, ?_⟩
          rw [chain_like_not_snarl hpar]
          simp [chain_member]
  · -- a chain below a snarl
    have h1 : dec.get_code_type d = CHAIN ∨ dec.get_code_type d = ROOT_CHAIN ∨
        dec.get_code_type d = ROOT_NODE := Or.inl hty
    simp only [close_scope, if_pos h1, if_pos hty, bind, Except.bind, pure, Except.pure] at h
    split at h
    · simp at h
    split at h
    · simp at h
    simp only [Except.ok.injEq] at h
    subst h
    obtain ⟨pre, y, ht, hy⟩ := tail_in_member dec d _ hT (by rw [hty]; rfl)
    refine ⟨scan_items_ok_push _ pre y _ _ hK ht hy, ?_⟩
    refine Or.inr ⟨_, ⟨CHAIN_END, SIZE_MAX⟩, (List.append_assoc _ [_] [_]).symm, ?_⟩
    rw [hpar]
    simp

/-- One iteration of the close loop keeps the local shape of the store. -/
theorem close_depth_scan (D : SnarlDistanceIndex) (seeds : List Seed) (p : ZipCodeDecoder)
    (d : Nat) (rev : Bool) (st : build_state) (hp : address_ok p) (hd : d ≤ p.max_depth)
    (hK : scan_items_ok st.zip_code_tree) (hT : tail_in p (d + 1) st.zip_code_tree)
    (s : build_state × Bool) (h : close_depth D seeds p d (st, rev) = .ok s) :
    scan_items_ok s.1.zip_code_tree ∧ tail_in p d s.1.zip_code_tree := by
  simp only [close_depth, bind, Except.bind, pure, Except.pure] at h
  cases hcs : close_scope D seeds p rev d st with
  | error e => rw [hcs] at h; simp at h
  | ok tree =>
    rw [hcs] at h
    have h1 := close_scope_scan D seeds p rev d st tree hp hd hK hT hcs
    simp only at h
    split at h
    · simp at h
    · simp only [Except.ok.injEq] at h
      subst h
      exact h1

/-- The close loop keeps the local shape of the store. -/
theorem close_loop_scan (D : SnarlDistanceIndex) (seeds : List Seed) (p : ZipCodeDecoder)
    (low : Nat) (hp : address_ok p) :
    ∀ (k : Nat) (rev : Bool) (st : build_state) (s : build_state × Bool),
      low + k ≤ p.max_depth + 1 → scan_items_ok st.zip_code_tree →
      tail_in p (low + k) st.zip_code_tree →
      close_loop D seeds p low k (st, rev) = .ok s →
      scan_items_ok s.1.zip_code_tree ∧ tail_in p low s.1.zip_code_tree := by
  intro k
  induction k with
  | zero =>
    intro rev st s _ hK hT h
    simp only [close_loop, Except.ok.injEq] at h
    subst h
    exact ⟨hK, hT⟩
  | succ k ih =>
    intro rev st s hk hK hT h
    simp only [close_loop, bind, Except.bind] at h
    cases hs1 : close_depth D seeds p (low + k) (st, rev) with
    | error e => rw [hs1] at h; simp at h
    | ok s1 =>
      rw [hs1] at h
      obtain ⟨hK1, hT1⟩ := close_depth_scan D seeds p (low + k) rev st hp (by omega) hK hT
        s1 hs1
      exact ih s1.2 s1.1 s (by omega) hK1 hT1 h

theorem tail_in_chain_tail (dec : ZipCodeDecoder) (d : Nat) (t : List tree_item_t)
    (h : tail_in dec (d + 1) t) (hk : is_snarl (dec.get_code_type d) = false) :
    chain_tail t := by
  obtain ⟨pre, y, ht, hy⟩ := tail_in_member dec d t h hk
  exact Or.inl ⟨pre, y, ht, hy⟩

/-- Opening a node or a snarl below a chain keeps the local shape of the
store. -/
theorem open_child_scan (D : SnarlDistanceIndex) (asserts : Bool) (seeds : List Seed)
    (c : Seed) (idx d : Nat) (rev : Bool) (st : build_state) (s : build_state × Bool)
    (hd0 : 0 < d)
    (hty : c.zipcode_decoder.get_code_type d = NODE ∨
      is_snarl (c.zipcode_decoder.get_code_type d) = true)
    (hpar : is_chain_like (c.zipcode_decoder.get_code_type (d - 1)) = true)
    (H : scopes c.zipcode_decoder seeds.length d st)
    (hK : scan_items_ok st.zip_code_tree) (hT : tail_in c.zipcode_decoder d st.zip_code_tree)
    (h : open_depth D asserts seeds c idx d (st, rev) = .ok s) :
    scan_items_ok s.1.zip_code_tree ∧ tail_in c.zipcode_decoder (d + 1) s.1.zip_code_tree := by
  obtain ⟨x, hx, -⟩ := H.chains (d - 1) (by omega) hpar
  have hkind : c.zipcode_decoder.get_code_type d = NODE ∨
      c.zipcode_decoder.get_code_type d = REGULAR_SNARL ∨
      c.zipcode_decoder.get_code_type d = IRREGULAR_SNARL ∨
      c.zipcode_decoder.get_code_type d = ROOT_NODE := by
    rcases hty with hty | hty
    · exact Or.inl hty
    · cases h1 : c.zipcode_decoder.get_code_type d <;> simp_all [is_snarl]
  have hnr : c.zipcode_decoder.get_code_type d ≠ ROOT_NODE := by
    rcases hty with hty | hty
    · rw [hty]; decide
    · intro h1; rw [h1] at hty; cases hty
  obtain ⟨ht, -, -, -⟩ := open_node_or_snarl_exact D asserts c idx d rev st x s.1 hd0
    hnr hx ((open_depth_ok D asserts seeds c idx d rev st s h).1 hkind)
  obtain ⟨e, rfl⟩ : ∃ e, d = e + 1 := ⟨d - 1, by omega⟩
  simp only [Nat.add_sub_cancel] at hpar ht
  obtain ⟨pre, y, hpre, hy⟩ := tail_in_member _ e _ hT (chain_like_not_snarl hpar)
  refine ⟨?_, ?_⟩
  · rw [ht]
    split
    · exact scan_items_ok_snoc _ _ hK (Or.inl ⟨pre, y, hpre, hy⟩)
    · rw [List.append_assoc]
      exact scan_items_ok_push _ pre y _ _ hK hpre hy
  · rw [ht]
    refine tail_in_snoc _ _ _ _ ?_
    simp only [Nat.add_sub_cancel]
    rcases hty with hty | hty
    · simp [hty, is_snarl, chain_member]
    · have hn : c.zipcode_decoder.get_code_type (e + 1) ≠ NODE := snarl_not_node hty
      simp [hty, hn]

/-- Opening a new child chain of a snarl keeps the local shape of the store. -/
theorem open_chain_scan (D : SnarlDistanceIndex) (asserts : Bool) (seeds : List Seed)
    (c : Seed) (idx d : Nat) (rev : Bool) (st : build_state) (s : build_state × Bool)
    (hd0 : 0 < d) (hd : d ≤ c.zipcode_decoder.max_depth)
    (hty : c.zipcode_decoder.get_code_type d = CHAIN)
    (hpar : is_snarl (c.zipcode_decoder.get_code_type (d - 1)) = true)
    (H : scopes c.zipcode_decoder seeds.length d st)
    (hK : scan_items_ok st.zip_code_tree)
    (h : open_depth D asserts seeds c idx d (st, rev) = .ok s) :
    scan_items_ok s.1.zip_code_tree ∧ tail_in c.zipcode_decoder (d + 1) s.1.zip_code_tree := by
  have hst := (open_depth_ok D asserts seeds c idx d rev st s h).2
    (chain_not_node_kind (Or.inl hty))
  have hlen : d < st.sibling_indices_at_depth.length := by
    have := H.len
    omega
  have hown : st.sibling_indices_at_depth[d]? = some [] := by
    rw [List.getElem?_eq_getElem hlen]
    congr 1
    exact H.empty d _ (Or.inl (le_refl _)) (List.getElem?_eq_getElem hlen)
  obtain ⟨l, hl, hlne, -⟩ := H.snarls (d - 1) (by omega) hpar
  obtain ⟨es, hes, ht, -, -, -⟩ := open_chain_exact D asserts seeds c idx d rev st s.1 l
    hd0 hty hown hl hst
  obtain ⟨-, hesall⟩ := open_chain_edges_shape D seeds c.zipcode_decoder rev d l es hes
  have h1 : scan_items_ok (st.zip_code_tree ++ es.reverse ++ [⟨CHAIN_START, SIZE_MAX⟩]) := by
    rw [List.append_assoc]
    refine scan_items_ok_append_plain _ _ hK ?_
    intro x hx
    rcases List.mem_append.mp hx with hx | hx
    · rw [hesall x (List.mem_reverse.mp hx)]
      simp
    · simp only [List.mem_singleton] at hx
      subst hx
      simp
  have hns : is_snarl (c.zipcode_decoder.get_code_type d) = false := by rw [hty]; rfl
  by_cases hm : d = c.zipcode_decoder.max_depth
  · rw [if_pos hm] at ht
    refine ⟨?_, ?_⟩
    · rw [ht]
      exact scan_items_ok_push _ _ ⟨CHAIN_START, SIZE_MAX⟩ _ _ h1 rfl (by simp [chain_member])
    · refine Or.inr ⟨st.zip_code_tree ++ es.reverse ++ [⟨CHAIN_START, SIZE_MAX⟩] ++
        [⟨EDGE, size_sub (trivial_chain_offset c d rev) 0⟩], ⟨SEED, idx⟩, ?_, ?_⟩
      · rw [ht]
        simp
      · simp [hns, chain_member]
  · rw [if_neg hm, List.append_nil] at ht
    refine ⟨by rw [ht]; exact h1, ?_⟩
    refine Or.inr ⟨st.zip_code_tree ++ es.reverse, ⟨CHAIN_START, SIZE_MAX⟩, ht, ?_⟩
    simp [hns, chain_member]

/-- Opening a root chain keeps the local shape of the store. -/
theorem open_root_chain_scan (D : SnarlDistanceIndex) (asserts : Bool)
    (seeds : List Seed) (c : Seed) (idx : Nat) (rev : Bool) (st : build_state)
    (s : build_state × Bool) (hty : c.zipcode_decoder.get_code_type 0 = ROOT_CHAIN)
    (H : scopes c.zipcode_decoder seeds.length 0 st)
    (hK : scan_items_ok st.zip_code_tree)
    (h : open_depth D asserts seeds c idx 0 (st, rev) = .ok s) :
    scan_items_ok s.1.zip_code_tree ∧ tail_in c.zipcode_decoder 1 s.1.zip_code_tree := by
  have hst := (open_depth_ok D asserts seeds c idx 0 rev st s h).2
    (chain_not_node_kind (Or.inr hty))
  have hlen : 0 < st.sibling_indices_at_depth.length := by
    have := H.len
    omega
  have hl0 : st.sibling_indices_at_depth[0]? = some [] := by
    rw [List.getElem?_eq_getElem hlen]
    congr 1
    exact H.empty 0 _ (Or.inl (le_refl _)) (List.getElem?_eq_getElem hlen)
  obtain ⟨htree, -⟩ := open_root_chain_tree D asserts seeds c idx rev st s.1 hty hl0 hst
  refine ⟨?_, ?_⟩
  · rw [htree]
    exact scan_items_ok_append_plain _ _ hK (by simp)
  · refine Or.inr ⟨_, _, htree, ?_⟩
    simp [hty, is_snarl, chain_member]

/-- Opening a root node keeps the local shape of the store. -/
theorem open_root_node_scan (D : SnarlDistanceIndex) (asserts : Bool)
    (seeds : List Seed) (c : Seed) (idx : Nat) (rev : Bool) (st : build_state)
    (s : build_state × Bool) (hty : c.zipcode_decoder.get_code_type 0 = ROOT_NODE)
    (hK : scan_items_ok st.zip_code_tree)
    (hT : ∀ x l, st.sibling_indices_at_depth[0]? = some (x :: l) →
      tail_in c.zipcode_decoder 1 st.zip_code_tree)
    (h : open_depth D asserts seeds c idx 0 (st, rev) = .ok s) :
    scan_items_ok s.1.zip_code_tree ∧ tail_in c.zipcode_decoder 1 s.1.zip_code_tree := by
  have hst := (open_depth_ok D asserts seeds c idx 0 rev st s h).1
    (Or.inr (Or.inr (Or.inr hty)))
  obtain ⟨l, hl, hcases⟩ := open_root_node_tree D asserts c idx rev st s.1 hty hst
  have hns : is_snarl (c.zipcode_decoder.get_code_type 0) = false := by rw [hty]; rfl
  have hseed : ∀ pre, s.1.zip_code_tree = pre ++ [⟨SEED, idx⟩] →
      tail_in c.zipcode_decoder 1 s.1.zip_code_tree := by
    intro pre hpre
    refine Or.inr ⟨pre, _, hpre, ?_⟩
    simp [hns, chain_member]
  rcases hcases with ⟨-, htree⟩ | ⟨x, rest, hne, ⟨-, htree⟩ | ⟨-, v, htree⟩⟩
  · have heq : s.1.zip_code_tree = st.zip_code_tree ++ [⟨CHAIN_START, SIZE_MAX⟩] ++
        [⟨SEED, idx⟩] := by
      rw [htree]
      simp
    refine ⟨?_, hseed _ heq⟩
    rw [heq]
    exact scan_items_ok_snoc _ _ (scan_items_ok_append_plain _ _ hK (by simp))
      (Or.inl ⟨_, _, rfl, by simp [chain_member]⟩)
  · subst hne
    refine ⟨?_, hseed _ htree⟩
    rw [htree]
    exact scan_items_ok_snoc _ _ hK (tail_in_chain_tail _ 0 _ (hT x rest hl) hns)
  · subst hne
    obtain ⟨pre, y, hpre, hy⟩ := tail_in_member _ 0 _ (hT x rest hl) hns
    refine ⟨?_, hseed (st.zip_code_tree ++ [⟨EDGE, v⟩]) (by rw [htree]; simp)⟩
    rw [htree]
    exact scan_items_ok_push _ pre y _ _ hK hpre hy

/-- Adding a seed to the trivial chain of the seed before it keeps the local
shape of the store. -/
theorem reopen_chain_scan (D : SnarlDistanceIndex) (asserts : Bool)
    (seeds : List Seed) (c : Seed) (idx : Nat) (rev : Bool) (st : build_state)
    (s : build_state × Bool)
    (hty : c.zipcode_decoder.get_code_type c.zipcode_decoder.max_depth = CHAIN)
    (H : scopes c.zipcode_decoder seeds.length (c.zipcode_decoder.max_depth + 1) st)
    (hK : scan_items_ok st.zip_code_tree)
    (hT : tail_in c.zipcode_decoder (c.zipcode_decoder.max_depth + 1) st.zip_code_tree)
    (h : open_depth D asserts seeds c idx c.zipcode_decoder.max_depth (st, rev) = .ok s) :
    scan_items_ok s.1.zip_code_tree ∧
      tail_in c.zipcode_decoder (c.zipcode_decoder.max_depth + 1) s.1.zip_code_tree := by
  have hst := (open_depth_ok D asserts seeds c idx _ rev st s h).2
    (chain_not_node_kind (Or.inl hty))
  obtain ⟨l, hl, hcases⟩ := open_chain_tree D asserts seeds c idx _ rev st s.1 hty hst
  obtain ⟨x, hx, -⟩ := H.chains c.zipcode_decoder.max_depth (by omega)
    (by simp [hty, is_chain_like])
  rw [hx] at hl
  simp only [Option.some.injEq] at hl
  subst hl
  have hns : is_snarl (c.zipcode_decoder.get_code_type c.zipcode_decoder.max_depth) = false := by
    rw [hty]; rfl
  rcases hcases with ⟨hnil, -⟩ | ⟨-, ⟨hne, -⟩ | ⟨-, v, htree⟩⟩
  · cases hnil
  · exact absurd rfl hne
  · obtain ⟨pre, y, hpre, hy⟩ := tail_in_member _ _ _ hT hns
    refine ⟨?_, ?_⟩
    · rw [htree]
      exact scan_items_ok_push _ pre y _ _ hK hpre hy
    · refine Or.inr ⟨st.zip_code_tree ++ [⟨EDGE, v⟩], ⟨SEED, idx⟩, by rw [htree]; simp, ?_⟩
      simp [hns, chain_member]

/-- One iteration of the open loop keeps the local shape of the store. -/
theorem open_depth_scan (D : SnarlDistanceIndex) (asserts : Bool) (seeds : List Seed)
    (c : Seed) (idx d : Nat) (rev : Bool) (st : build_state) (s : build_state × Bool)
    (hc : address_ok c.zipcode_decoder) (hd : d ≤ c.zipcode_decoder.max_depth)
    (H : scopes c.zipcode_decoder seeds.length d st)
    (hK : scan_items_ok st.zip_code_tree) (hT : tail_in c.zipcode_decoder d st.zip_code_tree)
    (h : open_depth D asserts seeds c idx d (st, rev) = .ok s) :
    scan_items_ok s.1.zip_code_tree ∧ tail_in c.zipcode_decoder (d + 1) s.1.zip_code_tree := by
  rcases address_ok_cases c.zipcode_decoder hc d hd with
    ⟨rfl, h1, h2⟩ | ⟨rfl, h1, h2⟩ | ⟨h0, h1, h2, h3⟩ | ⟨h0, h1, h2, h3⟩ | ⟨h0, h1, h2⟩
  · refine open_root_node_scan D asserts seeds c idx rev st s h1 hK ?_ h
    intro x l hl
    have hlen : 0 < st.sibling_indices_at_depth.length := (mem_of_getElem? _ _ _ hl).2
    have := H.empty 0 _ (Or.inl (le_refl _)) hl
    cases this
  · exact open_root_chain_scan D asserts seeds c idx rev st s h1 H hK h
  · exact open_child_scan D asserts seeds c idx d rev st s h0 (Or.inl h1) h3 H hK hT h
  · exact open_child_scan D asserts seeds c idx d rev st s h0 (Or.inr h1) h3 H hK hT h
  · exact open_chain_scan D asserts seeds c idx d rev st s h0 hd h1 h2 H hK h

/-- Re-entering the leaf of the previous seed (the same-node case) keeps the
local shape of the store. -/
theorem reopen_scan (D : SnarlDistanceIndex) (asserts : Bool) (seeds : List Seed)
    (c : Seed) (idx : Nat) (rev : Bool) (st : build_state) (s : build_state × Bool)
    (hc : address_ok c.zipcode_decoder)
    (H : scopes c.zipcode_decoder seeds.length (c.zipcode_decoder.max_depth + 1) st)
    (hK : scan_items_ok st.zip_code_tree)
    (hT : tail_in c.zipcode_decoder (c.zipcode_decoder.max_depth + 1) st.zip_code_tree)
    (h : open_depth D asserts seeds c idx c.zipcode_decoder.max_depth (st, rev) = .ok s) :
    scan_items_ok s.1.zip_code_tree ∧
      tail_in c.zipcode_decoder (c.zipcode_decoder.max_depth + 1) s.1.zip_code_tree := by
  rcases address_ok_cases c.zipcode_decoder hc c.zipcode_decoder.max_depth (le_refl _) with
    ⟨h0, h1, h2⟩ | ⟨h0, h1, h2⟩ | ⟨h0, h1, h2, h3⟩ | ⟨h0, h1, h2, h3⟩ | ⟨h0, h1, h2⟩
  · rw [h2] at H h1 h hT ⊢
    exact open_root_node_scan D asserts seeds c idx rev st s h1 hK (fun _ _ _ => hT) h
  · omega
  · refine open_child_scan D asserts seeds c idx _ rev st s h0 (Or.inl h1) h3
      (scopes_before_node _ _ _ _ H h1) hK ?_ h
    obtain ⟨pre, y, hpre, hy⟩ := tail_in_member _ _ _ hT (by rw [h1]; rfl)
    refine Or.inr ⟨pre, y, hpre, ?_⟩
    rw [chain_like_not_snarl h3]
    simpa using hy
  · omega
  · exact reopen_chain_scan D asserts seeds c idx rev st s h1 H hK hT h

/-- The open loop keeps the local shape of the store. -/
theorem open_loop_scan (D : SnarlDistanceIndex) (asserts : Bool) (seeds : List Seed)
    (c : Seed) (idx : Nat) (hc : address_ok c.zipcode_decoder) (hidx : idx < seeds.length) :
    ∀ (k d : Nat) (rev : Bool) (st : build_state) (s : build_state × Bool),
      d + k = c.zipcode_decoder.max_depth + 1 →
      scopes c.zipcode_decoder seeds.length d st →
      scan_items_ok st.zip_code_tree → tail_in c.zipcode_decoder d st.zip_code_tree →
      open_loop D asserts seeds c idx k d (st, rev) = .ok s →
      scan_items_ok s.1.zip_code_tree ∧
        tail_in c.zipcode_decoder (c.zipcode_decoder.max_depth + 1) s.1.zip_code_tree := by
  intro k
  induction k with
  | zero =>
    intro d rev st s hk _ hK hT h
    simp only [open_loop, Except.ok.injEq] at h
    subst h
    have hd : d = c.zipcode_decoder.max_depth + 1 := by omega
    subst hd
    exact ⟨hK, hT⟩
  | succ k ih =>
    intro d rev st s hk H hK hT h
    simp only [open_loop, bind, Except.bind] at h
    cases hs1 : open_depth D asserts seeds c idx d (st, rev) with
    | error e => rw [hs1] at h; simp at h
    | ok s1 =>
      rw [hs1] at h
      have H1 := (step_ok_ok asserts _ _ s1
        (open_depth_spec D asserts seeds c idx d rev st hc hidx (by omega) H) hs1).1
      obtain ⟨hK1, hT1⟩ :=
        open_depth_scan D asserts seeds c idx d rev st s1 hc (by omega) H hK hT hs1
      exact ih (d + 1) s1.2 s1.1 s (by omega) H1 hK1 hT1 h

/-- The body of the main loop on the first seed establishes the local shape of
the store. -/
theorem add_seed_first_scan (D : SnarlDistanceIndex) (asserts : Bool)
    (seeds : List Seed) (c : Seed) (idx : Nat) (hget : seeds[idx]? = some c)
    (hc : address_ok c.zipcode_decoder) (s : build_state)
    (h : add_seed D asserts seeds none idx ⟨[], []⟩ = .ok s) :
    scan_items_ok s.zip_code_tree ∧
      tail_in c.zipcode_decoder (c.zipcode_decoder.max_depth + 1) s.zip_code_tree := by
  have hidx : idx < seeds.length := (mem_of_getElem? seeds idx c hget).2
  obtain ⟨hf0, hfs⟩ := first_different_ancestor_first D c.zipcode_decoder c.zipcode_decoder
  have H0 : scopes c.zipcode_decoder seeds.length 0
      ⟨[], List.replicate (c.zipcode_decoder.max_depth + 1) []⟩ := by
    refine ⟨by simp, ?_, ?_, ?_, rfl, guarded_nil⟩
    · intro e he
      omega
    · intro e he
      omega
    · intro e l _ hl
      simp only [List.getElem?_replicate] at hl
      split_ifs at hl
      cases hl
      rfl
  simp only [add_seed, vec_get, List.get?_eq_getElem?, hget, bind, Except.bind, pure,
    Except.pure, Option.isNone, hf0, hfs, List.length_nil, Nat.sub_zero, List.nil_append,
    Bool.not_false, Bool.not_true, Bool.and_false, Bool.false_eq_true, if_false] at h
  split at h
  · simp at h
  · rename_i s2 hs2
    simp only [Except.ok.injEq] at h
    subst h
    exact open_loop_scan D asserts seeds c idx hc hidx _ 0 _ _ s2 (by omega) H0
      scan_items_ok_nil (Or.inl rfl) hs2

/-- The body of the main loop keeps the local shape of the store. -/
theorem add_seed_next_scan (D : SnarlDistanceIndex) (asserts : Bool) (seeds : List Seed)
    (c p : Seed) (idx j : Nat) (st : build_state)
    (hgetc : seeds[idx]? = some c) (hgetp : seeds[j]? = some p)
    (hcons : consistent D seeds)
    (H : scopes p.zipcode_decoder seeds.length (p.zipcode_decoder.max_depth + 1) st)
    (hK : scan_items_ok st.zip_code_tree)
    (hT : tail_in p.zipcode_decoder (p.zipcode_decoder.max_depth + 1) st.zip_code_tree)
    (s : build_state) (h : add_seed D asserts seeds (some j) idx st = .ok s) :
    scan_items_ok s.zip_code_tree ∧
      tail_in c.zipcode_decoder (c.zipcode_decoder.max_depth + 1) s.zip_code_tree := by
  obtain ⟨hcm, hidx⟩ := mem_of_getElem? seeds idx c hgetc
  obtain ⟨hpm, -⟩ := mem_of_getElem? seeds j p hgetp
  have hc := hcons.1 c hcm
  have hp := hcons.1 p hpm
  have hagree := hcons.2 c hcm p hpm
  obtain ⟨hf1, hf2, hf3⟩ := first_different_ancestor_spec D c.zipcode_decoder p.zipcode_decoder
  have Hpad := scopes_pad p.zipcode_decoder seeds.length (p.zipcode_decoder.max_depth + 1)
    (c.zipcode_decoder.max_depth + 1 - st.sibling_indices_at_depth.length) st H
  have hlen : c.zipcode_decoder.max_depth <
      (st.sibling_indices_at_depth ++ List.replicate
        (c.zipcode_decoder.max_depth + 1 - st.sibling_indices_at_depth.length) []).length := by
    simp only [List.length_append, List.length_replicate]
    omega
  have hfle : (first_different_ancestor D false c.zipcode_decoder
      p.zipcode_decoder).first_different_ancestor_depth ≤ p.zipcode_decoder.max_depth :=
    le_trans hf1 (Nat.min_le_right _ _)
  have hfle' : (first_different_ancestor D false c.zipcode_decoder
      p.zipcode_decoder).first_different_ancestor_depth ≤ c.zipcode_decoder.max_depth :=
    le_trans hf1 (Nat.min_le_left _ _)
  simp only [add_seed, vec_get, List.get?_eq_getElem?, hgetc, hgetp, bind, Except.bind, pure,
    Except.pure, Option.isNone, Bool.not_false, Bool.and_true, Bool.false_eq_true, if_false]
    at h
  cases hsame : (first_different_ancestor D false c.zipcode_decoder
      p.zipcode_decoder).same_node
  · simp only [hsame, Bool.not_false, if_true] at h
    have hk : (first_different_ancestor D false c.zipcode_decoder
        p.zipcode_decoder).first_different_ancestor_depth +
        (p.zipcode_decoder.max_depth + 1 - (first_different_ancestor D false c.zipcode_decoder
        p.zipcode_decoder).first_different_ancestor_depth) =
        p.zipcode_decoder.max_depth + 1 := by omega
    obtain ⟨s1, hs1, H1, -, hl1⟩ := close_loop_spec D seeds p.zipcode_decoder
      (first_different_ancestor D false c.zipcode_decoder
        p.zipcode_decoder).first_different_ancestor_depth hp
      (p.zipcode_decoder.max_depth + 1 - (first_different_ancestor D false c.zipcode_decoder
        p.zipcode_decoder).first_different_ancestor_depth)
      (first_different_ancestor D false c.zipcode_decoder p.zipcode_decoder).previous_is_reversed
      _ (by omega) (by rw [hk]; exact Hpad)
    obtain ⟨hK1, hT1⟩ := close_loop_scan D seeds p.zipcode_decoder
      (first_different_ancestor D false c.zipcode_decoder
        p.zipcode_decoder).first_different_ancestor_depth hp
      (p.zipcode_decoder.max_depth + 1 - (first_different_ancestor D false c.zipcode_decoder
        p.zipcode_decoder).first_different_ancestor_depth)
      (first_different_ancestor D false c.zipcode_decoder p.zipcode_decoder).previous_is_reversed
      ⟨st.zip_code_tree, st.sibling_indices_at_depth ++ List.replicate
        (c.zipcode_decoder.max_depth + 1 - st.sibling_indices_at_depth.length) []⟩
      s1 (by omega) hK (by rw [hk]; exact hT) hs1
    have hty : ∀ e, e < (first_different_ancestor D false c.zipcode_decoder
        p.zipcode_decoder).first_different_ancestor_depth →
        p.zipcode_decoder.get_code_type e = c.zipcode_decoder.get_code_type e := by
      intro e he
      exact ((hagree e (by omega) (by omega) (fun e1 he1 => hf2 e1 (by omega))).1).symm
    have H2 : scopes c.zipcode_decoder seeds.length
        (first_different_ancestor D false c.zipcode_decoder
          p.zipcode_decoder).first_different_ancestor_depth s1.1 :=
      scopes_transfer p.zipcode_decoder c.zipcode_decoder _ _ _ H1 hty
        (by rw [hl1]; exact hlen) (fun _ => hfle')
    have hT2 := tail_in_transfer p.zipcode_decoder c.zipcode_decoder _ _ hT1 hty
    simp only [hs1] at h
    split at h
    · simp at h
    · rename_i s2 hs2
      simp only [Except.ok.injEq] at h
      subst h
      exact open_loop_scan D asserts seeds c idx hc hidx _ _ _ s1.1 s2 (by omega) H2 hK1 hT2
        hs2
  · simp only [hsame, Bool.not_true, Bool.false_eq_true, if_false] at h
    obtain ⟨hfm, hall⟩ := hf3 hsame
    have hmin := hagree (min c.zipcode_decoder.max_depth p.zipcode_decoder.max_depth)
      (Nat.min_le_left _ _) (Nat.min_le_right _ _) (fun e he => hall e he)
    have hmax : c.zipcode_decoder.max_depth = p.zipcode_decoder.max_depth := by
      have := hmin.2
      rcases Nat.le_total c.zipcode_decoder.max_depth p.zipcode_decoder.max_depth with h | h
      · rw [Nat.min_eq_left h] at this
        exact this.mp rfl
      · rw [Nat.min_eq_right h] at this
        exact (this.mpr rfl).symm
    have hfc : (first_different_ancestor D false c.zipcode_decoder
        p.zipcode_decoder).first_different_ancestor_depth = c.zipcode_decoder.max_depth := by
      rw [hfm, hmax, Nat.min_self]
    have hty : ∀ e, e < p.zipcode_decoder.max_depth + 1 →
        p.zipcode_decoder.get_code_type e = c.zipcode_decoder.get_code_type e := by
      intro e he
      exact ((hagree e (by omega) (by omega)
        (fun e1 he1 => hall e1 (by rw [hmax, Nat.min_self]; omega))).1).symm
    have H2 : scopes c.zipcode_decoder seeds.length (c.zipcode_decoder.max_depth + 1)
        ⟨st.zip_code_tree, st.sibling_indices_at_depth ++ List.replicate
          (c.zipcode_decoder.max_depth + 1 - st.sibling_indices_at_depth.length) []⟩ := by
      have h := scopes_transfer p.zipcode_decoder c.zipcode_decoder _ _ _ Hpad hty hlen
        (fun h => by omega)
      rw [← hmax] at h
      exact h
    have hT2 : tail_in c.zipcode_decoder (c.zipcode_decoder.max_depth + 1)
        st.zip_code_tree := by
      have h := tail_in_transfer p.zipcode_decoder c.zipcode_decoder _ _ hT hty
      rw [← hmax] at h
      exact h
    rw [hfc] at h
    have hone : c.zipcode_decoder.max_depth + 1 - c.zipcode_decoder.max_depth = 1 := by omega
    rw [hone] at h
    simp only [open_loop, bind, Except.bind] at h
    split at h
    · simp at h
    · rename_i s2 hs2
      split at hs2
      · simp at hs2
      · rename_i s3 hs3
        simp only [Except.ok.injEq] at hs2 h
        subst hs2
        subst h
        exact reopen_scan D asserts seeds c idx _ _ s3 hc H2 hK hT2 hs3

/-- The main loop keeps the local shape of the store. -/
theorem add_seeds_scan (D : SnarlDistanceIndex) (asserts : Bool) (seeds : List Seed)
    (hcons : consistent D seeds) :
    ∀ (rest : List Nat) (previous : Option Nat) (st s : build_state),
      (∀ i ∈ rest, i < seeds.length) → built seeds previous st →
      (∀ j p, previous = some j → seeds[j]? = some p →
        closed_to p.zipcode_decoder (p.zipcode_decoder.max_depth + 1) st.zip_code_tree ∧
        tail_in p.zipcode_decoder (p.zipcode_decoder.max_depth + 1) st.zip_code_tree) →
      scan_items_ok st.zip_code_tree →
      add_seeds D asserts seeds previous rest st = .ok s →
      scan_items_ok s.zip_code_tree ∧
      ∀ j p, rest.getLast?.or previous = some j → seeds[j]? = some p →
        tail_in p.zipcode_decoder (p.zipcode_decoder.max_depth + 1) s.zip_code_tree := by
  intro rest
  induction rest with
  | nil =>
    intro previous st s _ _ hE hK h
    simp only [add_seeds, Except.ok.injEq] at h
    subst h
    refine ⟨hK, fun j p hj hp => ?_⟩
    exact (hE j p (by simpa using hj) hp).2
  | cons idx rest ih =>
    intro previous st s hidx hb hE hK h
    have hi : idx < seeds.length := hidx idx (List.mem_cons_self _ _)
    have hgetc : seeds[idx]? = some seeds[idx] := List.getElem?_eq_getElem hi
    have hc : address_ok (seeds[idx]).zipcode_decoder :=
      hcons.1 _ (List.getElem_mem hi)
    simp only [add_seeds, bind, Except.bind] at h
    cases hs1 : add_seed D asserts seeds previous idx st with
    | error e => rw [hs1] at h; simp at h
    | ok s1 =>
      rw [hs1] at h
      have hstep : built seeds (some idx) s1 ∧
          closed_to (seeds[idx]).zipcode_decoder ((seeds[idx]).zipcode_decoder.max_depth + 1)
            s1.zip_code_tree ∧
          scan_items_ok s1.zip_code_tree ∧
          tail_in (seeds[idx]).zipcode_decoder ((seeds[idx]).zipcode_decoder.max_depth + 1)
            s1.zip_code_tree := by
        cases previous with
        | none =>
          simp only [built] at hb
          subst hb
          have h1 := step_ok_ok asserts _ _ s1
            (add_seed_first D asserts seeds _ idx hgetc hc) hs1
          exact ⟨⟨_, hgetc, h1.1⟩, add_seed_first_ends D asserts seeds _ idx hgetc hc s1 hs1,
            add_seed_first_scan D asserts seeds _ idx hgetc hc s1 hs1⟩
        | some j =>
          obtain ⟨p, hgetp, H⟩ := hb
          have h1 := step_ok_ok asserts _ _ s1
            (add_seed_next D asserts seeds _ p idx j st hgetc hgetp hcons H) hs1
          exact ⟨⟨_, hgetc, h1.1⟩, add_seed_next_ends D asserts seeds _ p idx j st hgetc hgetp
            hcons H (hE j p rfl hgetp).1 s1 hs1,
            add_seed_next_scan D asserts seeds _ p idx j st hgetc hgetp hcons H hK
              (hE j p rfl hgetp).2 s1 hs1⟩
      have hlast : (idx :: rest).getLast?.or previous = rest.getLast?.or (some idx) := by
        rw [List.getLast?_cons]
        cases rest.getLast? <;> simp
      rw [hlast]
      refine ih (some idx) s1 s (fun i hi => hidx i (List.mem_cons_of_mem _ hi)) hstep.1 ?_
        hstep.2.2.1 h
      intro j p hj hp
      cases hj
      rw [hgetc] at hp
      cases hp
      exact ⟨hstep.2.1, hstep.2.2.2⟩

/-- The final loop keeps the local shape of the store. -/
theorem flush_loop_scan (D : SnarlDistanceIndex) (seeds : List Seed) (p : ZipCodeDecoder)
    (hp : address_ok p) (t0 : List tree_item_t) (sib : List (List child_info_t))
    (H : scopes p seeds.length (p.max_depth + 1) ⟨t0, sib⟩) :
    ∀ (k : Nat), k ≤ p.max_depth + 1 → ∀ (rev : Bool) (tree : List tree_item_t)
      (s : build_state × Bool),
      match_brackets [] tree = some (open_brackets p k) → guarded tree →
      scan_items_ok tree → tail_in p k tree →
      flush_loop D seeds p k (⟨tree, sib⟩, rev) = .ok s → scan_items_ok s.1.zip_code_tree := by
  intro k
  induction k with
  | zero =>
    intro _ rev tree s _ _ hK _ h
    simp only [flush_loop, Except.ok.injEq] at h
    subst h
    exact hK
  | succ k ih =>
    intro hk rev tree s hb hg hK hT h
    obtain ⟨s1, hs1, hsib, hb1, hg1, -⟩ :=
      flush_depth_spec D seeds p hp t0 sib H k (by omega) rev tree hb hg
    obtain ⟨t, ht, hst⟩ := flush_depth_close D seeds p hp t0 sib H k (by omega) rev tree s1 hs1
    obtain ⟨hK1, hT1⟩ := close_scope_scan D seeds p rev k ⟨tree, sib⟩ t hp (by omega) hK hT ht
    rw [← hst] at hK1 hT1
    simp only [flush_loop, hs1, bind, Except.bind] at h
    have : s1 = (⟨s1.1.zip_code_tree, sib⟩, s1.2) := by
      rw [← hsib]
    rw [this] at h
    exact ih (by omega) s1.2 s1.1.zip_code_tree s hb1 hg1 hK1 hT1 h

/-- In every store the constructor returns, each SEED, SNARL_START and
CHAIN_END comes right after a SEED, a SNARL_END or a CHAIN_START, or after one
EDGE that follows one of these. -/
theorem build_scan (D : SnarlDistanceIndex) (asserts : Bool) (seeds : List Seed)
    (seed_indices : List Nat) (hcons : consistent D seeds) (hne : seed_indices ≠ [])
    (hidx : ∀ i ∈ seed_indices, i < seeds.length) (t : List tree_item_t)
    (h : build D asserts seeds seed_indices = .ok t) : scan_items_ok t := by
  obtain ⟨j, hj⟩ : ∃ j, seed_indices.getLast? = some j := by
    cases h : seed_indices.getLast? with
    | none => simp at h; exact absurd h hne
    | some j => exact ⟨j, rfl⟩
  simp only [build, bind, Except.bind, pure, Except.pure] at h
  cases hs : add_seeds D asserts seeds none seed_indices ⟨[], []⟩ with
  | error e => rw [hs] at h; simp at h
  | ok st =>
    rw [hs] at h
    obtain ⟨hb, -⟩ := add_seeds_ends D asserts seeds hcons seed_indices none ⟨[], []⟩ st hidx
      rfl (fun j p hj => by cases hj) hs
    obtain ⟨hK, hT⟩ := add_seeds_scan D asserts seeds hcons seed_indices none ⟨[], []⟩ st hidx
      rfl (fun j p hj => by cases hj) scan_items_ok_nil hs
    rw [hj] at hb hT
    obtain ⟨p, hgetp, H⟩ := hb
    obtain ⟨hpm, -⟩ := mem_of_getElem? seeds j p hgetp
    simp only [final_flush, vec_back, hj, vec_get, List.get?_eq_getElem?, hgetp, bind,
      Except.bind, pure, Except.pure] at h
    split at h
    · simp at h
    · rename_i st1 hst1
      simp only [Except.ok.injEq] at h
      subst h
      split at hst1
      · simp at hst1
      · rename_i s2 hs2
        simp only [Except.ok.injEq] at hst1
        subst hst1
        exact flush_loop_scan D seeds p.zipcode_decoder (hcons.1 p hpm) st.zip_code_tree
          st.sibling_indices_at_depth H (p.zipcode_decoder.max_depth + 1) (le_refl _) _
          st.zip_code_tree s2 H.brackets H.guard hK (hT j p rfl hgetp) hs2

/-- Every store the constructor returns has the local shape the backward
traversal relies on. -/
theorem build_scannable (D : SnarlDistanceIndex) (asserts : Bool) (seeds : List Seed)
    (seed_indices : List Nat) (hcons : consistent D seeds) (hne : seed_indices ≠ [])
    (hidx : ∀ i ∈ seed_indices, i < seeds.length) (t : List tree_item_t)
    (h : build D asserts seeds seed_indices = .ok t) : scannable t :=
  scannable_of_ends t (build_scan D asserts seeds seed_indices hcons hne hidx t h)
    (build_ends D asserts seeds seed_indices hcons hne hidx t h).1

/-- On a scannable store the traversal started with the reverse iterator at base
index `n` yields with the smaller bound only seeds it yields with the larger
bound. -/
theorem mk_at_yields_mono (t : List tree_item_t) (hS : scannable t) (n B1 B2 : Nat)
    (hB : B1 ≤ B2) :
    (match mk_at t n B1 with
      | .error e => (([], some e) : List (Nat × Nat) × Option Err)
      | .ok r => backward_from t (t.length + 1) r).1.map Prod.fst ⊆
    (match mk_at t n B2 with
      | .error e => (([], some e) : List (Nat × Nat) × Option Err)
      | .ok r => backward_from t (t.length + 1) r).1.map Prod.fst := by
  have hy : ∀ B, (match mk_at t n B with
      | .error e => (([], some e) : List (Nat × Nat) × Option Err)
      | .ok r => backward_from t (t.length + 1) r).1.map Prod.fst =
      yields_from t (t.length + 1) ⟨n, B, [], S_START⟩ := by
    intro B
    simp only [mk_at, yields_from]
    cases scan t n ⟨n, B, [], S_START⟩ <;> rfl
  rw [hy B1, hy B2]
  by_cases hn : n < t.length + 1
  · refine runs_related_yields t hS n _ _ _ _ rfl hn hn ⟨rfl, hB, ?_, Or.inl ⟨rfl, rfl⟩⟩
    intro h
    cases h
  · have hnone : t.get? (n - 1) = none := by
      rw [List.get?_eq_none]
      omega
    have herr : ∀ B, yields_from t (t.length + 1) ⟨n, B, [], S_START⟩ = [] := by
      intro B
      obtain ⟨m, rfl⟩ : ∃ m, n = m + 1 := ⟨n - 1, by omega⟩
      simp only [Nat.add_sub_cancel, List.get?_eq_getElem?] at hnone
      simp [yields_from, scan, tick, hnone]
    rw [herr B1]
    exact List.nil_subset _

/-! ## Theorems -/

/-- C4: `look_back` from a forward position `p` that points at a SEED item does
not start the automaton on that item. It places the reverse iterator at base
index `p`, so the first tick, in state Start, reads the item at index `p - 1`;
whenever that item is not a SEED (in a constructed store it is an EDGE or a
CHAIN_START) the call raises the unsupported-symbol error. -/
theorem look_back_starts_one_item_early (zip_code_tree : List tree_item_t) (p limit : Nat)
    (seed before : tree_item_t)
    (hp : 0 < p)
    (hseed : zip_code_tree.get? p = some seed) (_hs : seed.type = SEED)
    (hbefore : zip_code_tree.get? (p - 1) = some before) (hb : before.type ≠ SEED) :
    look_back zip_code_tree ⟨p, zip_code_tree.length⟩ limit = .error .domain_error := by
  have hlt : p < zip_code_tree.length := by
    rcases List.get?_eq_some.mp hseed with ⟨h, _⟩
    exact h
  exact look_back_before zip_code_tree p limit before hp hlt hbefore hb

/-- Witness of C4 on the store of the three-node chain: `look_back` from the
position of the last seed raises the unsupported-symbol error. -/
theorem look_back_starts_one_item_early_witness :
    look_back chain_store ⟨5, chain_store.length⟩ 20 = .error .domain_error :=
  look_back_starts_one_item_early chain_store 5 20 ⟨SEED, 2⟩ ⟨EDGE, 1⟩
    (by decide) (by decide) (by decide) (by decide) (by decide)

/-- C3: on the root chain of three nodes of lengths 4, 1 and 6 the constructor
produces CHAIN_START, SEED 0, EDGE 4, SEED 1, EDGE 1, SEED 2, CHAIN_END, and the
backward traversal that `look_back` starts from the position of the last seed
with bound 20 yields nothing and raises the unsupported-symbol error, whereas
the automaton started on the seed item itself yields (1, 1) and (0, 5). -/
theorem look_back_chain_raises :
    build fixture_index true chain_seeds [0, 1, 2] = .ok chain_store ∧
    backward_traversal chain_store ⟨5, chain_store.length⟩ 20 = ([], some .domain_error) ∧
    backward_traversal_at chain_store 5 20 = ([(1, 1), (0, 5)], none) := by
  decide

/-- C5: the forward traversal of the store built for the three-node chain
produces the CHAIN_START value `SIZE_MAX` before the seed indices:
`*begin()` is not a seed index. -/
theorem forward_traversal_yields_chain_start :
    build fixture_index true chain_seeds [0, 1, 2] = .ok chain_store ∧
    iterator.operator_deref chain_store (begin_ chain_store) = .ok SIZE_MAX ∧
    forward_traversal chain_store = ([SIZE_MAX, 0, 1, 2], none) := by
  decide

/-- C8: for two seeds on two root nodes of different components, the backward
traversal that `look_back` starts from the second seed raises the
unsupported-symbol error at its first tick; started on the seed item itself it
reads the top of an empty stack when, after the CHAIN_START of the second root
chain, it meets the CHAIN_END of the first. -/
theorem look_back_across_components_fails :
    build fixture_index true component_seeds [0, 1] = .ok component_store ∧
    backward_traversal component_store ⟨4, component_store.length⟩ 100
      = ([], some .domain_error) ∧
    backward_traversal_at component_store 4 100 = ([], some .undefined_behaviour) := by
  decide

/-- C9: the backward traversal with the maximum bound does not yield every
other seed of the component. By design it only looks back: every pair it yields
refers to a SEED item stored before the start position, so the seeds stored
after the start are never yielded. But the seeds stored before the start are
not all yielded either. On the three-node chain, whose seeds share their root
chain, `look_back` from the position of the last seed raises the
unsupported-symbol error at its first tick (it starts on the EDGE before the
seed) and yields neither seed 0 nor seed 1. On the store of `three_chain_seeds`,
whose seeds share their root chain, the traversal started on the item of the
last seed itself meets the SNARL_END of the snarl, stacks its EDGE items and
raises the error at the NODE_COUNT item: it yields none of the seeds 0, 1, 2. -/
theorem look_back_misses_component_seeds :
    (∀ (zip_code_tree : List tree_item_t) (src : iterator) (distance_limit : Nat),
      ∀ pr ∈ (backward_traversal zip_code_tree src distance_limit).1,
        ∃ j, j + 1 < zip_code_tree.length - src.remaining_tree ∧
          zip_code_tree.get? j = some ⟨SEED, pr.1⟩) ∧
    build fixture_index true chain_seeds [0, 1, 2] = .ok chain_store ∧
    (∀ a, a < 3 → ∀ b, b < 3 → shares_ancestor fixture_index chain_seeds a b 0 = true) ∧
    chain_store.get? 5 = some ⟨SEED, 2⟩ ∧
    backward_traversal chain_store ⟨5, chain_store.length⟩ SIZE_MAX
      = ([], some .domain_error) ∧
    build fixture_index true three_chain_seeds [0, 1, 2, 3] = .ok three_chain_store ∧
    (∀ a, a < 4 → ∀ b, b < 4 →
      shares_ancestor fixture_index three_chain_seeds a b 0 = true) ∧
    three_chain_store.get? 30 = some ⟨SEED, 3⟩ ∧
    backward_traversal three_chain_store ⟨30, three_chain_store.length⟩ SIZE_MAX
      = ([], some .domain_error) ∧
    backward_traversal_at three_chain_store 30 SIZE_MAX = ([], some .domain_error) := by
  refine ⟨?_, by decide, by decide, by decide, by decide, by decide, by decide, by decide,
    by decide, by decide⟩
  intro zip_code_tree src distance_limit pr hpr
  simp only [backward_traversal, look_back] at hpr
  split at hpr
  · simp at hpr
  · rename_i r hr
    split_ifs at hr with hlen
    obtain ⟨j, hj, hget⟩ := backward_from_earlier zip_code_tree _ r pr hpr
    have hb : zip_code_tree.length - src.remaining_tree ≠ 0 := by
      intro h0
      rw [h0] at hr
      simp only [mk_at, scan] at hr
      cases hr
      simp at hj
    have := mk_at_lt zip_code_tree _ distance_limit r hr hb
    exact ⟨j, by omega, hget⟩

/-- Witness of C9 on the three-node chain: from the forward position after the
last seed with bound 20 the pair (0, 5) is yielded, and SEED 0 is stored before
that position. -/
theorem look_back_misses_component_seeds_witness :
    ((0, 5) : Nat × Nat) ∈ (backward_traversal chain_store ⟨6, 7⟩ 20).1 ∧
    ∃ j, j + 1 < chain_store.length - (⟨6, 7⟩ : iterator).remaining_tree ∧
      chain_store.get? j = some ⟨SEED, 0⟩ :=
  ⟨by decide, look_back_misses_component_seeds.1 chain_store ⟨6, 7⟩ 20 (0, 5) (by decide)⟩

/-- C10 fails: for a single seed on a node inside a snarl the constructed store
is not CHAIN_START, SEED 0, CHAIN_END; it has thirteen items, among them EDGE
items. -/
theorem single_seed_in_snarl_store :
    build fixture_index true snarl_seed [0] = .ok snarl_store ∧
    snarl_store ≠ [⟨CHAIN_START, SIZE_MAX⟩, ⟨SEED, 0⟩, ⟨CHAIN_END, SIZE_MAX⟩] ∧
    (⟨EDGE, 2⟩ : tree_item_t) ∈ snarl_store := by
  decide

/-- C10, amended: for a single seed that lies on a root node, or on a node
directly on a root chain, the constructed flat store is exactly CHAIN_START,
SEED 0, CHAIN_END, whatever the external functions answer and whether or not the
assertions are compiled in. -/
theorem single_seed_store (D : SnarlDistanceIndex) (asserts : Bool) (s : Seed)
    (h : (s.zipcode_decoder.get_code_type 0 = ROOT_NODE ∧ s.zipcode_decoder.max_depth = 0) ∨
         (s.zipcode_decoder.get_code_type 0 = ROOT_CHAIN ∧ s.zipcode_decoder.max_depth = 1 ∧
           s.zipcode_decoder.get_code_type 1 = NODE)) :
    build D asserts [s] [0] =
      .ok [⟨CHAIN_START, SIZE_MAX⟩, ⟨SEED, 0⟩, ⟨CHAIN_END, SIZE_MAX⟩] := by
  rcases h with ⟨h0, hm⟩ | ⟨h0, hm, h1⟩
  · cases he : D.is_equal s.zipcode_decoder s.zipcode_decoder 0 <;>
    simp [build, add_seeds, add_seed, vec_get, first_different_ancestor, find_first_different,
      hm, h0, he, open_loop, open_depth, open_node_or_snarl, vec_modify, check_assert,
      vec_pop_back, final_flush, vec_back, flush_loop, flush_depth, close_scope, bind,
      Except.bind, pure, Except.pure]
  · cases he : D.is_equal s.zipcode_decoder s.zipcode_decoder 0 <;>
    simp [build, add_seeds, add_seed, vec_get, first_different_ancestor, find_first_different,
      hm, h0, h1, he, open_loop, open_depth, open_node_or_snarl, open_chain, vec_modify,
      check_assert, vec_pop_back, final_flush, vec_back, flush_loop, flush_depth, close_scope,
      bind, Except.bind, pure, Except.pure]

/-- Witness of C10, amended, on the single seed of `root_node_seed`. -/
theorem single_seed_store_witness :
    build fixture_index true root_node_seed [0] =
      .ok [⟨CHAIN_START, SIZE_MAX⟩, ⟨SEED, 0⟩, ⟨CHAIN_END, SIZE_MAX⟩] :=
  single_seed_store fixture_index true
    ⟨⟨1, false, 0⟩, fixture_decoder [⟨ROOT_NODE, 1, false, 5, 0, 0, 0, 0⟩]⟩
    (Or.inl ⟨rfl, rfl⟩)

/-- C1: for every non-empty vector of valid seed indices over seeds with
consistent addresses the constructor returns a flat store (always when
assertions are compiled out), and every store it returns is a well-formed bracket
sequence: the streaming bracket check succeeds with no scope left open, and the
CHAIN_START / CHAIN_END counts and the SNARL_START / SNARL_END counts are
equal. -/
theorem constructed_store_well_bracketed (D : SnarlDistanceIndex) (seeds : List Seed)
    (seed_indices : List Nat) (hcons : consistent D seeds) (hne : seed_indices ≠ [])
    (hidx : ∀ i ∈ seed_indices, i < seeds.length) :
    (∃ t, build D false seeds seed_indices = .ok t) ∧
    ∀ (asserts : Bool) (t : List tree_item_t), build D asserts seeds seed_indices = .ok t →
      well_bracketed t ∧
      count_type CHAIN_START t = count_type CHAIN_END t ∧
      count_type SNARL_START t = count_type SNARL_END t := by
  refine ⟨build_total D seeds seed_indices hcons hne hidx, ?_⟩
  intro asserts t h
  obtain ⟨hw, -, -⟩ := build_sound D asserts seeds seed_indices hcons hne hidx t h
  obtain ⟨h1, h2⟩ := match_brackets_count t [] [] hw
  exact ⟨hw, by simpa using h1, by simpa using h2⟩

/-- Witness of C1 on four seeds, three of them on the three child chains of a
snarl. -/
theorem constructed_store_well_bracketed_witness :
    (∃ t, build fixture_index false three_chain_seeds [0, 1, 2, 3] = .ok t) ∧
    ∀ (asserts : Bool) (t : List tree_item_t),
      build fixture_index asserts three_chain_seeds [0, 1, 2, 3] = .ok t →
      well_bracketed t ∧
      count_type CHAIN_START t = count_type CHAIN_END t ∧
      count_type SNARL_START t = count_type SNARL_END t :=
  constructed_store_well_bracketed fixture_index three_chain_seeds [0, 1, 2, 3]
    (by unfold consistent address_ok; decide) (by decide) (by decide)

/-- C2: for every non-empty seed collection with consistent addresses and every
permutation `seed_indices` of its indices (the vector `std::sort` leaves), the
constructor returns a flat store (always when assertions are compiled out), and
in every store it returns the values of the SEED items, read left to right, are
exactly `seed_indices`: every seed index appears exactly once. -/
theorem constructed_store_lists_seed_indices (D : SnarlDistanceIndex) (seeds : List Seed)
    (seed_indices : List Nat) (hcons : consistent D seeds) (hne : seeds ≠ [])
    (hperm : seed_indices.Perm (List.range seeds.length)) :
    (∃ t, build D false seeds seed_indices = .ok t) ∧
    ∀ (asserts : Bool) (t : List tree_item_t), build D asserts seeds seed_indices = .ok t →
      seed_values t = seed_indices ∧
      ∀ i, i < seeds.length → (seed_values t).count i = 1 := by
  have hne' : seed_indices ≠ [] := by
    intro h
    rw [h] at hperm
    have := hperm.length_eq
    simp only [List.length_nil, List.length_range] at this
    exact hne (List.length_eq_zero.mp this.symm)
  have hidx : ∀ i ∈ seed_indices, i < seeds.length := by
    intro i hi
    exact List.mem_range.mp (hperm.mem_iff.mp hi)
  refine ⟨build_total D seeds seed_indices hcons hne' hidx, ?_⟩
  intro asserts t h
  obtain ⟨-, -, hv⟩ := build_sound D asserts seeds seed_indices hcons hne' hidx t h
  refine ⟨hv, ?_⟩
  intro i hi
  rw [hv, hperm.count_eq]
  exact List.count_eq_one_of_mem (List.nodup_range _) (List.mem_range.mpr hi)

/-- Witness of C2 on four seeds, three of them on the three child chains of a
snarl. -/
theorem constructed_store_lists_seed_indices_witness :
    (∃ t, build fixture_index false three_chain_seeds [0, 1, 2, 3] = .ok t) ∧
    ∀ (asserts : Bool) (t : List tree_item_t),
      build fixture_index asserts three_chain_seeds [0, 1, 2, 3] = .ok t →
      seed_values t = [0, 1, 2, 3] ∧
      ∀ i, i < three_chain_seeds.length → (seed_values t).count i = 1 :=
  constructed_store_lists_seed_indices fixture_index three_chain_seeds [0, 1, 2, 3]
    (by unfold consistent address_ok; decide) (by simp [three_chain_seeds]) (by decide)

/-- C6: in every store the constructor returns for consistent addresses, the
backward traversal that `look_back` starts from any forward position with any
bound yields only pairs whose distance is at most the bound. -/
theorem backward_distance_within_bound (D : SnarlDistanceIndex) (asserts : Bool)
    (seeds : List Seed) (seed_indices : List Nat) (hcons : consistent D seeds)
    (hne : seed_indices ≠ []) (hidx : ∀ i ∈ seed_indices, i < seeds.length)
    (t : List tree_item_t) (h : build D asserts seeds seed_indices = .ok t)
    (src : iterator) (distance_limit : Nat) :
    ∀ pr ∈ (backward_traversal t src distance_limit).1, pr.2 ≤ distance_limit := by
  obtain ⟨-, hg, -⟩ := build_sound D asserts seeds seed_indices hcons hne hidx t h
  intro pr hpr
  exact (backward_traversal_spec t hg src distance_limit pr hpr).1

/-- Witness of C6 on the three-node chain, from the forward position after the
last seed, where the traversal yields (1, 1) and (0, 5) with bound 20. -/
theorem backward_distance_within_bound_witness :
    (backward_traversal chain_store ⟨6, 7⟩ 20).1 = [(1, 1), (0, 5)] ∧ (5 : Nat) ≤ 20 :=
  ⟨by decide,
   backward_distance_within_bound fixture_index true chain_seeds [0, 1, 2]
    (by unfold consistent address_ok; decide) (by decide) (by decide) chain_store (by decide)
    ⟨6, 7⟩ 20 (0, 5) (by decide)⟩

/-- C7: in every store the constructor returns for consistent addresses, for
every start of the backward traversal and all bounds `B1 ≤ B2`, every seed index
yielded with bound `B1` is yielded with bound `B2`. The start is any forward
iterator `src` handed to `look_back` (whatever item it points at, the end
included), or any index `p` of the store on which the reverse iterator is placed
directly, the start seed itself included. -/
theorem backward_yields_monotone (D : SnarlDistanceIndex) (asserts : Bool)
    (seeds : List Seed) (seed_indices : List Nat) (hcons : consistent D seeds)
    (hne : seed_indices ≠ []) (hidx : ∀ i ∈ seed_indices, i < seeds.length)
    (t : List tree_item_t) (h : build D asserts seeds seed_indices = .ok t)
    (B1 B2 : Nat) (hB : B1 ≤ B2) (src : iterator) (p : Nat) :
    (backward_traversal t src B1).1.map Prod.fst ⊆
      (backward_traversal t src B2).1.map Prod.fst ∧
    (backward_traversal_at t p B1).1.map Prod.fst ⊆
      (backward_traversal_at t p B2).1.map Prod.fst := by
  have hS := build_scannable D asserts seeds seed_indices hcons hne hidx t h
  refine ⟨?_, mk_at_yields_mono t hS (p + 1) B1 B2 hB⟩
  unfold backward_traversal look_back
  by_cases hlen : t.length < src.remaining_tree
  · simp only [if_pos hlen]
    exact List.nil_subset _
  · simp only [if_neg hlen]
    exact mk_at_yields_mono t hS (t.length - src.remaining_tree) B1 B2 hB

/-- Witness of C7 on the three-node chain, started on the last seed (from the
forward position after it, and from its own index) with bounds 1 and 20: the
smaller bound yields seed 1 alone, the larger yields the seeds 1 and 0. -/
theorem backward_yields_monotone_witness :
    (backward_traversal chain_store ⟨6, 7⟩ 1).1.map Prod.fst = [1] ∧
    (backward_traversal chain_store ⟨6, 7⟩ 20).1.map Prod.fst = [1, 0] ∧
    (backward_traversal_at chain_store 5 1).1.map Prod.fst = [1] ∧
    (backward_traversal_at chain_store 5 20).1.map Prod.fst = [1, 0] ∧
    ((backward_traversal chain_store ⟨6, 7⟩ 1).1.map Prod.fst ⊆
        (backward_traversal chain_store ⟨6, 7⟩ 20).1.map Prod.fst ∧
      (backward_traversal_at chain_store 5 1).1.map Prod.fst ⊆
        (backward_traversal_at chain_store 5 20).1.map Prod.fst) :=
  ⟨by decide, by decide, by decide, by decide,
   backward_yields_monotone fixture_index true chain_seeds [0, 1, 2]
    (by unfold consistent address_ok; decide) (by decide) (by decide) chain_store (by decide)
    1 20 (by decide) ⟨6, 7⟩ 5⟩

/-- C18: the comparator is not a strict total order on seed indices. It is
irreflexive, and two indices that hold the same seed (same position, same
address) are tied, neither put before the other, whatever the external
functions answer: the comparator never looks at the indices. Beyond ties it is
not even a strict weak ordering: on the three seeds of `orientation_seeds`,
whose addresses are consistent, seed 0 is put before seed 1 and seed 1 before
seed 0 (asymmetry fails, and both of `comp(a, b)` and `comp(b, a)` hold), and
seed 0 is put before seed 1 and seed 1 before seed 2 but seed 0 is not put
before seed 2 (transitivity fails). -/
theorem comparator_not_strict_total_order :
    (∀ (D : SnarlDistanceIndex) (seeds : List Seed) (a b : Nat),
      seeds.get? a = seeds.get? b →
      comp D seeds a a = false ∧ comp D seeds a b = false ∧ comp D seeds b a = false) ∧
    ((0 : Nat) ≠ 1 ∧ comp fixture_index tie_seeds 0 1 = false ∧
      comp fixture_index tie_seeds 1 0 = false) ∧
    consistent fixture_index orientation_seeds ∧
    comp fixture_index orientation_seeds 0 1 = true ∧
    comp fixture_index orientation_seeds 1 0 = true ∧
    comp fixture_index orientation_seeds 1 2 = true ∧
    comp fixture_index orientation_seeds 0 2 = false := by
  refine ⟨?_, by decide, by unfold consistent address_ok; decide, by decide, by decide,
    by decide, by decide⟩
  intro D seeds a b h
  simp only [comp, ← h]
  cases seeds.get? a <;> simp [comparator_irrefl]

/-- Witness of C18 on the two seeds of `tie_seeds`, which are tied. -/
theorem comparator_not_strict_total_order_witness :
    comp fixture_index tie_seeds 0 0 = false ∧ comp fixture_index tie_seeds 0 1 = false ∧
    comp fixture_index tie_seeds 1 0 = false :=
  comparator_not_strict_total_order.1 fixture_index tie_seeds 0 1 rfl

/-- C19: on the three seeds of `regular_snarl_seeds` the addresses are well
formed, the comparator is a strict total order (0 before 2 before 1), sorting
gives 0, 2, 1, and seed 2, which lies on another child chain of the snarl, is
placed between the seeds 0 and 1 that share their ancestor at depth 2: the sorted
order is not contiguous at depth 2, and the constructor opens the chain of the
seeds 0 and 1 twice. -/
theorem sorted_seeds_not_contiguous :
    consistent fixture_index regular_snarl_seeds ∧
    (List.range 3).map (fun a => (List.range 3).map (comp fixture_index regular_snarl_seeds a))
      = [[false, true, true], [false, false, false], [false, true, false]] ∧
    sorted_seed_indices fixture_index regular_snarl_seeds = [0, 2, 1] ∧
    shares_ancestor fixture_index regular_snarl_seeds 0 1 2 = true ∧
    shares_ancestor fixture_index regular_snarl_seeds 0 2 2 = false ∧
    ¬ contiguous_at fixture_index regular_snarl_seeds
        (sorted_seed_indices fixture_index regular_snarl_seeds) 2 ∧
    (construct fixture_index false regular_snarl_seeds).toOption.map
        (fun t => (seed_values t, count_type CHAIN_START t)) = some ([0, 2, 1], 4) := by
  refine ⟨by unfold consistent address_ok; decide, by decide, by decide, by decide, by decide,
    ?_, by decide⟩
  intro h
  have h1 := h 0 1 2 0 2 1 (by decide) (by decide) (by decide) (by decide) (by decide)
    (by decide)
  revert h1
  decide

/-- C20: for two seeds whose addresses are equal at the depths below `d`, with
`0 < d` within both addresses, and differ at depth `d` under a common chain or
root chain, the comparator puts the first before the second exactly when its
offset in the chain at depth `d` is smaller, or the offsets are equal and its
child at depth `d` is not a leaf node while that of the second is. -/
theorem comparator_chain_children (D : SnarlDistanceIndex) (A B : Seed) (d : Nat)
    (hd : 0 < d) (hda : d ≤ A.zipcode_decoder.max_depth) (hdb : d ≤ B.zipcode_decoder.max_depth)
    (heq : ∀ e, e < d → D.is_equal A.zipcode_decoder B.zipcode_decoder e = true)
    (hne : D.is_equal A.zipcode_decoder B.zipcode_decoder d = false)
    (hpar : A.zipcode_decoder.get_code_type (d - 1) = CHAIN ∨
      A.zipcode_decoder.get_code_type (d - 1) = ROOT_CHAIN) :
    comparator D A B = true ↔
      A.zipcode_decoder.get_offset_in_chain d < B.zipcode_decoder.get_offset_in_chain d ∨
      (A.zipcode_decoder.get_offset_in_chain d = B.zipcode_decoder.get_offset_in_chain d ∧
        A.zipcode_decoder.get_code_type d ≠ NODE ∧ B.zipcode_decoder.get_code_type d = NODE) := by
  have hstop := comparator_depth_stops D A.zipcode_decoder B.zipcode_decoder d hda hdb heq hne
    (min A.zipcode_decoder.max_depth B.zipcode_decoder.max_depth) 0 false false
    (Nat.zero_le d) (by simp; omega)
  have hd0 : d ≠ 0 := by omega
  simp only [comparator, hstop, hne, hd0, if_false, if_pos hpar, Bool.false_eq_true]
  split_ifs with hoff
  · simp [hoff]
  · simp only [decide_eq_true_eq]
    constructor
    · intro h; exact Or.inl h
    · rintro (h | ⟨h, _⟩)
      · exact h
      · exact absurd h hoff

/-- Witness of C20 on the seeds 0 and 1 of `chain_seeds`, two nodes of one root
chain at the offsets 0 and 4. -/
theorem comparator_chain_children_witness :
    comp fixture_index chain_seeds 0 1 = true ∧
    (comparator fixture_index
        ⟨⟨1, false, 0⟩, fixture_decoder
          [⟨ROOT_CHAIN, 1, false, 11, 0, 0, 0, 0⟩, ⟨NODE, 1, false, 4, 0, 0, 0, 0⟩]⟩
        ⟨⟨2, false, 0⟩, fixture_decoder
          [⟨ROOT_CHAIN, 1, false, 11, 0, 0, 0, 0⟩, ⟨NODE, 2, false, 1, 4, 0, 0, 0⟩]⟩ = true ↔
      (0 : Nat) < 4 ∨ ((0 : Nat) = 4 ∧ NODE ≠ NODE ∧ NODE = NODE)) :=
  ⟨by decide,
   comparator_chain_children fixture_index
    ⟨⟨1, false, 0⟩, fixture_decoder
      [⟨ROOT_CHAIN, 1, false, 11, 0, 0, 0, 0⟩, ⟨NODE, 1, false, 4, 0, 0, 0, 0⟩]⟩
    ⟨⟨2, false, 0⟩, fixture_decoder
      [⟨ROOT_CHAIN, 1, false, 11, 0, 0, 0, 0⟩, ⟨NODE, 2, false, 1, 4, 0, 0, 0⟩]⟩
    1 (by decide) (by decide) (by decide) (by decide) (by decide) (by decide)⟩

/-- C11: when, in state Scan-Chain with a single accumulator `x` on the stack,
the scan loop ticks an EDGE item that raises the accumulator above the bound,
`halt` sets the iterator to `rend` and the tick returns false, so that the loop
increments the iterator past `rend`: the traversal does not stop with an
iterator equal to `rend()`, the behaviour is undefined. -/
theorem scan_after_halt_steps_past_rend (zip_code_tree : List tree_item_t)
    (r : reverse_iterator) (x v fuel : Nat) (hit : r.it ≠ 0)
    (hitem : zip_code_tree.get? (r.it - 1) = some ⟨EDGE, v⟩)
    (hstate : r.current_state = S_SCAN_CHAIN) (hstack : r.stack = [x])
    (hlimit : size_add x v > r.distance_limit) :
    tick zip_code_tree r = .ok (false, ⟨0, r.distance_limit, [size_add x v], S_SCAN_CHAIN⟩) ∧
    scan zip_code_tree (fuel + 1) r = .error .undefined_behaviour := by
  have ht : tick zip_code_tree r
      = .ok (false, ⟨0, r.distance_limit, [size_add x v], S_SCAN_CHAIN⟩) := by
    unfold tick
    rw [if_neg hit, hitem]
    simp [hstate, hstack, set_top, top, depth, halt, hlimit, bind,
      Except.bind, pure, Except.pure]
  refine ⟨ht, ?_⟩
  simp [scan, hit, ht]

/-- Witness of C11 on the three-node chain: with bound 3, after seed 1 has been
yielded at distance 1 the EDGE of value 4 raises the only accumulator to 5, and
the traversal started on seed 2 ends in undefined behaviour after one pair. -/
theorem scan_after_halt_steps_past_rend_witness :
    (tick chain_store ⟨3, 3, [1], S_SCAN_CHAIN⟩
        = .ok (false, ⟨0, 3, [size_add 1 4], S_SCAN_CHAIN⟩) ∧
      scan chain_store (2 + 1) ⟨3, 3, [1], S_SCAN_CHAIN⟩ = .error .undefined_behaviour) ∧
    backward_traversal_at chain_store 5 3 = ([(1, 1)], some .undefined_behaviour) :=
  ⟨scan_after_halt_steps_past_rend chain_store ⟨3, 3, [1], S_SCAN_CHAIN⟩ 1 4 2
    (by decide) (by decide) rfl rfl (by decide), by decide⟩

/-- C12: in state Scan-Chain the tick of an EDGE item of value `v` replaces the
top accumulator `x` by `(x + v) mod 2^64`: the addition wraps. Adding the
unreachable value `SIZE_MAX` to an accumulator `x` with `0 < x` gives `x - 1`,
which is smaller than `x`, and the scan goes on when `x - 1` is within the
bound. -/
theorem edge_addition_wraps (zip_code_tree : List tree_item_t) (r : reverse_iterator)
    (x : Nat) (rest : List Nat) (hit : r.it ≠ 0)
    (hitem : zip_code_tree.get? (r.it - 1) = some ⟨EDGE, SIZE_MAX⟩)
    (hstate : r.current_state = S_SCAN_CHAIN) (hstack : r.stack = x :: rest)
    (hx : 0 < x) (hsize : x ≤ SIZE_MAX) (hlimit : x - 1 ≤ r.distance_limit) :
    size_add x SIZE_MAX = x - 1 ∧ x - 1 ≠ min (x + SIZE_MAX) SIZE_MAX ∧
    tick zip_code_tree r = .ok (false, ⟨r.it, r.distance_limit, (x - 1) :: rest, S_SCAN_CHAIN⟩) := by
  have hw : size_add x SIZE_MAX = x - 1 := by
    simp only [size_add, SIZE_MAX] at *
    omega
  refine ⟨hw, ?_, ?_⟩
  · simp only [SIZE_MAX] at *
    omega
  · have hn : ¬ (x - 1 > r.distance_limit) := by omega
    unfold tick
    rw [if_neg hit, hitem]
    simp [hstate, hstack, set_top, top, hw, hn, bind, Except.bind, pure, Except.pure]

/-- Witness of C12, and the failing traversal: on the store of the seeds on three
child chains of a snarl, whose chains are mutually unreachable, the traversal
started on seed 2 with bound 100 stages `1 + SIZE_MAX = 0` for the unreachable
siblings and yields seed 0 at distance 2. -/
theorem edge_addition_wraps_witness :
    (size_add 5 SIZE_MAX = 5 - 1 ∧ 5 - 1 ≠ min (5 + SIZE_MAX) SIZE_MAX ∧
      tick [⟨EDGE, SIZE_MAX⟩] ⟨1, 100, [5], S_SCAN_CHAIN⟩
        = .ok (false, ⟨1, 100, [5 - 1], S_SCAN_CHAIN⟩)) ∧
    construct fixture_index true three_chain_seeds = .ok three_chain_store ∧
    scan three_chain_store 5 ⟨19, 100, [1], S_SCAN_CHAIN⟩
      = .ok ⟨14, 100, [3, 0, 0], S_SCAN_CHAIN⟩ ∧
    backward_traversal_at three_chain_store 20 100 = ([(1, 4), (0, 2)], none) :=
  ⟨edge_addition_wraps [⟨EDGE, SIZE_MAX⟩] ⟨1, 100, [5], S_SCAN_CHAIN⟩ 5 [] (by decide) rfl rfl rfl
    (by decide) (by decide) (by decide), by decide, by decide, by decide⟩

/-- C13: no state of the automaton accepts a NODE_COUNT item: a tick on it
raises the unsupported-symbol error in every state. -/
theorem node_count_is_rejected (zip_code_tree : List tree_item_t) (r : reverse_iterator)
    (c : Nat) (hit : r.it ≠ 0)
    (hitem : zip_code_tree.get? (r.it - 1) = some ⟨NODE_COUNT, c⟩) :
    tick zip_code_tree r = .error .domain_error := by
  simp only [tick, hit, hitem, if_false]
  cases r.current_state <;> rfl

/-- Witness of C13, and the failing traversal: in the store constructed for
three child chains of a snarl followed by a seed on the parent chain, the
backward scan from that seed reaches the SNARL_END, enters Stack-Snarl and fails
on the NODE_COUNT item before it. -/
theorem node_count_is_rejected_witness :
    tick three_chain_store ⟨28, 100, [0, 3], S_STACK_SNARL⟩ = .error .domain_error ∧
    construct fixture_index true three_chain_seeds = .ok three_chain_store ∧
    scan three_chain_store 3 ⟨31, 100, [], S_START⟩ = .ok ⟨28, 100, [0, 3], S_STACK_SNARL⟩ ∧
    backward_traversal_at three_chain_store 30 100 = ([], some .domain_error) :=
  ⟨node_count_is_rejected three_chain_store ⟨28, 100, [0, 3], S_STACK_SNARL⟩ 3 (by decide) rfl,
    by decide, by decide, by decide⟩

/-- C14: for the seeds on three child chains of a snarl, with the finite
distances of `metric_index`, the constructor writes before the CHAIN_START of
the second chain the entry 12 for the sibling chain of seed 0 and then the
entry 1 for the snarl start (the entries of the scratch list in reverse order, so
that the entry of the snarl start is next to the CHAIN_START). The backward scan
that leaves the second chain with accumulator 1 stages the entries as it reads
them and enters the first chain, at its CHAIN_END, with `1 + 1`, the accumulator
built from the entry of the snarl start, not with `1 + 12`: it yields seed 0 at
distance 4 instead of 15. -/
theorem sibling_entries_are_read_reversed :
    construct metric_index true three_chain_seeds = .ok metric_store ∧
    (three_chain_seeds.get? 1).map (fun s => open_chain_edges metric_index three_chain_seeds
        s.zipcode_decoder false 2 [⟨SNARL_START, SIZE_MAX⟩, ⟨CHAIN_START, 0⟩])
      = some (.ok [⟨EDGE, 1⟩, ⟨EDGE, 12⟩]) ∧
    (metric_store.get? 7, metric_store.get? 8, metric_store.get? 9, metric_store.get? 10)
      = (some ⟨CHAIN_END, SIZE_MAX⟩, some ⟨EDGE, 12⟩, some ⟨EDGE, 1⟩,
          some ⟨CHAIN_START, SIZE_MAX⟩) ∧
    scan metric_store 4 ⟨11, 100, [1], S_SCAN_CHAIN⟩
      = .ok ⟨7, 100, [1 + 1, 1 + 12], S_SCAN_CHAIN⟩ ∧
    backward_traversal_at metric_store 12 100 = ([(0, 4)], none) := by
  decide

/-- C15 fails: the snarl of `snarl_seed` has a single child chain and its
NODE_COUNT item has value 1, not 0; the snarl of `three_chain_seeds` has three
child chains and its NODE_COUNT item has value 3, not 2. -/
theorem node_count_counts_child_chains :
    construct fixture_index true snarl_seed = .ok snarl_store ∧
    snarl_store.filter (fun item => decide (item.type = NODE_COUNT)) = [⟨NODE_COUNT, 1⟩] ∧
    construct fixture_index true three_chain_seeds = .ok three_chain_store ∧
    three_chain_store.filter (fun item => decide (item.type = NODE_COUNT))
      = [⟨NODE_COUNT, 3⟩] := by
  decide

/-- C15, amended: when the constructor closes a snarl whose scratch list holds
the entry of the snarl start followed by the entries of `k` child chains, it
appends `k + 1` EDGE items, the NODE_COUNT item of value `k` (the size of the
scratch list minus one) and the SNARL_END. -/
theorem node_count_is_number_of_chains (D : SnarlDistanceIndex) (seeds : List Seed)
    (dec : ZipCodeDecoder) (is_reversed : Bool) (depth : Nat) (st : build_state)
    (first : child_info_t) (chains : List child_info_t)
    (htype : is_snarl (dec.get_code_type depth) = true)
    (hlist : st.sibling_indices_at_depth.get? depth = some (first :: chains))
    (hfirst : first.type = SNARL_START)
    (hchains : ∀ x ∈ chains, x.type = CHAIN_START ∧ x.value < seeds.length)
    (hsize : chains.length < SIZE_MAX) :
    ∃ edges, edges.length = chains.length + 1 ∧ (∀ e ∈ edges, e.type = EDGE) ∧
      close_scope D seeds dec is_reversed depth st = .ok (st.zip_code_tree ++ edges ++
        [⟨NODE_COUNT, chains.length⟩, ⟨SNARL_END, SIZE_MAX⟩]) := by
  obtain ⟨es, hes, hlen, hty⟩ := close_snarl_edges_ok seeds dec is_reversed depth
    (first :: chains) (by
      intro x hx
      rcases List.mem_cons.1 hx with rfl | hx
      · exact Or.inl hfirst
      · exact Or.inr (hchains x hx).2)
  have hnc : is_chain_like (dec.get_code_type depth) = false := snarl_not_chain_like htype
  have hsub : size_sub (chains.length + 1) 1 = chains.length := by
    simp only [size_sub, SIZE_MAX] at *
    omega
  refine ⟨es.reverse, by simpa using hlen, by simpa using hty, ?_⟩
  have ht : ¬ (dec.get_code_type depth = CHAIN ∨ dec.get_code_type depth = ROOT_CHAIN ∨
      dec.get_code_type depth = ROOT_NODE) := by
    cases h : dec.get_code_type depth <;> simp_all [is_chain_like]
  have hs : dec.get_code_type depth = REGULAR_SNARL ∨
      dec.get_code_type depth = IRREGULAR_SNARL := by
    cases h : dec.get_code_type depth <;> simp_all [is_snarl]
  simp only [List.get?_eq_getElem?] at hlist
  simp [close_scope, ht, hs, vec_get, hlist, hes, hsub, bind, Except.bind, pure, Except.pure]

/-- Witness of C15, amended: closing the snarl of `three_chain_seeds` with the
scratch list of the snarl start and three child chains. -/
theorem node_count_is_number_of_chains_witness :
    ∃ edges : List tree_item_t, edges.length = 3 + 1 ∧ (∀ e ∈ edges, e.type = EDGE) ∧
      close_scope fixture_index three_chain_seeds
        (fixture_decoder [⟨ROOT_CHAIN, 1, false, 20, 0, 0, 0, 0⟩,
          ⟨IRREGULAR_SNARL, 2, false, 6, 2, 0, 0, 0⟩, ⟨CHAIN, 7, false, 1, 0, 2, 1, 3⟩])
        false 1
        ⟨[], [[], [⟨SNARL_START, SIZE_MAX⟩, ⟨CHAIN_START, 0⟩, ⟨CHAIN_START, 1⟩,
          ⟨CHAIN_START, 2⟩], []]⟩
        = .ok ([] ++ edges ++ [⟨NODE_COUNT, 3⟩, ⟨SNARL_END, SIZE_MAX⟩]) :=
  node_count_is_number_of_chains fixture_index three_chain_seeds
    (fixture_decoder [⟨ROOT_CHAIN, 1, false, 20, 0, 0, 0, 0⟩,
      ⟨IRREGULAR_SNARL, 2, false, 6, 2, 0, 0, 0⟩, ⟨CHAIN, 7, false, 1, 0, 2, 1, 3⟩])
    false 1
    ⟨[], [[], [⟨SNARL_START, SIZE_MAX⟩, ⟨CHAIN_START, 0⟩, ⟨CHAIN_START, 1⟩,
      ⟨CHAIN_START, 2⟩], []]⟩
    ⟨SNARL_START, SIZE_MAX⟩ [⟨CHAIN_START, 0⟩, ⟨CHAIN_START, 1⟩, ⟨CHAIN_START, 2⟩]
    rfl rfl rfl (by decide) (by decide)

/-- C16: for every non-empty vector of valid seed indices over seeds with
consistent addresses the constructor returns a flat store (always when
assertions are compiled out), and in every store it returns (of fewer than
2^64 items) each SNARL_END is immediately preceded by a NODE_COUNT item of some
value `c`, which is immediately preceded by exactly `c + 1` consecutive EDGE
items, and the item before those is a CHAIN_END, hence not an EDGE. The EDGE
items are those of the scratch list of the snarl, one per recorded sibling (the
entry of the snarl start included), written in reverse order, and the NODE_COUNT
value is the size of that list minus one. -/
theorem snarl_end_preceded_by_count_and_edges (D : SnarlDistanceIndex) (seeds : List Seed)
    (seed_indices : List Nat) (hcons : consistent D seeds) (hne : seed_indices ≠ [])
    (hidx : ∀ i ∈ seed_indices, i < seeds.length) :
    (∃ t, build D false seeds seed_indices = .ok t) ∧
    (∀ (asserts : Bool) (t : List tree_item_t), build D asserts seeds seed_indices = .ok t →
      t.length < 2 ^ 64 →
      ∀ a x b, t = a ++ x :: b → x.type = SNARL_END →
        ∃ pre y edges c, a = pre ++ [y] ++ edges ++ [⟨NODE_COUNT, c⟩] ∧
          edges.length = c + 1 ∧ (∀ e ∈ edges, e.type = EDGE) ∧
          y.type = CHAIN_END ∧ y.type ≠ EDGE) ∧
    (∀ (dec : ZipCodeDecoder) (is_reversed : Bool) (depth : Nat) (st : build_state)
      (tree : List tree_item_t), is_snarl (dec.get_code_type depth) = true →
      close_scope D seeds dec is_reversed depth st = .ok tree →
      ∃ siblings edges, st.sibling_indices_at_depth.get? depth = some siblings ∧
        close_snarl_edges seeds dec is_reversed depth siblings = .ok edges ∧
        edges.length = siblings.length ∧ (∀ e ∈ edges, e.type = EDGE) ∧
        tree = st.zip_code_tree ++ edges.reverse ++
          [⟨NODE_COUNT, size_sub siblings.length 1⟩, ⟨SNARL_END, SIZE_MAX⟩]) := by
  refine ⟨build_total D seeds seed_indices hcons hne hidx, ?_, ?_⟩
  · intro asserts t h hsize a x b hsplit hx
    obtain ⟨hs, -⟩ := build_ends D asserts seeds seed_indices hcons hne hidx t h
    obtain ⟨pre, y, edges, ha, hy, hne1, hedges⟩ := hs a x b hsplit hx
    have hlen : edges.length < 2 ^ 64 := by
      have h1 : t.length = a.length + (b.length + 1) := by
        rw [hsplit]; simp
      have h2 : a.length = pre.length + 1 + edges.length + 1 := by
        rw [ha]; simp; omega
      omega
    have hpos : 0 < edges.length := List.length_pos.mpr hne1
    refine ⟨pre, y, edges, edges.length - 1, ?_, by omega, hedges, hy, by rw [hy]; decide⟩
    have hsub : size_sub edges.length 1 = edges.length - 1 := by
      simp only [size_sub]
      omega
    rw [← hsub]
    exact ha
  · intro dec rev depth st tree hty h
    have ht : ¬ (dec.get_code_type depth = CHAIN ∨ dec.get_code_type depth = ROOT_CHAIN ∨
        dec.get_code_type depth = ROOT_NODE) := by
      cases h1 : dec.get_code_type depth <;> simp_all [is_snarl]
    have hs1 : dec.get_code_type depth = REGULAR_SNARL ∨
        dec.get_code_type depth = IRREGULAR_SNARL := by
      cases h1 : dec.get_code_type depth <;> simp_all [is_snarl]
    simp only [close_scope, if_neg ht, if_pos hs1, vec_get, bind, Except.bind, pure,
      Except.pure] at h
    cases hl : st.sibling_indices_at_depth.get? depth with
    | none => rw [hl] at h; simp at h
    | some siblings =>
      rw [hl] at h
      simp only at h
      cases hes : close_snarl_edges seeds dec rev depth siblings with
      | error e => rw [hes] at h; simp at h
      | ok es =>
        rw [hes] at h
        simp only [Except.ok.injEq] at h
        obtain ⟨hlen, hedge⟩ := close_snarl_edges_shape seeds dec rev depth siblings es hes
        exact ⟨siblings, es, rfl, hes, hlen, hedge, h.symm⟩

/-- Witness of C16 on four seeds, three of them on the three child chains of a
snarl. -/
theorem snarl_end_preceded_by_count_and_edges_witness :
    (∃ t, build fixture_index false three_chain_seeds [0, 1, 2, 3] = .ok t) ∧
    (∀ (asserts : Bool) (t : List tree_item_t),
      build fixture_index asserts three_chain_seeds [0, 1, 2, 3] = .ok t →
      t.length < 2 ^ 64 →
      ∀ a x b, t = a ++ x :: b → x.type = SNARL_END →
        ∃ pre y edges c, a = pre ++ [y] ++ edges ++ [⟨NODE_COUNT, c⟩] ∧
          edges.length = c + 1 ∧ (∀ e ∈ edges, e.type = EDGE) ∧
          y.type = CHAIN_END ∧ y.type ≠ EDGE) ∧
    (∀ (dec : ZipCodeDecoder) (is_reversed : Bool) (depth : Nat) (st : build_state)
      (tree : List tree_item_t), is_snarl (dec.get_code_type depth) = true →
      close_scope fixture_index three_chain_seeds dec is_reversed depth st = .ok tree →
      ∃ siblings edges, st.sibling_indices_at_depth.get? depth = some siblings ∧
        close_snarl_edges three_chain_seeds dec is_reversed depth siblings = .ok edges ∧
        edges.length = siblings.length ∧ (∀ e ∈ edges, e.type = EDGE) ∧
        tree = st.zip_code_tree ++ edges.reverse ++
          [⟨NODE_COUNT, size_sub siblings.length 1⟩, ⟨SNARL_END, SIZE_MAX⟩]) :=
  snarl_end_preceded_by_count_and_edges fixture_index three_chain_seeds [0, 1, 2, 3]
    (by unfold consistent address_ok; decide) (by decide) (by decide)

/-- C17: for every non-empty vector of valid seed indices over seeds with
consistent addresses the constructor returns a flat store (always when
assertions are compiled out), and in every store it returns each CHAIN_END
either closes a root-level chain (a root chain or a root node: the only scope
open before it) and is immediately preceded by an item that is not an EDGE, or
closes a chain within a snarl and is immediately preceded by exactly one EDGE
item (the item before that EDGE is not an EDGE). The routine that closes a
scope, in the pass and in the final flush alike, gives that EDGE the value
`minus(length of the chain, value of the last entry of its scratch list)` for a
chain, and writes no EDGE for a root chain or a root node. -/
theorem chain_end_preceded_by_one_edge (D : SnarlDistanceIndex) (seeds : List Seed)
    (seed_indices : List Nat) (hcons : consistent D seeds) (hne : seed_indices ≠ [])
    (hidx : ∀ i ∈ seed_indices, i < seeds.length) :
    (∃ t, build D false seeds seed_indices = .ok t) ∧
    (∀ (asserts : Bool) (t : List tree_item_t), build D asserts seeds seed_indices = .ok t →
      ∀ a x b, t = a ++ x :: b → x.type = CHAIN_END →
        ∃ pre y, y.type ≠ EDGE ∧
          ((match_brackets [] a = some [bracket.chain] ∧ a = pre ++ [y]) ∨
           ((∃ o outer, match_brackets [] a = some (bracket.chain :: o :: outer)) ∧
             ∃ v, a = pre ++ [y, ⟨EDGE, v⟩]))) ∧
    (∀ (dec : ZipCodeDecoder) (is_reversed : Bool) (depth : Nat) (st : build_state)
      (tree : List tree_item_t),
      close_scope D seeds dec is_reversed depth st = .ok tree →
      (dec.get_code_type depth = CHAIN →
        ∃ siblings last, st.sibling_indices_at_depth.get? depth = some siblings ∧
          siblings.getLast? = some last ∧
          tree = st.zip_code_tree ++
            [⟨EDGE, D.minus (dec.get_length depth) last.value⟩, ⟨CHAIN_END, SIZE_MAX⟩]) ∧
      (dec.get_code_type depth = ROOT_CHAIN ∨ dec.get_code_type depth = ROOT_NODE →
        tree = st.zip_code_tree ++ [⟨CHAIN_END, SIZE_MAX⟩])) := by
  refine ⟨build_total D seeds seed_indices hcons hne hidx, ?_, ?_⟩
  · intro asserts t h a x b hsplit hx
    exact (build_ends D asserts seeds seed_indices hcons hne hidx t h).2 a x b hsplit hx
  · intro dec rev depth st tree h
    constructor
    · intro hty
      simp only [close_scope, hty, true_or, if_true, vec_get, vec_back, bind, Except.bind,
        pure, Except.pure] at h
      cases hl : st.sibling_indices_at_depth.get? depth with
      | none => rw [hl] at h; simp at h
      | some siblings =>
        rw [hl] at h
        simp only at h
        cases hlast : siblings.getLast? with
        | none => rw [hlast] at h; simp at h
        | some last =>
          rw [hlast] at h
          simp only [Except.ok.injEq] at h
          exact ⟨siblings, last, rfl, hlast, h.symm⟩
    · intro hty
      have h1 : dec.get_code_type depth = CHAIN ∨ dec.get_code_type depth = ROOT_CHAIN ∨
          dec.get_code_type depth = ROOT_NODE := by
        rcases hty with hty | hty
        · exact Or.inr (Or.inl hty)
        · exact Or.inr (Or.inr hty)
      have h2 : ¬ dec.get_code_type depth = CHAIN := by
        rcases hty with hty | hty <;> rw [hty] <;> decide
      simp only [close_scope, if_pos h1, if_neg h2, pure, Except.pure, Except.ok.injEq] at h
      exact h.symm

/-- Witness of C17 on four seeds, three of them on the three child chains of a
snarl. -/
theorem chain_end_preceded_by_one_edge_witness :
    (∃ t, build fixture_index false three_chain_seeds [0, 1, 2, 3] = .ok t) ∧
    (∀ (asserts : Bool) (t : List tree_item_t),
      build fixture_index asserts three_chain_seeds [0, 1, 2, 3] = .ok t →
      ∀ a x b, t = a ++ x :: b → x.type = CHAIN_END →
        ∃ pre y, y.type ≠ EDGE ∧
          ((match_brackets [] a = some [bracket.chain] ∧ a = pre ++ [y]) ∨
           ((∃ o outer, match_brackets [] a = some (bracket.chain :: o :: outer)) ∧
             ∃ v, a = pre ++ [y, ⟨EDGE, v⟩]))) ∧
    (∀ (dec : ZipCodeDecoder) (is_reversed : Bool) (depth : Nat) (st : build_state)
      (tree : List tree_item_t),
      close_scope fixture_index three_chain_seeds dec is_reversed depth st = .ok tree →
      (dec.get_code_type depth = CHAIN →
        ∃ siblings last, st.sibling_indices_at_depth.get? depth = some siblings ∧
          siblings.getLast? = some last ∧
          tree = st.zip_code_tree ++
            [⟨EDGE, fixture_index.minus (dec.get_length depth) last.value⟩,
              ⟨CHAIN_END, SIZE_MAX⟩]) ∧
      (dec.get_code_type depth = ROOT_CHAIN ∨ dec.get_code_type depth = ROOT_NODE →
        tree = st.zip_code_tree ++ [⟨CHAIN_END, SIZE_MAX⟩])) :=
  chain_end_preceded_by_one_edge fixture_index three_chain_seeds [0, 1, 2, 3]
    (by unfold consistent address_ok; decide) (by decide) (by decide)

/-- C21: for two seeds whose addresses are equal below depth `d`, with `0 < d`
within both addresses, and differ at depth `d` under a common regular snarl, the
comparator puts the first before the second exactly when the forward offset of
the SECOND is smaller, if the orientation flag accumulated for the first seed
over the depths `0 .. d` is false, and exactly when the forward offset of the
first is smaller if that flag is true: descending when the flag is false,
ascending when it is true, the opposite of the same-node case. -/
theorem comparator_regular_snarl_children (D : SnarlDistanceIndex) (A B : Seed) (d : Nat)
    (hd : 0 < d) (hda : d ≤ A.zipcode_decoder.max_depth) (hdb : d ≤ B.zipcode_decoder.max_depth)
    (heq : ∀ e, e < d → D.is_equal A.zipcode_decoder B.zipcode_decoder e = true)
    (hne : D.is_equal A.zipcode_decoder B.zipcode_decoder d = false)
    (hpar : A.zipcode_decoder.get_code_type (d - 1) = REGULAR_SNARL) :
    (reversal_parity A.zipcode_decoder (d + 1) = false →
      (comparator D A B = true ↔ forward_offset B d < forward_offset A d)) ∧
    (reversal_parity A.zipcode_decoder (d + 1) = true →
      (comparator D A B = true ↔ forward_offset A d < forward_offset B d)) := by
  obtain ⟨hstop, hflag⟩ := comparator_flag D A.zipcode_decoder B.zipcode_decoder d hda hdb heq
    (Or.inr (Or.inr hne))
  have hd0 : d ≠ 0 := by omega
  constructor
  · intro hf
    rw [hf] at hflag
    simp [comparator, hstop, hne, hd0, hflag, hpar]
  · intro hf
    rw [hf] at hflag
    simp [comparator, hstop, hne, hd0, hflag, hpar]

/-- Witness of C21: two forward seeds on two child chains of a regular snarl,
at the node offsets 1 and 3, nothing reversed. The flag is false and the seed at
offset 1 is not put before the seed at offset 3; the seed at offset 3 is put
before the seed at offset 1. -/
theorem comparator_regular_snarl_children_witness :
    ((reversal_parity (child_seed REGULAR_SNARL 5 1 0 0 1).zipcode_decoder (2 + 1) = false →
      (comparator fixture_index (child_seed REGULAR_SNARL 5 1 0 0 1)
          (child_seed REGULAR_SNARL 6 3 0 0 2) = true ↔
        forward_offset (child_seed REGULAR_SNARL 6 3 0 0 2) 2
          < forward_offset (child_seed REGULAR_SNARL 5 1 0 0 1) 2)) ∧
     (reversal_parity (child_seed REGULAR_SNARL 5 1 0 0 1).zipcode_decoder (2 + 1) = true →
      (comparator fixture_index (child_seed REGULAR_SNARL 5 1 0 0 1)
          (child_seed REGULAR_SNARL 6 3 0 0 2) = true ↔
        forward_offset (child_seed REGULAR_SNARL 5 1 0 0 1) 2
          < forward_offset (child_seed REGULAR_SNARL 6 3 0 0 2) 2))) ∧
    reversal_parity (child_seed REGULAR_SNARL 5 1 0 0 1).zipcode_decoder (2 + 1) = false ∧
    forward_offset (child_seed REGULAR_SNARL 5 1 0 0 1) 2 = 1 ∧
    forward_offset (child_seed REGULAR_SNARL 6 3 0 0 2) 2 = 3 ∧
    comparator fixture_index (child_seed REGULAR_SNARL 5 1 0 0 1)
      (child_seed REGULAR_SNARL 6 3 0 0 2) = false ∧
    comparator fixture_index (child_seed REGULAR_SNARL 6 3 0 0 2)
      (child_seed REGULAR_SNARL 5 1 0 0 1) = true :=
  ⟨comparator_regular_snarl_children fixture_index (child_seed REGULAR_SNARL 5 1 0 0 1)
    (child_seed REGULAR_SNARL 6 3 0 0 2) 2 (by decide) (by decide) (by decide) (by decide)
    (by decide) (by decide), by decide, by decide, by decide, by decide, by decide⟩

/-- C22: for two seeds whose addresses are equal below depth `d`, with `0 < d`
within both addresses, and differ at depth `d` under a common irregular snarl,
the comparator puts the first before the second exactly when its distance to the
snarl start at depth `d` is smaller, or the two distances are equal and its
distance to the snarl end at depth `d` is larger. -/
theorem comparator_irregular_snarl_children (D : SnarlDistanceIndex) (A B : Seed) (d : Nat)
    (hd : 0 < d) (hda : d ≤ A.zipcode_decoder.max_depth) (hdb : d ≤ B.zipcode_decoder.max_depth)
    (heq : ∀ e, e < d → D.is_equal A.zipcode_decoder B.zipcode_decoder e = true)
    (hne : D.is_equal A.zipcode_decoder B.zipcode_decoder d = false)
    (hpar : A.zipcode_decoder.get_code_type (d - 1) = IRREGULAR_SNARL) :
    comparator D A B = true ↔
      A.zipcode_decoder.get_distance_to_snarl_start d
          < B.zipcode_decoder.get_distance_to_snarl_start d ∨
      (A.zipcode_decoder.get_distance_to_snarl_start d
          = B.zipcode_decoder.get_distance_to_snarl_start d ∧
        A.zipcode_decoder.get_distance_to_snarl_end d
          > B.zipcode_decoder.get_distance_to_snarl_end d) := by
  obtain ⟨hstop, -⟩ := comparator_flag D A.zipcode_decoder B.zipcode_decoder d hda hdb heq
    (Or.inr (Or.inr hne))
  have hd0 : d ≠ 0 := by omega
  have hchain : ¬ (A.zipcode_decoder.get_code_type (d - 1) = CHAIN ∨
      A.zipcode_decoder.get_code_type (d - 1) = ROOT_CHAIN) := by
    rw [hpar]; decide
  have hreg : ¬ A.zipcode_decoder.get_code_type (d - 1) = REGULAR_SNARL := by
    rw [hpar]; decide
  simp only [comparator, hstop, hne, hd0, if_false, if_neg hchain, if_neg hreg,
    Bool.false_eq_true]
  split_ifs with hs
  · simp [hs]
  · simp only [decide_eq_true_eq]
    constructor
    · intro h; exact Or.inl h
    · rintro (h | ⟨h, _⟩)
      · exact h
      · exact absurd h hs

/-- Witness of C22: two seeds on two child chains of an irregular snarl at the
same distance 1 to the snarl start, at the distances 4 and 2 to the snarl end:
the one farther from the end goes first. -/
theorem comparator_irregular_snarl_children_witness :
    (comparator fixture_index (child_seed IRREGULAR_SNARL 5 0 1 4 1)
        (child_seed IRREGULAR_SNARL 6 0 1 2 2) = true ↔
      (1 : Nat) < 1 ∨ ((1 : Nat) = 1 ∧ (4 : Nat) > 2)) ∧
    comparator fixture_index (child_seed IRREGULAR_SNARL 5 0 1 4 1)
      (child_seed IRREGULAR_SNARL 6 0 1 2 2) = true ∧
    comparator fixture_index (child_seed IRREGULAR_SNARL 6 0 1 2 2)
      (child_seed IRREGULAR_SNARL 5 0 1 4 1) = false :=
  ⟨comparator_irregular_snarl_children fixture_index (child_seed IRREGULAR_SNARL 5 0 1 4 1)
    (child_seed IRREGULAR_SNARL 6 0 1 2 2) 2 (by decide) (by decide) (by decide) (by decide)
    (by decide) (by decide), by decide, by decide⟩

/-- C23: for two seeds whose addresses have the same depth `m` and are equal at
every depth up to `m` (the seeds are on the same leaf node), the comparator puts
the first before the second exactly when its forward offset in the node is
smaller, if the orientation flag accumulated over the depths `0 .. m` is false,
and exactly when it is larger if that flag is true; the forward offset of a
position on the reverse strand is `length - offset - 1`. -/
theorem comparator_same_node (D : SnarlDistanceIndex) (A B : Seed)
    (hmax : A.zipcode_decoder.max_depth = B.zipcode_decoder.max_depth)
    (heq : ∀ e, e ≤ A.zipcode_decoder.max_depth →
      D.is_equal A.zipcode_decoder B.zipcode_decoder e = true) :
    (reversal_parity A.zipcode_decoder (A.zipcode_decoder.max_depth + 1) = false →
      (comparator D A B = true ↔
        forward_offset A A.zipcode_decoder.max_depth
          < forward_offset B A.zipcode_decoder.max_depth)) ∧
    (reversal_parity A.zipcode_decoder (A.zipcode_decoder.max_depth + 1) = true →
      (comparator D A B = true ↔
        forward_offset B A.zipcode_decoder.max_depth
          < forward_offset A A.zipcode_decoder.max_depth)) ∧
    (∀ (s : Seed) (depth : Nat), forward_offset s depth =
      if s.pos.is_rev then size_sub (size_sub (s.zipcode_decoder.get_length depth) s.pos.offset) 1
      else s.pos.offset) := by
  obtain ⟨hstop, hflag⟩ := comparator_flag D A.zipcode_decoder B.zipcode_decoder
    A.zipcode_decoder.max_depth (Nat.le_refl _) (by omega) (fun e he => heq e (by omega))
    (Or.inl rfl)
  have hq := heq A.zipcode_decoder.max_depth (Nat.le_refl _)
  refine ⟨?_, ?_, fun s depth => rfl⟩
  · intro hf
    rw [hf] at hflag
    simp only [comparator, hstop, hq, hflag, if_true, Bool.not_false, decide_eq_true_eq]
  · intro hf
    rw [hf] at hflag
    simp only [comparator, hstop, hq, hflag, if_true, Bool.not_true, Bool.false_eq_true,
      if_false, decide_eq_true_eq]

/-- Witness of C23: two forward seeds on the same node at the offsets 1 and 3,
nothing reversed. -/
theorem comparator_same_node_witness :
    ((reversal_parity (child_seed REGULAR_SNARL 5 1 0 0 1).zipcode_decoder
        ((child_seed REGULAR_SNARL 5 1 0 0 1).zipcode_decoder.max_depth + 1) = false →
      (comparator fixture_index (child_seed REGULAR_SNARL 5 1 0 0 1)
          (child_seed REGULAR_SNARL 5 3 0 0 1) = true ↔
        forward_offset (child_seed REGULAR_SNARL 5 1 0 0 1)
            (child_seed REGULAR_SNARL 5 1 0 0 1).zipcode_decoder.max_depth
          < forward_offset (child_seed REGULAR_SNARL 5 3 0 0 1)
            (child_seed REGULAR_SNARL 5 1 0 0 1).zipcode_decoder.max_depth)) ∧
     (reversal_parity (child_seed REGULAR_SNARL 5 1 0 0 1).zipcode_decoder
        ((child_seed REGULAR_SNARL 5 1 0 0 1).zipcode_decoder.max_depth + 1) = true →
      (comparator fixture_index (child_seed REGULAR_SNARL 5 1 0 0 1)
          (child_seed REGULAR_SNARL 5 3 0 0 1) = true ↔
        forward_offset (child_seed REGULAR_SNARL 5 3 0 0 1)
            (child_seed REGULAR_SNARL 5 1 0 0 1).zipcode_decoder.max_depth
          < forward_offset (child_seed REGULAR_SNARL 5 1 0 0 1)
            (child_seed REGULAR_SNARL 5 1 0 0 1).zipcode_decoder.max_depth)) ∧
     (∀ (s : Seed) (depth : Nat), forward_offset s depth =
      if s.pos.is_rev then size_sub (size_sub (s.zipcode_decoder.get_length depth) s.pos.offset) 1
      else s.pos.offset)) ∧
    comparator fixture_index (child_seed REGULAR_SNARL 5 1 0 0 1)
      (child_seed REGULAR_SNARL 5 3 0 0 1) = true ∧
    comparator fixture_index (child_seed REGULAR_SNARL 5 3 0 0 1)
      (child_seed REGULAR_SNARL 5 1 0 0 1) = false :=
  ⟨comparator_same_node fixture_index (child_seed REGULAR_SNARL 5 1 0 0 1)
    (child_seed REGULAR_SNARL 5 3 0 0 1) (by decide) (by decide), by decide, by decide⟩

/-- C24: when the parent of the chain at `depth` is a regular snarl, the
distance items computed for a new child chain are, for every scratch list and
whatever the distance index and the seeds are, the distance to the snarl bound
for the entry of the snarl start and the maximum value `SIZE_MAX` for every
recorded sibling chain: the distance index is not consulted and the computation
does not fail. A chain that is opened with an empty scratch list of its own
appends these items in reverse order, followed by its CHAIN_START. -/
theorem regular_snarl_siblings_unreachable (D : SnarlDistanceIndex) (seeds : List Seed)
    (dec : ZipCodeDecoder) (current_is_reversed : Bool) (depth : Nat)
    (hpar : dec.get_code_type (size_pred depth) = REGULAR_SNARL) :
    (∀ l : List child_info_t,
      open_chain_edges D seeds dec current_is_reversed depth l =
        .ok (l.map (fun sibling =>
          if sibling.type = SNARL_START then
            ⟨EDGE, if current_is_reversed then dec.get_distance_to_snarl_end depth
              else dec.get_distance_to_snarl_start depth⟩
          else ⟨EDGE, SIZE_MAX⟩))) ∧
    (∀ (asserts : Bool) (current_seed : Seed) (seed_index : Nat) (st s : build_state)
      (l : List child_info_t), current_seed.zipcode_decoder = dec →
      dec.get_code_type depth = CHAIN →
      st.sibling_indices_at_depth.get? depth = some [] →
      st.sibling_indices_at_depth.get? (size_pred depth) = some l →
      open_chain D asserts seeds current_seed seed_index depth current_is_reversed st = .ok s →
      ∃ rest, s.zip_code_tree = st.zip_code_tree ++
        (l.map (fun sibling =>
          if sibling.type = SNARL_START then
            (⟨EDGE, if current_is_reversed then dec.get_distance_to_snarl_end depth
              else dec.get_distance_to_snarl_start depth⟩ : tree_item_t)
          else ⟨EDGE, SIZE_MAX⟩)).reverse ++ ⟨CHAIN_START, SIZE_MAX⟩ :: rest) := by
  have hedges : ∀ l : List child_info_t,
      open_chain_edges D seeds dec current_is_reversed depth l =
        .ok (l.map (fun sibling =>
          if sibling.type = SNARL_START then
            ⟨EDGE, if current_is_reversed then dec.get_distance_to_snarl_end depth
              else dec.get_distance_to_snarl_start depth⟩
          else ⟨EDGE, SIZE_MAX⟩)) := by
    intro l
    induction l with
    | nil => rfl
    | cons x l ih =>
      by_cases hx : x.type = SNARL_START
      · simp [open_chain_edges, hx, ih, bind, Except.bind, pure, Except.pure]
      · simp [open_chain_edges, hx, hpar, ih, bind, Except.bind, pure, Except.pure]
  refine ⟨hedges, ?_⟩
  intro asserts current_seed seed_index st s l hdec hty hown hparent h
  subst hdec
  cases current_is_reversed <;>
  simp only [open_chain, hty, vec_get, hown, hparent, hedges, bind, Except.bind, pure,
    Except.pure, List.length_nil, if_true] at h
  all_goals repeat' split at h
  all_goals (try (simp at h))
  all_goals (try subst h)
  all_goals first
    | contradiction
    | simp

/-- Witness of C24: the third child chain opened inside a regular snarl, after
two recorded sibling chains. -/
theorem regular_snarl_siblings_unreachable_witness :
    open_chain_edges metric_index regular_snarl_seeds
      (child_seed REGULAR_SNARL 6 3 4 0 2).zipcode_decoder false 2
      [⟨SNARL_START, SIZE_MAX⟩, ⟨CHAIN_START, 0⟩, ⟨CHAIN_START, 1⟩]
      = .ok [⟨EDGE, 4⟩, ⟨EDGE, SIZE_MAX⟩, ⟨EDGE, SIZE_MAX⟩] :=
  (regular_snarl_siblings_unreachable metric_index regular_snarl_seeds
    (child_seed REGULAR_SNARL 6 3 4 0 2).zipcode_decoder false 2 (by decide)).1
    [⟨SNARL_START, SIZE_MAX⟩, ⟨CHAIN_START, 0⟩, ⟨CHAIN_START, 1⟩]

/-- C26: a tick of the automaton on an item raises the unsupported-symbol error
exactly when the kind of the item is not among those the current state
handles; NODE_COUNT is handled by no state. -/
theorem tick_raises_iff_unhandled (zip_code_tree : List tree_item_t) (r : reverse_iterator)
    (item : tree_item_t) (hit : r.it ≠ 0)
    (hitem : zip_code_tree.get? (r.it - 1) = some item) :
    (tick zip_code_tree r = .error .domain_error ↔ handled r.current_state item.type = false) ∧
    (∀ s : State, handled s NODE_COUNT = false) := by
  refine ⟨?_, by intro s; cases s <;> rfl⟩
  unfold tick
  rw [if_neg hit, hitem]
  rcases r with ⟨it, limit, stack, state⟩
  simp only
  cases state <;> cases ht : item.type <;> simp only [handled, ht]
  all_goals simp only [Bool.true_eq_false, iff_false]
  all_goals
    repeat' first
      | exact pop_ne_domain _
      | exact top_ne_domain _
      | exact set_top_ne_domain _ _
      | exact dup_ne_domain _
      | exact reverse_ne_domain _ _
      | exact enter_chain_ne_domain _
      | (intro h; cases h; done)
      | apply bind_ne_domain
      | split
      | intro _

/-- Witness of C26 on the NODE_COUNT item of the store of three child chains,
met in state Stack-Snarl, and on the EDGE item before it. -/
theorem tick_raises_iff_unhandled_witness :
    ((tick three_chain_store ⟨28, 100, [0, 3], S_STACK_SNARL⟩ = .error .domain_error ↔
        handled S_STACK_SNARL NODE_COUNT = false) ∧
      (∀ s : State, handled s NODE_COUNT = false)) ∧
    tick three_chain_store ⟨28, 100, [0, 3], S_STACK_SNARL⟩ = .error .domain_error ∧
    tick three_chain_store ⟨27, 100, [0, 3], S_STACK_SNARL⟩
      = .ok (false, ⟨27, 100, [1, 3, 9], S_STACK_SNARL⟩) :=
  ⟨tick_raises_iff_unhandled three_chain_store ⟨28, 100, [0, 3], S_STACK_SNARL⟩
    ⟨NODE_COUNT, 3⟩ (by decide) rfl, by decide, by decide⟩

/-- C27: a tick of the automaton that returns reports a yield exactly when the
state is Scan-Chain and the item is a SEED, and then the iterator (position,
state and stack) is unchanged. In state Scan-Chain on a SEED the tick does
return, with a yield; in state Start on a SEED it pushes 0 and enters Scan-Chain
without a yield; in state Skip-Chain on a SEED it changes nothing and does not
yield. -/
theorem tick_yields_iff (zip_code_tree : List tree_item_t) (r : reverse_iterator)
    (item : tree_item_t) (hit : r.it ≠ 0)
    (hitem : zip_code_tree.get? (r.it - 1) = some item) :
    (∀ (b : Bool) (r1 : reverse_iterator), tick zip_code_tree r = .ok (b, r1) →
      (b = true ↔ r.current_state = S_SCAN_CHAIN ∧ item.type = SEED) ∧
      (b = true → r1 = r)) ∧
    (r.current_state = S_SCAN_CHAIN → item.type = SEED →
      tick zip_code_tree r = .ok (true, r)) ∧
    (r.current_state = S_START → item.type = SEED →
      tick zip_code_tree r = .ok (false, ⟨r.it, r.distance_limit, 0 :: r.stack, S_SCAN_CHAIN⟩)) ∧
    (r.current_state = S_SKIP_CHAIN → item.type = SEED →
      tick zip_code_tree r = .ok (false, r)) := by
  unfold tick
  rw [if_neg hit, hitem]
  rcases r with ⟨it, limit, stack, state⟩
  simp only
  refine ⟨?_, ?_, ?_, ?_⟩
  · intro b r1 h
    cases state <;> cases ht : item.type <;> simp only [ht] at h <;>
      simp [set_top, top, pop, dup, reverse, enter_chain, depth, halt, push,
        reverse_iterator.state, bind, Except.bind, pure, Except.pure] at h
    all_goals (repeat' split at h)
    all_goals simp_all
  · intro hs ht
    subst hs
    simp [ht]
  · intro hs ht
    subst hs
    simp [ht, push, reverse_iterator.state]
  · intro hs ht
    subst hs
    simp [ht]

/-- Witness of C27 on the three-node chain: the tick on SEED 1 in state
Scan-Chain yields and changes nothing. -/
theorem tick_yields_iff_witness :
    ((∀ (b : Bool) (r1 : reverse_iterator),
        tick chain_store ⟨4, 20, [1], S_SCAN_CHAIN⟩ = .ok (b, r1) →
        (b = true ↔ (⟨4, 20, [1], S_SCAN_CHAIN⟩ : reverse_iterator).current_state
            = S_SCAN_CHAIN ∧ (⟨SEED, 1⟩ : tree_item_t).type = SEED) ∧
        (b = true → r1 = ⟨4, 20, [1], S_SCAN_CHAIN⟩)) ∧
      ((⟨4, 20, [1], S_SCAN_CHAIN⟩ : reverse_iterator).current_state = S_SCAN_CHAIN →
        (⟨SEED, 1⟩ : tree_item_t).type = SEED →
        tick chain_store ⟨4, 20, [1], S_SCAN_CHAIN⟩ = .ok (true, ⟨4, 20, [1], S_SCAN_CHAIN⟩)) ∧
      ((⟨4, 20, [1], S_SCAN_CHAIN⟩ : reverse_iterator).current_state = S_START →
        (⟨SEED, 1⟩ : tree_item_t).type = SEED →
        tick chain_store ⟨4, 20, [1], S_SCAN_CHAIN⟩
          = .ok (false, ⟨4, 20, 0 :: [1], S_SCAN_CHAIN⟩)) ∧
      ((⟨4, 20, [1], S_SCAN_CHAIN⟩ : reverse_iterator).current_state = S_SKIP_CHAIN →
        (⟨SEED, 1⟩ : tree_item_t).type = SEED →
        tick chain_store ⟨4, 20, [1], S_SCAN_CHAIN⟩
          = .ok (false, ⟨4, 20, [1], S_SCAN_CHAIN⟩))) ∧
    tick chain_store ⟨4, 20, [1], S_SCAN_CHAIN⟩ = .ok (true, ⟨4, 20, [1], S_SCAN_CHAIN⟩) ∧
    tick chain_store ⟨6, 20, [], S_START⟩ = .ok (false, ⟨6, 20, [0], S_SCAN_CHAIN⟩) ∧
    tick chain_store ⟨4, 20, [0, 30, 7], S_SKIP_CHAIN⟩
      = .ok (false, ⟨4, 20, [0, 30, 7], S_SKIP_CHAIN⟩) :=
  ⟨tick_yields_iff chain_store ⟨4, 20, [1], S_SCAN_CHAIN⟩ ⟨SEED, 1⟩ (by decide) rfl,
    by decide, by decide, by decide⟩

/-- C28: let the store hold a CHAIN_END followed by the EDGE items that the
scan reads, in scan order, with the values `v1, ..., vk` (`k >= 1`), and let the
iterator stand on the first of them in state Stack-Snarl with the stack `R`,
`p`, `0` (0 on top). After the `k + 1` ticks on the EDGE items and the CHAIN_END
the stack is `R`, `p + vk`, ..., `p + v1` with `p + v1` on top, the counter and
`p` removed, the sums being `size_t` sums; the state is Scan-Chain if
`p + v1` is within the bound and otherwise Skip-Chain with a counter 0 pushed.
The sums are the exact sums whenever they do not overflow. -/
theorem stack_snarl_stages_accumulators (zip_code_tree pre post : List tree_item_t)
    (w distance_limit p v1 : Nat) (vs R : List Nat)
    (hstore : zip_code_tree
      = pre ++ [⟨CHAIN_END, w⟩] ++ (edge_items (v1 :: vs)).reverse ++ post)
    (hsize : (v1 :: vs).length < 2 ^ 64) :
    scan zip_code_tree ((v1 :: vs).length + 1)
        ⟨pre.length + 1 + (v1 :: vs).length, distance_limit, 0 :: p :: R, S_STACK_SNARL⟩
      = .ok (if size_add p v1 > distance_limit then
          ⟨pre.length, distance_limit,
            0 :: ((v1 :: vs).map (fun v => size_add p v) ++ R), S_SKIP_CHAIN⟩
        else
          ⟨pre.length, distance_limit, (v1 :: vs).map (fun v => size_add p v) ++ R,
            S_SCAN_CHAIN⟩) ∧
    ((∀ v ∈ v1 :: vs, p + v < 2 ^ 64) →
      (v1 :: vs).map (fun v => size_add p v) = (v1 :: vs).map (fun v => p + v)) := by
  constructor
  · have h := scan_stack_snarl zip_code_tree pre w distance_limit p (v1 :: vs) post 0 [] R
      hstore rfl (by omega)
    simp only [List.nil_append, List.reverse_nil] at h
    rw [h]
    simp only [List.map_cons, List.cons_append, enter_chain_eq, Except.bind]
    split_ifs <;> rfl
  · intro hv
    apply List.map_congr_left
    intro v hmem
    simp only [size_add]
    exact Nat.mod_eq_of_lt (hv v hmem)

/-- Witness of C28 on the store of three child chains with finite distances:
the scan leaves the second chain with accumulator 1, reads the entries 1 and 12
and the CHAIN_END of the first chain, and enters it with the stack 2, 13. -/
theorem stack_snarl_stages_accumulators_witness :
    (scan metric_store (([1, 12] : List Nat).length + 1)
        ⟨(metric_store.take 7).length + 1 + ([1, 12] : List Nat).length, 100, 0 :: 1 :: [],
          S_STACK_SNARL⟩
      = .ok (if size_add 1 1 > 100 then
          ⟨(metric_store.take 7).length, 100,
            0 :: (([1, 12] : List Nat).map (fun v => size_add 1 v) ++ []), S_SKIP_CHAIN⟩
        else
          ⟨(metric_store.take 7).length, 100,
            ([1, 12] : List Nat).map (fun v => size_add 1 v) ++ [], S_SCAN_CHAIN⟩) ∧
     ((∀ v ∈ ([1, 12] : List Nat), 1 + v < 2 ^ 64) →
      ([1, 12] : List Nat).map (fun v => size_add 1 v)
        = ([1, 12] : List Nat).map (fun v => 1 + v))) ∧
    scan metric_store 3 ⟨10, 100, [0, 1], S_STACK_SNARL⟩ = .ok ⟨7, 100, [2, 13], S_SCAN_CHAIN⟩ :=
  ⟨stack_snarl_stages_accumulators metric_store (metric_store.take 7) (metric_store.drop 10)
    SIZE_MAX 100 1 1 [12] [] (by decide) (by decide), by decide⟩

/-- C29: let the store hold a CHAIN_START followed by a run of items that, read
backward, is well nested, holds no NODE_COUNT and meets no CHAIN_START at
nesting level 0, and let the iterator stand on the last item of the run in state
Skip-Chain with the stack `R`, `n`, `c`, `0` (0 on top). The scan passes over
the whole run without yielding a seed and, at the CHAIN_START, pops the counter
and `c`: the stack is `R`, `n` and the state is Scan-Snarl. -/
theorem skip_chain_reaches_chain_start (zip_code_tree pre run post : List tree_item_t)
    (w distance_limit c n : Nat) (R : List Nat)
    (hstore : zip_code_tree = pre ++ [⟨CHAIN_START, w⟩] ++ run.reverse ++ post)
    (hrun : skip_level 0 run = some 0) (hsize : run.length + 1 < 2 ^ 64) :
    scan zip_code_tree (run.length + 1)
        ⟨pre.length + 1 + run.length, distance_limit, 0 :: c :: n :: R, S_SKIP_CHAIN⟩
      = .ok ⟨pre.length, distance_limit, n :: R, S_SCAN_SNARL⟩ :=
  scan_skip_chain zip_code_tree pre w distance_limit c n R run post 0 hstore hrun (by omega)

/-- Witness of C29 on the store of three child chains: the second chain (EDGE,
SEED, EDGE between its CHAIN_START and its CHAIN_END) is skipped. -/
theorem skip_chain_reaches_chain_start_witness :
    scan metric_store (([⟨EDGE, 1⟩, ⟨SEED, 1⟩, ⟨EDGE, 1⟩] : List tree_item_t).length + 1)
        ⟨(metric_store.take 10).length + 1
          + ([⟨EDGE, 1⟩, ⟨SEED, 1⟩, ⟨EDGE, 1⟩] : List tree_item_t).length, 3,
          0 :: 24 :: 14 :: [], S_SKIP_CHAIN⟩
      = .ok ⟨(metric_store.take 10).length, 3, 14 :: [], S_SCAN_SNARL⟩ ∧
    scan metric_store 4 ⟨14, 3, [0, 24, 14], S_SKIP_CHAIN⟩ = .ok ⟨10, 3, [14], S_SCAN_SNARL⟩ :=
  ⟨skip_chain_reaches_chain_start metric_store (metric_store.take 10)
    [⟨EDGE, 1⟩, ⟨SEED, 1⟩, ⟨EDGE, 1⟩] (metric_store.drop 14) SIZE_MAX 3 24 14 []
    (by decide) (by decide) (by decide), by decide⟩

/-- C25: whenever `operator++` returns it has moved the iterator strictly
towards `rend`, and a traversal started on the item at index `p` produces at
most as many pairs as there are SEED items before `p`. But the scan position
does pass `rend`: on the three-node chain with bound 0 the constructor of the
iterator, started on the last seed, calls `halt` at the first EDGE and then
increments the iterator, which already equals `rend`; with bound 3 the same
happens in `operator++` after one pair. -/
theorem backward_scan_passes_rend (zip_code_tree : List tree_item_t) (r : reverse_iterator)
    (p distance_limit : Nat) :
    (∀ r1, r.it ≠ 0 → operator_inc zip_code_tree r = .ok r1 → r1.it < r.it) ∧
    (backward_traversal_at zip_code_tree p distance_limit).1.length
      ≤ count_type SEED (zip_code_tree.take p) ∧
    mk_at chain_store 6 0 = .error .undefined_behaviour ∧
    operator_inc chain_store ⟨4, 3, [1], S_SCAN_CHAIN⟩ = .error .undefined_behaviour := by
  refine ⟨?_, ?_, by decide, by decide⟩
  · intro r1 h0 hinc
    simp only [operator_inc, if_neg h0] at hinc
    obtain ⟨hle, -, -⟩ := scan_spec zip_code_tree (r.it - 1) _ r1 (le_refl _) hinc
    simp only at hle
    omega
  · simp only [backward_traversal_at]
    split
    · simp
    · rename_i r0 hr0
      have hlt := mk_at_lt zip_code_tree (p + 1) distance_limit r0 hr0 (by omega)
      have h1 := backward_from_count zip_code_tree (zip_code_tree.length + 1) r0
      have h2 := count_type_take_le SEED zip_code_tree r0.it p (by omega)
      omega

/-- Witness of C25 on the three-node chain, bound 20, started on the last
seed: two pairs, two SEED items before the start, and the iterator moves from
base index 4 to base index 2. -/
theorem backward_scan_passes_rend_witness :
    ((∀ r1, (⟨4, 20, [1], S_SCAN_CHAIN⟩ : reverse_iterator).it ≠ 0 →
        operator_inc chain_store ⟨4, 20, [1], S_SCAN_CHAIN⟩ = .ok r1 →
        r1.it < (⟨4, 20, [1], S_SCAN_CHAIN⟩ : reverse_iterator).it) ∧
      (backward_traversal_at chain_store 5 20).1.length
        ≤ count_type SEED (chain_store.take 5) ∧
      mk_at chain_store 6 0 = .error .undefined_behaviour ∧
      operator_inc chain_store ⟨4, 3, [1], S_SCAN_CHAIN⟩ = .error .undefined_behaviour) ∧
    operator_inc chain_store ⟨4, 20, [1], S_SCAN_CHAIN⟩ = .ok ⟨2, 20, [5], S_SCAN_CHAIN⟩ ∧
    backward_traversal_at chain_store 5 20 = ([(1, 1), (0, 5)], none) ∧
    count_type SEED (chain_store.take 5) = 2 :=
  ⟨backward_scan_passes_rend chain_store ⟨4, 20, [1], S_SCAN_CHAIN⟩ 5 20, by decide, by decide,
    by decide⟩

/-- C30: on seeds whose addresses are consistent, the constructor returns a
store, and in every store it returns the item right after a root-level
CHAIN_START (one with no scope open before it: that of a root chain or of a
root node) is not an EDGE, while every child of a chain (every SEED and every
SNARL_START item) either comes right after a root-level CHAIN_START, or is
immediately preceded by exactly one EDGE item: an EDGE that follows an item
which is not an EDGE. The first child of a non-root chain is among the
latter, its EDGE following the CHAIN_START of that chain. -/
theorem children_preceded_by_one_edge (D : SnarlDistanceIndex) (seeds : List Seed)
    (seed_indices : List Nat) (hcons : consistent D seeds) (hne : seed_indices ≠ [])
    (hidx : ∀ i ∈ seed_indices, i < seeds.length) :
    (∃ t, build D false seeds seed_indices = .ok t) ∧
    (∀ (asserts : Bool) (t : List tree_item_t), build D asserts seeds seed_indices = .ok t →
      (∀ a v x b, t = a ++ ⟨CHAIN_START, v⟩ :: x :: b → match_brackets [] a = some [] →
        x.type ≠ EDGE) ∧
      (∀ a x b, t = a ++ x :: b → (x.type = SEED ∨ x.type = SNARL_START) →
        (∃ pre v, a = pre ++ [⟨CHAIN_START, v⟩] ∧ match_brackets [] pre = some []) ∨
        (∃ pre y v, a = pre ++ [y, ⟨EDGE, v⟩] ∧ y.type ≠ EDGE))) := by
  refine ⟨build_total D seeds seed_indices hcons hne hidx, ?_⟩
  intro asserts t h
  have hK := build_children D asserts seeds seed_indices hcons hne hidx t h
  exact ⟨hK.2, hK.1⟩

/-- Witness of C30 on four seeds, three of them on the three child chains of a
snarl of a root chain. -/
theorem children_preceded_by_one_edge_witness :
    (∃ t, build fixture_index false three_chain_seeds [0, 1, 2, 3] = .ok t) ∧
    (∀ (asserts : Bool) (t : List tree_item_t),
      build fixture_index asserts three_chain_seeds [0, 1, 2, 3] = .ok t →
      (∀ a v x b, t = a ++ ⟨CHAIN_START, v⟩ :: x :: b → match_brackets [] a = some [] →
        x.type ≠ EDGE) ∧
      (∀ a x b, t = a ++ x :: b → (x.type = SEED ∨ x.type = SNARL_START) →
        (∃ pre v, a = pre ++ [⟨CHAIN_START, v⟩] ∧ match_brackets [] pre = some []) ∨
        (∃ pre y v, a = pre ++ [y, ⟨EDGE, v⟩] ∧ y.type ≠ EDGE))) :=
  children_preceded_by_one_edge fixture_index three_chain_seeds [0, 1, 2, 3]
    (by unfold consistent address_ok; decide) (by decide) (by decide)

/-- C40: for a position whose offset is at most the node length `L` (a `size_t`
value), `reverse` keeps the id, negates the strand flag and sets the offset to
`L - offset`, and reversing twice gives the position back. -/
theorem reverse_is_involution (pos : pos_t) (node_length : Nat)
    (hoff : pos.offset ≤ node_length) (hlen : node_length < 2 ^ 64) :
    position.id (position.reverse pos node_length) = position.id pos ∧
    position.is_rev (position.reverse pos node_length) = !position.is_rev pos ∧
    position.offset (position.reverse pos node_length) = node_length - position.offset pos ∧
    position.reverse (position.reverse pos node_length) node_length = pos := by
  have h1 : size_sub node_length pos.offset = node_length - pos.offset :=
    size_sub_of_le node_length pos.offset hoff hlen
  have h2 : size_sub node_length (node_length - pos.offset) = pos.offset := by
    rw [size_sub_of_le node_length (node_length - pos.offset) (Nat.sub_le _ _) hlen]
    omega
  refine ⟨rfl, rfl, h1, ?_⟩
  cases pos with
  | mk i r o =>
    simp only [position.reverse, Bool.not_not, pos_t.mk.injEq, true_and]
    simp only at h1 h2
    rw [h1]
    exact h2

/-- Witness of C40: the position at offset 2 of the forward strand of a node of
length 6 is the position at offset 4 of the reverse strand. -/
theorem reverse_is_involution_witness :
    (position.id (position.reverse ⟨5, false, 2⟩ 6) = position.id ⟨5, false, 2⟩ ∧
     position.is_rev (position.reverse ⟨5, false, 2⟩ 6) = !position.is_rev ⟨5, false, 2⟩ ∧
     position.offset (position.reverse ⟨5, false, 2⟩ 6) = 6 - position.offset ⟨5, false, 2⟩ ∧
     position.reverse (position.reverse ⟨5, false, 2⟩ 6) 6 = ⟨5, false, 2⟩) ∧
    position.reverse ⟨5, false, 2⟩ 6 = ⟨5, true, 4⟩ :=
  ⟨reverse_is_involution ⟨5, false, 2⟩ 6 (by decide) (by decide), by decide⟩

/-- C38: on an empty seed collection the constructor does not complete: the
sorted index vector is empty, the main loop does nothing, and the final flush
reads `seed_indices.back()` of the empty vector, which is undefined. -/
theorem empty_seeds_read_back_of_empty_vector (D : SnarlDistanceIndex) (asserts : Bool) :
    sorted_seed_indices D [] = [] ∧
    add_seeds D asserts [] none [] ⟨[], []⟩ = .ok ⟨[], []⟩ ∧
    final_flush D [] [] ⟨[], []⟩ = .error .undefined_behaviour ∧
    construct D asserts [] = .error .undefined_behaviour := by
  refine ⟨rfl, rfl, rfl, rfl⟩

/-- C37: the stack can be empty when a tick reads its top. In state Stack-Snarl
with no Distance entry staged (the stack holds the counter 0 over one running
distance `p` and nothing else), the tick on a CHAIN_END drops `p`, pops the
counter, reverses nothing and then compares `top()` of the empty stack with the
bound: undefined behaviour, for every store and every bound. A run begun in
state Start on the seed of the second of two root nodes reaches this state: the
CHAIN_START of its root chain is met with one accumulator on the stack, and the
item before it is the CHAIN_END of the first root chain. -/
theorem stack_snarl_reads_top_of_empty_stack (zip_code_tree : List tree_item_t)
    (r : reverse_iterator) (item : tree_item_t) (p : Nat) (hit : r.it ≠ 0)
    (hitem : zip_code_tree.get? (r.it - 1) = some item) (hty : item.type = CHAIN_END)
    (hstate : r.current_state = S_STACK_SNARL) (hstack : r.stack = [0, p]) :
    tick zip_code_tree r = .error .undefined_behaviour ∧
    scan component_store 2 ⟨5, 100, [], S_START⟩ = .ok ⟨3, 100, [0, 0], S_STACK_SNARL⟩ ∧
    mk_at component_store 5 100 = .error .undefined_behaviour := by
  refine ⟨?_, by decide, by decide⟩
  unfold tick
  rw [if_neg hit, hitem]
  simp [hstate, hty, hstack, reverse, pop, enter_chain, top, bind, Except.bind]

/-- Witness of C37 on the store of two root nodes: the tick on the CHAIN_END of
the first root node, two items before the seed the run started on. -/
theorem stack_snarl_reads_top_of_empty_stack_witness :
    tick component_store ⟨3, 100, [0, 0], S_STACK_SNARL⟩ = .error .undefined_behaviour ∧
    scan component_store 2 ⟨5, 100, [], S_START⟩ = .ok ⟨3, 100, [0, 0], S_STACK_SNARL⟩ ∧
    mk_at component_store 5 100 = .error .undefined_behaviour :=
  stack_snarl_reads_top_of_empty_stack component_store ⟨3, 100, [0, 0], S_STACK_SNARL⟩
    ⟨CHAIN_END, SIZE_MAX⟩ 0 (by decide) (by decide) rfl rfl rfl

/-- C33: the in-node offset the constructor uses for a seed on a trivial chain
is not the bare-node formula. The offset used for a bare node (in
`child_offset`, at the last level) is the bare-node formula of the
specification, which compares the accumulated reversal flag with the strand
flag of the position; the offset used for a trivial chain tests the
accumulated flag alone. The two agree for a position on the forward strand; for
a position on the reverse strand the trivial-chain offset is the bare-node
offset of the opposite orientation. For the reverse-strand position at offset 1
of a node of length 6 that is a trivial chain, nothing reversed, the constructor
writes the Distance item 2 before the seed, where the bare-node formula gives
5. -/
theorem trivial_chain_offset_ignores_strand :
    (∀ (D : SnarlDistanceIndex) (s : Seed) (rev : Bool),
      ∃ offset_in_parent, child_offset D s s.zipcode_decoder.max_depth rev
        = D.sum offset_in_parent (bare_node_offset s s.zipcode_decoder.max_depth rev)) ∧
    (∀ (s : Seed) (depth : Nat) (rev : Bool), s.pos.is_rev = false →
      trivial_chain_offset s depth rev = bare_node_offset s depth rev) ∧
    (∀ (s : Seed) (depth : Nat) (rev : Bool), s.pos.is_rev = true →
      trivial_chain_offset s depth rev = bare_node_offset s depth (!rev)) ∧
    trivial_chain_offset (oriented_seed true 1 IRREGULAR_SNARL 0 0 5 false 3 4 1) 2 false = 2 ∧
    bare_node_offset (oriented_seed true 1 IRREGULAR_SNARL 0 0 5 false 3 4 1) 2 false = 5 ∧
    build fixture_index false [oriented_seed true 1 IRREGULAR_SNARL 0 0 5 false 3 4 1] [0] =
      .ok [⟨CHAIN_START, SIZE_MAX⟩, ⟨SNARL_START, SIZE_MAX⟩, ⟨EDGE, 3⟩,
        ⟨CHAIN_START, SIZE_MAX⟩, ⟨EDGE, 2⟩, ⟨SEED, 0⟩, ⟨EDGE, 4⟩, ⟨CHAIN_END, SIZE_MAX⟩,
        ⟨EDGE, 0⟩, ⟨EDGE, 12⟩, ⟨NODE_COUNT, 1⟩, ⟨SNARL_END, SIZE_MAX⟩,
        ⟨CHAIN_END, SIZE_MAX⟩] := by
  refine ⟨?_, ?_, ?_, by decide, by decide, by decide⟩
  · intro D s rev
    refine ⟨if s.zipcode_decoder.get_code_type s.zipcode_decoder.max_depth = ROOT_NODE then 0
      else if flip_if (s.zipcode_decoder.get_is_reversed_in_parent s.zipcode_decoder.max_depth)
          rev = true then
        D.minus (s.zipcode_decoder.get_length (size_pred s.zipcode_decoder.max_depth))
          (D.sum (s.zipcode_decoder.get_offset_in_chain s.zipcode_decoder.max_depth)
            (s.zipcode_decoder.get_length s.zipcode_decoder.max_depth))
      else s.zipcode_decoder.get_offset_in_chain s.zipcode_decoder.max_depth, ?_⟩
    simp only [child_offset, bare_node_offset, if_true]
  · intro s depth rev h
    cases rev <;> simp [trivial_chain_offset, bare_node_offset, h]
  · intro s depth rev h
    cases rev <;> simp [trivial_chain_offset, bare_node_offset, h]

/-- Witness of C33: the two formulas on a forward-strand and on a
reverse-strand position of a node of length 6. -/
theorem trivial_chain_offset_ignores_strand_witness :
    trivial_chain_offset (oriented_seed false 1 IRREGULAR_SNARL 0 0 5 false 3 4 1) 2 false
      = bare_node_offset (oriented_seed false 1 IRREGULAR_SNARL 0 0 5 false 3 4 1) 2 false ∧
    trivial_chain_offset (oriented_seed true 1 IRREGULAR_SNARL 0 0 5 false 3 4 1) 2 false
      = bare_node_offset (oriented_seed true 1 IRREGULAR_SNARL 0 0 5 false 3 4 1) 2 (!false) :=
  ⟨trivial_chain_offset_ignores_strand.2.1 _ 2 false rfl,
   trivial_chain_offset_ignores_strand.2.2.1 _ 2 false rfl⟩

/-- C39: the two Distance entries of a child chain of a snarl are not computed
at the same depth. When the chain is opened at depth `depth`, the entry towards
the snarl bound is the distance of the current seed to the snarl start (or end)
queried at `depth`, the depth of the chain. When the snarl at depth `depth` is
closed, the entry of a recorded child chain is the distance of its seed to the
snarl end (or start) queried at `depth` again, which is now the depth of the
snarl, one less than the depth of the chain. For a seed on a trivial chain at
depth 2 whose address answers 3 and 4 to the two queries at depth 2 and 7 and 8
at depth 1, the store holds 3 before the CHAIN_START and 8, not 4, before the
NODE_COUNT. -/
theorem snarl_close_queries_snarl_depth (D : SnarlDistanceIndex) (seeds : List Seed)
    (dec : ZipCodeDecoder) (is_reversed : Bool) (depth : Nat) (sibling : child_info_t)
    (rest : List child_info_t) (s : Seed) (es : List tree_item_t) :
    (sibling.type = SNARL_START →
      open_chain_edges D seeds dec is_reversed depth rest = .ok es →
      open_chain_edges D seeds dec is_reversed depth (sibling :: rest) =
        .ok (⟨EDGE, if is_reversed then dec.get_distance_to_snarl_end depth
          else dec.get_distance_to_snarl_start depth⟩ :: es)) ∧
    (sibling.type ≠ SNARL_START → seeds.get? sibling.value = some s →
      close_snarl_edges seeds dec is_reversed depth rest = .ok es →
      close_snarl_edges seeds dec is_reversed depth (sibling :: rest) =
        .ok (⟨EDGE, if is_reversed then s.zipcode_decoder.get_distance_to_snarl_start depth
          else s.zipcode_decoder.get_distance_to_snarl_end depth⟩ :: es)) ∧
    (∀ (st : build_state) (siblings : List child_info_t),
      is_snarl (dec.get_code_type depth) = true →
      st.sibling_indices_at_depth.get? depth = some siblings →
      close_snarl_edges seeds dec is_reversed depth siblings = .ok es →
      close_scope D seeds dec is_reversed depth st =
        .ok (st.zip_code_tree ++ es.reverse ++
          [⟨NODE_COUNT, size_sub siblings.length 1⟩, ⟨SNARL_END, SIZE_MAX⟩])) ∧
    (oriented_seed false 1 IRREGULAR_SNARL 7 8 5 false 3 4 1).zipcode_decoder.get_distance_to_snarl_start 2 = 3 ∧
    (oriented_seed false 1 IRREGULAR_SNARL 7 8 5 false 3 4 1).zipcode_decoder.get_distance_to_snarl_end 2 = 4 ∧
    (oriented_seed false 1 IRREGULAR_SNARL 7 8 5 false 3 4 1).zipcode_decoder.get_distance_to_snarl_end 1 = 8 ∧
    build fixture_index false [oriented_seed false 1 IRREGULAR_SNARL 7 8 5 false 3 4 1] [0] =
      .ok [⟨CHAIN_START, SIZE_MAX⟩, ⟨SNARL_START, SIZE_MAX⟩, ⟨EDGE, 3⟩,
        ⟨CHAIN_START, SIZE_MAX⟩, ⟨EDGE, 2⟩, ⟨SEED, 0⟩, ⟨EDGE, 4⟩, ⟨CHAIN_END, SIZE_MAX⟩,
        ⟨EDGE, 8⟩, ⟨EDGE, 12⟩, ⟨NODE_COUNT, 1⟩, ⟨SNARL_END, SIZE_MAX⟩,
        ⟨CHAIN_END, SIZE_MAX⟩] := by
  refine ⟨?_, ?_, ?_, by decide, by decide, by decide, by decide⟩
  · intro hty hrest
    simp [open_chain_edges, hty, hrest, bind, Except.bind, pure, Except.pure]
  · intro hty hs hrest
    rw [List.get?_eq_getElem?] at hs
    simp [close_snarl_edges, hty, hs, hrest, vec_get, bind, Except.bind, pure, Except.pure]
  · intro st siblings hty hsib hedges
    have h1 : ¬ (dec.get_code_type depth = CHAIN ∨ dec.get_code_type depth = ROOT_CHAIN ∨
        dec.get_code_type depth = ROOT_NODE) := by
      cases h : dec.get_code_type depth <;> simp_all [is_snarl]
    have h2 : dec.get_code_type depth = REGULAR_SNARL ∨
        dec.get_code_type depth = IRREGULAR_SNARL := by
      cases h : dec.get_code_type depth <;> simp_all [is_snarl]
    simp only [close_scope, if_neg h1, if_pos h2, vec_get, hsib, hedges, bind, Except.bind,
      pure, Except.pure]

/-- Witness of C39: the entry computed when the snarl at depth 1 of the seed on
a trivial chain is closed is the answer 8 of depth 1. -/
theorem snarl_close_queries_snarl_depth_witness :
    close_snarl_edges [oriented_seed false 1 IRREGULAR_SNARL 7 8 5 false 3 4 1]
      (oriented_seed false 1 IRREGULAR_SNARL 7 8 5 false 3 4 1).zipcode_decoder false 1
      (⟨CHAIN_START, 0⟩ :: []) = .ok (⟨EDGE, if false then 7 else 8⟩ :: []) :=
  (snarl_close_queries_snarl_depth fixture_index
    [oriented_seed false 1 IRREGULAR_SNARL 7 8 5 false 3 4 1]
    (oriented_seed false 1 IRREGULAR_SNARL 7 8 5 false 3 4 1).zipcode_decoder false 1
    ⟨CHAIN_START, 0⟩ [] (oriented_seed false 1 IRREGULAR_SNARL 7 8 5 false 3 4 1) []).2.1
    (by decide) rfl rfl

/-- C36: the comparator is irreflexive but not asymmetric. For two seeds whose
addresses first differ at a depth `d > 0` under a common regular snarl, each
call tests the orientation flag accumulated for its own first argument over the
depths `0 .. d`; when that flag is true for `A` and false for `B` (the two child
chains differ in `is_reversed_in_parent` at depth `d`) and the forward offset of
`A` is the smaller, both `comp(A, B)` and `comp(B, A)` are true. -/
theorem comparator_not_asymmetric (D : SnarlDistanceIndex) (A B : Seed) (d : Nat)
    (hd : 0 < d) (hda : d ≤ A.zipcode_decoder.max_depth) (hdb : d ≤ B.zipcode_decoder.max_depth)
    (heq : ∀ e, e < d → D.is_equal A.zipcode_decoder B.zipcode_decoder e = true)
    (heq1 : ∀ e, e < d → D.is_equal B.zipcode_decoder A.zipcode_decoder e = true)
    (hne : D.is_equal A.zipcode_decoder B.zipcode_decoder d = false)
    (hne1 : D.is_equal B.zipcode_decoder A.zipcode_decoder d = false)
    (hpar : A.zipcode_decoder.get_code_type (d - 1) = REGULAR_SNARL)
    (hpar1 : B.zipcode_decoder.get_code_type (d - 1) = REGULAR_SNARL)
    (hflag : reversal_parity A.zipcode_decoder (d + 1) = true)
    (hflag1 : reversal_parity B.zipcode_decoder (d + 1) = false)
    (hoff : forward_offset A d < forward_offset B d) :
    comparator D A A = false ∧ comparator D B B = false ∧
    comparator D A B = true ∧ comparator D B A = true := by
  obtain ⟨hstop, hf⟩ := comparator_flag D A.zipcode_decoder B.zipcode_decoder d hda hdb heq
    (Or.inr (Or.inr hne))
  obtain ⟨hstop1, hf1⟩ := comparator_flag D B.zipcode_decoder A.zipcode_decoder d hdb hda heq1
    (Or.inr (Or.inr hne1))
  have hd0 : d ≠ 0 := by omega
  rw [hflag] at hf
  rw [hflag1] at hf1
  refine ⟨comparator_irrefl D A, comparator_irrefl D B, ?_, ?_⟩
  · simp [comparator, hstop, hne, hd0, hf, hpar, hoff]
  · simp [comparator, hstop1, hne1, hd0, hf1, hpar1, hoff]

/-- Witness of C36: two forward seeds on two child chains of a regular snarl,
at the node offsets 1 and 3, the chain of the first reversed in the snarl and
that of the second not. Each is put before the other. -/
theorem comparator_not_asymmetric_witness :
    comparator fixture_index (oriented_seed false 1 REGULAR_SNARL 0 0 5 true 0 0 1)
      (oriented_seed false 1 REGULAR_SNARL 0 0 5 true 0 0 1) = false ∧
    comparator fixture_index (oriented_seed false 3 REGULAR_SNARL 0 0 6 false 0 0 2)
      (oriented_seed false 3 REGULAR_SNARL 0 0 6 false 0 0 2) = false ∧
    comparator fixture_index (oriented_seed false 1 REGULAR_SNARL 0 0 5 true 0 0 1)
      (oriented_seed false 3 REGULAR_SNARL 0 0 6 false 0 0 2) = true ∧
    comparator fixture_index (oriented_seed false 3 REGULAR_SNARL 0 0 6 false 0 0 2)
      (oriented_seed false 1 REGULAR_SNARL 0 0 5 true 0 0 1) = true :=
  comparator_not_asymmetric fixture_index (oriented_seed false 1 REGULAR_SNARL 0 0 5 true 0 0 1)
    (oriented_seed false 3 REGULAR_SNARL 0 0 6 false 0 0 2) 2 (by decide) (by decide)
    (by decide) (by decide) (by decide) (by decide) (by decide) (by decide) (by decide)
    (by decide) (by decide) (by decide)

/-- C34: the flag with which a snarl is closed is not the accumulated reversal
at its depth. Both close loops hand the flag from depth `depth + 1` down to
`depth` by flipping it on `is_reversed_in_parent(depth)`, where leaving level
`depth + 1` calls for a flip on `is_reversed_in_parent(depth + 1)`: started
with the right flag at `depth + 1`, an iteration leaves the right flag for
`depth` exactly when the two levels have the same `is_reversed_in_parent`. For
the seed on a trivial chain (depth 2) that is reversed in its snarl (depth 1),
nothing else reversed, the accumulated reversal at depth 1 is false, but the
final flush closes the snarl with the flag true: the entry of the child chain
is its distance 7 to the snarl start, not its distance 8 to the snarl end. -/
theorem snarl_close_flag_off_by_one (D : SnarlDistanceIndex) (seeds : List Seed)
    (last : ZipCodeDecoder) (depth : Nat) (st : build_state) (s : build_state × Bool) :
    (flush_depth D seeds last (depth + 1) (st, reversal_parity last (depth + 2)) = .ok s →
      (s.2 = reversal_parity last (depth + 1) ↔
        last.get_is_reversed_in_parent depth = last.get_is_reversed_in_parent (depth + 1))) ∧
    (close_depth D seeds last (depth + 1) (st, reversal_parity last (depth + 2)) = .ok s →
      (s.2 = reversal_parity last (depth + 1) ↔
        last.get_is_reversed_in_parent depth = last.get_is_reversed_in_parent (depth + 1))) ∧
    reversal_parity
      (oriented_seed false 1 IRREGULAR_SNARL 7 8 5 true 3 4 1).zipcode_decoder (1 + 1) = false ∧
    close_snarl_edges [oriented_seed false 1 IRREGULAR_SNARL 7 8 5 true 3 4 1]
      (oriented_seed false 1 IRREGULAR_SNARL 7 8 5 true 3 4 1).zipcode_decoder false 1
      [⟨SNARL_START, SIZE_MAX⟩, ⟨CHAIN_START, 0⟩] = .ok [⟨EDGE, 12⟩, ⟨EDGE, 8⟩] ∧
    close_snarl_edges [oriented_seed false 1 IRREGULAR_SNARL 7 8 5 true 3 4 1]
      (oriented_seed false 1 IRREGULAR_SNARL 7 8 5 true 3 4 1).zipcode_decoder true 1
      [⟨SNARL_START, SIZE_MAX⟩, ⟨CHAIN_START, 0⟩] = .ok [⟨EDGE, 12⟩, ⟨EDGE, 7⟩] ∧
    build fixture_index false [oriented_seed false 1 IRREGULAR_SNARL 7 8 5 true 3 4 1] [0] =
      .ok [⟨CHAIN_START, SIZE_MAX⟩, ⟨SNARL_START, SIZE_MAX⟩, ⟨EDGE, 4⟩,
        ⟨CHAIN_START, SIZE_MAX⟩, ⟨EDGE, 5⟩, ⟨SEED, 0⟩, ⟨EDGE, 1⟩, ⟨CHAIN_END, SIZE_MAX⟩,
        ⟨EDGE, 7⟩, ⟨EDGE, 12⟩, ⟨NODE_COUNT, 1⟩, ⟨SNARL_END, SIZE_MAX⟩,
        ⟨CHAIN_END, SIZE_MAX⟩] := by
  have key : (flip_if (decide (depth + 1 > 0) && last.get_is_reversed_in_parent (depth + 1 - 1))
        (reversal_parity last (depth + 2)) = reversal_parity last (depth + 1) ↔
      last.get_is_reversed_in_parent depth = last.get_is_reversed_in_parent (depth + 1)) := by
    rw [reversal_parity_succ last (depth + 1), Nat.add_sub_cancel]
    generalize last.get_is_reversed_in_parent depth = x
    generalize last.get_is_reversed_in_parent (depth + 1) = y
    generalize reversal_parity last (depth + 1) = z
    cases x <;> cases y <;> cases z <;> simp [flip_if]
  refine ⟨?_, ?_, by decide, by decide, by decide, by decide⟩
  · intro h
    simp only [flush_depth, bind, Except.bind, pure, Except.pure] at h
    repeat' split at h
    all_goals (try (simp at h; done))
    all_goals simp only [Except.ok.injEq] at h
    all_goals subst h
    all_goals exact key
  · intro h
    simp only [close_depth, bind, Except.bind, pure, Except.pure] at h
    repeat' split at h
    all_goals (try (simp at h; done))
    all_goals simp only [Except.ok.injEq] at h
    all_goals subst h
    all_goals exact key

/-- Witness of C34: the iteration of the final flush at depth 2 of the seed on
a chain reversed in its snarl starts with the right flag (true) and leaves the
flag true for the snarl at depth 1, whose accumulated reversal is false. -/
theorem snarl_close_flag_off_by_one_witness :
    flush_depth fixture_index [oriented_seed false 1 IRREGULAR_SNARL 7 8 5 true 3 4 1]
      (oriented_seed false 1 IRREGULAR_SNARL 7 8 5 true 3 4 1).zipcode_decoder (1 + 1)
      (⟨[], [[], [], []]⟩, reversal_parity
        (oriented_seed false 1 IRREGULAR_SNARL 7 8 5 true 3 4 1).zipcode_decoder (1 + 2))
      = .ok (⟨[], [[], [], []]⟩, true) ∧
    ((true = reversal_parity
        (oriented_seed false 1 IRREGULAR_SNARL 7 8 5 true 3 4 1).zipcode_decoder (1 + 1)) ↔
      (oriented_seed false 1 IRREGULAR_SNARL 7 8 5 true 3 4 1
        ).zipcode_decoder.get_is_reversed_in_parent 1 =
      (oriented_seed false 1 IRREGULAR_SNARL 7 8 5 true 3 4 1
        ).zipcode_decoder.get_is_reversed_in_parent (1 + 1)) :=
  ⟨by decide,
   (snarl_close_flag_off_by_one fixture_index
    [oriented_seed false 1 IRREGULAR_SNARL 7 8 5 true 3 4 1]
    (oriented_seed false 1 IRREGULAR_SNARL 7 8 5 true 3 4 1).zipcode_decoder 1
    ⟨[], [[], [], []]⟩ (⟨[], [[], [], []]⟩, true)).1 (by decide)⟩

/-- C35: whenever the constructor of the reverse iterator returns, and
whenever `operator++` returns on an iterator whose stack is not empty in the
scanning states (as it is after the constructor and after every `operator++`),
the iterator equals `rend` or points at a SEED item in state Scan-Chain with a
non-empty stack, for every store, start and bound. But they do not always
return with the iterator in its range: on the three-node chain the constructor
started on the second seed with bound 2, and `operator++` after the pair the
constructor started on the third seed with bound 1 has stopped at, call `halt`
at an EDGE and then increment the iterator, which already equals `rend`. -/
theorem deref_checks_hold_unless_halted (zip_code_tree : List tree_item_t)
    (it distance_limit : Nat) (r r1 : reverse_iterator) :
    (mk_at zip_code_tree it distance_limit = .ok r1 →
      deref_checks zip_code_tree r1 ∧ stack_ready r1) ∧
    (stack_ready r → operator_inc zip_code_tree r = .ok r1 →
      deref_checks zip_code_tree r1 ∧ stack_ready r1) ∧
    mk_at chain_store 4 2 = .error .undefined_behaviour ∧
    mk_at chain_store 6 1 = .ok ⟨4, 1, [1], S_SCAN_CHAIN⟩ ∧
    operator_inc chain_store ⟨4, 1, [1], S_SCAN_CHAIN⟩ = .error .undefined_behaviour := by
  refine ⟨?_, ?_, by decide, by decide, by decide⟩
  · intro h
    have hr : stack_ready ⟨it, distance_limit, [], S_START⟩ := by
      intro hs
      rcases hs with hs | hs <;> cases hs
    exact ⟨scan_deref_checks zip_code_tree it _ r1 (le_refl _) hr h,
      scan_stack_ready zip_code_tree it _ r1 hr h⟩
  · intro hr h
    unfold operator_inc at h
    split_ifs at h with h0
    · simp only [scan] at h
      cases h
      exact ⟨Or.inl h0, hr⟩
    · have hr1 : stack_ready ⟨r.it - 1, r.distance_limit, r.stack, r.current_state⟩ := hr
      exact ⟨scan_deref_checks zip_code_tree (r.it - 1)
          ⟨r.it - 1, r.distance_limit, r.stack, r.current_state⟩ r1 (le_refl _) hr1 h,
        scan_stack_ready zip_code_tree (r.it - 1)
          ⟨r.it - 1, r.distance_limit, r.stack, r.current_state⟩ r1 hr1 h⟩

/-- Witness of C35 on the three-node chain: the constructor started on the
third seed with bound 1 stops on the second seed with the distance 1 on the
stack. -/
theorem deref_checks_hold_unless_halted_witness :
    mk_at chain_store 6 1 = .ok ⟨4, 1, [1], S_SCAN_CHAIN⟩ ∧
    deref_checks chain_store ⟨4, 1, [1], S_SCAN_CHAIN⟩ ∧
    stack_ready ⟨4, 1, [1], S_SCAN_CHAIN⟩ :=
  ⟨by decide,
   (deref_checks_hold_unless_halted chain_store 6 1 ⟨6, 1, [], S_START⟩
      ⟨4, 1, [1], S_SCAN_CHAIN⟩).1 (by decide)⟩

/-- C32: when the open loop has opened a child (a node or a snarl) at depth `d`
of a chain, the scratch list of the chain holds the value recorded for it, the
offset of the child in the chain for a seed and that offset plus (`sum`) the
length of the snarl for a snarl; when the scratch list still holds that entry
and the main loop comes to a seed whose address stops agreeing with the
previous one at depth `d`, on a node or a snarl, it closes what is open below
the chain and then writes an EDGE whose value is the offset of the new child in
the chain minus (a `size_t` subtraction) the recorded value, followed by the
item of the new child; for two seeds on one node traversed along their strand
the value is the difference of their offsets in the node. -/
theorem edge_between_chain_children (D : SnarlDistanceIndex) (asserts : Bool)
    (seeds : List Seed) (c1 c2 p : Seed) (idx1 idx2 j d : Nat) (rev1 rev2 : Bool)
    (st0 st s : build_state) (s1 : build_state × Bool) (x0 : child_info_t)
    (hd : 0 < d)
    (hty1 : c1.zipcode_decoder.get_code_type d = NODE ∨
      is_snarl (c1.zipcode_decoder.get_code_type d) = true)
    (hx0 : st0.sibling_indices_at_depth[d - 1]? = some [x0])
    (h1 : open_depth D asserts seeds c1 idx1 d (st0, rev1) = .ok s1)
    (hkeep : st.sibling_indices_at_depth[d - 1]? = s1.1.sibling_indices_at_depth[d - 1]?)
    (hgetc : seeds[idx2]? = some c2) (hgetp : seeds[j]? = some p)
    (hfd : (first_different_ancestor D false c2.zipcode_decoder
      p.zipcode_decoder).first_different_ancestor_depth = d)
    (hrev : (first_different_ancestor D false c2.zipcode_decoder
      p.zipcode_decoder).current_is_reversed = rev2)
    (hty2 : c2.zipcode_decoder.get_code_type d = NODE ∨
      is_snarl (c2.zipcode_decoder.get_code_type d) = true)
    (h2 : add_seed D asserts seeds (some j) idx2 st = .ok s) :
    s1.1.sibling_indices_at_depth[d - 1]? = some [⟨SEED, recorded_offset D c1 d rev1⟩] ∧
    (c1.zipcode_decoder.get_code_type d = NODE →
      recorded_offset D c1 d rev1 = child_offset D c1 d rev1) ∧
    (is_snarl (c1.zipcode_decoder.get_code_type d) = true →
      recorded_offset D c1 d rev1 =
        D.sum (child_offset D c1 d rev1) (c1.zipcode_decoder.get_length d)) ∧
    (∃ closed rest,
      s.zip_code_tree = st.zip_code_tree ++ closed ++
        [⟨EDGE, size_sub (child_offset D c2 d rev2) (recorded_offset D c1 d rev1)⟩,
         if c2.zipcode_decoder.get_code_type d = NODE then ⟨SEED, idx2⟩
          else ⟨SNARL_START, SIZE_MAX⟩] ++ rest ∧
      (∀ y ∈ closed, y.type = EDGE ∨ y.type = CHAIN_END ∨ y.type = NODE_COUNT ∨
        y.type = SNARL_END)) ∧
    s.sibling_indices_at_depth[d - 1]? = some [⟨SEED, recorded_offset D c2 d rev2⟩] ∧
    (forward_on_one_node D c1 c2 d rev1 rev2 → c1.pos.offset ≤ c2.pos.offset →
      size_sub (child_offset D c2 d rev2) (recorded_offset D c1 d rev1) =
        c2.pos.offset - c1.pos.offset) := by
  have hrec := (open_depth_child_exact D asserts seeds c1 idx1 d rev1 st0 x0 s1 hd hty1 hx0 h1).2
  have hx : st.sibling_indices_at_depth[d - 1]? =
      some [(⟨SEED, recorded_offset D c1 d rev1⟩ : child_info_t)] := hkeep.trans hrec
  have hxt : (⟨SEED, recorded_offset D c1 d rev1⟩ : child_info_t).type ≠ CHAIN_START := by
    simp
  refine ⟨hrec, ?_, ?_, ?_⟩
  · intro h
    rw [recorded_offset, if_pos (Or.inl h)]
  · intro h
    have hn : ¬ (c1.zipcode_decoder.get_code_type d = NODE ∨
        c1.zipcode_decoder.get_code_type d = ROOT_NODE) := by
      rintro (h3 | h3) <;> rw [h3] at h <;> cases h
    rw [recorded_offset, if_neg hn]
  · subst hfd
    subst hrev
    cases hsame : (first_different_ancestor D false c2.zipcode_decoder
        p.zipcode_decoder).same_node
    · obtain ⟨⟨closed, rest, ht, hall⟩, hsib⟩ := add_seed_next_edge D asserts seeds c2 p idx2 j
        st s _ hgetc hgetp hsame hd hty2 hx hxt h2
      exact ⟨⟨closed, rest, ht, hall⟩, hsib, forward_node_edge D c1 c2 _ rev1 _⟩
    · obtain ⟨⟨rest, ht⟩, hsib⟩ := add_seed_same_edge D asserts seeds c2 p idx2 j
        st s _ hgetc hgetp hsame hd hty2 hx hxt h2
      refine ⟨⟨[], rest, ?_, ?_⟩, hsib, forward_node_edge D c1 c2 _ rev1 _⟩
      · rw [ht, List.append_nil]
      · intro y hy
        cases hy

/-- Witness of C32: on the two seeds at offsets 1 and 3 of one node, at offset 4
of a root chain, opening the first seed records 4 + 1 + 1 = 6 for it, and the
main loop on the second seed writes an EDGE of value 8 - 6 = 3 - 1. -/
theorem edge_between_chain_children_witness :
    open_depth fixture_index true node_pair_seeds node_pair_first 0 1
      (⟨[⟨CHAIN_START, SIZE_MAX⟩], [[⟨CHAIN_START, 0⟩], []]⟩, false) =
      .ok (⟨[⟨CHAIN_START, SIZE_MAX⟩, ⟨SEED, 0⟩], [[⟨SEED, 6⟩], []]⟩, false) ∧
    add_seed fixture_index true node_pair_seeds (some 0) 1
      ⟨[⟨CHAIN_START, SIZE_MAX⟩, ⟨SEED, 0⟩], [[⟨SEED, 6⟩], []]⟩ =
      .ok ⟨[⟨CHAIN_START, SIZE_MAX⟩, ⟨SEED, 0⟩, ⟨EDGE, 2⟩, ⟨SEED, 1⟩], [[⟨SEED, 8⟩], []]⟩ ∧
    size_sub (child_offset fixture_index node_pair_second 1 false)
      (recorded_offset fixture_index node_pair_first 1 false) = 3 - 1 :=
  ⟨by decide, by decide,
   (edge_between_chain_children fixture_index true node_pair_seeds node_pair_first
      node_pair_second node_pair_first 0 1 0 1 false false
      ⟨[⟨CHAIN_START, SIZE_MAX⟩], [[⟨CHAIN_START, 0⟩], []]⟩
      ⟨[⟨CHAIN_START, SIZE_MAX⟩, ⟨SEED, 0⟩], [[⟨SEED, 6⟩], []]⟩
      ⟨[⟨CHAIN_START, SIZE_MAX⟩, ⟨SEED, 0⟩, ⟨EDGE, 2⟩, ⟨SEED, 1⟩], [[⟨SEED, 8⟩], []]⟩
      (⟨[⟨CHAIN_START, SIZE_MAX⟩, ⟨SEED, 0⟩], [[⟨SEED, 6⟩], []]⟩, false)
      ⟨CHAIN_START, 0⟩ (by decide) (by decide) (by decide) (by decide) (by decide) rfl
      rfl (by decide) (by decide) (by decide) (by decide)).2.2.2.2.2
    (by unfold forward_on_one_node; decide) (by decide)⟩

/-- C31: in every store the constructor returns for consistent addresses, a
CHAIN_START that opens a child chain of a snarl in which `k` child chains were
opened before it (it is child chain number `k + 1`) is immediately preceded by
exactly `k + 1` EDGE items: the item before them is not an EDGE. The step that
opens a new child chain writes one EDGE for each entry of the scratch list `l`
of the snarl, the EDGE of entry `i` at place `l.length - 1 - i` of the run, so
that the EDGE of entry 0 is adjacent to the CHAIN_START and the EDGE of the
last entry is farthest from it, and then appends the entry of the new chain to
the scratch list; the EDGE of a SNARL_START entry is the distance of the seed
to the start bound of the snarl (to the end bound when traversed in reverse).
Opening a snarl puts the SNARL_START entry first in its scratch list, so entry
0 is the start bound and the later entries are the child chains in the order
they were opened. -/
theorem child_chain_start_preceded_by_edges (D : SnarlDistanceIndex) (asserts : Bool)
    (seeds : List Seed) (seed_indices : List Nat) (hcons : consistent D seeds)
    (hidx : ∀ i ∈ seed_indices, i < seeds.length) (t : List tree_item_t)
    (h : build D asserts seeds seed_indices = .ok t) :
    (∀ a v b k outer, t = a ++ ⟨CHAIN_START, v⟩ :: b →
      open_frames [] a = some (frame.snarl k :: outer) →
      ∃ pre y es, a = pre ++ [y] ++ es ∧ y.type ≠ EDGE ∧ (∀ e ∈ es, e.type = EDGE) ∧
        es.length = k + 1) ∧
    (∀ (c : Seed) (idx d : Nat) (rev : Bool) (st s : build_state) (l : List child_info_t),
      0 < d → c.zipcode_decoder.get_code_type d = CHAIN →
      st.sibling_indices_at_depth[d]? = some [] →
      st.sibling_indices_at_depth[d - 1]? = some l →
      open_chain D asserts seeds c idx d rev st = .ok s →
      ∃ es, open_chain_edges D seeds c.zipcode_decoder rev d l = .ok es ∧
        es.length = l.length ∧
        s.zip_code_tree = st.zip_code_tree ++ es.reverse ++ [⟨CHAIN_START, SIZE_MAX⟩] ++
          (if d = c.zipcode_decoder.max_depth
            then [⟨EDGE, size_sub (trivial_chain_offset c d rev) 0⟩, ⟨SEED, idx⟩] else []) ∧
        s.sibling_indices_at_depth[d - 1]? = some (l ++ [⟨CHAIN_START, idx⟩]) ∧
        (∀ (i : Nat) (x : child_info_t), l[i]? = some x →
          ∃ e, es.reverse[l.length - 1 - i]? = some e ∧
            open_chain_edges D seeds c.zipcode_decoder rev d [x] = .ok [e] ∧
            (x.type = SNARL_START →
              e = ⟨EDGE, if rev then c.zipcode_decoder.get_distance_to_snarl_end d
                else c.zipcode_decoder.get_distance_to_snarl_start d⟩))) ∧
    (∀ (c : Seed) (idx d : Nat) (rev : Bool) (st s : build_state) (x : child_info_t),
      0 < d → is_snarl (c.zipcode_decoder.get_code_type d) = true →
      st.sibling_indices_at_depth[d - 1]? = some [x] →
      st.sibling_indices_at_depth[d]? = some [] →
      open_node_or_snarl D asserts c idx d rev st = .ok s →
      s.sibling_indices_at_depth[d]? = some [⟨SNARL_START, SIZE_MAX⟩]) := by
  refine ⟨build_frames D asserts seeds seed_indices hcons hidx t h, ?_, ?_⟩
  · intro c idx d rev st s l hd hty hown hl hs
    obtain ⟨es, hes, ht, hsib, -, -⟩ := open_chain_exact D asserts seeds c idx d rev st s l hd
      hty hown hl hs
    obtain ⟨hlen, -⟩ := open_chain_edges_shape D seeds c.zipcode_decoder rev d l es hes
    refine ⟨es, hes, hlen, ht, hsib, ?_⟩
    intro i x hx
    obtain ⟨e, he, hone⟩ := open_chain_edges_get D seeds c.zipcode_decoder rev d l es hes i x hx
    refine ⟨e, ?_, hone, ?_⟩
    · rw [← hlen]
      exact getElem?_reverse_of_getElem? es i e he
    · intro hxt
      simp only [open_chain_edges, hxt, if_true, bind, Except.bind, pure, Except.pure,
        Except.ok.injEq, List.cons.injEq, and_true] at hone
      exact hone.symm
  · intro c idx d rev st s x hd hty hx hown hs
    have hnr : c.zipcode_decoder.get_code_type d ≠ ROOT_NODE := by
      intro h1; rw [h1] at hty; cases hty
    obtain ⟨-, -, -, h4⟩ := open_node_or_snarl_exact D asserts c idx d rev st x s hd hnr hx hs
    rw [if_neg (snarl_not_node hty)] at h4
    obtain ⟨l, hl, hl1⟩ := h4
    rw [hown] at hl
    simp only [Option.some.injEq] at hl
    subst hl
    exact hl1

/-- Witness of C31 on the snarl with three child chains: the CHAIN_START of
the third child chain (item 18 of the store) comes after three EDGE items. -/
theorem child_chain_start_preceded_by_edges_witness :
    build fixture_index false three_chain_seeds [0, 1, 2, 3] = .ok three_chain_store ∧
    open_frames [] (three_chain_store.take 18) = some [frame.snarl 2, frame.chain] ∧
    ∃ pre y es, three_chain_store.take 18 = pre ++ [y] ++ es ∧ y.type ≠ EDGE ∧
      (∀ e ∈ es, e.type = EDGE) ∧ es.length = 2 + 1 :=
  ⟨by decide, by decide,
   (child_chain_start_preceded_by_edges fixture_index false three_chain_seeds [0, 1, 2, 3]
      (by unfold consistent address_ok; decide) (by decide) three_chain_store
      (by decide)).1 (three_chain_store.take 18) SIZE_MAX (three_chain_store.drop 19) 2
      [frame.chain] (by decide) (by decide)⟩

end ZipCodeTree
